import Mathlib

/-!
# Graph toolkit of `exp3/exp3.cpp`

A shallow embedding of the weighted undirected graph store and of the
algorithms that run on it (BFS, DFS, Dijkstra, Prim, articulation points),
followed by the theorems that settle the specification's claims about them.

Conventions of the embedding.

* Weights, distances, keys and totals (`int`) are `Int`; every `+` the source
  performs on them is followed by `wrap32`, the two's-complement reduction to
  32 bits. Counters that only count vertices (`time`, `children`, `disc`, `low`)
  never exceed `V`, itself an `int`, and are `Nat`.
* `vector<T>` is `List T`; `v[i]` is `List.getD v i d`, `v[i] = x` is `List.set`.
* Vertex indices are `Nat` (the source never uses a negative one except the
  sentinel `-1` stored in `parent`, which stays an `Int`).
* `priority_queue<pair<int,int>, ..., greater<>>` is the list of its pending
  entries; `top` is the minimum for the lexicographic order on pairs and `pop`
  erases one copy of it.
* `while` loops and the recursions of `printPath` and `APUtil` take a fuel
  argument and return `none` when it runs out.
* `map<string,int>` is an association list with one pair per key; `m[k] = i`
  is `mapAssign`, and the read `m[k]` is `mapIndex`, which, like
  `map::operator[]`, enters a missing key with the value `0`.
* The algorithms are embedded from the index of the start vertex on (`BFS`,
  `DFS`, `Dijkstra`, `Prim`, `findArticulationPoints`); the member functions
  themselves, which take the start label, are `BFSByLabel` and so on. They
  resolve the label with `labelToIndex[startLabel]`, run their loop with the
  graph store carried along (`bfsLoopM` and so on: every read of `adj` or
  `nodeLabels` hands on the store it leaves), and return the result together
  with the store after the call, or a `Fault`: `outOfRange` when the start
  index is not below `V`, so that the first indexing of a vector of size `V`
  has no defined behaviour, `outOfFuel` when the fuel runs out.
* `std::sort` on a `vector<int>` is the sorted rearrangement of the vector
  (`List.insertionSort`); with reverse iterators the order is descending.
* `queue<int>` is the list of its entries, front first; `stack<int>` the list
  of its entries, top first. The traversals return the indices of the vertices
  they print; `printed` gives the labels.
* `printAdjacencyMatrix` returns the matrix it prints, row by row; a cell is
  `none` where the source prints the symbol for `INF`.
* `Dijkstra` gives the vectors `dist` and `parent` at the end of the loop of the
  member; `DijkstraOutput` adds what the loop at the end of the member prints,
  the path of every vertex with `dist[i] != INF`.
* `apStateAt`, `unvisitedAt` and `recursedInto` are not in the source: they
  say which adjacency entries lead to a vertex that is still unvisited when the
  loop of `APUtil` reaches them, and serve to say what the counter `children`
  counts.
* `DijkstraExact` is not in the source: it is `Dijkstra` with every sum taken in
  exact integers, recording the sums it evaluates, and serves only as the other
  side of the comparison with the 32-bit run.
-/

namespace DS2025

/-! ## Definitions -/

/-- The sentinel `const int INF = 1e9`. -/
def INF : Int := 1000000000

/-- Reduction of an exact integer to the 32-bit two's-complement range. -/
def wrap32 (x : Int) : Int := (x + 2147483648) % 4294967296 - 2147483648

/-- The source's `struct Edge`, an adjacency entry; `dst` is the field the source
calls `to` (a reserved word here). -/
structure Edge where
  dst : Nat
  weight : Int
deriving DecidableEq, Repr

/-- The source's `class Graph`. -/
structure Graph where
  V : Nat
  adj : List (List Edge)
  nodeLabels : List String
  labelToIndex : List (String × Nat)
deriving DecidableEq, Repr

/-- The assignment `m[k] = i` on a `map<string,int>` kept as an association list. -/
def mapAssign (m : List (String × Nat)) (k : String) (i : Nat) : List (String × Nat) :=
  if m.any (fun p => p.1 == k) then m.map (fun p => if p.1 == k then (k, i) else p)
  else m ++ [(k, i)]

/-- The constructor `Graph(int v, vector<string> labels)`. -/
def Graph.new (v : Nat) (labels : List String) : Graph :=
  { V := v
    adj := List.replicate v []
    nodeLabels := labels
    labelToIndex :=
      (List.range v).foldl (fun m i => mapAssign m (labels.getD i "") i) [] }

/-- The adjacency list `adj[u]`. -/
def Graph.nbrs (g : Graph) (u : Nat) : List Edge := g.adj.getD u []

/-- The member `void addEdge(int u, int v, int w)`. -/
def Graph.addEdge (g : Graph) (u v : Nat) (w : Int) : Graph :=
  let adj1 := g.adj.set u (g.adj.getD u [] ++ [⟨v, w⟩])
  let adj2 := adj1.set v (adj1.getD v [] ++ [⟨u, w⟩])
  { g with adj := adj2 }

/-- The graph obtained from the constructor `Graph(v, labels)` by one `addEdge`
call per triple `(u, v, w)`, in order. -/
def Graph.build (v : Nat) (labels : List String) (es : List (Nat × Nat × Int)) : Graph :=
  es.foldl (fun g e => g.addEdge e.1 e.2.1 e.2.2) (Graph.new v labels)

/-- The order `greater<pair<int,int>>` inverts: lexicographic `≤` on pairs. -/
def pairLe (a b : Int × Nat) : Bool :=
  decide (a.1 < b.1) || (decide (a.1 = b.1) && decide (a.2 ≤ b.2))

/-- The least entry among `m` and the entries of a list. -/
def pqMin : Int × Nat → List (Int × Nat) → Int × Nat
  | m, [] => m
  | m, x :: xs => if pairLe m x then pqMin m xs else pqMin x xs

/-- The entry `pq.top()` of a min-queue, when there is one. -/
def pqTop : List (Int × Nat) → Option (Int × Nat)
  | [] => none
  | x :: xs => some (pqMin x xs)

/-- Working state of `Dijkstra`: `dist`, `parent` and the queue. -/
structure DState where
  dist : List Int
  parent : List Int
  pq : List (Int × Nat)
deriving DecidableEq, Repr

/-- One iteration of the relaxation loop `for (auto& e : adj[u])` of `Dijkstra`. -/
def relaxEdge (u : Nat) (st : DState) (e : Edge) : DState :=
  let nd := wrap32 (st.dist.getD u 0 + e.weight)
  if nd < st.dist.getD e.dst 0 then
    { dist := st.dist.set e.dst nd
      parent := st.parent.set e.dst (u : Int)
      pq := (nd, e.dst) :: st.pq }
  else st

/-- The loop `while (!pq.empty())` of `Dijkstra`. -/
def dijkstraLoop (g : Graph) : Nat → DState → Option DState
  | fuel, st =>
    match pqTop st.pq with
    | none => some st
    | some (d, u) =>
      match fuel with
      | 0 => none
      | fuel + 1 =>
        let st1 : DState := { st with pq := st.pq.erase (d, u) }
        if d > st1.dist.getD u 0 then dijkstraLoop g fuel st1
        else dijkstraLoop g fuel ((g.nbrs u).foldl (relaxEdge u) st1)

/-- The state `Dijkstra` starts its loop in. -/
def dijkstraInit (g : Graph) (start : Nat) : DState :=
  { dist := (List.replicate g.V INF).set start 0
    parent := List.replicate g.V (-1)
    pq := [(0, start)] }

/-- The computing part of `Dijkstra` from the vertex with index `start`:
the final `dist` and `parent` vectors. -/
def Dijkstra (g : Graph) (start : Nat) (fuel : Nat) : Option (List Int × List Int) :=
  (dijkstraLoop g fuel (dijkstraInit g start)).map (fun st => (st.dist, st.parent))

/-- The member `printPath(u, parent)`: the vertices it prints, in order. -/
def printPath (parent : List Int) : Nat → Int → Option (List Nat)
  | fuel, u =>
    if u = -1 then some []
    else
      match fuel with
      | 0 => none
      | fuel + 1 =>
        match printPath parent fuel (parent.getD u.toNat 0) with
        | none => none
        | some l => some (l ++ [u.toNat])

/-- Graph 1 of `main`. -/
def graph1 : Graph :=
  Graph.build 8 ["A", "B", "C", "D", "E", "F", "G", "H"]
    [(0, 1, 4), (0, 3, 6), (0, 6, 7), (1, 2, 12), (1, 4, 9), (2, 4, 1), (2, 5, 2),
     (2, 7, 10), (3, 4, 13), (3, 6, 2), (4, 5, 5), (4, 6, 14), (4, 7, 8), (5, 7, 3)]

/-- Well-formed store: one adjacency list per vertex, entries point to vertices. -/
structure Graph.WF (g : Graph) : Prop where
  len : g.adj.length = g.V
  dst_lt : ∀ u e, e ∈ g.nbrs u → e.dst < g.V

/-- `g.IsWalk u p v`: following the adjacency entries `p` in order from `u`
leads to `v`. -/
def Graph.IsWalk (g : Graph) : Nat → List Edge → Nat → Prop
  | u, [], v => u = v
  | u, e :: p, v => e ∈ g.nbrs u ∧ g.IsWalk e.dst p v

/-- The sum of the weights of the entries of a walk. -/
def walkWeight (p : List Edge) : Int := (p.map Edge.weight).sum

/-- The vertices a walk from `u` passes through, `u` first. -/
def walkVerts (u : Nat) (p : List Edge) : List Nat := u :: p.map Edge.dst

/-- `v` can be reached from `u` along adjacency entries. -/
def Graph.Reachable (g : Graph) (u v : Nat) : Prop := ∃ p, g.IsWalk u p v

/-- The edge triples handed to `addEdge` name vertices of a `v`-vertex graph. -/
def ValidEdges (v : Nat) (es : List (Nat × Nat × Int)) : Prop :=
  ∀ e ∈ es, e.1 < v ∧ e.2.1 < v

/-- The vertex `x` is reached from `s` by following `parent` entries backwards:
the chain `x, parent[x], parent[parent[x]], ...` arrives at `s`. -/
inductive PChain (parent : List Int) (s : Nat) : Nat → Prop
  | root : PChain parent s s
  | step {x p : Nat} : x ≠ s → x < parent.length → parent.getD x 0 = (p : Int) →
      PChain parent s p → PChain parent s x

/-- Either `x` still has a live queue entry or every entry of `adj[x]` is relaxed. -/
def Pending (g : Graph) (st : DState) (x : Nat) : Prop :=
  (st.dist.getD x 0, x) ∈ st.pq ∨
    ∀ e ∈ g.nbrs x, st.dist.getD e.dst 0 ≤ st.dist.getD x 0 + e.weight

/-- The part of the loop invariant of `Dijkstra` that holds at every program point. -/
structure DCore (g : Graph) (s : Nat) (st : DState) : Prop where
  dlen : st.dist.length = g.V
  plen : st.parent.length = g.V
  bounds : ∀ x, x < g.V → 0 ≤ st.dist.getD x 0 ∧ st.dist.getD x 0 ≤ INF
  dstart : st.dist.getD s 0 = 0
  pqe : ∀ d x, (d, x) ∈ st.pq → x < g.V ∧ st.dist.getD x 0 ≤ d ∧ d < INF
  sound : ∀ x, x < g.V → st.dist.getD x 0 < INF →
    ∃ p, g.IsWalk s p x ∧ walkWeight p = st.dist.getD x 0
  pstart : st.parent.getD s 0 = -1
  par : ∀ x, x < g.V → x ≠ s → st.dist.getD x 0 < INF →
    ∃ p e, p < g.V ∧ st.parent.getD x 0 = (p : Int) ∧ e ∈ g.nbrs p ∧ e.dst = x ∧
      st.dist.getD p 0 + e.weight ≤ st.dist.getD x 0
  chain : ∀ x, x < g.V → st.dist.getD x 0 < INF → PChain st.parent s x

/-- The invariant of the `while` loop of `Dijkstra`. -/
structure DInv (g : Graph) (s : Nat) (st : DState) : Prop where
  core : DCore g s st
  pend : ∀ x, x < g.V → st.dist.getD x 0 < INF → Pending g st x

/-- The invariant of the relaxation loop over `adj[u]`, after the entries `done`. -/
structure DMid (g : Graph) (s u : Nat) (done : List Edge) (st : DState) : Prop where
  core : DCore g s st
  ult : u < g.V
  ufin : st.dist.getD u 0 < INF
  pend : ∀ x, x < g.V → x ≠ u → st.dist.getD x 0 < INF → Pending g st x
  donee : ∀ e ∈ done, st.dist.getD e.dst 0 ≤ st.dist.getD u 0 + e.weight

/-- The quantity that every iteration of the `while` loop of `Dijkstra` decreases. -/
def dMeasure (st : DState) : Int := st.dist.sum + st.pq.length

/-- All weights stored in the graph lie between `lo` and `hi`. -/
def Graph.WeightsIn (g : Graph) (lo hi : Int) : Prop :=
  ∀ u e, e ∈ g.nbrs u → lo ≤ e.weight ∧ e.weight ≤ hi

/-- Whether a list of adjacency entries is a walk can be checked. -/
instance Graph.decIsWalk (g : Graph) : ∀ (u : Nat) (p : List Edge) (v : Nat),
    Decidable (g.IsWalk u p v)
  | u, [], v => inferInstanceAs (Decidable (u = v))
  | _, e :: p, v => @instDecidableAnd _ _ _ (Graph.decIsWalk g e.dst p v)

/-- The least weight among the entries of a list that lead to `b`. -/
def minWeightList (b : Nat) : List Edge → Option Int
  | [] => none
  | e :: l =>
    if e.dst = b then
      match minWeightList b l with
      | none => some e.weight
      | some m => some (min e.weight m)
    else minWeightList b l

/-- The least weight of an edge that joins `a` to `b`, if there is one. -/
def Graph.minWeight (g : Graph) (a b : Nat) : Option Int := minWeightList b (g.nbrs a)

/-- The cost of a vertex sequence: the sum, over consecutive pairs, of the least
weight of an edge joining them; `none` when some pair is not joined. -/
def Graph.pathCost (g : Graph) : List Nat → Option Int
  | [] => some 0
  | [_] => some 0
  | a :: b :: rest =>
    match g.minWeight a b, g.pathCost (b :: rest) with
    | some w, some c => some (w + c)
    | _, _ => none

/-- Two vertices are joined by an adjacency entry. -/
def Graph.Joined (g : Graph) (a b : Nat) : Prop := ∃ e ∈ g.nbrs a, e.dst = b

/-- Working state of `Prim`: `key`, `parent`, `inMST`, `totalWeight`, the queue,
and `out`, the edges printed so far as triples `(parent[u], u, key[u])`. -/
structure PState where
  key : List Int
  parent : List Int
  inMST : List Bool
  totalWeight : Int
  pq : List (Int × Nat)
  out : List (Nat × Nat × Int)
deriving DecidableEq, Repr

/-- One iteration of the loop `for (auto& e : adj[u])` of `Prim`. -/
def primRelax (u : Nat) (st : PState) (e : Edge) : PState :=
  if (!st.inMST.getD e.dst false) && decide (e.weight < st.key.getD e.dst 0) then
    let key1 := st.key.set e.dst e.weight
    { st with
      key := key1
      parent := st.parent.set e.dst (u : Int)
      pq := (key1.getD e.dst 0, e.dst) :: st.pq }
  else st

/-- The part of an iteration of `Prim` that puts `u` into the tree and prints its
edge when `parent[u] != -1`. -/
def primTake (u : Nat) (st : PState) : PState :=
  let st2 : PState := { st with inMST := st.inMST.set u true }
  if st2.parent.getD u 0 ≠ -1 then
    { st2 with
      out := st2.out ++ [((st2.parent.getD u 0).toNat, u, st2.key.getD u 0)]
      totalWeight := wrap32 (st2.totalWeight + st2.key.getD u 0) }
  else st2

/-- The loop `while (!pq.empty())` of `Prim`. -/
def primLoop (g : Graph) : Nat → PState → Option PState
  | fuel, st =>
    match pqTop st.pq with
    | none => some st
    | some (d, u) =>
      match fuel with
      | 0 => none
      | fuel + 1 =>
        let st1 : PState := { st with pq := st.pq.erase (d, u) }
        if st1.inMST.getD u false then primLoop g fuel st1
        else primLoop g fuel ((g.nbrs u).foldl (primRelax u) (primTake u st1))

/-- The state `Prim` starts its loop in. -/
def primInit (g : Graph) (start : Nat) : PState :=
  { key := (List.replicate g.V INF).set start 0
    parent := List.replicate g.V (-1)
    inMST := List.replicate g.V false
    totalWeight := 0
    pq := [(0, start)]
    out := [] }

/-- The computing part of `Prim` from the vertex with index `start`: the edges it
prints, in order, and the total it reports. -/
def Prim (g : Graph) (start : Nat) (fuel : Nat) : Option (List (Nat × Nat × Int) × Int) :=
  (primLoop g fuel (primInit g start)).map (fun st => (st.out, st.totalWeight))

/-- The vertices of the tree that the edge list `T` grows from `s`. -/
def treeVerts (s : Nat) (T : List (Nat × Nat × Int)) : List Nat := s :: T.map (fun t => t.2.1)

/-- The exact sum of the weights of an edge list. -/
def treeWeight (T : List (Nat × Nat × Int)) : Int := (T.map (fun t => t.2.2)).sum

/-- Two vertices are the endpoints of an edge of the list `L`, in either order. -/
def EAdj (L : List (Nat × Nat × Int)) (a b : Nat) : Prop :=
  ∃ w, (a, b, w) ∈ L ∨ (b, a, w) ∈ L

/-- Two vertices are connected by edges of the list `L`. -/
def Conn (L : List (Nat × Nat × Int)) (a b : Nat) : Prop := Relation.ReflTransGen (EAdj L) a b

/-- The step `(i, a, b)` runs along the `i`-th edge of `T` from `a` to `b`. -/
def StepOf (T : List (Nat × Nat × Int)) (st : Nat × Nat × Nat) : Prop :=
  ∃ k, T[st.1]? = some (st.2.1, st.2.2, k) ∨ T[st.1]? = some (st.2.2, st.2.1, k)

/-- A cycle of the edge list `T`: a non-empty closed sequence of steps, each along
an edge of `T`, each starting where the one before ended, no edge used twice. -/
structure IsCycle (T : List (Nat × Nat × Int)) (c : List (Nat × Nat × Nat)) : Prop where
  nonempty : c ≠ []
  steps : ∀ st ∈ c, StepOf T st
  linked : List.Chain' (fun x y => x.2.2 = y.2.1) c
  distinct : (c.map (fun st => st.1)).Nodup
  closed : ∀ first ∈ c.head?, ∀ last ∈ c.getLast?, last.2.2 = first.2.1

/-- The edge list has no cycle. -/
def Acyclic (T : List (Nat × Nat × Int)) : Prop := ∀ c, ¬ IsCycle T c

/-- A spanning tree of the connected component of `s`: edges of the graph between
vertices of the component, connecting all of the component, without a cycle. -/
structure IsSpanningTree (g : Graph) (s : Nat) (L : List (Nat × Nat × Int)) : Prop where
  edges : ∀ t ∈ L, (⟨t.2.1, t.2.2⟩ : Edge) ∈ g.nbrs t.1
  inside : ∀ t ∈ L, g.Reachable s t.1
  spans : ∀ x, g.Reachable s x → Conn L s x
  acyclic : Acyclic L

/-- A tree grown from `s` one edge at a time, each new edge a lightest edge of the
graph among those that leave the tree grown so far. -/
inductive MinGrow (g : Graph) (s : Nat) : List (Nat × Nat × Int) → Prop
  | nil : MinGrow g s []
  | snoc {T : List (Nat × Nat × Int)} {p x : Nat} {k : Int} :
      MinGrow g s T → p ∈ treeVerts s T → x ∉ treeVerts s T →
      (⟨x, k⟩ : Edge) ∈ g.nbrs p →
      (∀ t e, t ∈ treeVerts s T → e ∈ g.nbrs t → e.dst ∉ treeVerts s T → k ≤ e.weight) →
      MinGrow g s (T ++ [(p, x, k)])

/-- The part of the loop invariant of `Prim` that holds at every program point
after the start vertex has entered the tree. -/
structure PCore (g : Graph) (s : Nat) (st : PState) : Prop where
  klen : st.key.length = g.V
  plen : st.parent.length = g.V
  mlen : st.inMST.length = g.V
  grow : MinGrow g s st.out
  inS : ∀ x, x < g.V → (st.inMST.getD x false = true ↔ x ∈ treeVerts s st.out)
  total : st.totalWeight = wrap32 (treeWeight st.out)
  keyb : ∀ x, x < g.V → 0 ≤ st.key.getD x 0 ∧ st.key.getD x 0 ≤ INF
  keyfin : ∀ x, x < g.V → x ∉ treeVerts s st.out → st.key.getD x 0 < INF →
    ∃ p : Nat, p ∈ treeVerts s st.out ∧ st.parent.getD x 0 = (p : Int) ∧
      (⟨x, st.key.getD x 0⟩ : Edge) ∈ g.nbrs p ∧ (st.key.getD x 0, x) ∈ st.pq
  pqe : ∀ d x, (d, x) ∈ st.pq → x < g.V ∧ d < INF ∧
    (x ∈ treeVerts s st.out ∨ st.key.getD x 0 ≤ d)

/-- The invariant of the `while` loop of `Prim`. -/
structure PInv (g : Graph) (s : Nat) (st : PState) : Prop where
  core : PCore g s st
  cross : ∀ t e, t ∈ treeVerts s st.out → e ∈ g.nbrs t → e.dst ∉ treeVerts s st.out →
    st.key.getD e.dst 0 ≤ e.weight

/-- The invariant of the relaxation loop of `Prim` over `adj[u]`, after `done`. -/
structure PMid (g : Graph) (s u : Nat) (done : List Edge) (st : PState) : Prop where
  core : PCore g s st
  uin : u ∈ treeVerts s st.out
  cross : ∀ t e, t ∈ treeVerts s st.out → t ≠ u → e ∈ g.nbrs t →
    e.dst ∉ treeVerts s st.out → st.key.getD e.dst 0 ≤ e.weight
  donee : ∀ e ∈ done, e.dst ∉ treeVerts s st.out → st.key.getD e.dst 0 ≤ e.weight

/-- The quantity that every iteration of the `while` loop of `Prim` decreases. -/
def pMeasure (st : PState) : Int := st.key.sum + st.pq.length

/-- Insertion into a `set<int>`, kept as the ascending list of its elements. -/
def setInsert (x : Nat) : List Nat → List Nat
  | [] => [x]
  | y :: ys => if x < y then x :: y :: ys else if x = y then y :: ys else y :: setInsert x ys

/-- Working state of the articulation-point search: the vectors `visited`, `disc`,
`low`, the counter `time` and the set `ap`. -/
structure APState where
  visited : List Bool
  disc : List Nat
  low : List Nat
  time : Nat
  ap : List Nat
deriving DecidableEq, Repr

/-- The loop `for (auto& e : adj[u])` of `APUtil` over the entries still to scan;
`call` is the recursive call `APUtil(v, ..., u, ap)` and `children` the counter. -/
def apLoop (call : Nat → Int → APState → Option APState) (u : Nat) (parent : Int) :
    List Edge → Nat → APState → Option (Nat × APState)
  | [], children, st => some (children, st)
  | e :: rest, children, st =>
    if (e.dst : Int) = parent then apLoop call u parent rest children st
    else if st.visited.getD e.dst false then
      apLoop call u parent rest children
        { st with low := st.low.set u (min (st.low.getD u 0) (st.disc.getD e.dst 0)) }
    else
      match call e.dst (u : Int) st with
      | none => none
      | some st1 =>
        let st2 : APState :=
          { st1 with low := st1.low.set u (min (st1.low.getD u 0) (st1.low.getD e.dst 0)) }
        let st3 : APState :=
          if parent ≠ -1 ∧ st2.low.getD e.dst 0 ≥ st2.disc.getD u 0 then
            { st2 with ap := setInsert u st2.ap }
          else st2
        apLoop call u parent rest (children + 1) st3

/-- The start of `APUtil`: `visited[u] = true; disc[u] = low[u] = ++time`. -/
def apEnter (u : Nat) (st : APState) : APState :=
  { st with
    visited := st.visited.set u true
    time := st.time + 1
    disc := st.disc.set u (st.time + 1)
    low := st.low.set u (st.time + 1) }

/-- The member `APUtil`; the fuel bounds the depth of the recursion. -/
def APUtil (g : Graph) : Nat → Nat → Int → APState → Option APState
  | 0, _, _, _ => none
  | fuel + 1, u, parent, st =>
    match apLoop (APUtil g fuel) u parent (g.nbrs u) 0 (apEnter u st) with
    | none => none
    | some (children, st1) =>
      if parent = -1 ∧ children > 1 then some { st1 with ap := setInsert u st1.ap }
      else some st1

/-- The state `findArticulationPoints` starts from. -/
def apInit (g : Graph) : APState :=
  { visited := List.replicate g.V false
    disc := List.replicate g.V 0
    low := List.replicate g.V 0
    time := 0
    ap := [] }

/-- The computing part of `findArticulationPoints` from the vertex with index
`start`: the final search state. -/
def apRun (g : Graph) (start : Nat) (fuel : Nat) : Option APState :=
  if (apInit g).visited.getD start false then some (apInit g)
  else APUtil g fuel start (-1) (apInit g)

/-- The set `findArticulationPoints` prints, in the order it prints it. -/
def findArticulationPoints (g : Graph) (start : Nat) (fuel : Nat) : Option (List Nat) :=
  (apRun g start fuel).map (fun st => st.ap)

/-- Graph 2 of `main`. -/
def graph2 : Graph :=
  Graph.build 12 ["A", "B", "C", "D", "E", "F", "G", "H", "I", "J", "K", "L"]
    [(0, 1, 1), (1, 2, 1), (2, 3, 1), (4, 5, 1), (5, 6, 1), (6, 7, 1), (8, 9, 1),
     (9, 10, 1), (10, 11, 1), (0, 4, 1), (1, 5, 1), (2, 6, 1), (3, 7, 1), (4, 8, 1),
     (5, 9, 1), (6, 10, 1), (7, 11, 1), (4, 9, 1), (5, 8, 1), (5, 10, 1), (6, 9, 1),
     (6, 11, 1), (7, 10, 1)]

/-- The 4-vertex cycle A-B-C-D-A with all weights 1. -/
def cycle4 : Graph :=
  Graph.build 4 ["A", "B", "C", "D"] [(0, 1, 1), (1, 2, 1), (2, 3, 1), (3, 0, 1)]

/-- The path graph A-B-C-D with all weights 1. -/
def path4 : Graph :=
  Graph.build 4 ["A", "B", "C", "D"] [(0, 1, 1), (1, 2, 1), (2, 3, 1)]

/-- The flag `visited[x]` is set. -/
def APState.vis (st : APState) (x : Nat) : Prop := st.visited.getD x false = true

/-- The entry `disc[x]`. -/
def APState.dsc (st : APState) (x : Nat) : Nat := st.disc.getD x 0

/-- The entry `low[x]`. -/
def APState.lw (st : APState) (x : Nat) : Nat := st.low.getD x 0

/-- The number of vertices whose `visited` flag is still clear. -/
def APState.unv (st : APState) : Nat := st.visited.count false

/-- `a` and `b` are connected by a path all of whose vertices satisfy `S`. -/
def Graph.ConnIn (g : Graph) (S : Nat → Prop) (a b : Nat) : Prop :=
  Relation.ReflTransGen (fun x y => g.Joined x y ∧ S x ∧ S y) a b

/-- A cut vertex of the connected component of `s`: a vertex `u` of the component
such that, once `u` and its incident edges are deleted, some two remaining vertices
of the component are no longer connected by a path. -/
def Graph.IsCut (g : Graph) (s u : Nat) : Prop :=
  g.Reachable s u ∧ ∃ a b, g.Reachable s a ∧ g.Reachable s b ∧ a ≠ u ∧ b ≠ u ∧
    ¬ g.ConnIn (fun x => x ≠ u) a b

/-- Within the vertex set `W`, deleting `u` disconnects nothing. -/
def Graph.Good (g : Graph) (W : Nat → Prop) (u : Nat) : Prop :=
  ∀ a b, W a → W b → a ≠ u → b ≠ u → g.ConnIn (fun x => W x ∧ x ≠ u) a b

/-- The invariant of the articulation-point search; `stack` lists the vertices
whose call of `APUtil` is still running, innermost first. -/
structure AInv (g : Graph) (s : Nat) (st : APState) (stack : List Nat) : Prop where
  vlen : st.visited.length = g.V
  dlen : st.disc.length = g.V
  llen : st.low.length = g.V
  stk : ∀ a ∈ stack, st.vis a
  closed : ∀ y, st.vis y → y ∉ stack → ∀ e ∈ g.nbrs y, st.vis e.dst
  dtime : ∀ x, st.vis x → st.dsc x ≤ st.time
  sorted : stack.Pairwise (fun a b => st.dsc b < st.dsc a)
  conn : ∀ x, st.vis x → g.ConnIn st.vis s x
  root : ∀ x, st.vis x → st.vis s
  sound : ∀ u ∈ st.ap, g.IsCut s u
  complete : ∀ u, st.vis u → u ∉ stack → u ∈ st.ap ∨ g.Good st.vis u
  apsorted : st.ap.Sorted (fun a b => a < b)

/-- How a call `APUtil(v, ..., parent, ap)` is entered: either the first call, from
`findArticulationPoints`, or a call from the loop of the vertex on top of the stack. -/
def ACtx (g : Graph) (s : Nat) (st : APState) (stack : List Nat) (v : Nat) (parent : Int) :
    Prop :=
  (parent = -1 ∧ stack = [] ∧ v = s ∧ ∀ x, ¬ st.vis x) ∨
  (∃ (u : Nat) (rest : List Nat), parent = (u : Int) ∧ stack = u :: rest ∧ g.Joined u v)

/-- What holds when `APUtil(v, ..., parent, ap)` is called in state `st`. -/
structure APre (g : Graph) (s : Nat) (st : APState) (stack : List Nat) (v : Nat)
    (parent : Int) : Prop where
  inv : AInv g s st stack
  vV : v < g.V
  nvis : ¬ st.vis v
  ctx : ACtx g s st stack v parent

/-- What holds when the call `APUtil(v, ..., parent, ap)` entered in `st` returns
in `st1`. -/
structure APost (g : Graph) (s : Nat) (st st1 : APState) (stack : List Nat) (v : Nat)
    (parent : Int) : Prop where
  inv : AInv g s st1 stack
  mono : ∀ x, st.vis x → st1.vis x
  visv : st1.vis v
  sub : ∀ x, st1.vis x → ¬ st.vis x → g.ConnIn (fun y => st1.vis y ∧ ¬ st.vis y) v x
  dsame : ∀ x, st.vis x → st1.dsc x = st.dsc x
  lsame : ∀ x, st.vis x → st1.lw x = st.lw x
  dnew : ∀ x, st1.vis x → ¬ st.vis x → st.time < st1.dsc x
  tm : st.time + 1 ≤ st1.time
  lowle : st1.lw v ≤ st1.dsc v
  lowlb : ∀ x, st1.vis x → ¬ st.vis x → ∀ e ∈ g.nbrs x, st.vis e.dst →
    (x = v → (e.dst : Int) ≠ parent) → st1.lw v ≤ st.dsc e.dst
  lowwit : st1.lw v = st1.dsc v ∨
    ∃ x, st1.vis x ∧ ¬ st.vis x ∧ ∃ e ∈ g.nbrs x, st.vis e.dst ∧ st1.lw v = st.dsc e.dst
  apmono : ∀ a ∈ st.ap, a ∈ st1.ap
  unv : st1.unv + 1 ≤ st.unv

/-- The invariant of the loop of `APUtil(u, ..., pu, ap)` entered in `st0`, after
the adjacency entries `done`, with the counter at `children`. -/
structure ALoop (g : Graph) (s : Nat) (st0 st : APState) (u : Nat) (pu : Int)
    (stack : List Nat) (done : List Edge) (children : Nat) : Prop where
  inv : AInv g s st (u :: stack)
  uV : u < g.V
  mono : ∀ x, st0.vis x → st.vis x
  nvis0 : ¬ st0.vis u
  visu : st.vis u
  du : st.dsc u = st0.time + 1
  sub : ∀ x, st.vis x → ¬ st0.vis x → g.ConnIn (fun y => st.vis y ∧ ¬ st0.vis y) u x
  dsame : ∀ x, st0.vis x → st.dsc x = st0.dsc x
  lsame : ∀ x, st0.vis x → st.lw x = st0.lw x
  dnew : ∀ x, st.vis x → ¬ st0.vis x → st0.time < st.dsc x
  tm : st0.time + 1 ≤ st.time
  lowle : st.lw u ≤ st.dsc u
  lowlb : ∀ x, st.vis x → ¬ st0.vis x → x ≠ u → ∀ e ∈ g.nbrs x, st0.vis e.dst →
    st.lw u ≤ st0.dsc e.dst
  lowdone : ∀ e ∈ done, st0.vis e.dst → (e.dst : Int) ≠ pu → st.lw u ≤ st0.dsc e.dst
  lowwit : st.lw u = st.dsc u ∨
    ∃ x, st.vis x ∧ ¬ st0.vis x ∧ ∃ e ∈ g.nbrs x, st0.vis e.dst ∧ st.lw u = st0.dsc e.dst
  donevis : ∀ e ∈ done, st.vis e.dst
  apmono : ∀ a ∈ st0.ap, a ∈ st.ap
  unv : st.unv + 1 ≤ st0.unv
  comp : pu ≠ -1 → (u ∈ st.ap ∨ g.Good st.vis u)
  rootc : pu = -1 → (children = 0 → ∀ x, st.vis x → x = u) ∧
    (children = 1 → g.Good st.vis u) ∧ (1 ≤ children → ∃ x, st.vis x ∧ x ≠ u) ∧
    (2 ≤ children → g.IsCut s u)
  ctx : ACtx g s st0 stack u pu
  vis0s : pu ≠ -1 → st0.vis s ∧ u ≠ s

/-- The lookup `m.find(k)` on a `map<string,int>` kept as an association list. -/
def mapFind (m : List (String × Nat)) (k : String) : Option Nat :=
  (m.find? (fun p => p.1 == k)).map (fun p => p.2)

/-- How many copies of the entry `e` one call `addEdge(t.1, t.2.1, t.2.2)` appends
to `adj[u]`. -/
def edgeCount (u : Nat) (e : Edge) (t : Nat × Nat × Int) : Nat :=
  (if u = t.1 ∧ e = ⟨t.2.1, t.2.2⟩ then 1 else 0) +
    (if u = t.2.1 ∧ e = ⟨t.1, t.2.2⟩ then 1 else 0)

/-- The three vectors of the search state have one length. -/
def APState.Lens (st : APState) : Prop :=
  st.disc.length = st.visited.length ∧ st.low.length = st.visited.length

/-- Frame of a part of the articulation-point search that leads from `st` to `st1`:
no flag is cleared, and a vertex whose flag is still clear in `st1` has its `disc`
and `low` entries untouched. -/
def AFrame (st st1 : APState) : Prop :=
  st1.visited.length = st.visited.length ∧ st1.disc.length = st.disc.length ∧
  st1.low.length = st.low.length ∧ (∀ x, st.vis x → st1.vis x) ∧
  ∀ x, ¬ st1.vis x → st1.dsc x = st.dsc x ∧ st1.lw x = st.lw x

/-- The vector `neighbors` of `BFS` after `sort(neighbors.begin(), neighbors.end())`:
the targets of the entries of `adj[u]` in ascending order. -/
def sortedNbrs (g : Graph) (u : Nat) : List Nat :=
  ((g.nbrs u).map (fun e => e.dst)).insertionSort (fun a b => a ≤ b)

/-- Working state of `BFS`: the vector `visited`, the queue `q` (front first), and
`out`, the indices of the vertices printed so far. -/
structure BState where
  visited : List Bool
  q : List Nat
  out : List Nat

/-- The body of `for (int v : neighbors)` in `BFS`. -/
def bfsPush (st : BState) (v : Nat) : BState :=
  if st.visited.getD v false then st
  else { st with visited := st.visited.set v true, q := st.q ++ [v] }

/-- The loop `while (!q.empty())` of `BFS`. -/
def bfsLoop (g : Graph) : Nat → BState → Option (List Nat)
  | fuel, st =>
    match st.q with
    | [] => some st.out
    | u :: rest =>
      match fuel with
      | 0 => none
      | fuel + 1 =>
        bfsLoop g fuel ((sortedNbrs g u).foldl bfsPush { st with q := rest, out := st.out ++ [u] })

/-- The state `BFS` starts its loop in. -/
def bfsInit (g : Graph) (start : Nat) : BState :=
  { visited := (List.replicate g.V false).set start true, q := [start], out := [] }

/-- The member `BFS` from the vertex with index `start`: the indices of the vertices
it prints, in order. -/
def BFS (g : Graph) (start : Nat) (fuel : Nat) : Option (List Nat) :=
  bfsLoop g fuel (bfsInit g start)

/-- The labels `nodeLabels[u]` a traversal prints for the vertex sequence `l`. -/
def printed (g : Graph) (l : List Nat) : List String := l.map (fun u => g.nodeLabels.getD u "")

/-- Every vertex `BFS` has met so far, in the order of discovery. -/
def BState.seq (st : BState) : List Nat := st.out ++ st.q

/-- `d` is the hop-count distance from `s` to `x`: the least number of edges of a
walk from `s` to `x`. -/
def Graph.HopDist (g : Graph) (s x d : Nat) : Prop :=
  (∃ p, g.IsWalk s p x ∧ p.length = d) ∧ ∀ p, g.IsWalk s p x → d ≤ p.length

/-- Invariant of the loop of `BFS`; `lev` is the level at which a vertex was met. -/
structure BInv (g : Graph) (s : Nat) (st : BState) (lev : Nat → Nat) : Prop where
  vlen : st.visited.length = g.V
  nodup : st.seq.Nodup
  vis : ∀ x, st.visited.getD x false = true ↔ x ∈ st.seq
  walk : ∀ x ∈ st.seq, ∃ p, g.IsWalk s p x ∧ p.length = lev x
  sorted : st.seq.Pairwise (fun a b => lev a ≤ lev b)
  span : ∀ u, st.q.head? = some u → ∀ x ∈ st.seq, lev x ≤ lev u + 1
  closed : ∀ x ∈ st.out, ∀ e ∈ g.nbrs x, e.dst ∈ st.seq ∧ lev e.dst ≤ lev x + 1
  head : st.seq.head? = some s
  zero : lev s = 0

/-- Invariant of the loop over `neighbors` in `BFS` while the vertex `u` is handled;
`done` are the neighbours already looked at. -/
structure BMid (g : Graph) (s u : Nat) (st : BState) (lev : Nat → Nat) (done : List Nat) :
    Prop where
  vlen : st.visited.length = g.V
  nodup : st.seq.Nodup
  vis : ∀ x, st.visited.getD x false = true ↔ x ∈ st.seq
  walk : ∀ x ∈ st.seq, ∃ p, g.IsWalk s p x ∧ p.length = lev x
  sorted : st.seq.Pairwise (fun a b => lev a ≤ lev b)
  span : ∀ x ∈ st.seq, lev x ≤ lev u + 1
  uout : u ∈ st.out
  closed : ∀ x ∈ st.out, x ≠ u → ∀ e ∈ g.nbrs x, e.dst ∈ st.seq ∧ lev e.dst ≤ lev x + 1
  cdone : ∀ v ∈ done, v ∈ st.seq ∧ lev v ≤ lev u + 1
  head : st.seq.head? = some s
  zero : lev s = 0

/-- An edge triple with its endpoints put in ascending order. -/
def normEdge (t : Nat × Nat × Int) : Nat × Nat × Int := (min t.1 t.2.1, max t.1 t.2.1, t.2.2)

/-- The vector `neighbors` of `DFS` after `sort(neighbors.rbegin(), neighbors.rend())`:
the targets of the entries of `adj[u]` in descending order. -/
def sortedNbrsDesc (g : Graph) (u : Nat) : List Nat :=
  ((g.nbrs u).map (fun e => e.dst)).insertionSort (fun a b => b ≤ a)

/-- Working state of a depth-first traversal: the vector `visited` and `out`, the
indices of the vertices printed so far. -/
structure TState where
  visited : List Bool
  out : List Nat

/-- The statement `if (!visited[u]) { cout << nodeLabels[u]; visited[u] = true; }`. -/
def dfsVisit (u : Nat) (st : TState) : TState :=
  if st.visited.getD u false then st
  else { visited := st.visited.set u true, out := st.out ++ [u] }

/-- The body of `for (int v : neighbors)` in `DFS`, acting on the stack (top first). -/
def dfsPush (visited : List Bool) (stack : List Nat) (v : Nat) : List Nat :=
  if visited.getD v false then stack else v :: stack

/-- The loop `while (!s.empty())` of `DFS`; `stack` is the stack `s`, top first. -/
def dfsLoop (g : Graph) : Nat → List Nat → TState → Option (List Nat)
  | fuel, stack, st =>
    match stack with
    | [] => some st.out
    | u :: rest =>
      match fuel with
      | 0 => none
      | fuel + 1 =>
        dfsLoop g fuel ((sortedNbrsDesc g u).foldl (dfsPush (dfsVisit u st).visited) rest)
          (dfsVisit u st)

/-- The member `DFS` from the vertex with index `start`: the indices of the vertices
it prints, in order. -/
def DFS (g : Graph) (start : Nat) (fuel : Nat) : Option (List Nat) :=
  dfsLoop g fuel [start] { visited := List.replicate g.V false, out := [] }

/-- Specification side of the comparison with `DFS`: the loop of the recursive
depth-first search over the neighbours of a vertex in ascending order; `call` is
the recursive call, made for each neighbour that is not yet visited. -/
def recLoop (call : Nat → TState → Option TState) : List Nat → TState → Option TState
  | [], st => some st
  | v :: rest, st =>
    if st.visited.getD v false then recLoop call rest st
    else
      match call v st with
      | none => none
      | some st1 => recLoop call rest st1

/-- Specification side of the comparison with `DFS`: the recursive depth-first
search, which marks and lists `u` and then recurses into the not-yet-visited
neighbours of `u` in ascending index order; the fuel bounds the depth. -/
def recVisit (g : Graph) : Nat → Nat → TState → Option TState
  | 0, _, _ => none
  | fuel + 1, u, st =>
    recLoop (recVisit g fuel) (sortedNbrs g u)
      { visited := st.visited.set u true, out := st.out ++ [u] }

/-- Specification side of the comparison with `DFS`: the pre-order of the recursive
depth-first search from `start`. -/
def recPreorder (g : Graph) (start : Nat) (fuel : Nat) : Option (List Nat) :=
  (recVisit g fuel start { visited := List.replicate g.V false, out := [] }).map
    (fun st => st.out)

/-- The flag `visited[x]` of a depth-first traversal. -/
def TState.vis (st : TState) (x : Nat) : Prop := st.visited.getD x false = true

/-- The vertices printed are the vertices marked, each printed once. -/
structure TInv (st : TState) : Prop where
  ov : ∀ x, st.vis x ↔ x ∈ st.out
  nodup : st.out.Nodup

/-- What a part of the recursive search that leads from `st` to `st1` guarantees:
marks are kept, `out` grows by `ext`, every vertex marked on the way has all its
neighbours marked at the end and is reachable from one of the `roots`. -/
structure TPost (g : Graph) (roots : List Nat) (st st1 : TState) (ext : List Nat) : Prop where
  len : st1.visited.length = st.visited.length
  mono : ∀ x, st.vis x → st1.vis x
  fin : ∀ x, st1.vis x → ¬ st.vis x → ∀ e ∈ g.nbrs x, st1.vis e.dst
  unv : st1.visited.count false ≤ st.visited.count false
  out : st1.out = st.out ++ ext
  reach : ∀ x, st1.vis x → ¬ st.vis x → ∃ a ∈ roots, g.Reachable a x
  inv : TInv st1

/-- The access `m[k]` (`map::operator[]`) on a `map<string,int>`: the stored index
and the map as it was, or, for a key that is not there, the value `0` and the map
with the key entered at `0`. -/
def mapIndex (m : List (String × Nat)) (k : String) : Nat × List (String × Nat) :=
  match mapFind m k with
  | some i => (i, m)
  | none => (0, m ++ [(k, 0)])

/-- The expression `labelToIndex[label]` of the member functions: the index it
yields and the graph after the access. -/
def Graph.indexOf (g : Graph) (label : String) : Nat × Graph :=
  ((mapIndex g.labelToIndex label).1,
    { g with labelToIndex := (mapIndex g.labelToIndex label).2 })

/-- How a member function can fail to return in the embedding: `outOfRange`, a
vector is indexed at or beyond its size, for which the source has no defined
behaviour; `outOfFuel`, the fuel of the embedding ran out. -/
inductive Fault where
  | outOfRange : Fault
  | outOfFuel : Fault
deriving DecidableEq, Repr

deriving instance DecidableEq for Except

/-- The result of a loop with fuel as the result of a member function. -/
def fuelled {α : Type} : Option α → Except Fault α
  | some a => Except.ok a
  | none => Except.error Fault.outOfFuel

/-- The read `adj[u]` of a member function (`vector::operator[]`): the list read and
the graph store after the read. -/
def Graph.readAdj (g : Graph) (u : Nat) : List Edge × Graph := (g.nbrs u, g)

/-- The read `nodeLabels[u]` of a member function (`vector::operator[]`): the label
read and the graph store after the read. -/
def Graph.readLabel (g : Graph) (u : Nat) : String × Graph := (g.nodeLabels.getD u "", g)

/-- The member `void addEdge(string u, string v, int w)`; the access for `u` is
taken first (either order yields the same indices and the same map). The call
`addEdge(int, int, int)` it makes indexes `adj` at both indices. -/
def Graph.addEdgeByLabel (g : Graph) (u v : String) (w : Int) : Except Fault Graph :=
  if (g.indexOf u).1 < g.adj.length ∧ ((g.indexOf u).2.indexOf v).1 < g.adj.length then
    Except.ok (((g.indexOf u).2.indexOf v).2.addEdge (g.indexOf u).1
      ((g.indexOf u).2.indexOf v).1 w)
  else Except.error Fault.outOfRange

/-- The loop `while (!q.empty())` of the member `BFS` with the graph store carried
along: each read of `nodeLabels` and of `adj` hands on the store it leaves. The
result is the vertex sequence printed and the store after the loop. -/
def bfsLoopM : Nat → Graph → BState → Option (List Nat × Graph)
  | fuel, g, st =>
    match st.q with
    | [] => some (st.out, g)
    | u :: rest =>
      match fuel with
      | 0 => none
      | fuel + 1 =>
        bfsLoopM fuel ((g.readLabel u).2.readAdj u).2
          (((((g.readLabel u).2.readAdj u).1.map (fun e => e.dst)).insertionSort
            (fun a b => a ≤ b)).foldl bfsPush { st with q := rest, out := st.out ++ [u] })

/-- The member `BFS(string startLabel)`: the vertex sequence it prints and the graph
store after the call. The start is `labelToIndex[startLabel]`; `visited[start]` is
out of range unless `start < V`. -/
def BFSByLabel (g : Graph) (startLabel : String) (fuel : Nat) :
    Except Fault (List Nat × Graph) :=
  if (g.indexOf startLabel).1 < g.V then
    fuelled (bfsLoopM fuel (g.indexOf startLabel).2
      (bfsInit (g.indexOf startLabel).2 (g.indexOf startLabel).1))
  else Except.error Fault.outOfRange

/-- The loop `while (!s.empty())` of the member `DFS` with the graph store carried
along; `nodeLabels[u]` is read only when `u` is printed. -/
def dfsLoopM : Nat → Graph → List Nat → TState → Option (List Nat × Graph)
  | fuel, g, stack, st =>
    match stack with
    | [] => some (st.out, g)
    | u :: rest =>
      match fuel with
      | 0 => none
      | fuel + 1 =>
        dfsLoopM fuel
          ((if st.visited.getD u false then g else (g.readLabel u).2).readAdj u).2
          (((((if st.visited.getD u false then g else (g.readLabel u).2).readAdj u).1.map
            (fun e => e.dst)).insertionSort (fun a b => b ≤ a)).foldl
              (dfsPush (dfsVisit u st).visited) rest)
          (dfsVisit u st)

/-- The member `DFS(string startLabel)`: the vertex sequence it prints and the graph
store after the call. The first `visited[u]` is `visited[start]`, out of range unless
`start < V`. -/
def DFSByLabel (g : Graph) (startLabel : String) (fuel : Nat) :
    Except Fault (List Nat × Graph) :=
  if (g.indexOf startLabel).1 < g.V then
    fuelled (dfsLoopM fuel (g.indexOf startLabel).2 [(g.indexOf startLabel).1]
      { visited := List.replicate (g.indexOf startLabel).2.V false, out := [] })
  else Except.error Fault.outOfRange

/-- The loop `while (!pq.empty())` of the member `Dijkstra` with the graph store
carried along. -/
def dijkstraLoopM : Nat → Graph → DState → Option (DState × Graph)
  | fuel, g, st =>
    match pqTop st.pq with
    | none => some (st, g)
    | some (d, u) =>
      match fuel with
      | 0 => none
      | fuel + 1 =>
        if d > st.dist.getD u 0 then dijkstraLoopM fuel g { st with pq := st.pq.erase (d, u) }
        else dijkstraLoopM fuel (g.readAdj u).2
          ((g.readAdj u).1.foldl (relaxEdge u) { st with pq := st.pq.erase (d, u) })

/-- The loop `for (int i = 0; i < V; ++i)` at the end of `Dijkstra` over the vertices
`is` still to print: for each vertex the path that `printPath` prints, or `none`
where `dist[i] == INF` and "No Path" is printed; `fuel` bounds the depth of the
recursion of `printPath`. -/
def dijkstraReport (dist parent : List Int) (fuel : Nat) :
    List Nat → Option (List (Option (List Nat)))
  | [] => some []
  | i :: rest =>
    if dist.getD i 0 = INF then
      match dijkstraReport dist parent fuel rest with
      | none => none
      | some lines => some (none :: lines)
    else
      match printPath parent fuel (i : Int) with
      | none => none
      | some path =>
        match dijkstraReport dist parent fuel rest with
        | none => none
        | some lines => some (some path :: lines)

/-- The member `Dijkstra` from the vertex with index `start` with what it prints: the
final `dist` and `parent` vectors and, for each vertex, the path printed. -/
def DijkstraOutput (g : Graph) (start : Nat) (fuel : Nat) :
    Option ((List Int × List Int) × List (Option (List Nat))) :=
  match Dijkstra g start fuel with
  | none => none
  | some dp =>
    match dijkstraReport dp.1 dp.2 fuel (List.range g.V) with
    | none => none
    | some lines => some (dp, lines)

/-- The member `printPath` with the graph store carried along: `nodeLabels[u]` is
read after the recursive call returns. -/
def printPathM (parent : List Int) : Nat → Graph → Int → Option (List Nat × Graph)
  | fuel, g, u =>
    if u = -1 then some ([], g)
    else
      match fuel with
      | 0 => none
      | fuel + 1 =>
        match printPathM parent fuel g (parent.getD u.toNat 0) with
        | none => none
        | some (l, g1) => some (l ++ [u.toNat], (g1.readLabel u.toNat).2)

/-- The loop `for (int i = 0; i < V; ++i)` at the end of `Dijkstra` with the graph
store carried along: `nodeLabels[i]` is read for every vertex, and `printPath` is
called where `dist[i] != INF`. -/
def dijkstraReportM (dist parent : List Int) (fuel : Nat) :
    List Nat → Graph → Option (List (Option (List Nat)) × Graph)
  | [], g => some ([], g)
  | i :: rest, g =>
    if dist.getD i 0 = INF then
      match dijkstraReportM dist parent fuel rest (g.readLabel i).2 with
      | none => none
      | some (lines, g2) => some (none :: lines, g2)
    else
      match printPathM parent fuel (g.readLabel i).2 (i : Int) with
      | none => none
      | some (path, g1) =>
        match dijkstraReportM dist parent fuel rest g1 with
        | none => none
        | some (lines, g2) => some (some path :: lines, g2)

/-- The member `Dijkstra(string startLabel)`: the final `dist` and `parent` vectors,
the paths it prints, and the graph store after the call. `dist[start]` is out of
range unless `start < V`. -/
def DijkstraByLabel (g : Graph) (startLabel : String) (fuel : Nat) :
    Except Fault (((List Int × List Int) × List (Option (List Nat))) × Graph) :=
  if (g.indexOf startLabel).1 < g.V then
    fuelled
      (match dijkstraLoopM fuel (g.indexOf startLabel).2
          (dijkstraInit (g.indexOf startLabel).2 (g.indexOf startLabel).1) with
        | none => none
        | some (st, g1) =>
          match dijkstraReportM st.dist st.parent fuel (List.range g1.V) g1 with
          | none => none
          | some (lines, g2) => some (((st.dist, st.parent), lines), g2))
  else Except.error Fault.outOfRange

/-- The loop `while (!pq.empty())` of the member `Prim` with the graph store carried
along; the labels `nodeLabels[parent[u]]` and `nodeLabels[u]` are read when the edge
of `u` is printed. -/
def primLoopM : Nat → Graph → PState → Option (PState × Graph)
  | fuel, g, st =>
    match pqTop st.pq with
    | none => some (st, g)
    | some (d, u) =>
      match fuel with
      | 0 => none
      | fuel + 1 =>
        if st.inMST.getD u false then primLoopM fuel g { st with pq := st.pq.erase (d, u) }
        else primLoopM fuel
          ((if st.parent.getD u 0 ≠ -1 then
              ((g.readLabel (st.parent.getD u 0).toNat).2.readLabel u).2 else g).readAdj u).2
          (((if st.parent.getD u 0 ≠ -1 then
              ((g.readLabel (st.parent.getD u 0).toNat).2.readLabel u).2 else g).readAdj u).1.foldl
            (primRelax u) (primTake u { st with pq := st.pq.erase (d, u) }))

/-- The member `Prim(string startLabel)`: the edges it prints with the total it
reports, and the graph store after the call. `key[start]` is out of range unless
`start < V`. -/
def PrimByLabel (g : Graph) (startLabel : String) (fuel : Nat) :
    Except Fault ((List (Nat × Nat × Int) × Int) × Graph) :=
  if (g.indexOf startLabel).1 < g.V then
    fuelled ((primLoopM fuel (g.indexOf startLabel).2
      (primInit (g.indexOf startLabel).2 (g.indexOf startLabel).1)).map
        (fun r => ((r.1.out, r.1.totalWeight), r.2)))
  else Except.error Fault.outOfRange

/-- The loop `for (auto& e : adj[u])` of the member `APUtil` with the graph store
carried along; `call` is the recursive call, which hands the store back. -/
def apLoopM (call : Nat → Int → Graph → APState → Option (APState × Graph)) (u : Nat)
    (parent : Int) : List Edge → Nat → Graph → APState → Option (Nat × APState × Graph)
  | [], children, g, st => some (children, st, g)
  | e :: rest, children, g, st =>
    if (e.dst : Int) = parent then apLoopM call u parent rest children g st
    else if st.visited.getD e.dst false then
      apLoopM call u parent rest children g
        { st with low := st.low.set u (min (st.low.getD u 0) (st.disc.getD e.dst 0)) }
    else
      match call e.dst (u : Int) g st with
      | none => none
      | some (st1, g1) =>
        let st2 : APState :=
          { st1 with low := st1.low.set u (min (st1.low.getD u 0) (st1.low.getD e.dst 0)) }
        let st3 : APState :=
          if parent ≠ -1 ∧ st2.low.getD e.dst 0 ≥ st2.disc.getD u 0 then
            { st2 with ap := setInsert u st2.ap }
          else st2
        apLoopM call u parent rest (children + 1) g1 st3

/-- The member `APUtil` with the graph store carried along; the fuel bounds the
depth of the recursion. -/
def APUtilM : Nat → Nat → Int → Graph → APState → Option (APState × Graph)
  | 0, _, _, _, _ => none
  | fuel + 1, u, parent, g, st =>
    match apLoopM (APUtilM fuel) u parent (g.readAdj u).1 0 (g.readAdj u).2 (apEnter u st) with
    | none => none
    | some (children, st1, g1) =>
      if parent = -1 ∧ children > 1 then some ({ st1 with ap := setInsert u st1.ap }, g1)
      else some (st1, g1)

/-- The member `findArticulationPoints(string startLabel)`: the set it prints and
the graph store after the call, the labels `nodeLabels[i]` of the set being read at
the end. `visited[start]` is out of range unless `start < V`. -/
def findArticulationPointsByLabel (g : Graph) (startLabel : String) (fuel : Nat) :
    Except Fault (List Nat × Graph) :=
  if (g.indexOf startLabel).1 < g.V then
    fuelled
      ((if (apInit (g.indexOf startLabel).2).visited.getD (g.indexOf startLabel).1 false then
          some (apInit (g.indexOf startLabel).2, (g.indexOf startLabel).2)
        else APUtilM fuel (g.indexOf startLabel).1 (-1) (g.indexOf startLabel).2
          (apInit (g.indexOf startLabel).2)).map
        (fun r => (r.1.ap, r.1.ap.foldl (fun g1 i => (g1.readLabel i).2) r.2)))
  else Except.error Fault.outOfRange

/-- The numbering the articulation-point search keeps: every marked vertex has
`1 ≤ low ≤ disc ≤ time`, marked vertices have different `disc`, and every number
from `1` to `time` is the `disc` of a marked vertex. -/
structure NInv (st : APState) : Prop where
  low1 : ∀ x, st.vis x → 1 ≤ st.lw x
  lowd : ∀ x, st.vis x → st.lw x ≤ st.dsc x
  dtime : ∀ x, st.vis x → st.dsc x ≤ st.time
  inj : ∀ x y, st.vis x → st.vis y → st.dsc x = st.dsc y → x = y
  surj : ∀ t, 1 ≤ t → t ≤ st.time → ∃ x, st.vis x ∧ st.dsc x = t

/-- The loop `for (auto& e : adj[i]) if (e.to == j) { w = e.weight; break; }` of
`printAdjacencyMatrix`, entered with the value `w`. -/
def matrixScan (j : Nat) : List Edge → Int → Int
  | [], w => w
  | e :: rest, w => if e.dst = j then e.weight else matrixScan j rest w

/-- The value `w` that `printAdjacencyMatrix` computes for row `i`, column `j`. -/
def matrixEntry (g : Graph) (i j : Nat) : Int :=
  if i = j then 0 else matrixScan j (g.nbrs i) INF

/-- What `printAdjacencyMatrix` prints in row `i`, column `j`: the number `w`, or
the text `INF` (here `none`) when `w == INF`. -/
def matrixCell (g : Graph) (i j : Nat) : Option Int :=
  if matrixEntry g i j = INF then none else some (matrixEntry g i j)

/-- The member `printAdjacencyMatrix`: the rows of cells it prints. -/
def printAdjacencyMatrix (g : Graph) : List (List (Option Int)) :=
  (List.range g.V).map (fun i => (List.range g.V).map (fun j => matrixCell g i j))

/-- The weights of the entries of `adj[i]` that lead to `j`, in their order. -/
def weightsTo (g : Graph) (i j : Nat) : List Int :=
  ((g.nbrs i).filter (fun e => decide (e.dst = j))).map (fun e => e.weight)

/-- The vertex `x` is `n` parent steps away from `s`: the chain
`x, parent[x], parent[parent[x]], ...` arrives at `s` after `n` steps. -/
inductive PChainN (parent : List Int) (s : Nat) : Nat → Nat → Prop
  | root : PChainN parent s s 0
  | step {x p n : Nat} : x ≠ s → x < parent.length → parent.getD x 0 = (p : Int) →
      PChainN parent s p n → PChainN parent s x (n + 1)

/-- Specification side of the comparison with 32-bit arithmetic: one iteration of the
relaxation loop of `Dijkstra` computed in exact integers; the second component
records every sum `dist[u] + e.weight` that is evaluated. -/
def relaxEdgeExact (u : Nat) (sl : DState × List Int) (e : Edge) : DState × List Int :=
  let nd := sl.1.dist.getD u 0 + e.weight
  if nd < sl.1.dist.getD e.dst 0 then
    ({ dist := sl.1.dist.set e.dst nd
       parent := sl.1.parent.set e.dst (u : Int)
       pq := (nd, e.dst) :: sl.1.pq }, sl.2 ++ [nd])
  else (sl.1, sl.2 ++ [nd])

/-- Specification side of the comparison with 32-bit arithmetic: the loop of
`Dijkstra` in exact integers, with the record of the sums evaluated. -/
def dijkstraLoopExact (g : Graph) : Nat → DState × List Int → Option (DState × List Int)
  | fuel, sl =>
    match pqTop sl.1.pq with
    | none => some sl
    | some (d, u) =>
      match fuel with
      | 0 => none
      | fuel + 1 =>
        let st1 : DState := { sl.1 with pq := sl.1.pq.erase (d, u) }
        if d > st1.dist.getD u 0 then dijkstraLoopExact g fuel (st1, sl.2)
        else dijkstraLoopExact g fuel ((g.nbrs u).foldl (relaxEdgeExact u) (st1, sl.2))

/-- Specification side of the comparison with 32-bit arithmetic: `Dijkstra` in exact
integers; the result is the pair of `dist` and `parent` and the record of all sums
`dist[u] + e.weight` evaluated on the way. -/
def DijkstraExact (g : Graph) (start : Nat) (fuel : Nat) :
    Option ((List Int × List Int) × List Int) :=
  (dijkstraLoopExact g fuel (dijkstraInit g start, [])).map
    (fun r => ((r.1.dist, r.1.parent), r.2))

/-- Bounds that hold in every state of `Dijkstra` on weights in `[0, INF]`: stored
distances lie in `[0, INF]`, queue entries name vertices, are below `INF` and not
below the stored distance of their vertex. -/
structure DBnd (g : Graph) (st : DState) : Prop where
  dlen : st.dist.length = g.V
  bounds : ∀ x, x < g.V → 0 ≤ st.dist.getD x 0 ∧ st.dist.getD x 0 ≤ INF
  pqe : ∀ d x, (d, x) ∈ st.pq → x < g.V ∧ st.dist.getD x 0 ≤ d ∧ d < INF

/-- Specification side of the root rule: the state in which the loop of `APUtil` over
the entries `es` reaches the entry at position `i`, that is, the state in which the
entries before it leave the search. -/
def apStateAt (call : Nat → Int → APState → Option APState) (u : Nat) (parent : Int)
    (es : List Edge) (st : APState) (i : Nat) : Option APState :=
  (apLoop call u parent (es.take i) 0 st).map (fun r => r.2)

/-- Specification side of the root rule: the entry at position `i` of `es` leads to a
vertex other than the parent that is still unvisited when the loop reaches the entry. -/
def unvisitedAt (call : Nat → Int → APState → Option APState) (u : Nat) (parent : Int)
    (es : List Edge) (st : APState) (i : Nat) : Bool :=
  match es[i]?, apStateAt call u parent es st i with
  | some e, some sti => decide ((e.dst : Int) ≠ parent) && !(sti.visited.getD e.dst false)
  | _, _ => false

/-- Specification side of the root rule: the vertices to which the entries lead that
are still unvisited when the loop reaches them, in the order of the entries. -/
def recursedInto (call : Nat → Int → APState → Option APState) (u : Nat) (parent : Int)
    (es : List Edge) (st : APState) : List Nat :=
  ((List.range es.length).filter (unvisitedAt call u parent es st)).map
    (fun i => (es.getD i ⟨0, 0⟩).dst)

/-! ## Basic lemmas -/

theorem wrap32_of_range {x : Int} (h1 : -2147483648 ≤ x) (h2 : x < 2147483648) :
    wrap32 x = x := by
  unfold wrap32; omega

theorem getD_set_eq {α : Type} (l : List α) (i : Nat) (x d : α) (h : i < l.length) :
    (l.set i x).getD i d = x := by
  simp [List.getD_eq_getElem?_getD, List.getElem?_set, h]

theorem getD_set_ne {α : Type} (l : List α) (i j : Nat) (x d : α) (h : i ≠ j) :
    (l.set i x).getD j d = l.getD j d := by
  simp [List.getD_eq_getElem?_getD, List.getElem?_set, h]

theorem sum_set_int (l : List Int) (i : Nat) (x : Int) (h : i < l.length) :
    (l.set i x).sum = l.sum - l.getD i 0 + x := by
  induction l generalizing i with
  | nil => simp at h
  | cons a l ih =>
    cases i with
    | zero => simp; ring
    | succ i =>
      have h2 : i < l.length := by simpa using h
      simp [List.set, ih i h2]; ring

theorem getD_replicate {α : Type} (n i : Nat) (x d : α) (h : i < n) :
    (List.replicate n x).getD i d = x := by
  simp [List.getD_eq_getElem?_getD, List.getElem?_replicate, h]

/-! ## The graph store -/

theorem addEdge_V (g : Graph) (a b : Nat) (w : Int) : (g.addEdge a b w).V = g.V := rfl

theorem addEdge_len (g : Graph) (a b : Nat) (w : Int) :
    (g.addEdge a b w).adj.length = g.adj.length := by
  simp [Graph.addEdge]

theorem addEdge_nbrs (g : Graph) (a b : Nat) (w : Int) (ha : a < g.adj.length)
    (hb : b < g.adj.length) (x : Nat) :
    (g.addEdge a b w).nbrs x =
      g.nbrs x ++ (if x = a then [⟨b, w⟩] else []) ++ (if x = b then [⟨a, w⟩] else []) := by
  unfold Graph.nbrs Graph.addEdge
  simp only
  by_cases hxb : x = b
  · subst hxb
    rw [getD_set_eq _ _ _ _ (by simpa using hb)]
    by_cases hxa : x = a
    · subst hxa
      rw [getD_set_eq _ _ _ _ ha]; simp
    · rw [getD_set_ne _ _ _ _ _ (Ne.symm hxa)]; simp [hxa]
  · rw [getD_set_ne _ _ _ _ _ (Ne.symm hxb)]
    by_cases hxa : x = a
    · subst hxa
      rw [getD_set_eq _ _ _ _ ha]; simp [hxb]
    · rw [getD_set_ne _ _ _ _ _ (Ne.symm hxa)]; simp [hxa, hxb]

theorem build_snoc (v : Nat) (labels : List String) (es : List (Nat × Nat × Int))
    (e : Nat × Nat × Int) :
    Graph.build v labels (es ++ [e]) = (Graph.build v labels es).addEdge e.1 e.2.1 e.2.2 := by
  simp [Graph.build, List.foldl_append]

theorem build_V (v : Nat) (labels : List String) (es : List (Nat × Nat × Int)) :
    (Graph.build v labels es).V = v := by
  induction es using List.reverseRecOn with
  | nil => rfl
  | append_singleton es e ih => rw [build_snoc, addEdge_V, ih]

theorem build_len (v : Nat) (labels : List String) (es : List (Nat × Nat × Int)) :
    (Graph.build v labels es).adj.length = v := by
  induction es using List.reverseRecOn with
  | nil => simp [Graph.build, Graph.new]
  | append_singleton es e ih => rw [build_snoc, addEdge_len, ih]

theorem validEdges_snoc {v : Nat} {es : List (Nat × Nat × Int)} {e : Nat × Nat × Int}
    (h : ValidEdges v (es ++ [e])) : ValidEdges v es ∧ e.1 < v ∧ e.2.1 < v := by
  constructor
  · intro x hx; exact h x (by simp [hx])
  · exact h e (by simp)

theorem build_mem_nbrs (v : Nat) (labels : List String) (es : List (Nat × Nat × Int))
    (hv : ValidEdges v es) (x : Nat) (e : Edge) :
    e ∈ (Graph.build v labels es).nbrs x ↔
      ∃ t ∈ es, (x = t.1 ∧ e = ⟨t.2.1, t.2.2⟩) ∨ (x = t.2.1 ∧ e = ⟨t.1, t.2.2⟩) := by
  induction es using List.reverseRecOn with
  | nil => simp [Graph.build, Graph.new, Graph.nbrs, List.getD_eq_getElem?_getD,
      List.getElem?_replicate]; split <;> simp
  | append_singleton es t ih =>
    obtain ⟨hv1, ha, hb⟩ := validEdges_snoc hv
    rw [build_snoc, addEdge_nbrs _ _ _ _ (by rw [build_len]; exact ha)
      (by rw [build_len]; exact hb)]
    simp only [List.mem_append, ih hv1]
    constructor
    · rintro ((⟨t0, ht0, h⟩ | h) | h)
      · exact ⟨t0, Or.inl ht0, h⟩
      · split at h
        · rename_i hx; simp at h; exact ⟨t, by simp, Or.inl ⟨hx, h⟩⟩
        · simp at h
      · split at h
        · rename_i hx; simp at h; exact ⟨t, by simp, Or.inr ⟨hx, h⟩⟩
        · simp at h
    · rintro ⟨t0, ht0 | ht0, h⟩
      · exact Or.inl (Or.inl ⟨t0, ht0, h⟩)
      · simp at ht0; subst ht0
        rcases h with ⟨hx, he⟩ | ⟨hx, he⟩
        · exact Or.inl (Or.inr (by simp [hx, he]))
        · exact Or.inr (by simp [hx, he])

theorem build_wf (v : Nat) (labels : List String) (es : List (Nat × Nat × Int))
    (hv : ValidEdges v es) : (Graph.build v labels es).WF := by
  refine ⟨by rw [build_len, build_V], ?_⟩
  intro u e he
  rw [build_V]
  obtain ⟨t, ht, h | h⟩ := (build_mem_nbrs v labels es hv u e).1 he
  · rw [h.2]; exact (hv t ht).2
  · rw [h.2]; exact (hv t ht).1

theorem build_symm (v : Nat) (labels : List String) (es : List (Nat × Nat × Int))
    (hv : ValidEdges v es) (x y : Nat) (w : Int)
    (h : (⟨y, w⟩ : Edge) ∈ (Graph.build v labels es).nbrs x) :
    (⟨x, w⟩ : Edge) ∈ (Graph.build v labels es).nbrs y := by
  obtain ⟨t, ht, h | h⟩ := (build_mem_nbrs v labels es hv x _).1 h
  · refine (build_mem_nbrs v labels es hv y _).2 ⟨t, ht, Or.inr ?_⟩
    obtain ⟨h1, h2⟩ := h
    simp only [Edge.mk.injEq] at h2
    simp [h1, h2.1, h2.2]
  · refine (build_mem_nbrs v labels es hv y _).2 ⟨t, ht, Or.inl ?_⟩
    obtain ⟨h1, h2⟩ := h
    simp only [Edge.mk.injEq] at h2
    simp [h1, h2.1, h2.2]

/-! ## Dijkstra: the loop invariant -/

theorem INF_eq : INF = 1000000000 := rfl

theorem pchain_lower (parent : List Int) (dist : List Int) (s v : Nat) (u : Int)
    (hmono : ∀ x p : Nat, x ≠ s → x < parent.length → parent.getD x 0 = (p : Int) →
      dist.getD x 0 < dist.getD v 0 → dist.getD p 0 ≤ dist.getD x 0)
    (x : Nat) (hx : PChain parent s x) (hlt : dist.getD x 0 < dist.getD v 0) :
    PChain (parent.set v u) s x := by
  induction hx with
  | root => exact PChain.root
  | @step x p hxs hxl hp _ ih =>
    have hxv : x ≠ v := by intro h; rw [h] at hlt; omega
    have hp' : (parent.set v u).getD x 0 = (p : Int) := by
      rw [getD_set_ne _ _ _ _ _ (Ne.symm hxv)]; exact hp
    have := hmono x p hxs hxl hp hlt
    exact PChain.step hxs (by simpa using hxl) hp' (ih (by omega))

theorem pchain_reroute (parent : List Int) (s v : Nat) (u : Int)
    (hv : PChain (parent.set v u) s v) (x : Nat) (hx : PChain parent s x) :
    PChain (parent.set v u) s x := by
  induction hx with
  | root => exact PChain.root
  | @step x p hxs hxl hp _ ih =>
    by_cases hxv : x = v
    · rw [hxv]; exact hv
    · have hp' : (parent.set v u).getD x 0 = (p : Int) := by
        rw [getD_set_ne _ _ _ _ _ (Ne.symm hxv)]; exact hp
      exact PChain.step hxs (by simpa using hxl) hp' ih

theorem isWalk_snoc (g : Graph) (u x : Nat) (p : List Edge) (e : Edge)
    (h : g.IsWalk u p x) (he : e ∈ g.nbrs x) : g.IsWalk u (p ++ [e]) e.dst := by
  induction p generalizing u with
  | nil => simp only [Graph.IsWalk] at h; subst h; simp [Graph.IsWalk, he]
  | cons a p ih => exact ⟨h.1, ih _ h.2⟩

theorem walkWeight_snoc (p : List Edge) (e : Edge) :
    walkWeight (p ++ [e]) = walkWeight p + e.weight := by
  simp [walkWeight]

theorem relax_step (g : Graph) (s u : Nat) (done : List Edge) (st : DState) (e : Edge)
    (hwf : g.WF) (hw : g.WeightsIn 0 INF) (h : DMid g s u done st) (he : e ∈ g.nbrs u) :
    DMid g s u (done ++ [e]) (relaxEdge u st e) ∧
      dMeasure (relaxEdge u st e) ≤ dMeasure st := by
  have hv : e.dst < g.V := hwf.dst_lt u e he
  obtain ⟨hw0, hw1⟩ := hw u e he
  have hbu := h.core.bounds u h.ult
  have hbv := h.core.bounds e.dst hv
  have hufin := h.ufin
  rw [INF_eq] at hw1 hbu hbv hufin
  have hnd : wrap32 (st.dist.getD u 0 + e.weight) = st.dist.getD u 0 + e.weight := by
    apply wrap32_of_range <;> omega
  unfold relaxEdge
  simp only [hnd]
  by_cases hc : st.dist.getD u 0 + e.weight < st.dist.getD e.dst 0
  · rw [if_pos hc]
    have hvu : e.dst ≠ u := by intro heq; rw [heq] at hc; omega
    have hvs : e.dst ≠ s := by
      intro heq; rw [heq, h.core.dstart] at hc; omega
    have hvl : e.dst < st.dist.length := by rw [h.core.dlen]; exact hv
    have hvl2 : e.dst < st.parent.length := by rw [h.core.plen]; exact hv
    have hdv : (st.dist.set e.dst (st.dist.getD u 0 + e.weight)).getD e.dst 0
        = st.dist.getD u 0 + e.weight := getD_set_eq _ _ _ _ hvl
    have hdo : ∀ x, x ≠ e.dst →
        (st.dist.set e.dst (st.dist.getD u 0 + e.weight)).getD x 0 = st.dist.getD x 0 :=
      fun x hx => getD_set_ne _ _ _ _ _ (Ne.symm hx)
    have hle : ∀ x, (st.dist.set e.dst (st.dist.getD u 0 + e.weight)).getD x 0
        ≤ st.dist.getD x 0 := by
      intro x
      by_cases hx : x = e.dst
      · rw [hx, hdv]; omega
      · rw [hdo x hx]
    have hpo : ∀ x, x ≠ e.dst →
        (st.parent.set e.dst (u : Int)).getD x 0 = st.parent.getD x 0 :=
      fun x hx => getD_set_ne _ _ _ _ _ (Ne.symm hx)
    have hpv : (st.parent.set e.dst (u : Int)).getD e.dst 0 = (u : Int) :=
      getD_set_eq _ _ _ _ hvl2
    have hmono : ∀ x p : Nat, x ≠ s → x < st.parent.length →
        st.parent.getD x 0 = (p : Int) →
        st.dist.getD x 0 < st.dist.getD e.dst 0 → st.dist.getD p 0 ≤ st.dist.getD x 0 := by
      intro x p hxs hxl hp hlt
      have hxV : x < g.V := by rw [← h.core.plen]; exact hxl
      obtain ⟨p', e', _, hp', he', _, hle'⟩ :=
        h.core.par x hxV hxs (by rw [INF_eq]; omega)
      have hpp : p' = p := by
        have : (p' : Int) = (p : Int) := by rw [← hp', hp]
        exact_mod_cast this
      subst hpp
      have := (hw p' e' he').1
      omega
    have hchu : PChain (st.parent.set e.dst (u : Int)) s u :=
      pchain_lower st.parent st.dist s e.dst u hmono u
        (h.core.chain u h.ult (by rw [INF_eq]; omega)) (by omega)
    have hchv : PChain (st.parent.set e.dst (u : Int)) s e.dst :=
      PChain.step hvs (by simpa using hvl2) hpv hchu
    refine ⟨⟨⟨?_, ?_, ?_, ?_, ?_, ?_, ?_, ?_, ?_⟩, h.ult, ?_, ?_, ?_⟩, ?_⟩
    · simpa using h.core.dlen
    · simpa using h.core.plen
    · intro x hx
      have hb := h.core.bounds x hx
      by_cases hxv : x = e.dst
      · simp only [hxv, hdv]; rw [INF_eq]; omega
      · simp only [hdo x hxv]; exact hb
    · simp only [hdo s (Ne.symm hvs)]; exact h.core.dstart
    · intro d x hmem
      simp only [List.mem_cons, Prod.mk.injEq] at hmem
      rcases hmem with ⟨hd, hx⟩ | hmem
      · subst hd; subst hx
        refine ⟨hv, ?_, ?_⟩
        · simp only [hdv]; exact le_refl _
        · rw [INF_eq]; omega
      · obtain ⟨h1, h2, h3⟩ := h.core.pqe d x hmem
        exact ⟨h1, le_trans (hle x) h2, h3⟩
    · intro x hx hfin
      by_cases hxv : x = e.dst
      · obtain ⟨p, hp1, hp2⟩ := h.core.sound u h.ult (by rw [INF_eq]; omega)
        refine ⟨p ++ [e], ?_, ?_⟩
        · rw [hxv]; exact isWalk_snoc g s u p e hp1 he
        · simp only [hxv, hdv]; rw [walkWeight_snoc, hp2]
      · simp only [hdo x hxv] at hfin ⊢
        exact h.core.sound x hx hfin
    · simp only [hpo s (Ne.symm hvs)]; exact h.core.pstart
    · intro x hx hxs hfin
      by_cases hxv : x = e.dst
      · refine ⟨u, e, h.ult, ?_, he, hxv.symm, ?_⟩
        · simp only [hxv, hpv]
        · simp only [hxv, hdv, hdo u (Ne.symm hvu)]; exact le_refl _
      · simp only [hdo x hxv] at hfin ⊢
        obtain ⟨p, e', hp1, hp2, hp3, hp4, hp5⟩ := h.core.par x hx hxs hfin
        refine ⟨p, e', hp1, ?_, hp3, hp4, ?_⟩
        · simp only [hpo x hxv]; exact hp2
        · have := hle p; omega
    · intro x hx hfin
      by_cases hxv : x = e.dst
      · rw [hxv]; exact hchv
      · simp only [hdo x hxv] at hfin
        exact pchain_reroute st.parent s e.dst u hchv x (h.core.chain x hx hfin)
    · simp only [hdo u (Ne.symm hvu)]; rw [INF_eq]; exact hufin
    · intro x hx hxu hfin
      by_cases hxv : x = e.dst
      · left; simp only [hxv, hdv]; exact List.mem_cons_self _ _
      · simp only [hdo x hxv] at hfin
        rcases h.pend x hx hxu hfin with hq | hr
        · left; simp only [hdo x hxv]; exact List.mem_cons_of_mem _ hq
        · right
          intro e' he'
          simp only [hdo x hxv]
          exact le_trans (hle _) (hr e' he')
    · intro e' he'
      simp only [hdo u (Ne.symm hvu)]
      simp only [List.mem_append, List.mem_singleton] at he'
      rcases he' with he' | rfl
      · exact le_trans (hle _) (h.donee e' he')
      · simp only [hdv]; exact le_refl _
    · unfold dMeasure
      simp only [List.length_cons]
      rw [sum_set_int _ _ _ hvl]
      push_cast
      omega
  · rw [if_neg hc]
    refine ⟨⟨h.core, h.ult, h.ufin, h.pend, ?_⟩, le_refl _⟩
    intro e' he'
    simp only [List.mem_append, List.mem_singleton] at he'
    rcases he' with he' | rfl
    · exact h.donee e' he'
    · omega

theorem relax_fold (g : Graph) (s u : Nat) (hwf : g.WF) (hw : g.WeightsIn 0 INF)
    (todo : List Edge) : ∀ (done : List Edge) (st : DState),
    (∀ e ∈ todo, e ∈ g.nbrs u) → DMid g s u done st →
    DMid g s u (done ++ todo) (todo.foldl (relaxEdge u) st) ∧
      dMeasure (todo.foldl (relaxEdge u) st) ≤ dMeasure st := by
  induction todo with
  | nil => intro done st _ h; simpa using h
  | cons e todo ih =>
    intro done st hsub h
    obtain ⟨h1, h2⟩ := relax_step g s u done st e hwf hw h (hsub e (by simp))
    obtain ⟨h3, h4⟩ := ih (done ++ [e]) (relaxEdge u st e)
      (fun e' he' => hsub e' (by simp [he'])) h1
    simp only [List.foldl_cons]
    refine ⟨?_, le_trans h4 h2⟩
    simpa using h3

theorem pqMin_mem (m : Int × Nat) (xs : List (Int × Nat)) :
    pqMin m xs = m ∨ pqMin m xs ∈ xs := by
  induction xs generalizing m with
  | nil => left; rfl
  | cons x xs ih =>
    simp only [pqMin]
    split
    · rcases ih m with h | h
      · left; exact h
      · right; exact List.mem_cons_of_mem _ h
    · rcases ih x with h | h
      · right; rw [h]; exact List.mem_cons_self _ _
      · right; exact List.mem_cons_of_mem _ h

theorem pqTop_mem {q : List (Int × Nat)} {m : Int × Nat} (h : pqTop q = some m) : m ∈ q := by
  cases q with
  | nil => simp [pqTop] at h
  | cons x xs =>
    simp only [pqTop, Option.some.injEq] at h
    rcases pqMin_mem x xs with h1 | h1
    · rw [← h, h1]; exact List.mem_cons_self _ _
    · rw [← h]; exact List.mem_cons_of_mem _ h1

theorem pqTop_none {q : List (Int × Nat)} (h : pqTop q = none) : q = [] := by
  cases q with
  | nil => rfl
  | cons x xs => simp [pqTop] at h

theorem dcore_pop (g : Graph) (s : Nat) (st : DState) (m : Int × Nat) (h : DCore g s st) :
    DCore g s { st with pq := st.pq.erase m } :=
  { dlen := h.dlen
    plen := h.plen
    bounds := h.bounds
    dstart := h.dstart
    pqe := fun d x hm => h.pqe d x (List.mem_of_mem_erase hm)
    sound := h.sound
    pstart := h.pstart
    par := h.par
    chain := h.chain }

theorem dist_sum_nonneg (g : Graph) (s : Nat) (st : DState) (h : DCore g s st) :
    0 ≤ st.dist.sum := by
  apply List.sum_nonneg
  intro a ha
  obtain ⟨i, hi, rfl⟩ := List.mem_iff_getElem.1 ha
  have := (h.bounds i (by rw [← h.dlen]; exact hi)).1
  simpa [List.getD_eq_getElem?_getD, List.getElem?_eq_getElem hi] using this

theorem dijkstraLoop_spec (g : Graph) (s : Nat) (hwf : g.WF) (hw : g.WeightsIn 0 INF) :
    ∀ (fuel : Nat) (st : DState), DInv g s st → dMeasure st < fuel →
      ∃ st', dijkstraLoop g fuel st = some st' ∧ DInv g s st' ∧ st'.pq = [] := by
  intro fuel
  induction fuel with
  | zero =>
    intro st h hm
    have h0 := dist_sum_nonneg g s st h.core
    unfold dMeasure at hm
    have : (0 : Int) ≤ (st.pq.length : Int) := Int.natCast_nonneg _
    simp only [Nat.cast_zero] at hm
    omega
  | succ fuel ih =>
    intro st h hm
    unfold dijkstraLoop
    cases htop : pqTop st.pq with
    | none => exact ⟨st, rfl, h, pqTop_none htop⟩
    | some m =>
      obtain ⟨d, u⟩ := m
      have hmem := pqTop_mem htop
      obtain ⟨huV, hud, hdInf⟩ := h.core.pqe d u hmem
      have hlen : ((st.pq.erase (d, u)).length : Int) = (st.pq.length : Int) - 1 := by
        rw [List.length_erase_of_mem hmem]
        have : 0 < st.pq.length := List.length_pos_of_mem hmem
        omega
      have hcore1 := dcore_pop g s st (d, u) h.core
      simp only
      by_cases hstale : d > st.dist.getD u 0
      · rw [if_pos hstale]
        apply ih
        · refine ⟨hcore1, ?_⟩
          intro x hx hfin
          rcases h.pend x hx hfin with hq | hr
          · left
            refine (List.mem_erase_of_ne ?_).2 hq
            intro heq
            simp only [Prod.mk.injEq] at heq
            rw [← heq.2, ← heq.1] at hstale
            exact lt_irrefl _ hstale
          · right; exact hr
        · unfold dMeasure at hm ⊢
          simp only [hlen]
          push_cast at hm
          omega
      · rw [if_neg hstale]
        have hdu : st.dist.getD u 0 = d := le_antisymm hud (not_lt.1 hstale)
        have hmid : DMid g s u [] { st with pq := st.pq.erase (d, u) } := by
          refine ⟨hcore1, huV, by simp only [hdu]; exact hdInf, ?_, by simp⟩
          intro x hx hxu hfin
          rcases h.pend x hx hfin with hq | hr
          · left
            refine (List.mem_erase_of_ne ?_).2 hq
            intro heq
            simp only [Prod.mk.injEq] at heq
            exact hxu heq.2
          · right; exact hr
        obtain ⟨h1, h2⟩ := relax_fold g s u hwf hw (g.nbrs u) []
          { st with pq := st.pq.erase (d, u) } (fun e he => he) hmid
        apply ih
        · refine ⟨h1.core, ?_⟩
          intro x hx hfin
          by_cases hxu : x = u
          · right
            intro e he
            rw [hxu]
            rw [hxu] at he
            exact h1.donee e (by simpa using he)
          · exact h1.pend x hx hxu hfin
        · have h3 : dMeasure { st with pq := st.pq.erase (d, u) } = dMeasure st - 1 := by
            unfold dMeasure
            simp only [hlen]
            ring
          push_cast at hm
          omega

theorem dijkstraInit_inv (g : Graph) (s : Nat) (hs : s < g.V) :
    DInv g s (dijkstraInit g s) := by
  have hd : ∀ x, x < g.V → x ≠ s → ((List.replicate g.V INF).set s 0).getD x 0 = INF := by
    intro x hx hxs
    rw [getD_set_ne _ _ _ _ _ (Ne.symm hxs), getD_replicate _ _ _ _ hx]
  have hds : ((List.replicate g.V INF).set s 0).getD s 0 = 0 :=
    getD_set_eq _ _ _ _ (by simpa using hs)
  refine ⟨⟨by simp [dijkstraInit], by simp [dijkstraInit], ?_, hds, ?_, ?_, ?_, ?_, ?_⟩, ?_⟩
  · intro x hx
    simp only [dijkstraInit]
    by_cases hxs : x = s
    · rw [hxs, hds, INF_eq]; omega
    · rw [hd x hx hxs, INF_eq]; omega
  · intro d x hm
    simp only [dijkstraInit, List.mem_singleton, Prod.mk.injEq] at hm
    obtain ⟨rfl, rfl⟩ := hm
    simp only [dijkstraInit]
    rw [hds, INF_eq]
    exact ⟨hs, le_refl _, by omega⟩
  · intro x hx hfin
    simp only [dijkstraInit] at hfin ⊢
    by_cases hxs : x = s
    · rw [hxs, hds]; exact ⟨[], rfl, rfl⟩
    · rw [hd x hx hxs] at hfin; exact absurd hfin (lt_irrefl _)
  · simp only [dijkstraInit]; exact getD_replicate _ _ _ _ hs
  · intro x hx hxs hfin
    simp only [dijkstraInit] at hfin
    rw [hd x hx hxs] at hfin; exact absurd hfin (lt_irrefl _)
  · intro x hx hfin
    simp only [dijkstraInit] at hfin
    by_cases hxs : x = s
    · rw [hxs]; exact PChain.root
    · rw [hd x hx hxs] at hfin; exact absurd hfin (lt_irrefl _)
  · intro x hx hfin
    simp only [dijkstraInit] at hfin
    by_cases hxs : x = s
    · left; simp only [dijkstraInit]; rw [hxs, hds]; exact List.mem_singleton_self _
    · rw [hd x hx hxs] at hfin; exact absurd hfin (lt_irrefl _)

/-! ## Walks, simple paths and the total weight of a graph -/

theorem isWalk_snoc_iff (g : Graph) (u x : Nat) (p : List Edge) (e : Edge) :
    g.IsWalk u (p ++ [e]) x ↔ ∃ y, g.IsWalk u p y ∧ e ∈ g.nbrs y ∧ e.dst = x := by
  induction p generalizing u with
  | nil =>
    simp only [List.nil_append, Graph.IsWalk]
    constructor
    · rintro ⟨h1, h2⟩; exact ⟨u, rfl, h1, h2⟩
    · rintro ⟨y, rfl, h1, h2⟩; exact ⟨h1, h2⟩
  | cons a p ih =>
    change (a ∈ g.nbrs u ∧ g.IsWalk a.dst (p ++ [e]) x) ↔ _
    rw [ih]
    constructor
    · rintro ⟨h1, y, h2, h3⟩; exact ⟨y, ⟨h1, h2⟩, h3⟩
    · rintro ⟨y, ⟨h1, h2⟩, h3⟩; exact ⟨h1, y, h2, h3⟩

theorem isWalk_end_lt (g : Graph) (hwf : g.WF) (u x : Nat) (p : List Edge) (hu : u < g.V)
    (h : g.IsWalk u p x) : x < g.V := by
  induction p generalizing u with
  | nil => simp only [Graph.IsWalk] at h; rw [← h]; exact hu
  | cons a p ih => exact ih a.dst (hwf.dst_lt u a h.1) h.2

theorem isWalk_weight_nonneg (g : Graph) (hw : ∀ u e, e ∈ g.nbrs u → 0 ≤ e.weight)
    (u x : Nat) (p : List Edge) (h : g.IsWalk u p x) : 0 ≤ walkWeight p := by
  induction p generalizing u with
  | nil => simp [walkWeight]
  | cons a p ih =>
    have h1 := hw u a h.1
    have h2 := ih a.dst h.2
    simp only [walkWeight, List.map_cons, List.sum_cons] at h2 ⊢
    omega

/-- From a vertex on a simple path, the rest of the path is a simple path that
weighs no more. -/
theorem simple_suffix (g : Graph) (hw : ∀ u e, e ∈ g.nbrs u → 0 ≤ e.weight)
    (x v : Nat) (q : List Edge) : ∀ a : Nat, g.IsWalk a q v → (walkVerts a q).Nodup →
    x ∈ walkVerts a q →
    ∃ q2, g.IsWalk x q2 v ∧ (walkVerts x q2).Nodup ∧ walkWeight q2 ≤ walkWeight q := by
  induction q with
  | nil =>
    intro a h hn hx
    simp only [walkVerts, List.map_nil, List.mem_singleton] at hx
    subst hx
    exact ⟨[], h, hn, le_refl _⟩
  | cons e q ih =>
    intro a h hn hx
    by_cases hxa : x = a
    · subst hxa; exact ⟨e :: q, h, hn, le_refl _⟩
    · have hx2 : x ∈ walkVerts e.dst q := by
        simp only [walkVerts, List.map_cons, List.mem_cons] at hx ⊢
        rcases hx with hx | hx
        · exact absurd hx hxa
        · exact hx
      have hn2 : (walkVerts e.dst q).Nodup := by
        simp only [walkVerts, List.map_cons] at hn ⊢
        exact (List.nodup_cons.1 hn).2
      obtain ⟨q2, h1, h2, h3⟩ := ih e.dst h.2 hn2 hx2
      refine ⟨q2, h1, h2, ?_⟩
      have := hw a e h.1
      simp only [walkWeight, List.map_cons, List.sum_cons] at h3 ⊢
      omega

/-- Every walk contains a simple path between the same endpoints that weighs no
more, when no weight is negative. -/
theorem walk_to_simple (g : Graph) (hw : ∀ u e, e ∈ g.nbrs u → 0 ≤ e.weight)
    (v : Nat) (p : List Edge) : ∀ u : Nat, g.IsWalk u p v →
    ∃ q, g.IsWalk u q v ∧ (walkVerts u q).Nodup ∧ walkWeight q ≤ walkWeight p := by
  induction p with
  | nil => intro u h; exact ⟨[], h, by simp [walkVerts], le_refl _⟩
  | cons e p ih =>
    intro u h
    obtain ⟨q, h1, h2, h3⟩ := ih e.dst h.2
    have hwe := hw u e h.1
    by_cases hu : u ∈ walkVerts e.dst q
    · obtain ⟨q2, h4, h5, h6⟩ := simple_suffix g hw u v q e.dst h1 h2 hu
      refine ⟨q2, h4, h5, ?_⟩
      simp only [walkWeight, List.map_cons, List.sum_cons] at h3 h6 ⊢
      omega
    · refine ⟨e :: q, ⟨h.1, h1⟩, ?_, ?_⟩
      · simp only [walkVerts, List.map_cons] at hu h2 ⊢
        exact List.nodup_cons.2 ⟨hu, h2⟩
      · simp only [walkWeight, List.map_cons, List.sum_cons] at h3 ⊢
        omega

/-- The sum of the weights stored in `adj[x]`. -/
theorem mem_weight_le_sum (l : List Edge) (hl : ∀ e ∈ l, 0 ≤ e.weight) (e : Edge)
    (he : e ∈ l) : e.weight ≤ (l.map Edge.weight).sum := by
  induction l with
  | nil => simp at he
  | cons a l ih =>
    have ha := hl a (by simp)
    have hs : 0 ≤ (l.map Edge.weight).sum := by
      apply List.sum_nonneg
      intro x hx
      obtain ⟨e', he', rfl⟩ := List.mem_map.1 hx
      exact hl e' (by simp [he'])
    simp only [List.map_cons, List.sum_cons]
    rcases List.mem_cons.1 he with rfl | h
    · omega
    · have := ih (fun e' he' => hl e' (by simp [he'])) h
      omega

theorem two_mem_weight_le_sum (l : List Edge) (hl : ∀ e ∈ l, 0 ≤ e.weight) (e1 e2 : Edge)
    (h1 : e1 ∈ l) (h2 : e2 ∈ l) (hne : e1 ≠ e2) :
    e1.weight + e2.weight ≤ (l.map Edge.weight).sum := by
  induction l with
  | nil => simp at h1
  | cons a l ih =>
    have ha := hl a (by simp)
    have hl2 : ∀ e ∈ l, 0 ≤ e.weight := fun e' he' => hl e' (by simp [he'])
    simp only [List.map_cons, List.sum_cons]
    rcases List.mem_cons.1 h1 with h1a | h1l
    · rcases List.mem_cons.1 h2 with h2a | h2l
      · exact absurd (h1a.trans h2a.symm) hne
      · have := mem_weight_le_sum l hl2 e2 h2l
        rw [h1a]; omega
    · rcases List.mem_cons.1 h2 with h2a | h2l
      · have := mem_weight_le_sum l hl2 e1 h1l
        rw [h2a]; omega
      · have := ih hl2 h1l h2l; omega

/-- On a simple path entered through an entry of weight `win`, that weight plus
twice the weight of the path is at most the weight stored at its vertices. -/
theorem simple_path_double (g : Graph) (hw : ∀ u e, e ∈ g.nbrs u → 0 ≤ e.weight)
    (hsym : ∀ x y w, (⟨y, w⟩ : Edge) ∈ g.nbrs x → (⟨x, w⟩ : Edge) ∈ g.nbrs y)
    (v : Nat) (q : List Edge) : ∀ (u prev : Nat) (win : Int), g.IsWalk u q v →
    (walkVerts u q).Nodup → prev ∉ walkVerts u q → (⟨prev, win⟩ : Edge) ∈ g.nbrs u →
    win + 2 * walkWeight q ≤
      ((walkVerts u q).map (fun x => ((g.nbrs x).map Edge.weight).sum)).sum := by
  induction q with
  | nil =>
    intro u prev win _ _ _ hin
    simp only [walkWeight, walkVerts, List.map_nil, List.sum_nil, List.map_cons, List.sum_cons]
    have := mem_weight_le_sum (g.nbrs u) (hw u) _ hin
    simp only at this
    omega
  | cons e q ih =>
    intro u prev win h hn hprev hin
    have hn2 : (walkVerts e.dst q).Nodup := by
      simp only [walkVerts, List.map_cons] at hn ⊢
      exact (List.nodup_cons.1 hn).2
    have hu : u ∉ walkVerts e.dst q := by
      simp only [walkVerts, List.map_cons] at hn ⊢
      exact (List.nodup_cons.1 hn).1
    have hback : (⟨u, e.weight⟩ : Edge) ∈ g.nbrs e.dst := hsym u e.dst e.weight h.1
    have h1 := ih e.dst u e.weight h.2 hn2 hu hback
    have hne : (⟨prev, win⟩ : Edge) ≠ e := by
      intro heq
      apply hprev
      simp only [walkVerts, List.map_cons, List.mem_cons]
      right; left; rw [← heq]
    have h2 := two_mem_weight_le_sum (g.nbrs u) (hw u) _ e hin h.1 hne
    simp only [walkVerts, walkWeight, List.map_cons, List.sum_cons] at h1 h2 ⊢
    omega

theorem nodup_sum_le_range (l : List Nat) (n : Nat) (c : Nat → Int) (hn : l.Nodup)
    (hl : ∀ x ∈ l, x < n) (hc : ∀ x, 0 ≤ c x) :
    (l.map c).sum ≤ Finset.sum (Finset.range n) c := by
  rw [← List.sum_toFinset c hn]
  apply Finset.sum_le_sum_of_subset_of_nonneg
  · intro x hx
    simp only [List.mem_toFinset] at hx
    simpa using hl x hx
  · intro x _ _; exact hc x

theorem walkVerts_lt (g : Graph) (hwf : g.WF) (v : Nat) (q : List Edge) :
    ∀ u, u < g.V → g.IsWalk u q v → ∀ x ∈ walkVerts u q, x < g.V := by
  induction q with
  | nil => intro u hu _ x hx; simp only [walkVerts, List.map_nil, List.mem_singleton] at hx
           rw [hx]; exact hu
  | cons e q ih =>
    intro u hu h x hx
    simp only [walkVerts, List.map_cons, List.mem_cons] at hx
    rcases hx with rfl | hx
    · exact hu
    · exact ih e.dst (hwf.dst_lt u e h.1) h.2 x (by simpa [walkVerts] using hx)

/-- Twice the weight of a simple path is at most the weight stored in all
adjacency lists together. -/
theorem simple_path_le_stored (g : Graph) (hwf : g.WF)
    (hw : ∀ u e, e ∈ g.nbrs u → 0 ≤ e.weight)
    (hsym : ∀ x y w, (⟨y, w⟩ : Edge) ∈ g.nbrs x → (⟨x, w⟩ : Edge) ∈ g.nbrs y)
    (u v : Nat) (hu : u < g.V) (q : List Edge) (h : g.IsWalk u q v)
    (hn : (walkVerts u q).Nodup) :
    2 * walkWeight q ≤
      Finset.sum (Finset.range g.V) (fun x => ((g.nbrs x).map Edge.weight).sum) := by
  have hc : ∀ x, 0 ≤ ((g.nbrs x).map Edge.weight).sum := by
    intro x
    apply List.sum_nonneg
    intro a ha
    obtain ⟨e', he', rfl⟩ := List.mem_map.1 ha
    exact hw x e' he'
  have hle := nodup_sum_le_range (walkVerts u q) g.V _ hn (walkVerts_lt g hwf v q u hu h) hc
  refine le_trans ?_ hle
  cases q with
  | nil =>
    simp only [walkWeight, walkVerts, List.map_nil, List.sum_nil, List.map_cons, List.sum_cons]
    have := hc u
    omega
  | cons e q =>
    have hn2 : (walkVerts e.dst q).Nodup := by
      simp only [walkVerts, List.map_cons] at hn ⊢
      exact (List.nodup_cons.1 hn).2
    have hu2 : u ∉ walkVerts e.dst q := by
      simp only [walkVerts, List.map_cons] at hn ⊢
      exact (List.nodup_cons.1 hn).1
    have h1 := simple_path_double g hw hsym v q e.dst u e.weight h.2 hn2 hu2
      (hsym u e.dst e.weight h.1)
    have h2 := mem_weight_le_sum (g.nbrs u) (hw u) e h.1
    simp only [walkVerts, walkWeight, List.map_cons, List.sum_cons] at h1 h2 ⊢
    omega

/-- The adjacency lists of a built graph store every weight twice. -/
theorem build_stored_weight (v : Nat) (labels : List String) (es : List (Nat × Nat × Int))
    (hv : ValidEdges v es) :
    Finset.sum (Finset.range v)
        (fun x => (((Graph.build v labels es).nbrs x).map Edge.weight).sum)
      = 2 * (es.map (fun e => e.2.2)).sum := by
  induction es using List.reverseRecOn with
  | nil =>
    have : ∀ x, (Graph.build v labels []).nbrs x = [] := by
      intro x
      simp only [Graph.build, Graph.new, Graph.nbrs, List.foldl_nil,
        List.getD_eq_getElem?_getD, List.getElem?_replicate]
      split <;> rfl
    simp [this]
  | append_singleton es t ih =>
    obtain ⟨hv1, ha, hb⟩ := validEdges_snoc hv
    have hn : ∀ x, (((Graph.build v labels (es ++ [t])).nbrs x).map Edge.weight).sum
        = (((Graph.build v labels es).nbrs x).map Edge.weight).sum
          + (if x = t.1 then t.2.2 else 0) + (if x = t.2.1 then t.2.2 else 0) := by
      intro x
      rw [build_snoc, addEdge_nbrs _ _ _ _ (by rw [build_len]; exact ha)
        (by rw [build_len]; exact hb)]
      simp only [List.map_append, List.sum_append]
      congr 1
      · congr 1
        split <;> simp
      · split <;> simp
    simp only [hn, Finset.sum_add_distrib, ih hv1, List.map_append, List.sum_append,
      List.map_cons, List.map_nil, List.sum_cons, List.sum_nil, add_zero]
    rw [Finset.sum_ite_eq', Finset.sum_ite_eq', if_pos (by simpa using ha),
      if_pos (by simpa using hb)]
    ring

/-! ## Dijkstra: what the final state says -/

theorem dijkstra_final_lower (g : Graph) (s : Nat) (hwf : g.WF)
    (hw : ∀ u e, e ∈ g.nbrs u → 0 ≤ e.weight) (hs : s < g.V) (st : DState)
    (h : DInv g s st) (hq : st.pq = []) (p : List Edge) :
    ∀ x, g.IsWalk s p x → st.dist.getD x 0 ≤ walkWeight p := by
  induction p using List.reverseRecOn with
  | nil =>
    intro x hx
    simp only [Graph.IsWalk] at hx
    rw [← hx, h.core.dstart]; simp [walkWeight]
  | append_singleton p e ih =>
    intro x hx
    obtain ⟨y, hy, he, hdst⟩ := (isWalk_snoc_iff g s x p e).1 hx
    have hyV := isWalk_end_lt g hwf s y p hs hy
    have hxV : x < g.V := by rw [← hdst]; exact hwf.dst_lt y e he
    have h1 := ih y hy
    have hwe := hw y e he
    rw [walkWeight_snoc]
    by_cases hfin : st.dist.getD y 0 < INF
    · rcases h.pend y hyV hfin with hmem | hrel
      · rw [hq] at hmem; simp at hmem
      · have := hrel e he
        rw [hdst] at this
        omega
    · have := (h.core.bounds x hxV).2
      omega

theorem dijkstra_runs (g : Graph) (s : Nat) (hwf : g.WF) (hw : g.WeightsIn 0 INF)
    (hs : s < g.V) :
    ∃ N, ∀ fuel, N ≤ fuel → ∃ st, dijkstraLoop g fuel (dijkstraInit g s) = some st ∧
      DInv g s st ∧ st.pq = [] := by
  refine ⟨(dMeasure (dijkstraInit g s)).toNat + 1, ?_⟩
  intro fuel hf
  apply dijkstraLoop_spec g s hwf hw fuel _ (dijkstraInit_inv g s hs)
  have := Int.self_le_toNat (dMeasure (dijkstraInit g s))
  have h2 : ((dMeasure (dijkstraInit g s)).toNat : Int) + 1 ≤ (fuel : Int) := by
    exact_mod_cast hf
  omega

theorem mem_le_sum_nonneg (l : List Int) (hl : ∀ a ∈ l, 0 ≤ a) (a : Int) (ha : a ∈ l) :
    a ≤ l.sum := by
  induction l with
  | nil => simp at ha
  | cons b l ih =>
    have hb := hl b (by simp)
    have hs : 0 ≤ l.sum := List.sum_nonneg (fun x hx => hl x (by simp [hx]))
    simp only [List.sum_cons]
    rcases List.mem_cons.1 ha with hab | hal
    · rw [hab]; omega
    · have := ih (fun x hx => hl x (by simp [hx])) hal
      omega

theorem build_weightsIn (v : Nat) (labels : List String) (es : List (Nat × Nat × Int))
    (hv : ValidEdges v es) (lo hi : Int) (hw : ∀ e ∈ es, lo ≤ e.2.2 ∧ e.2.2 ≤ hi) :
    (Graph.build v labels es).WeightsIn lo hi := by
  intro u e he
  obtain ⟨t, ht, h | h⟩ := (build_mem_nbrs v labels es hv u e).1 he
  · rw [h.2]; exact hw t ht
  · rw [h.2]; exact hw t ht

/-- C1. Dijkstra computes shortest distances. For a graph built by `addEdge` from
valid edges with non-negative weights whose total is below `INF`, a start vertex
`s` and a vertex `t` reachable from `s`: with enough fuel `Dijkstra` returns,
`dist[s] = 0`, `dist[t]` is the weight of a simple path from `s` to `t`, and no
walk from `s` to `t` weighs less than `dist[t]`. -/
theorem dijkstra_shortest_distance (v : Nat) (labels : List String)
    (es : List (Nat × Nat × Int)) (hv : ValidEdges v es) (hnn : ∀ e ∈ es, 0 ≤ e.2.2)
    (htot : (es.map (fun e => e.2.2)).sum < INF) (s t : Nat) (hs : s < v)
    (hr : (Graph.build v labels es).Reachable s t) :
    ∃ N, ∀ fuel, N ≤ fuel → ∃ dist parent,
      Dijkstra (Graph.build v labels es) s fuel = some (dist, parent) ∧
      dist.getD s 0 = 0 ∧
      (∃ p, (Graph.build v labels es).IsWalk s p t ∧ (walkVerts s p).Nodup ∧
        walkWeight p = dist.getD t 0) ∧
      (∀ p, (Graph.build v labels es).IsWalk s p t → dist.getD t 0 ≤ walkWeight p) := by
  have hwf := build_wf v labels es hv
  have hV := build_V v labels es
  have hw : (Graph.build v labels es).WeightsIn 0 INF := by
    apply build_weightsIn v labels es hv
    intro e he
    refine ⟨hnn e he, ?_⟩
    have := mem_le_sum_nonneg (es.map (fun e => e.2.2))
      (by intro a ha; obtain ⟨e', he', rfl⟩ := List.mem_map.1 ha; exact hnn e' he')
      e.2.2 (List.mem_map.2 ⟨e, he, rfl⟩)
    omega
  have hw0 : ∀ u e, e ∈ (Graph.build v labels es).nbrs u → 0 ≤ e.weight :=
    fun u e he => (hw u e he).1
  have hsV : s < (Graph.build v labels es).V := by rw [hV]; exact hs
  obtain ⟨N, hN⟩ := dijkstra_runs _ s hwf hw hsV
  refine ⟨N, ?_⟩
  intro fuel hf
  obtain ⟨st, hrun, hinv, hq⟩ := hN fuel hf
  refine ⟨st.dist, st.parent, by simp [Dijkstra, hrun], hinv.core.dstart, ?_, ?_⟩
  · obtain ⟨p, hp⟩ := hr
    obtain ⟨q, hq1, hq2, _⟩ := walk_to_simple _ hw0 t p s hp
    have h2 := simple_path_le_stored _ hwf hw0 (build_symm v labels es hv) s t hsV q hq1 hq2
    rw [hV, build_stored_weight v labels es hv] at h2
    have hlow := dijkstra_final_lower _ s hwf hw0 hsV st hinv hq
    have htV := isWalk_end_lt _ hwf s t p hsV hp
    have hfin : st.dist.getD t 0 < INF := by
      have := hlow q t hq1
      omega
    obtain ⟨p', hp1, hp2⟩ := hinv.core.sound t htV hfin
    obtain ⟨q', hq1', hq2', hq3'⟩ := walk_to_simple _ hw0 t p' s hp1
    refine ⟨q', hq1', hq2', ?_⟩
    have := hlow q' t hq1'
    omega
  · intro p hp
    exact dijkstra_final_lower _ s hwf hw0 hsV st hinv hq p t hp

theorem dijkstra_shortest_distance_witness :
    (Dijkstra graph1 0 100).map Prod.fst = some [0, 4, 14, 6, 13, 16, 7, 19] ∧
    ∃ N, ∀ fuel, N ≤ fuel → ∃ dist parent,
      Dijkstra graph1 0 fuel = some (dist, parent) ∧
      dist.getD 0 0 = 0 ∧
      (∃ p, graph1.IsWalk 0 p 7 ∧ (walkVerts 0 p).Nodup ∧ walkWeight p = dist.getD 7 0) ∧
      (∀ p, graph1.IsWalk 0 p 7 → dist.getD 7 0 ≤ walkWeight p) :=
  ⟨by decide,
   dijkstra_shortest_distance 8 ["A", "B", "C", "D", "E", "F", "G", "H"]
    [(0, 1, 4), (0, 3, 6), (0, 6, 7), (1, 2, 12), (1, 4, 9), (2, 4, 1), (2, 5, 2),
     (2, 7, 10), (3, 4, 13), (3, 6, 2), (4, 5, 5), (4, 6, 14), (4, 7, 8), (5, 7, 3)]
    (by unfold ValidEdges; decide) (by decide) (by decide) 0 7 (by decide)
    ⟨[⟨1, 4⟩, ⟨4, 9⟩, ⟨7, 8⟩], by decide⟩⟩

/-! ## Dijkstra: path reconstruction -/

theorem minWeightList_spec (b : Nat) (l : List Edge) :
    (minWeightList b l = none ∧ ∀ e ∈ l, e.dst ≠ b) ∨
    (∃ m, minWeightList b l = some m ∧ (∃ e ∈ l, e.dst = b ∧ e.weight = m) ∧
      ∀ e ∈ l, e.dst = b → m ≤ e.weight) := by
  induction l with
  | nil => left; simp [minWeightList]
  | cons a l ih =>
    by_cases ha : a.dst = b
    · right
      rcases ih with ⟨h1, h2⟩ | ⟨m, h1, ⟨e0, he0, hd0, hw0⟩, h3⟩
      · refine ⟨a.weight, by simp [minWeightList, ha, h1], ⟨a, by simp, ha, rfl⟩, ?_⟩
        intro e he hd
        rcases List.mem_cons.1 he with h | h
        · rw [h]
        · exact absurd hd (h2 e h)
      · refine ⟨min a.weight m, by simp [minWeightList, ha, h1], ?_, ?_⟩
        · rcases le_total a.weight m with h | h
          · exact ⟨a, by simp, ha, by rw [min_eq_left h]⟩
          · exact ⟨e0, by simp [he0], hd0, by rw [min_eq_right h]; exact hw0⟩
        · intro e he hd
          rcases List.mem_cons.1 he with h | h
          · rw [h]; exact min_le_left _ _
          · exact le_trans (min_le_right _ _) (h3 e h hd)
    · rcases ih with ⟨h1, h2⟩ | ⟨m, h1, ⟨e0, he0, hd0, hw0⟩, h3⟩
      · left
        refine ⟨by simp [minWeightList, ha, h1], ?_⟩
        intro e he
        rcases List.mem_cons.1 he with h | h
        · rw [h]; exact ha
        · exact h2 e h
      · right
        refine ⟨m, by simp [minWeightList, ha, h1], ⟨e0, by simp [he0], hd0, hw0⟩, ?_⟩
        intro e he hd
        rcases List.mem_cons.1 he with h | h
        · rw [h] at hd; exact absurd hd ha
        · exact h3 e h hd

theorem pathCost_snoc (g : Graph) (l : List Nat) (p x : Nat) (c w : Int)
    (hc : g.pathCost (l ++ [p]) = some c) (hw : g.minWeight p x = some w) :
    g.pathCost (l ++ [p] ++ [x]) = some (c + w) := by
  induction l generalizing c with
  | nil =>
    simp only [List.nil_append, Graph.pathCost, Option.some.injEq] at hc
    simp [Graph.pathCost, hw, ← hc]
  | cons a l ih =>
    cases hl : l ++ [p] with
    | nil => simp at hl
    | cons b rest =>
      have h1 : a :: l ++ [p] = a :: b :: rest := by simp [hl]
      have h2 : a :: l ++ [p] ++ [x] = a :: b :: (rest ++ [x]) := by simp [h1]
      rw [h1] at hc
      rw [h2]
      rw [hl] at ih
      simp only [Graph.pathCost] at hc ⊢
      cases hm : g.minWeight a b with
      | none => simp [hm] at hc
      | some w1 =>
        cases hr : g.pathCost (b :: rest) with
        | none => simp [hm, hr] at hc
        | some c1 =>
          simp only [hm, hr, Option.some.injEq] at hc
          have := ih c1 hr
          simp only [List.cons_append] at this
          simp only [this]
          rw [← hc]; congr 1; ring

theorem chain_snoc_joined (g : Graph) (l : List Nat) (p x : Nat)
    (hc : List.Chain' g.Joined (l ++ [p])) (hj : g.Joined p x) :
    List.Chain' g.Joined (l ++ [p] ++ [x]) := by
  apply List.Chain'.append hc (by simp)
  intro a ha b hb
  rw [List.getLast?_concat] at ha
  simp only [Option.mem_def, Option.some.injEq] at ha
  simp only [List.head?_cons, Option.mem_def, Option.some.injEq] at hb
  rw [← ha, ← hb]; exact hj

/-- What `printPath` prints for a vertex with a finite distance in a final state. -/
theorem printPath_final (g : Graph) (s : Nat) (hw : g.WeightsIn 0 INF) (st : DState)
    (h : DInv g s st) (hq : st.pq = []) (x : Nat) (hc : PChain st.parent s x) :
    x < g.V → st.dist.getD x 0 < INF →
    ∃ l M, (∀ fuel, M ≤ fuel → printPath st.parent fuel (x : Int) = some (l ++ [x])) ∧
      (l ++ [x]).head? = some s ∧ List.Chain' g.Joined (l ++ [x]) ∧
      g.pathCost (l ++ [x]) = some (st.dist.getD x 0) := by
  induction hc with
  | root =>
    intro _ _
    refine ⟨[], 1, ?_, rfl, by simp, by rw [h.core.dstart]; rfl⟩
    intro fuel hf
    obtain ⟨f, rfl⟩ : ∃ f, fuel = f + 1 := ⟨fuel - 1, by omega⟩
    unfold printPath
    have h1 : ¬ ((s : Int) = -1) := by omega
    rw [if_neg h1]
    simp only [Int.toNat_ofNat, h.core.pstart]
    unfold printPath
    simp
  | @step x p hxs hxl hp _ ih =>
    intro hxV hfin
    obtain ⟨p', e, hp'V, hpar, he, hdst, hle⟩ := h.core.par x hxV hxs hfin
    have hpp : p' = p := by
      have : (p' : Int) = (p : Int) := by rw [← hpar, hp]
      exact_mod_cast this
    subst hpp
    have hwe := (hw p' e he).1
    have hpfin : st.dist.getD p' 0 < INF := by omega
    obtain ⟨l, M, hprint, hhead, hchain, hcost⟩ := ih hp'V hpfin
    refine ⟨l ++ [p'], M + 1, ?_, ?_, ?_, ?_⟩
    · intro fuel hf
      obtain ⟨f, rfl⟩ : ∃ f, fuel = f + 1 := ⟨fuel - 1, by omega⟩
      unfold printPath
      have h1 : ¬ ((x : Int) = -1) := by omega
      rw [if_neg h1]
      simp only [Int.toNat_ofNat, hp, hprint f (by omega)]
    · cases l with
      | nil => simpa using hhead
      | cons a l => simpa using hhead
    · exact chain_snoc_joined g l p' x hchain ⟨e, he, hdst⟩
    · rcases minWeightList_spec x (g.nbrs p') with ⟨_, h2⟩ | ⟨m, h1, ⟨e0, he0, hd0, hw0⟩, h3⟩
      · exact absurd hdst (h2 e he)
      · have hm : g.minWeight p' x = some m := h1
        rw [pathCost_snoc g l p' x _ m hcost hm]
        have hm1 := h3 e he hdst
        rcases h.pend p' hp'V hpfin with hmem | hrel
        · rw [hq] at hmem; simp at hmem
        · have := hrel e0 he0
          rw [hd0, hw0] at this
          congr 1
          omega

/-- C2 (as amended). Path reconstruction. For a graph built by `addEdge` from valid
edges with weights in `[0, INF]`, a start `s` and a vertex `t`: with enough fuel
`Dijkstra` returns, and when `dist[t] != INF` the sequence `printPath` prints for `t`
begins with `s`, ends with `t`, joins consecutive vertices by edges of the graph,
and the least weights of the edges between its consecutive vertices add up to
`dist[t]`. -/
theorem dijkstra_path_reconstruction (v : Nat) (labels : List String)
    (es : List (Nat × Nat × Int)) (hv : ValidEdges v es)
    (hw : ∀ e ∈ es, 0 ≤ e.2.2 ∧ e.2.2 ≤ INF) (s t : Nat) (hs : s < v) (ht : t < v) :
    ∃ N, ∀ fuel, N ≤ fuel → ∃ dist parent,
      Dijkstra (Graph.build v labels es) s fuel = some (dist, parent) ∧
      (dist.getD t 0 ≠ INF → ∃ path M,
        (∀ pf, M ≤ pf → printPath parent pf (t : Int) = some path) ∧
        path.head? = some s ∧ path.getLast? = some t ∧
        List.Chain' (Graph.build v labels es).Joined path ∧
        (Graph.build v labels es).pathCost path = some (dist.getD t 0)) := by
  have hwf := build_wf v labels es hv
  have hV := build_V v labels es
  have hwi := build_weightsIn v labels es hv 0 INF hw
  have hsV : s < (Graph.build v labels es).V := by rw [hV]; exact hs
  have htV : t < (Graph.build v labels es).V := by rw [hV]; exact ht
  obtain ⟨N, hN⟩ := dijkstra_runs _ s hwf hwi hsV
  refine ⟨N, ?_⟩
  intro fuel hf
  obtain ⟨st, hrun, hinv, hq⟩ := hN fuel hf
  refine ⟨st.dist, st.parent, by simp [Dijkstra, hrun], ?_⟩
  intro hne
  have hfin : st.dist.getD t 0 < INF :=
    lt_of_le_of_ne (hinv.core.bounds t htV).2 hne
  obtain ⟨l, M, h1, h2, h3, h4⟩ :=
    printPath_final _ s hwi st hinv hq t (hinv.core.chain t htV hfin) htV hfin
  exact ⟨l ++ [t], M, h1, h2, List.getLast?_concat l, h3, h4⟩

theorem dijkstra_path_reconstruction_witness :
    ∃ N, ∀ fuel, N ≤ fuel → ∃ dist parent,
      Dijkstra graph1 0 fuel = some (dist, parent) ∧
      (dist.getD 7 0 ≠ INF → ∃ path M,
        (∀ pf, M ≤ pf → printPath parent pf ((7 : Nat) : Int) = some path) ∧
        path.head? = some 0 ∧ path.getLast? = some 7 ∧
        List.Chain' graph1.Joined path ∧
        graph1.pathCost path = some (dist.getD 7 0)) :=
  dijkstra_path_reconstruction 8 ["A", "B", "C", "D", "E", "F", "G", "H"]
    [(0, 1, 4), (0, 3, 6), (0, 6, 7), (1, 2, 12), (1, 4, 9), (2, 4, 1), (2, 5, 2),
     (2, 7, 10), (3, 4, 13), (3, 6, 2), (4, 5, 5), (4, 6, 14), (4, 7, 8), (5, 7, 3)]
    (by unfold ValidEdges; decide) (by decide) 0 7 (by decide) (by decide)

/-- C2, counterexample. On the path A-B-C with weights 1 and 2147483647 (both
non-negative `int` values) the 32-bit sum `dist[B] + 2147483647` wraps around:
`Dijkstra` from A ends with `dist[B] = -1`, a finite distance, while
`parent[B] = C` and `parent[C] = B`, so `printPath` for B never arrives at `-1`. -/
theorem dijkstra_path_reconstruction_counterexample :
    (∀ e ∈ [((0 : Nat), (1 : Nat), (1 : Int)), (1, 2, 2147483647)], 0 ≤ e.2.2) ∧
    Dijkstra (Graph.build 3 ["A", "B", "C"] [(0, 1, 1), (1, 2, 2147483647)]) 0 10
      = some ([0, -1, -2147483648], [-1, 2, 1]) ∧
    (([0, -1, -2147483648] : List Int).getD 1 0 ≠ INF) ∧
    ∀ pf, printPath [-1, 2, 1] pf 1 = none := by
  refine ⟨by decide, by decide, by decide, ?_⟩
  have key : ∀ pf, printPath [-1, 2, 1] pf 1 = none ∧ printPath [-1, 2, 1] pf 2 = none := by
    intro pf
    induction pf with
    | zero => constructor <;> (unfold printPath; simp)
    | succ n ih =>
      constructor
      · unfold printPath
        have : (List.getD [-1, 2, 1] (Int.toNat 1) (0 : Int)) = 2 := by decide
        simp [this, ih.2]
      · unfold printPath
        have : (List.getD [-1, 2, 1] (Int.toNat 2) (0 : Int)) = 1 := by decide
        simp [this, ih.1]
  exact fun pf => (key pf).1

/-! ## Dijkstra: unreachable vertices -/

/-- C3 (as amended). For a graph built by `addEdge` from valid edges with weights in
`[0, INF]`, with enough fuel `Dijkstra` returns, `dist[t] == INF` exactly when every
walk from the start to `t` weighs at least `INF`; and when the weights add up to
less than `INF`, `dist[t] == INF` exactly when `t` cannot be reached from the start. -/
theorem dijkstra_unreachable_iff (v : Nat) (labels : List String)
    (es : List (Nat × Nat × Int)) (hv : ValidEdges v es)
    (hw : ∀ e ∈ es, 0 ≤ e.2.2 ∧ e.2.2 ≤ INF) (s t : Nat) (hs : s < v) (ht : t < v) :
    ∃ N, ∀ fuel, N ≤ fuel → ∃ dist parent,
      Dijkstra (Graph.build v labels es) s fuel = some (dist, parent) ∧
      (dist.getD t 0 = INF ↔
        ∀ p, (Graph.build v labels es).IsWalk s p t → INF ≤ walkWeight p) ∧
      ((es.map (fun e => e.2.2)).sum < INF →
        (dist.getD t 0 = INF ↔ ¬ (Graph.build v labels es).Reachable s t)) := by
  have hwf := build_wf v labels es hv
  have hV := build_V v labels es
  have hwi := build_weightsIn v labels es hv 0 INF hw
  have hw0 : ∀ u e, e ∈ (Graph.build v labels es).nbrs u → 0 ≤ e.weight :=
    fun u e he => (hwi u e he).1
  have hsV : s < (Graph.build v labels es).V := by rw [hV]; exact hs
  have htV : t < (Graph.build v labels es).V := by rw [hV]; exact ht
  obtain ⟨N, hN⟩ := dijkstra_runs _ s hwf hwi hsV
  refine ⟨N, ?_⟩
  intro fuel hf
  obtain ⟨st, hrun, hinv, hq⟩ := hN fuel hf
  have hlow := dijkstra_final_lower _ s hwf hw0 hsV st hinv hq
  have hfirst : st.dist.getD t 0 = INF ↔
      ∀ p, (Graph.build v labels es).IsWalk s p t → INF ≤ walkWeight p := by
    constructor
    · intro h p hp; rw [← h]; exact hlow p t hp
    · intro h
      by_contra hne
      have hfin : st.dist.getD t 0 < INF :=
        lt_of_le_of_ne (hinv.core.bounds t htV).2 hne
      obtain ⟨p, hp1, hp2⟩ := hinv.core.sound t htV hfin
      have := h p hp1
      omega
  refine ⟨st.dist, st.parent, by simp [Dijkstra, hrun], hfirst, ?_⟩
  intro htot
  rw [hfirst]
  constructor
  · rintro h ⟨p, hp⟩
    obtain ⟨q, hq1, hq2, _⟩ := walk_to_simple _ hw0 t p s hp
    have h2 := simple_path_le_stored _ hwf hw0 (build_symm v labels es hv) s t hsV q hq1 hq2
    rw [hV, build_stored_weight v labels es hv] at h2
    have := h q hq1
    omega
  · intro h p hp
    exact absurd ⟨p, hp⟩ h

theorem dijkstra_unreachable_iff_witness :
    ∃ N, ∀ fuel, N ≤ fuel → ∃ dist parent,
      Dijkstra (Graph.build 3 ["A", "B", "C"] [(0, 1, 5)]) 0 fuel = some (dist, parent) ∧
      (dist.getD 2 0 = INF ↔
        ∀ p, (Graph.build 3 ["A", "B", "C"] [(0, 1, 5)]).IsWalk 0 p 2 → INF ≤ walkWeight p) ∧
      (([((0 : Nat), (1 : Nat), (5 : Int))].map (fun e => e.2.2)).sum < INF →
        (dist.getD 2 0 = INF ↔ ¬ (Graph.build 3 ["A", "B", "C"] [(0, 1, 5)]).Reachable 0 2)) :=
  dijkstra_unreachable_iff 3 ["A", "B", "C"] [(0, 1, 5)]
    (by unfold ValidEdges; decide) (by decide) 0 2 (by decide) (by decide)

/-- C3, counterexample. With the single edge A-B of weight `10^9` (a non-negative
`int`), `Dijkstra` from A leaves `dist[B] == INF` although B can be reached from A. -/
theorem dijkstra_unreachable_counterexample :
    (∀ e ∈ [((0 : Nat), (1 : Nat), (1000000000 : Int))], 0 ≤ e.2.2) ∧
    Dijkstra (Graph.build 2 ["A", "B"] [(0, 1, 1000000000)]) 0 10
      = some ([0, INF], [-1, -1]) ∧
    (Graph.build 2 ["A", "B"] [(0, 1, 1000000000)]).Reachable 0 1 :=
  ⟨by decide, by decide, ⟨[⟨1, 1000000000⟩], by decide⟩⟩

/-! ## Dijkstra on graph 1 of `main` -/

theorem dijkstraLoop_mono (g : Graph) : ∀ (f : Nat) (st r : DState),
    dijkstraLoop g f st = some r → ∀ f', f ≤ f' → dijkstraLoop g f' st = some r := by
  intro f
  induction f with
  | zero =>
    intro st r h f' _
    unfold dijkstraLoop at h ⊢
    cases htop : pqTop st.pq with
    | none => simpa [htop] using h
    | some m => simp [htop] at h
  | succ f ih =>
    intro st r h f' hf
    obtain ⟨f'', rfl⟩ : ∃ k, f' = k + 1 := ⟨f' - 1, by omega⟩
    unfold dijkstraLoop at h ⊢
    cases htop : pqTop st.pq with
    | none => simpa [htop] using h
    | some m =>
      obtain ⟨d, u⟩ := m
      simp only [htop] at h ⊢
      by_cases hstale : d > st.dist.getD u 0
      · rw [if_pos hstale] at h ⊢
        exact ih _ _ h f'' (by omega)
      · rw [if_neg hstale] at h ⊢
        exact ih _ _ h f'' (by omega)

theorem printPath_mono (parent : List Int) : ∀ (f : Nat) (u : Int) (l : List Nat),
    printPath parent f u = some l → ∀ f', f ≤ f' → printPath parent f' u = some l := by
  intro f
  induction f with
  | zero =>
    intro u l h f' _
    unfold printPath at h ⊢
    by_cases hu : u = -1
    · simpa [hu] using h
    · simp [hu] at h
  | succ f ih =>
    intro u l h f' hf
    obtain ⟨f'', rfl⟩ : ∃ k, f' = k + 1 := ⟨f' - 1, by omega⟩
    unfold printPath at h ⊢
    by_cases hu : u = -1
    · simpa [hu] using h
    · rw [if_neg hu] at h ⊢
      simp only at h ⊢
      cases hrec : printPath parent f (parent.getD u.toNat 0) with
      | none => rw [hrec] at h; exact absurd h (by simp)
      | some l0 =>
        rw [ih _ _ hrec f'' (by omega)]
        rw [hrec] at h
        exact h

/-- C4 (as amended). On graph 1 of `main`, `Dijkstra` from A reports the distance 19
to H, the reconstructed path is A, B, E, C, F, H, and no walk from A to H weighs
less than 19. -/
theorem dijkstra_graph1_A_to_H (fuel pf : Nat) (hf : 13 ≤ fuel) (hp : 6 ≤ pf) :
    ∃ dist parent, Dijkstra graph1 0 fuel = some (dist, parent) ∧
      dist.getD 7 0 = 19 ∧ printPath parent pf 7 = some [0, 1, 4, 2, 5, 7] ∧
      ∀ p, graph1.IsWalk 0 p 7 → 19 ≤ walkWeight p := by
  have hrun : dijkstraLoop graph1 13 (dijkstraInit graph1 0)
      = some ⟨[0, 4, 14, 6, 13, 16, 7, 19], [-1, 0, 4, 0, 1, 2, 0, 5], []⟩ := by decide
  have hrun2 := dijkstraLoop_mono graph1 13 _ _ hrun fuel hf
  have hes : ValidEdges 8 [(0, 1, 4), (0, 3, 6), (0, 6, 7), (1, 2, 12), (1, 4, 9),
      (2, 4, 1), (2, 5, 2), (2, 7, 10), (3, 4, 13), (3, 6, 2), (4, 5, 5), (4, 6, 14),
      (4, 7, 8), (5, 7, 3)] := by unfold ValidEdges; decide
  have hwf : graph1.WF := build_wf 8 _ _ hes
  have hwi : graph1.WeightsIn 0 INF := build_weightsIn 8 _ _ hes 0 INF (by decide)
  obtain ⟨N, hN⟩ := dijkstra_runs graph1 0 hwf hwi (by decide)
  obtain ⟨st, hst, hinv, hq⟩ := hN (max N fuel) (le_max_left _ _)
  have hst2 := dijkstraLoop_mono graph1 fuel _ _ hrun2 (max N fuel) (le_max_right _ _)
  rw [hst] at hst2
  simp only [Option.some.injEq] at hst2
  refine ⟨[0, 4, 14, 6, 13, 16, 7, 19], [-1, 0, 4, 0, 1, 2, 0, 5],
    by simp [Dijkstra, hrun2], by decide, ?_, ?_⟩
  · exact printPath_mono _ 6 7 _ (by decide) pf hp
  · intro p hp
    have := dijkstra_final_lower graph1 0 hwf (fun u e he => (hwi u e he).1) (by decide)
      st hinv hq p 7 hp
    rw [hst2] at this
    exact this

theorem dijkstra_graph1_A_to_H_witness :
    ∃ dist parent, Dijkstra graph1 0 13 = some (dist, parent) ∧
      dist.getD 7 0 = 19 ∧ printPath parent 6 7 = some [0, 1, 4, 2, 5, 7] ∧
      ∀ p, graph1.IsWalk 0 p 7 → 19 ≤ walkWeight p :=
  dijkstra_graph1_A_to_H 13 6 (by decide) (by decide)

/-- C4, counterexample. On graph 1 of `main`, `Dijkstra` from A does not report the
distance 11 to H, and the path it reconstructs does not begin A, G, D. -/
theorem dijkstra_graph1_A_to_H_counterexample :
    ∃ dist parent path, Dijkstra graph1 0 100 = some (dist, parent) ∧
      printPath parent 100 7 = some path ∧
      dist.getD 7 0 ≠ 11 ∧ path.take 3 ≠ [0, 6, 3] :=
  ⟨[0, 4, 14, 6, 13, 16, 7, 19], [-1, 0, 4, 0, 1, 2, 0, 5], [0, 1, 4, 2, 5, 7],
    by decide, by decide, by decide, by decide⟩

/-! ## Prim: the loop invariant -/

theorem pairLe_iff (a b : Int × Nat) :
    pairLe a b = true ↔ a.1 < b.1 ∨ (a.1 = b.1 ∧ a.2 ≤ b.2) := by
  simp [pairLe]

theorem pqMin_le (xs : List (Int × Nat)) : ∀ m : Int × Nat,
    pairLe (pqMin m xs) m = true ∧ ∀ x ∈ xs, pairLe (pqMin m xs) x = true := by
  induction xs with
  | nil => intro m; exact ⟨(pairLe_iff _ _).2 (Or.inr ⟨rfl, le_refl _⟩), by simp⟩
  | cons x xs ih =>
    intro m
    simp only [pqMin]
    by_cases h : pairLe m x = true
    · rw [if_pos h]
      obtain ⟨h1, h2⟩ := ih m
      refine ⟨h1, ?_⟩
      intro y hy
      rcases List.mem_cons.1 hy with rfl | hy
      · rw [pairLe_iff] at h h1 ⊢; omega
      · exact h2 y hy
    · rw [if_neg h]
      obtain ⟨h1, h2⟩ := ih x
      refine ⟨?_, ?_⟩
      · rw [pairLe_iff] at h h1 ⊢; omega
      · intro y hy
        rcases List.mem_cons.1 hy with rfl | hy
        · exact h1
        · exact h2 y hy

theorem pqTop_le {q : List (Int × Nat)} {m : Int × Nat} (h : pqTop q = some m) :
    ∀ x ∈ q, m.1 ≤ x.1 := by
  cases q with
  | nil => simp [pqTop] at h
  | cons a xs =>
    simp only [pqTop, Option.some.injEq] at h
    obtain ⟨h1, h2⟩ := pqMin_le xs a
    rw [h] at h1 h2
    intro x hx
    rcases List.mem_cons.1 hx with rfl | hx
    · have := (pairLe_iff _ _).1 h1; omega
    · have := (pairLe_iff _ _).1 (h2 x hx); omega

theorem wrap32_add_wrap32 (a b : Int) : wrap32 (wrap32 a + b) = wrap32 (a + b) := by
  unfold wrap32; omega

theorem treeVerts_snoc (s : Nat) (T : List (Nat × Nat × Int)) (t : Nat × Nat × Int) (x : Nat) :
    x ∈ treeVerts s (T ++ [t]) ↔ x ∈ treeVerts s T ∨ x = t.2.1 := by
  simp only [treeVerts, List.map_append, List.map_cons, List.map_nil, List.mem_cons,
    List.mem_append, List.mem_singleton, List.not_mem_nil, or_false]
  tauto

theorem treeWeight_snoc (T : List (Nat × Nat × Int)) (t : Nat × Nat × Int) :
    treeWeight (T ++ [t]) = treeWeight T + t.2.2 := by
  simp [treeWeight]

theorem prim_relax_step (g : Graph) (s u : Nat) (done : List Edge) (st : PState) (e : Edge)
    (hwf : g.WF) (hw : ∀ x e, e ∈ g.nbrs x → 0 ≤ e.weight)
    (h : PMid g s u done st) (he : e ∈ g.nbrs u) :
    PMid g s u (done ++ [e]) (primRelax u st e) ∧
      pMeasure (primRelax u st e) ≤ pMeasure st := by
  have hv : e.dst < g.V := hwf.dst_lt u e he
  have hw0 := hw u e he
  have hb := h.core.keyb e.dst hv
  unfold primRelax
  by_cases hc : ((!st.inMST.getD e.dst false) && decide (e.weight < st.key.getD e.dst 0)) = true
  · rw [if_pos hc]
    simp only [Bool.and_eq_true, Bool.not_eq_true', decide_eq_true_eq] at hc
    obtain ⟨hnot, hlt⟩ := hc
    have hvS : e.dst ∉ treeVerts s st.out := by
      intro hin
      have := (h.core.inS e.dst hv).2 hin
      rw [hnot] at this; exact absurd this (by simp)
    have hvl : e.dst < st.key.length := by rw [h.core.klen]; exact hv
    have hvl2 : e.dst < st.parent.length := by rw [h.core.plen]; exact hv
    have hkv : (st.key.set e.dst e.weight).getD e.dst 0 = e.weight := getD_set_eq _ _ _ _ hvl
    have hko : ∀ x, x ≠ e.dst → (st.key.set e.dst e.weight).getD x 0 = st.key.getD x 0 :=
      fun x hx => getD_set_ne _ _ _ _ _ (Ne.symm hx)
    have hle : ∀ x, (st.key.set e.dst e.weight).getD x 0 ≤ st.key.getD x 0 := by
      intro x
      by_cases hx : x = e.dst
      · rw [hx, hkv]; omega
      · rw [hko x hx]
    simp only [hkv]
    refine ⟨⟨⟨?_, ?_, h.core.mlen, h.core.grow, h.core.inS, h.core.total, ?_, ?_, ?_⟩,
      h.uin, ?_, ?_⟩, ?_⟩
    · simpa using h.core.klen
    · simpa using h.core.plen
    · intro x hx
      by_cases hxv : x = e.dst
      · simp only [hxv, hkv]; omega
      · simp only [hko x hxv]; exact h.core.keyb x hx
    · intro x hx hxS hfin
      by_cases hxv : x = e.dst
      · refine ⟨u, h.uin, ?_, ?_, ?_⟩
        · simp only [hxv]; exact getD_set_eq _ _ _ _ hvl2
        · simp only [hxv, hkv]; exact he
        · simp only [hxv, hkv]; exact List.mem_cons_self _ _
      · simp only [hko x hxv] at hfin ⊢
        obtain ⟨p, hp1, hp2, hp3, hp4⟩ := h.core.keyfin x hx hxS hfin
        refine ⟨p, hp1, ?_, hp3, List.mem_cons_of_mem _ hp4⟩
        rw [getD_set_ne _ _ _ _ _ (Ne.symm hxv)]; exact hp2
    · intro d x hmem
      simp only [List.mem_cons, Prod.mk.injEq] at hmem
      rcases hmem with ⟨hd, hx⟩ | hmem
      · subst hd; subst hx
        refine ⟨hv, by omega, Or.inr ?_⟩
        simp only [hkv]; exact le_refl _
      · obtain ⟨h1, h2, h3⟩ := h.core.pqe d x hmem
        refine ⟨h1, h2, ?_⟩
        rcases h3 with h3 | h3
        · exact Or.inl h3
        · exact Or.inr (le_trans (hle x) h3)
    · intro t e' ht htu he' hS
      exact le_trans (hle _) (h.cross t e' ht htu he' hS)
    · intro e' he' hS
      simp only [List.mem_append, List.mem_singleton] at he'
      rcases he' with he' | rfl
      · exact le_trans (hle _) (h.donee e' he' hS)
      · simp only [hkv]; exact le_refl _
    · unfold pMeasure
      simp only [List.length_cons]
      rw [sum_set_int _ _ _ hvl]
      push_cast
      omega
  · rw [if_neg hc]
    refine ⟨⟨h.core, h.uin, h.cross, ?_⟩, le_refl _⟩
    intro e' he' hS
    simp only [List.mem_append, List.mem_singleton] at he'
    rcases he' with he' | rfl
    · exact h.donee e' he' hS
    · simp only [Bool.and_eq_true, Bool.not_eq_true', decide_eq_true_eq, not_and, not_lt] at hc
      apply hc
      by_contra hne
      have : st.inMST.getD e'.dst false = true := by
        cases hval : st.inMST.getD e'.dst false with
        | true => rfl
        | false => exact absurd hval hne
      exact hS ((h.core.inS e'.dst hv).1 this)

theorem prim_relax_fold (g : Graph) (s u : Nat) (hwf : g.WF)
    (hw : ∀ x e, e ∈ g.nbrs x → 0 ≤ e.weight)
    (todo : List Edge) : ∀ (done : List Edge) (st : PState),
    (∀ e ∈ todo, e ∈ g.nbrs u) → PMid g s u done st →
    PMid g s u (done ++ todo) (todo.foldl (primRelax u) st) ∧
      pMeasure (todo.foldl (primRelax u) st) ≤ pMeasure st := by
  induction todo with
  | nil => intro done st _ h; simpa using h
  | cons e todo ih =>
    intro done st hsub h
    obtain ⟨h1, h2⟩ := prim_relax_step g s u done st e hwf hw h (hsub e (by simp))
    obtain ⟨h3, h4⟩ := ih (done ++ [e]) (primRelax u st e)
      (fun e' he' => hsub e' (by simp [he'])) h1
    simp only [List.foldl_cons]
    refine ⟨?_, le_trans h4 h2⟩
    simpa using h3

theorem prim_take (g : Graph) (s : Nat) (hwf : g.WF) (st : PState) (d : Int) (u : Nat)
    (h : PInv g s st) (htop : pqTop st.pq = some (d, u))
    (hnot : ¬ (st.inMST.getD u false = true)) :
    PMid g s u [] (primTake u { st with pq := st.pq.erase (d, u) }) ∧
      pMeasure (primTake u { st with pq := st.pq.erase (d, u) }) = pMeasure st - 1 := by
  have hmem := pqTop_mem htop
  obtain ⟨huV, hdInf, hor⟩ := h.core.pqe d u hmem
  have huS : u ∉ treeVerts s st.out := fun hin => hnot ((h.core.inS u huV).2 hin)
  have hkd : st.key.getD u 0 ≤ d := hor.resolve_left huS
  have hfin : st.key.getD u 0 < INF := lt_of_le_of_lt hkd hdInf
  obtain ⟨p, hpS, hpar, hedge, _⟩ := h.core.keyfin u huV huS hfin
  have hne : st.parent.getD u 0 ≠ -1 := by rw [hpar]; omega
  have hlen : ((st.pq.erase (d, u)).length : Int) = (st.pq.length : Int) - 1 := by
    rw [List.length_erase_of_mem hmem]
    have : 0 < st.pq.length := List.length_pos_of_mem hmem
    omega
  have hul : u < st.inMST.length := by rw [h.core.mlen]; exact huV
  unfold primTake
  simp only [ne_eq, hne, not_false_eq_true, if_true]
  rw [hpar]
  simp only [Int.toNat_ofNat]
  have hS' : ∀ x, x ∈ treeVerts s (st.out ++ [(p, u, st.key.getD u 0)]) ↔
      x ∈ treeVerts s st.out ∨ x = u := fun x => treeVerts_snoc s st.out _ x
  refine ⟨⟨⟨h.core.klen, h.core.plen, by simpa using h.core.mlen, ?_, ?_, ?_, h.core.keyb,
    ?_, ?_⟩, ?_, ?_, by simp⟩, ?_⟩
  · refine MinGrow.snoc h.core.grow hpS huS hedge ?_
    intro t e ht he hS
    have h1 := h.cross t e ht he hS
    have heV := hwf.dst_lt t e he
    by_cases hf : st.key.getD e.dst 0 < INF
    · obtain ⟨_, _, _, _, hq⟩ := h.core.keyfin e.dst heV hS hf
      have := pqTop_le htop _ hq
      simp only at this
      omega
    · omega
  · intro x hx
    rw [hS']
    by_cases hxu : x = u
    · subst hxu
      simp only [or_true, iff_true]
      exact getD_set_eq _ _ _ _ hul
    · rw [getD_set_ne _ _ _ _ _ (Ne.symm hxu), h.core.inS x hx]
      simp [hxu]
  · simp only
    rw [h.core.total, wrap32_add_wrap32, treeWeight_snoc]
  · intro x hx hxS hf
    rw [hS'] at hxS
    push_neg at hxS
    obtain ⟨p', hp1, hp2, hp3, hp4⟩ := h.core.keyfin x hx hxS.1 hf
    refine ⟨p', (hS' p').2 (Or.inl hp1), hp2, hp3, ?_⟩
    refine (List.mem_erase_of_ne ?_).2 hp4
    intro heq
    simp only [Prod.mk.injEq] at heq
    exact hxS.2 heq.2
  · intro d' x hm
    obtain ⟨h1, h2, h3⟩ := h.core.pqe d' x (List.mem_of_mem_erase hm)
    refine ⟨h1, h2, ?_⟩
    rcases h3 with h3 | h3
    · exact Or.inl ((hS' x).2 (Or.inl h3))
    · exact Or.inr h3
  · exact (hS' u).2 (Or.inr rfl)
  · intro t e ht htu he hS
    rw [hS'] at ht hS
    push_neg at hS
    exact h.cross t e (ht.resolve_right htu) he hS.1
  · unfold pMeasure
    simp only [hlen]
    ring

theorem pcore_pop (g : Graph) (s : Nat) (st : PState) (d : Int) (u : Nat) (h : PCore g s st)
    (hu : u ∈ treeVerts s st.out) : PCore g s { st with pq := st.pq.erase (d, u) } :=
  { klen := h.klen
    plen := h.plen
    mlen := h.mlen
    grow := h.grow
    inS := h.inS
    total := h.total
    keyb := h.keyb
    keyfin := by
      intro x hx hxS hf
      obtain ⟨p, hp1, hp2, hp3, hp4⟩ := h.keyfin x hx hxS hf
      refine ⟨p, hp1, hp2, hp3, (List.mem_erase_of_ne ?_).2 hp4⟩
      intro heq
      simp only [Prod.mk.injEq] at heq
      rw [heq.2] at hxS
      exact hxS hu
    pqe := fun d' x hm => h.pqe d' x (List.mem_of_mem_erase hm) }

theorem key_sum_nonneg (g : Graph) (s : Nat) (st : PState) (h : PCore g s st) :
    0 ≤ st.key.sum := by
  apply List.sum_nonneg
  intro a ha
  obtain ⟨i, hi, rfl⟩ := List.mem_iff_getElem.1 ha
  have := (h.keyb i (by rw [← h.klen]; exact hi)).1
  simpa [List.getD_eq_getElem?_getD, List.getElem?_eq_getElem hi] using this

theorem pmid_finish (g : Graph) (s u : Nat) (st : PState) (h : PMid g s u (g.nbrs u) st) :
    PInv g s st := by
  refine ⟨h.core, ?_⟩
  intro t e ht he hS
  by_cases htu : t = u
  · rw [htu] at he; exact h.donee e he hS
  · exact h.cross t e ht htu he hS

theorem primLoop_spec (g : Graph) (s : Nat) (hwf : g.WF)
    (hw : ∀ x e, e ∈ g.nbrs x → 0 ≤ e.weight) :
    ∀ (fuel : Nat) (st : PState), PInv g s st → pMeasure st < fuel →
      ∃ st', primLoop g fuel st = some st' ∧ PInv g s st' ∧ st'.pq = [] := by
  intro fuel
  induction fuel with
  | zero =>
    intro st h hm
    have h0 := key_sum_nonneg g s st h.core
    unfold pMeasure at hm
    have : (0 : Int) ≤ (st.pq.length : Int) := Int.natCast_nonneg _
    simp only [Nat.cast_zero] at hm
    omega
  | succ fuel ih =>
    intro st h hm
    unfold primLoop
    cases htop : pqTop st.pq with
    | none => exact ⟨st, rfl, h, pqTop_none htop⟩
    | some m =>
      obtain ⟨d, u⟩ := m
      have hmem := pqTop_mem htop
      obtain ⟨huV, _, _⟩ := h.core.pqe d u hmem
      simp only
      by_cases hin : st.inMST.getD u false = true
      · rw [if_pos hin]
        have huS := (h.core.inS u huV).1 hin
        apply ih
        · exact ⟨pcore_pop g s st d u h.core huS, h.cross⟩
        · have hlen : ((st.pq.erase (d, u)).length : Int) = (st.pq.length : Int) - 1 := by
            rw [List.length_erase_of_mem hmem]
            have : 0 < st.pq.length := List.length_pos_of_mem hmem
            omega
          unfold pMeasure at hm ⊢
          simp only [hlen]
          push_cast at hm
          omega
      · rw [if_neg hin]
        obtain ⟨hmid, hmeas⟩ := prim_take g s hwf st d u h htop hin
        obtain ⟨h1, h2⟩ := prim_relax_fold g s u hwf hw (g.nbrs u) [] _ (fun e he => he) hmid
        apply ih
        · exact pmid_finish g s u _ (by simpa using h1)
        · push_cast at hm
          omega

theorem prim_first (g : Graph) (s : Nat) (hs : s < g.V) :
    PMid g s s [] (primTake s { primInit g s with pq := [] }) := by
  have hd : ∀ x, x < g.V → x ≠ s → ((List.replicate g.V INF).set s 0).getD x 0 = INF := by
    intro x hx hxs
    rw [getD_set_ne _ _ _ _ _ (Ne.symm hxs), getD_replicate _ _ _ _ hx]
  have hds : ((List.replicate g.V INF).set s 0).getD s 0 = 0 :=
    getD_set_eq _ _ _ _ (by simpa using hs)
  have hp : (List.replicate g.V (-1 : Int)).getD s 0 = -1 := getD_replicate _ _ _ _ hs
  unfold primTake
  simp only [primInit, ne_eq, hp, not_true_eq_false, if_false]
  refine ⟨⟨by simp, by simp, by simp, MinGrow.nil, ?_, rfl, ?_, ?_, by simp⟩,
    by simp [treeVerts], ?_, by simp⟩
  · intro x hx
    simp only [treeVerts, List.map_nil, List.mem_singleton]
    by_cases hxs : x = s
    · subst hxs
      simp only [iff_true]
      exact getD_set_eq _ _ _ _ (by simpa using hx)
    · rw [getD_set_ne _ _ _ _ _ (Ne.symm hxs), getD_replicate _ _ _ _ hx]
      simp [hxs]
  · intro x hx
    by_cases hxs : x = s
    · rw [hxs, hds, INF_eq]; omega
    · rw [hd x hx hxs, INF_eq]; omega
  · intro x hx hxS hfin
    simp only [treeVerts, List.map_nil, List.mem_singleton] at hxS
    rw [hd x hx hxS] at hfin
    exact absurd hfin (lt_irrefl _)
  · intro t e ht htu
    simp only [treeVerts, List.map_nil, List.mem_singleton] at ht
    exact absurd ht htu

theorem prim_runs (g : Graph) (s : Nat) (hwf : g.WF)
    (hw : ∀ x e, e ∈ g.nbrs x → 0 ≤ e.weight) (hs : s < g.V) :
    ∃ N, ∀ fuel, N ≤ fuel → ∃ st, primLoop g fuel (primInit g s) = some st ∧
      PInv g s st ∧ st.pq = [] := by
  obtain ⟨h1, h2⟩ := prim_relax_fold g s s hwf hw (g.nbrs s) [] _ (fun e he => he)
    (prim_first g s hs)
  have hinv := pmid_finish g s s _ (by simpa using h1)
  refine ⟨(pMeasure (primTake s { primInit g s with pq := [] })).toNat + 2, ?_⟩
  intro fuel hf
  obtain ⟨f, rfl⟩ : ∃ f, fuel = f + 1 := ⟨fuel - 1, by omega⟩
  have hfirst : primLoop g (f + 1) (primInit g s) =
      primLoop g f ((g.nbrs s).foldl (primRelax s)
        (primTake s { primInit g s with pq := [] })) := by
    rw [primLoop]
    have htop : pqTop (primInit g s).pq = some (0, s) := rfl
    have hm : (List.replicate g.V false).getD s false = false := getD_replicate _ _ _ _ hs
    simp only [htop]
    simp [primInit, hm]
  rw [hfirst]
  apply primLoop_spec g s hwf hw f _ hinv
  have := Int.self_le_toNat (pMeasure (primTake s { primInit g s with pq := [] }))
  have h3 : ((pMeasure (primTake s { primInit g s with pq := [] })).toNat : Int) + 2
      ≤ ((f + 1 : Nat) : Int) := by exact_mod_cast hf
  push_cast at h3
  dsimp only at h2 h3 this ⊢
  omega

/-! ## Trees grown edge by edge -/

theorem mingrow_ends (g : Graph) (s : Nat) (T : List (Nat × Nat × Int)) (h : MinGrow g s T) :
    ∀ t ∈ T, t.1 ∈ treeVerts s T ∧ t.2.1 ∈ treeVerts s T := by
  induction h with
  | nil => simp
  | @snoc T p x k _ hp _ _ _ ih =>
    intro t ht
    simp only [List.mem_append, List.mem_singleton] at ht
    rcases ht with ht | rfl
    · obtain ⟨h1, h2⟩ := ih t ht
      exact ⟨(treeVerts_snoc s T _ _).2 (Or.inl h1), (treeVerts_snoc s T _ _).2 (Or.inl h2)⟩
    · exact ⟨(treeVerts_snoc s T _ _).2 (Or.inl hp), (treeVerts_snoc s T _ _).2 (Or.inr rfl)⟩

theorem mingrow_edges (g : Graph) (s : Nat) (T : List (Nat × Nat × Int)) (h : MinGrow g s T) :
    ∀ t ∈ T, (⟨t.2.1, t.2.2⟩ : Edge) ∈ g.nbrs t.1 := by
  induction h with
  | nil => simp
  | @snoc T p x k _ _ _ he _ ih =>
    intro t ht
    simp only [List.mem_append, List.mem_singleton] at ht
    rcases ht with ht | rfl
    · exact ih t ht
    · exact he

theorem mingrow_nodup (g : Graph) (s : Nat) (T : List (Nat × Nat × Int))
    (h : MinGrow g s T) : (treeVerts s T).Nodup := by
  induction h with
  | nil => simp [treeVerts]
  | @snoc T p x k _ _ hx _ _ ih =>
    have : treeVerts s (T ++ [(p, x, k)]) = treeVerts s T ++ [x] := by simp [treeVerts]
    rw [this]
    refine List.Nodup.append ih (by simp) ?_
    intro a ha hb
    simp only [List.mem_singleton] at hb
    rw [hb] at ha; exact hx ha

theorem eadj_mono {L L' : List (Nat × Nat × Int)} (h : ∀ t ∈ L, t ∈ L') {a b : Nat}
    (hab : EAdj L a b) : EAdj L' a b := by
  obtain ⟨w, hw | hw⟩ := hab
  · exact ⟨w, Or.inl (h _ hw)⟩
  · exact ⟨w, Or.inr (h _ hw)⟩

theorem conn_mono {L L' : List (Nat × Nat × Int)} (h : ∀ t ∈ L, t ∈ L') {a b : Nat}
    (hab : Conn L a b) : Conn L' a b :=
  Relation.ReflTransGen.mono (fun _ _ hxy => eadj_mono h hxy) hab

theorem eadj_symm {L : List (Nat × Nat × Int)} {a b : Nat} (h : EAdj L a b) : EAdj L b a := by
  obtain ⟨w, hw | hw⟩ := h
  · exact ⟨w, Or.inr hw⟩
  · exact ⟨w, Or.inl hw⟩

theorem conn_symm {L : List (Nat × Nat × Int)} {a b : Nat} (h : Conn L a b) : Conn L b a := by
  induction h with
  | refl => exact Relation.ReflTransGen.refl
  | tail _ hbc ih => exact Relation.ReflTransGen.head (eadj_symm hbc) ih

theorem mingrow_conn (g : Graph) (s : Nat) (T : List (Nat × Nat × Int)) (h : MinGrow g s T) :
    ∀ x ∈ treeVerts s T, Conn T s x := by
  induction h with
  | nil =>
    intro x hx
    simp only [treeVerts, List.map_nil, List.mem_singleton] at hx
    rw [hx]; exact Relation.ReflTransGen.refl
  | @snoc T p x k _ hp _ _ _ ih =>
    intro y hy
    have hsub : ∀ t ∈ T, t ∈ T ++ [(p, x, k)] := fun t ht => by simp [ht]
    rcases (treeVerts_snoc s T _ y).1 hy with hy | hy
    · exact conn_mono hsub (ih y hy)
    · simp only at hy
      rw [hy]
      exact Relation.ReflTransGen.tail (conn_mono hsub (ih p hp)) ⟨k, Or.inl (by simp)⟩

theorem reachable_step (g : Graph) (a b : Nat) (e : Edge) (h : g.Reachable a b)
    (he : e ∈ g.nbrs b) : g.Reachable a e.dst := by
  obtain ⟨p, hp⟩ := h
  exact ⟨p ++ [e], isWalk_snoc g a b p e hp he⟩

theorem mingrow_reach (g : Graph) (s : Nat) (T : List (Nat × Nat × Int)) (h : MinGrow g s T) :
    ∀ x ∈ treeVerts s T, g.Reachable s x := by
  induction h with
  | nil =>
    intro x hx
    simp only [treeVerts, List.map_nil, List.mem_singleton] at hx
    rw [hx]; exact ⟨[], rfl⟩
  | @snoc T p x k _ hp _ he _ ih =>
    intro y hy
    rcases (treeVerts_snoc s T _ y).1 hy with hy | hy
    · exact ih y hy
    · simp only at hy
      rw [hy]
      exact reachable_step g s p ⟨x, k⟩ (ih p hp) he

theorem stepOf_old (T : List (Nat × Nat × Int)) (t : Nat × Nat × Int) (st : Nat × Nat × Nat)
    (h : StepOf (T ++ [t]) st) (hne : st.1 ≠ T.length) : StepOf T st := by
  obtain ⟨k, hk⟩ := h
  have hlt : st.1 < T.length := by
    have : st.1 < (T ++ [t]).length := by
      rcases hk with hk | hk
      · exact (List.getElem?_eq_some_iff.1 hk).1
      · exact (List.getElem?_eq_some_iff.1 hk).1
    simp only [List.length_append, List.length_singleton] at this
    omega
  rw [List.getElem?_append_left hlt] at hk
  exact ⟨k, hk⟩

theorem stepOf_ends (g : Graph) (s : Nat) (T : List (Nat × Nat × Int)) (h : MinGrow g s T)
    (st : Nat × Nat × Nat) (hst : StepOf T st) :
    st.2.1 ∈ treeVerts s T ∧ st.2.2 ∈ treeVerts s T := by
  obtain ⟨k, hk | hk⟩ := hst
  · have := mingrow_ends g s T h _ (List.getElem?_mem hk)
    exact ⟨this.1, this.2⟩
  · have := mingrow_ends g s T h _ (List.getElem?_mem hk)
    exact ⟨this.2, this.1⟩

theorem stepOf_new (T : List (Nat × Nat × Int)) (p x : Nat) (k : Int) (st : Nat × Nat × Nat)
    (h : StepOf (T ++ [(p, x, k)]) st) (heq : st.1 = T.length) :
    (st.2.1 = p ∧ st.2.2 = x) ∨ (st.2.1 = x ∧ st.2.2 = p) := by
  obtain ⟨k', hk⟩ := h
  rw [heq] at hk
  simp only [List.getElem?_concat_length, Option.some.injEq, Prod.mk.injEq] at hk
  rcases hk with hk | hk
  · left; exact ⟨hk.1.symm, hk.2.1.symm⟩
  · right; exact ⟨hk.2.1.symm, hk.1.symm⟩

theorem mingrow_acyclic (g : Graph) (s : Nat) (T : List (Nat × Nat × Int))
    (h : MinGrow g s T) : Acyclic T := by
  induction h with
  | nil =>
    intro c hc
    cases c with
    | nil => exact hc.nonempty rfl
    | cons st c =>
      obtain ⟨k, hk⟩ := hc.steps st (by simp)
      simp at hk
  | @snoc T p x k hT hp hx _ _ ih =>
    intro c hc
    by_cases hall : ∀ st ∈ c, st.1 ≠ T.length
    · exact ih c ⟨hc.nonempty, fun st hst => stepOf_old T _ st (hc.steps st hst) (hall st hst),
        hc.linked, hc.distinct, hc.closed⟩
    · push_neg at hall
      obtain ⟨st0, hst0, hidx⟩ := hall
      obtain ⟨c1, c2, rfl⟩ := List.append_of_mem hst0
      have hpx : p ≠ x := fun heq => hx (heq ▸ hp)
      -- every other step runs along an edge of `T`, so it avoids `x`
      have hnd := hc.distinct
      simp only [List.map_append, List.map_cons] at hnd
      have hnd1 : ∀ st ∈ c1, st.1 ≠ T.length := by
        intro st hst heq
        have h1 : st.1 ∈ c1.map (fun st => st.1) := List.mem_map.2 ⟨st, hst, rfl⟩
        have h2 := (List.nodup_append.1 hnd).2.2
        exact h2 h1 (by rw [heq, ← hidx]; simp)
      have hnd2 : ∀ st ∈ c2, st.1 ≠ T.length := by
        intro st hst heq
        have h2 := (List.nodup_cons.1 (List.nodup_append.1 hnd).2.1).1
        apply h2
        rw [hidx, ← heq]
        exact List.mem_map.2 ⟨st, hst, rfl⟩
      have hav1 : ∀ st ∈ c1, st.2.1 ≠ x ∧ st.2.2 ≠ x := by
        intro st hst
        have h1 := stepOf_ends g s T hT st
          (stepOf_old T _ st (hc.steps st (by simp [hst])) (hnd1 st hst))
        exact ⟨fun heq => hx (heq ▸ h1.1), fun heq => hx (heq ▸ h1.2)⟩
      have hav2 : ∀ st ∈ c2, st.2.1 ≠ x ∧ st.2.2 ≠ x := by
        intro st hst
        have h1 := stepOf_ends g s T hT st
          (stepOf_old T _ st (hc.steps st (by simp [hst])) (hnd2 st hst))
        exact ⟨fun heq => hx (heq ▸ h1.1), fun heq => hx (heq ▸ h1.2)⟩
      have hlink := hc.linked
      have hclosed := hc.closed
      rcases stepOf_new T p x k st0 (hc.steps st0 hst0) hidx with ⟨ha, hb⟩ | ⟨ha, hb⟩
      · -- the step ends in `x`: what follows it starts in `x`
        cases c2 with
        | cons st1 rest =>
          have h1 := (List.chain'_split.1 hlink).2
          have h2 := (List.chain'_cons.1 h1).1
          exact (hav2 st1 (by simp)).1 (by rw [← h2, hb])
        | nil =>
          cases c1 with
          | nil =>
            have := hclosed st0 (by simp) st0 (by simp)
            rw [ha, hb] at this
            exact hpx this.symm
          | cons f rest =>
            have := hclosed f (by simp) st0 (List.getLast?_concat (f :: rest))
            exact (hav1 f (by simp)).1 (by rw [← this, hb])
      · -- the step starts in `x`: what precedes it ends in `x`
        rcases List.eq_nil_or_concat c1 with rfl | ⟨L, l1, rfl⟩
        · cases c2 with
          | nil =>
            have := hclosed st0 (by simp) st0 (by simp)
            rw [ha, hb] at this
            exact hpx this
          | cons st1 rest =>
            obtain ⟨lst, hlst⟩ : ∃ lst, (st1 :: rest).getLast? = some lst :=
              ⟨(st1 :: rest).getLast (by simp), List.getLast?_eq_getLast _ (by simp)⟩
            have hmem : lst ∈ st1 :: rest := List.mem_of_getLast?_eq_some hlst
            have hl : ([] ++ st0 :: st1 :: rest).getLast? = some lst := by
              simp only [List.nil_append]
              rw [List.getLast?_cons_cons]
              exact hlst
            have := hclosed st0 (by simp) lst hl
            exact (hav2 lst hmem).2 (by rw [this, ha])
        · have h1 : List.Chain' (fun x y : Nat × Nat × Nat => x.2.2 = y.2.1)
              (L ++ l1 :: (st0 :: c2)) := by simpa using hlink
          have h2 := (List.chain'_split.1 h1).2
          have h3 := (List.chain'_cons.1 h2).1
          exact (hav1 l1 (by simp)).2 (by rw [h3, ha])

/-! ## Prim: what the final state says -/

theorem prim_final_closed (g : Graph) (s : Nat) (hwf : g.WF)
    (hlt : ∀ x e, e ∈ g.nbrs x → e.weight < INF) (st : PState) (h : PInv g s st)
    (hq : st.pq = []) :
    ∀ t e, t ∈ treeVerts s st.out → e ∈ g.nbrs t → e.dst ∈ treeVerts s st.out := by
  intro t e ht he
  by_contra hS
  have h1 := h.cross t e ht he hS
  have heV := hwf.dst_lt t e he
  have h2 := hlt t e he
  have hfin : st.key.getD e.dst 0 < INF := by omega
  obtain ⟨_, _, _, _, hmem⟩ := h.core.keyfin e.dst heV hS hfin
  rw [hq] at hmem
  simp at hmem

theorem prim_final_covers (g : Graph) (s : Nat) (hwf : g.WF)
    (hlt : ∀ x e, e ∈ g.nbrs x → e.weight < INF) (st : PState) (h : PInv g s st)
    (hq : st.pq = []) (x : Nat) : g.Reachable s x ↔ x ∈ treeVerts s st.out := by
  constructor
  · rintro ⟨p, hp⟩
    induction p using List.reverseRecOn generalizing x with
    | nil =>
      simp only [Graph.IsWalk] at hp
      rw [← hp]; simp [treeVerts]
    | append_singleton p e ih =>
      obtain ⟨y, hy, he, hdst⟩ := (isWalk_snoc_iff g s x p e).1 hp
      rw [← hdst]
      exact prim_final_closed g s hwf hlt st h hq y e (ih y hy) he
  · exact mingrow_reach g s st.out h.core.grow x

theorem build_weights (v : Nat) (labels : List String) (es : List (Nat × Nat × Int))
    (hv : ValidEdges v es) (P : Int → Prop) (hw : ∀ e ∈ es, P e.2.2) :
    ∀ u e, e ∈ (Graph.build v labels es).nbrs u → P e.weight := by
  intro u e he
  obtain ⟨t, ht, h | h⟩ := (build_mem_nbrs v labels es hv u e).1 he
  · rw [h.2]; exact hw t ht
  · rw [h.2]; exact hw t ht

theorem treeVerts_iff_ends (g : Graph) (s : Nat) (T : List (Nat × Nat × Int))
    (h : MinGrow g s T) (x : Nat) :
    x ∈ treeVerts s T ↔ (x = s ∨ ∃ t ∈ T, t.1 = x ∨ t.2.1 = x) := by
  constructor
  · intro hx
    simp only [treeVerts, List.mem_cons, List.mem_map] at hx
    rcases hx with hx | ⟨t, ht, hx⟩
    · exact Or.inl hx
    · exact Or.inr ⟨t, ht, Or.inr hx⟩
  · rintro (hx | ⟨t, ht, hx | hx⟩)
    · rw [hx]; simp [treeVerts]
    · rw [← hx]; exact (mingrow_ends g s T h t ht).1
    · rw [← hx]; exact (mingrow_ends g s T h t ht).2

/-- C5 (as amended). Prim spans the component of the start. For a graph built by
`addEdge` from valid edges with weights in `[0, INF)` and a start `s`: with enough
fuel `Prim` returns; the number of printed edges is the number of vertices of the
component of `s` minus one; every printed `(parent[v], v, key[v])` is an edge of
the graph with that weight; the printed edges contain no cycle; the vertices of
the component are exactly `s` and the endpoints of the printed edges; and the
printed edges connect `s` to every vertex of the component. -/
theorem prim_spanning_tree (v : Nat) (labels : List String) (es : List (Nat × Nat × Int))
    (hv : ValidEdges v es) (hw : ∀ e ∈ es, 0 ≤ e.2.2 ∧ e.2.2 < INF) (s : Nat) (hs : s < v) :
    ∃ N, ∀ fuel, N ≤ fuel → ∃ T total,
      Prim (Graph.build v labels es) s fuel = some (T, total) ∧
      (∃ comp : Finset Nat, (∀ x, x ∈ comp ↔ (Graph.build v labels es).Reachable s x) ∧
        T.length + 1 = comp.card) ∧
      (∀ t ∈ T, (⟨t.2.1, t.2.2⟩ : Edge) ∈ (Graph.build v labels es).nbrs t.1) ∧
      Acyclic T ∧
      (∀ x, (Graph.build v labels es).Reachable s x ↔
        (x = s ∨ ∃ t ∈ T, t.1 = x ∨ t.2.1 = x)) ∧
      (∀ x, (Graph.build v labels es).Reachable s x → Conn T s x) := by
  have hwf := build_wf v labels es hv
  have hV := build_V v labels es
  have hw0 := build_weights v labels es hv (fun w => 0 ≤ w) (fun e he => (hw e he).1)
  have hw1 := build_weights v labels es hv (fun w => w < INF) (fun e he => (hw e he).2)
  have hsV : s < (Graph.build v labels es).V := by rw [hV]; exact hs
  obtain ⟨N, hN⟩ := prim_runs _ s hwf hw0 hsV
  refine ⟨N, ?_⟩
  intro fuel hf
  obtain ⟨st, hrun, hinv, hq⟩ := hN fuel hf
  have hcov := prim_final_covers _ s hwf hw1 st hinv hq
  have hgrow := hinv.core.grow
  refine ⟨st.out, st.totalWeight, by simp [Prim, hrun], ?_, mingrow_edges _ s _ hgrow,
    mingrow_acyclic _ s _ hgrow, ?_, ?_⟩
  · refine ⟨(treeVerts s st.out).toFinset, ?_, ?_⟩
    · intro x
      rw [List.mem_toFinset, hcov x]
    · rw [List.toFinset_card_of_nodup (mingrow_nodup _ s _ hgrow)]
      simp [treeVerts]
  · intro x
    rw [hcov x]
    exact treeVerts_iff_ends _ s _ hgrow x
  · intro x hx
    exact mingrow_conn _ s _ hgrow x ((hcov x).1 hx)

theorem prim_spanning_tree_witness :
    Prim graph1 0 100 =
      some ([(0, 1, 4), (0, 3, 6), (3, 6, 2), (1, 4, 9), (4, 2, 1), (2, 5, 2), (5, 7, 3)], 27) ∧
    ∃ N, ∀ fuel, N ≤ fuel → ∃ T total,
      Prim graph1 0 fuel = some (T, total) ∧
      (∃ comp : Finset Nat, (∀ x, x ∈ comp ↔ graph1.Reachable 0 x) ∧
        T.length + 1 = comp.card) ∧
      (∀ t ∈ T, (⟨t.2.1, t.2.2⟩ : Edge) ∈ graph1.nbrs t.1) ∧
      Acyclic T ∧
      (∀ x, graph1.Reachable 0 x ↔ (x = 0 ∨ ∃ t ∈ T, t.1 = x ∨ t.2.1 = x)) ∧
      (∀ x, graph1.Reachable 0 x → Conn T 0 x) :=
  ⟨by decide,
   prim_spanning_tree 8 ["A", "B", "C", "D", "E", "F", "G", "H"]
    [(0, 1, 4), (0, 3, 6), (0, 6, 7), (1, 2, 12), (1, 4, 9), (2, 4, 1), (2, 5, 2),
     (2, 7, 10), (3, 4, 13), (3, 6, 2), (4, 5, 5), (4, 6, 14), (4, 7, 8), (5, 7, 3)]
    (by unfold ValidEdges; decide) (by decide) 0 (by decide)⟩

/-- C5, counterexample. With the single edge A-B of weight `10^9` (a non-negative
`int`) `Prim` from A prints no edge, although the component of A has two vertices:
the test `e.weight < key[e.to]` against the initial `key = INF` never lets B in. -/
theorem prim_spanning_tree_counterexample :
    (∀ e ∈ [((0 : Nat), (1 : Nat), (1000000000 : Int))], 0 ≤ e.2.2) ∧
    Prim (Graph.build 2 ["A", "B"] [(0, 1, 1000000000)]) 0 10 = some ([], 0) ∧
    (Graph.build 2 ["A", "B"] [(0, 1, 1000000000)]).Reachable 0 1 :=
  ⟨by decide, by decide, ⟨[⟨1, 1000000000⟩], by decide⟩⟩

/-! ## Prim: minimality -/

theorem conn_lift {L L' : List (Nat × Nat × Int)}
    (h : ∀ c d, EAdj L c d → Conn L' c d) {a b : Nat} (hab : Conn L a b) : Conn L' a b := by
  induction hab with
  | refl => exact Relation.ReflTransGen.refl
  | tail _ hbc ih => exact Relation.ReflTransGen.trans ih (h _ _ hbc)

/-- On a connection from inside a vertex set to a vertex outside it there is a last
edge that leaves the set; after it the connection stays outside. -/
theorem last_crossing (L : List (Nat × Nat × Int)) (S : Nat → Prop) (v : Nat) (hv : ¬ S v)
    (x : Nat) (hx : Conn L x v) :
    (¬ S x ∧ Relation.ReflTransGen (fun y z => EAdj L y z ∧ ¬ S y ∧ ¬ S z) x v) ∨
    (∃ a b, S a ∧ ¬ S b ∧ EAdj L a b ∧
      Relation.ReflTransGen (fun y z => EAdj L y z ∧ ¬ S y ∧ ¬ S z) b v) := by
  refine Relation.ReflTransGen.head_induction_on hx ?_ ?_
  · exact Or.inl ⟨hv, Relation.ReflTransGen.refl⟩
  · intro x' y hxy _ ih
    rcases ih with ⟨hy, hout⟩ | hcross
    · by_cases hSx : S x'
      · exact Or.inr ⟨x', y, hSx, hy, hxy, hout⟩
      · exact Or.inl ⟨hSx, Relation.ReflTransGen.head ⟨hxy, hSx, hy⟩ hout⟩
    · exact Or.inr hcross

theorem treeWeight_erase (R : List (Nat × Nat × Int)) (f : Nat × Nat × Int) (hf : f ∈ R) :
    treeWeight (R.erase f) = treeWeight R - f.2.2 := by
  induction R with
  | nil => simp at hf
  | cons a R ih =>
    by_cases haf : a = f
    · subst haf
      simp [treeWeight]
    · have hf' : f ∈ R := by
        rcases List.mem_cons.1 hf with h | h
        · exact absurd h.symm haf
        · exact h
      rw [List.erase_cons_tail (by simpa using haf)]
      have := ih hf'
      simp only [treeWeight, List.map_cons, List.sum_cons] at this ⊢
      omega

theorem treeWeight_append (A B : List (Nat × Nat × Int)) :
    treeWeight (A ++ B) = treeWeight A + treeWeight B := by
  simp [treeWeight]

/-- The exchange step behind the minimality of Prim: each competitor that connects
the component can be rebuilt, without gaining weight, around the tree grown so far. -/
theorem mingrow_exchange (g : Graph) (s : Nat)
    (hsym : ∀ x y w, (⟨y, w⟩ : Edge) ∈ g.nbrs x → (⟨x, w⟩ : Edge) ∈ g.nbrs y)
    (T : List (Nat × Nat × Int)) (h : MinGrow g s T) (L : List (Nat × Nat × Int))
    (hL : ∀ t ∈ L, (⟨t.2.1, t.2.2⟩ : Edge) ∈ g.nbrs t.1)
    (hspan : ∀ x, g.Reachable s x → Conn L s x) :
    ∃ R, (∀ t ∈ R, (⟨t.2.1, t.2.2⟩ : Edge) ∈ g.nbrs t.1) ∧
      (∀ x, g.Reachable s x → Conn (T ++ R) s x) ∧
      treeWeight T + treeWeight R ≤ treeWeight L := by
  induction h with
  | nil => exact ⟨L, hL, by simpa using hspan, by simp [treeWeight]⟩
  | @snoc T p x k hT hp hx he hmin ih =>
    obtain ⟨R, hR1, hR2, hR3⟩ := ih
    have hreach : g.Reachable s x := reachable_step g s p ⟨x, k⟩ (mingrow_reach g s T hT p hp) he
    have hsS : s ∈ treeVerts s T := by simp [treeVerts]
    rcases last_crossing (T ++ R) (fun y => y ∈ treeVerts s T) x hx s (hR2 x hreach) with
      ⟨hns, _⟩ | ⟨a, b, ha, hb, hab, hout⟩
    · exact absurd hsS hns
    · -- the crossing edge `f`, a member of `R` that weighs at least `k`
      obtain ⟨f, hfmem, hfab, hfw⟩ : ∃ f : Nat × Nat × Int, f ∈ T ++ R ∧
          ((f.1 = a ∧ f.2.1 = b) ∨ (f.1 = b ∧ f.2.1 = a)) ∧ k ≤ f.2.2 := by
        obtain ⟨w, hw | hw⟩ := hab
        · refine ⟨(a, b, w), hw, Or.inl ⟨rfl, rfl⟩, ?_⟩
          have hedge : (⟨b, w⟩ : Edge) ∈ g.nbrs a := by
            rcases List.mem_append.1 hw with h1 | h1
            · exact mingrow_edges g s T hT _ h1
            · exact hR1 _ h1
          exact hmin a ⟨b, w⟩ ha hedge hb
        · refine ⟨(b, a, w), hw, Or.inr ⟨rfl, rfl⟩, ?_⟩
          have hedge : (⟨a, w⟩ : Edge) ∈ g.nbrs b := by
            rcases List.mem_append.1 hw with h1 | h1
            · exact mingrow_edges g s T hT _ h1
            · exact hR1 _ h1
          exact hmin a ⟨b, w⟩ ha (hsym b a w hedge) hb
      have hfR : f ∈ R := by
        rcases List.mem_append.1 hfmem with h1 | h1
        · have := mingrow_ends g s T hT f h1
          rcases hfab with ⟨_, h3⟩ | ⟨h2, _⟩
          · rw [h3] at this; exact absurd this.2 hb
          · rw [h2] at this; exact absurd this.1 hb
        · exact h1
      have hfa : f.1 = a ∨ f.2.1 = a := by
        rcases hfab with ⟨h2, _⟩ | ⟨_, h3⟩
        · exact Or.inl h2
        · exact Or.inr h3
      refine ⟨R.erase f, fun t ht => hR1 t (List.mem_of_mem_erase ht), ?_, ?_⟩
      · -- every edge used before is still connected afterwards
        have hT_in : ∀ t ∈ T, t ∈ T ++ [(p, x, k)] ++ R.erase f := fun t ht => by simp [ht]
        have hkeep : ∀ t ∈ T ++ R, t ≠ f → t ∈ T ++ [(p, x, k)] ++ R.erase f := by
          intro t ht hne
          rcases List.mem_append.1 ht with h1 | h1
          · exact hT_in t h1
          · exact List.mem_append.2 (Or.inr ((List.mem_erase_of_ne hne).2 h1))
        have hsa : Conn (T ++ [(p, x, k)] ++ R.erase f) s a :=
          conn_mono hT_in (mingrow_conn g s T hT a ha)
        have hsp : Conn (T ++ [(p, x, k)] ++ R.erase f) s p :=
          conn_mono hT_in (mingrow_conn g s T hT p hp)
        have hpx : Conn (T ++ [(p, x, k)] ++ R.erase f) p x :=
          Relation.ReflTransGen.single ⟨k, Or.inl (by simp)⟩
        have hbx : Conn (T ++ [(p, x, k)] ++ R.erase f) b x := by
          refine Relation.ReflTransGen.mono ?_ hout
          rintro y z ⟨⟨w, hyz⟩, hy, hz⟩
          have hne : ∀ t : Nat × Nat × Int, (t.1 = y ∧ t.2.1 = z) ∨ (t.1 = z ∧ t.2.1 = y) →
              t ≠ f := by
            intro t ht heq
            rw [heq] at ht
            rcases hfa with h1 | h1 <;> rcases ht with ⟨h2, h3⟩ | ⟨h2, h3⟩
            · exact hy (by rw [← h2, h1]; exact ha)
            · exact hz (by rw [← h2, h1]; exact ha)
            · exact hz (by rw [← h3, h1]; exact ha)
            · exact hy (by rw [← h3, h1]; exact ha)
          rcases hyz with hyz | hyz
          · exact ⟨w, Or.inl (hkeep _ hyz (hne _ (Or.inl ⟨rfl, rfl⟩)))⟩
          · exact ⟨w, Or.inr (hkeep _ hyz (hne _ (Or.inr ⟨rfl, rfl⟩)))⟩
        have hab' : Conn (T ++ [(p, x, k)] ++ R.erase f) a b :=
          Relation.ReflTransGen.trans (conn_symm hsa)
            (Relation.ReflTransGen.trans hsp
              (Relation.ReflTransGen.trans hpx (conn_symm hbx)))
        intro y hy
        refine conn_lift ?_ (hR2 y hy)
        rintro c d ⟨w, hcd⟩
        have hstep : ∀ t : Nat × Nat × Int, t ∈ T ++ R →
            ((t.1 = c ∧ t.2.1 = d) ∨ (t.1 = d ∧ t.2.1 = c)) →
            (t ≠ f → EAdj (T ++ [(p, x, k)] ++ R.erase f) c d) →
            Conn (T ++ [(p, x, k)] ++ R.erase f) c d := by
          intro t _ hends hadj
          by_cases htf : t = f
          · rw [htf] at hends
            rcases hfab with ⟨h1, h2⟩ | ⟨h1, h2⟩ <;> rcases hends with ⟨h3, h4⟩ | ⟨h3, h4⟩
            · rw [← h3, ← h4, h1, h2]; exact hab'
            · rw [← h3, ← h4, h1, h2]; exact conn_symm hab'
            · rw [← h3, ← h4, h1, h2]; exact conn_symm hab'
            · rw [← h3, ← h4, h1, h2]; exact hab'
          · exact Relation.ReflTransGen.single (hadj htf)
        rcases hcd with hcd | hcd
        · exact hstep _ hcd (Or.inl ⟨rfl, rfl⟩) (fun hne => ⟨w, Or.inl (hkeep _ hcd hne)⟩)
        · exact hstep _ hcd (Or.inr ⟨rfl, rfl⟩) (fun hne => ⟨w, Or.inr (hkeep _ hcd hne)⟩)
      · rw [treeWeight_append, treeWeight_erase R f hfR]
        simp only [treeWeight, List.map_cons, List.map_nil, List.sum_cons, List.sum_nil] at hR3 ⊢
        omega

theorem treeWeight_nonneg (g : Graph) (hw : ∀ x e, e ∈ g.nbrs x → 0 ≤ e.weight)
    (R : List (Nat × Nat × Int)) (hR : ∀ t ∈ R, (⟨t.2.1, t.2.2⟩ : Edge) ∈ g.nbrs t.1) :
    0 ≤ treeWeight R := by
  apply List.sum_nonneg
  intro a ha
  obtain ⟨t, ht, rfl⟩ := List.mem_map.1 ha
  exact hw t.1 _ (hR t ht)

theorem mingrow_minimal (g : Graph) (s : Nat)
    (hsym : ∀ x y w, (⟨y, w⟩ : Edge) ∈ g.nbrs x → (⟨x, w⟩ : Edge) ∈ g.nbrs y)
    (hw : ∀ x e, e ∈ g.nbrs x → 0 ≤ e.weight)
    (T : List (Nat × Nat × Int)) (h : MinGrow g s T) (L : List (Nat × Nat × Int))
    (hL : ∀ t ∈ L, (⟨t.2.1, t.2.2⟩ : Edge) ∈ g.nbrs t.1)
    (hspan : ∀ x, g.Reachable s x → Conn L s x) : treeWeight T ≤ treeWeight L := by
  obtain ⟨R, hR1, _, hR3⟩ := mingrow_exchange g s hsym T h L hL hspan
  have := treeWeight_nonneg g hw R hR1
  omega

theorem prim_final_tree (g : Graph) (s : Nat) (hwf : g.WF)
    (hlt : ∀ x e, e ∈ g.nbrs x → e.weight < INF) (st : PState) (h : PInv g s st)
    (hq : st.pq = []) : IsSpanningTree g s st.out :=
  { edges := mingrow_edges g s _ h.core.grow
    inside := fun t ht =>
      mingrow_reach g s _ h.core.grow t.1 (mingrow_ends g s _ h.core.grow t ht).1
    spans := fun x hx =>
      mingrow_conn g s _ h.core.grow x ((prim_final_covers g s hwf hlt st h hq x).1 hx)
    acyclic := mingrow_acyclic g s _ h.core.grow }

/-- C6 (as amended). Prim is minimal. For a graph built by `addEdge` from valid edges
with weights in `[0, INF)` and a start `s`: with enough fuel `Prim` returns, the
printed edges are a spanning tree of the component of `s` that weighs no more than
any other spanning tree of that component, the reported total is the 32-bit
reduction of that least weight, and it is that least weight itself when the least
weight is below `2^31`. -/
theorem prim_minimal (v : Nat) (labels : List String) (es : List (Nat × Nat × Int))
    (hv : ValidEdges v es) (hw : ∀ e ∈ es, 0 ≤ e.2.2 ∧ e.2.2 < INF) (s : Nat) (hs : s < v) :
    ∃ N, ∀ fuel, N ≤ fuel → ∃ T total,
      Prim (Graph.build v labels es) s fuel = some (T, total) ∧
      IsSpanningTree (Graph.build v labels es) s T ∧
      (∀ L, IsSpanningTree (Graph.build v labels es) s L → treeWeight T ≤ treeWeight L) ∧
      total = wrap32 (treeWeight T) ∧
      (treeWeight T < 2147483648 → total = treeWeight T) := by
  have hwf := build_wf v labels es hv
  have hV := build_V v labels es
  have hw0 := build_weights v labels es hv (fun w => 0 ≤ w) (fun e he => (hw e he).1)
  have hw1 := build_weights v labels es hv (fun w => w < INF) (fun e he => (hw e he).2)
  have hsV : s < (Graph.build v labels es).V := by rw [hV]; exact hs
  obtain ⟨N, hN⟩ := prim_runs _ s hwf hw0 hsV
  refine ⟨N, ?_⟩
  intro fuel hf
  obtain ⟨st, hrun, hinv, hq⟩ := hN fuel hf
  have htree := prim_final_tree _ s hwf hw1 st hinv hq
  refine ⟨st.out, st.totalWeight, by simp [Prim, hrun], htree, ?_, hinv.core.total, ?_⟩
  · intro L hL
    exact mingrow_minimal _ s (build_symm v labels es hv) hw0 _ hinv.core.grow L
      hL.edges hL.spans
  · intro hsmall
    rw [hinv.core.total]
    apply wrap32_of_range
    · have := treeWeight_nonneg _ hw0 st.out htree.edges
      omega
    · exact hsmall

theorem prim_minimal_witness :
    Prim graph1 0 100 =
      some ([(0, 1, 4), (0, 3, 6), (3, 6, 2), (1, 4, 9), (4, 2, 1), (2, 5, 2), (5, 7, 3)], 27) ∧
    ∃ N, ∀ fuel, N ≤ fuel → ∃ T total,
      Prim graph1 0 fuel = some (T, total) ∧
      IsSpanningTree graph1 0 T ∧
      (∀ L, IsSpanningTree graph1 0 L → treeWeight T ≤ treeWeight L) ∧
      total = wrap32 (treeWeight T) ∧
      (treeWeight T < 2147483648 → total = treeWeight T) :=
  ⟨by decide,
   prim_minimal 8 ["A", "B", "C", "D", "E", "F", "G", "H"]
    [(0, 1, 4), (0, 3, 6), (0, 6, 7), (1, 2, 12), (1, 4, 9), (2, 4, 1), (2, 5, 2),
     (2, 7, 10), (3, 4, 13), (3, 6, 2), (4, 5, 5), (4, 6, 14), (4, 7, 8), (5, 7, 3)]
    (by unfold ValidEdges; decide) (by decide) 0 (by decide)⟩

/-- C6, counterexample. On the path A-B-C-D with three edges of weight `999999999`
(all in `[0, 10^9)`), `Prim` from A prints the three edges, whose weights add up to
`2999999997`, and reports the total `-1294967299`: the 32-bit sum has wrapped. -/
theorem prim_minimal_counterexample :
    (∀ e ∈ [((0 : Nat), (1 : Nat), (999999999 : Int)), (1, 2, 999999999), (2, 3, 999999999)],
      0 ≤ e.2.2 ∧ e.2.2 < INF) ∧
    Prim (Graph.build 4 ["A", "B", "C", "D"]
        [(0, 1, 999999999), (1, 2, 999999999), (2, 3, 999999999)]) 0 10
      = some ([(0, 1, 999999999), (1, 2, 999999999), (2, 3, 999999999)], -1294967299) ∧
    treeWeight [(0, 1, 999999999), (1, 2, 999999999), (2, 3, 999999999)] = 2999999997 ∧
    ∀ L, IsSpanningTree (Graph.build 4 ["A", "B", "C", "D"]
        [(0, 1, 999999999), (1, 2, 999999999), (2, 3, 999999999)]) 0 L →
      treeWeight L ≠ -1294967299 := by
  refine ⟨by decide, by decide, by decide, ?_⟩
  intro L hL heq
  have hw0 := build_weights 4 ["A", "B", "C", "D"]
    [(0, 1, 999999999), (1, 2, 999999999), (2, 3, 999999999)]
    (by unfold ValidEdges; decide) (fun w => 0 ≤ w) (by decide)
  have := treeWeight_nonneg _ hw0 L hL.edges
  omega

/-! ## Prim: independence of the start vertex -/

theorem isWalk_append (g : Graph) (a b c : Nat) (p q : List Edge)
    (h1 : g.IsWalk a p b) (h2 : g.IsWalk b q c) : g.IsWalk a (p ++ q) c := by
  induction p generalizing a with
  | nil => simp only [Graph.IsWalk] at h1; subst h1; exact h2
  | cons e p ih => exact ⟨h1.1, ih _ h1.2⟩

theorem reachable_trans (g : Graph) (a b c : Nat) (h1 : g.Reachable a b)
    (h2 : g.Reachable b c) : g.Reachable a c := by
  obtain ⟨p, hp⟩ := h1
  obtain ⟨q, hq⟩ := h2
  exact ⟨p ++ q, isWalk_append g a b c p q hp hq⟩

theorem reachable_symm (g : Graph)
    (hsym : ∀ x y w, (⟨y, w⟩ : Edge) ∈ g.nbrs x → (⟨x, w⟩ : Edge) ∈ g.nbrs y)
    (a b : Nat) (h : g.Reachable a b) : g.Reachable b a := by
  obtain ⟨p, hp⟩ := h
  induction p generalizing a with
  | nil => simp only [Graph.IsWalk] at hp; subst hp; exact ⟨[], rfl⟩
  | cons e p ih =>
    have h1 := ih e.dst hp.2
    exact reachable_step g b e.dst ⟨a, e.weight⟩ h1 (hsym a e.dst e.weight hp.1)

theorem conn_of_spanning_other (g : Graph)
    (hsym : ∀ x y w, (⟨y, w⟩ : Edge) ∈ g.nbrs x → (⟨x, w⟩ : Edge) ∈ g.nbrs y)
    (s1 s2 : Nat) (hr : g.Reachable s1 s2) (L : List (Nat × Nat × Int))
    (hspan : ∀ x, g.Reachable s2 x → Conn L s2 x) :
    ∀ x, g.Reachable s1 x → Conn L s1 x := by
  intro x hx
  have h21 := reachable_symm g hsym s1 s2 hr
  exact Relation.ReflTransGen.trans (conn_symm (hspan s1 h21))
    (hspan x (reachable_trans g s2 s1 x h21 hx))

/-- C7 (as amended). For a graph built by `addEdge` from valid edges with weights in
`[0, INF)` and two vertices `s1`, `s2` of one connected component: with enough fuel
`Prim` returns from both and reports the same total. -/
theorem prim_start_independent (v : Nat) (labels : List String)
    (es : List (Nat × Nat × Int)) (hv : ValidEdges v es)
    (hw : ∀ e ∈ es, 0 ≤ e.2.2 ∧ e.2.2 < INF) (s1 s2 : Nat) (hs1 : s1 < v) (hs2 : s2 < v)
    (hr : (Graph.build v labels es).Reachable s1 s2) :
    ∃ N, ∀ f1 f2, N ≤ f1 → N ≤ f2 → ∃ T1 T2 total,
      Prim (Graph.build v labels es) s1 f1 = some (T1, total) ∧
      Prim (Graph.build v labels es) s2 f2 = some (T2, total) := by
  have hwf := build_wf v labels es hv
  have hV := build_V v labels es
  have hsym := build_symm v labels es hv
  have hw0 := build_weights v labels es hv (fun w => 0 ≤ w) (fun e he => (hw e he).1)
  have hw1 := build_weights v labels es hv (fun w => w < INF) (fun e he => (hw e he).2)
  obtain ⟨N1, hN1⟩ := prim_runs _ s1 hwf hw0 (by rw [hV]; exact hs1)
  obtain ⟨N2, hN2⟩ := prim_runs _ s2 hwf hw0 (by rw [hV]; exact hs2)
  refine ⟨max N1 N2, ?_⟩
  intro f1 f2 hf1 hf2
  obtain ⟨st1, hrun1, hinv1, hq1⟩ := hN1 f1 (le_trans (le_max_left _ _) hf1)
  obtain ⟨st2, hrun2, hinv2, hq2⟩ := hN2 f2 (le_trans (le_max_right _ _) hf2)
  have ht1 := prim_final_tree _ s1 hwf hw1 st1 hinv1 hq1
  have ht2 := prim_final_tree _ s2 hwf hw1 st2 hinv2 hq2
  have h12 : treeWeight st1.out ≤ treeWeight st2.out :=
    mingrow_minimal _ s1 hsym hw0 _ hinv1.core.grow _ ht2.edges
      (conn_of_spanning_other _ hsym s1 s2 hr _ ht2.spans)
  have h21 : treeWeight st2.out ≤ treeWeight st1.out :=
    mingrow_minimal _ s2 hsym hw0 _ hinv2.core.grow _ ht1.edges
      (conn_of_spanning_other _ hsym s2 s1 (reachable_symm _ hsym s1 s2 hr) _ ht1.spans)
  have heq : st1.totalWeight = st2.totalWeight := by
    rw [hinv1.core.total, hinv2.core.total, le_antisymm h12 h21]
  refine ⟨st1.out, st2.out, st1.totalWeight, by simp [Prim, hrun1], ?_⟩
  simp [Prim, hrun2, heq]

theorem prim_start_independent_witness :
    ∃ N, ∀ f1 f2, N ≤ f1 → N ≤ f2 → ∃ T1 T2 total,
      Prim graph1 0 f1 = some (T1, total) ∧ Prim graph1 7 f2 = some (T2, total) :=
  prim_start_independent 8 ["A", "B", "C", "D", "E", "F", "G", "H"]
    [(0, 1, 4), (0, 3, 6), (0, 6, 7), (1, 2, 12), (1, 4, 9), (2, 4, 1), (2, 5, 2),
     (2, 7, 10), (3, 4, 13), (3, 6, 2), (4, 5, 5), (4, 6, 14), (4, 7, 8), (5, 7, 3)]
    (by unfold ValidEdges; decide) (by decide) 0 7 (by decide) (by decide)
    ⟨[⟨1, 4⟩, ⟨4, 9⟩, ⟨7, 8⟩], by decide⟩

/-- C7, counterexample. On the path A-B-C with weights `1` and `10^9` (both
non-negative), `Prim` from A reports the total 1 and `Prim` from C reports 0,
although A and C lie in one connected component. -/
theorem prim_start_independent_counterexample :
    (∀ e ∈ [((0 : Nat), (1 : Nat), (1 : Int)), (1, 2, 1000000000)], 0 ≤ e.2.2) ∧
    (Graph.build 3 ["A", "B", "C"] [(0, 1, 1), (1, 2, 1000000000)]).Reachable 0 2 ∧
    Prim (Graph.build 3 ["A", "B", "C"] [(0, 1, 1), (1, 2, 1000000000)]) 0 10
      = some ([(0, 1, 1)], 1) ∧
    Prim (Graph.build 3 ["A", "B", "C"] [(0, 1, 1), (1, 2, 1000000000)]) 2 10
      = some ([], 0) :=
  ⟨by decide, ⟨[⟨1, 1⟩, ⟨2, 1000000000⟩], by decide⟩, by decide, by decide⟩

/-! ## Articulation points: fuel and the concrete scenarios -/

theorem apLoop_mono (call call' : Nat → Int → APState → Option APState)
    (hcall : ∀ v p st r, call v p st = some r → call' v p st = some r)
    (u : Nat) (parent : Int) (es : List Edge) :
    ∀ (children : Nat) (st : APState) (r : Nat × APState),
      apLoop call u parent es children st = some r →
      apLoop call' u parent es children st = some r := by
  induction es with
  | nil => intro children st r h; simpa [apLoop] using h
  | cons e rest ih =>
    intro children st r h
    unfold apLoop at h ⊢
    by_cases h1 : (e.dst : Int) = parent
    · rw [if_pos h1] at h ⊢; exact ih _ _ _ h
    · rw [if_neg h1] at h ⊢
      by_cases h2 : st.visited.getD e.dst false = true
      · rw [if_pos h2] at h ⊢; exact ih _ _ _ h
      · rw [if_neg h2] at h ⊢
        cases hc : call e.dst (u : Int) st with
        | none => rw [hc] at h; exact absurd h (by simp)
        | some st1 =>
          rw [hc] at h
          rw [hcall _ _ _ _ hc]
          exact ih _ _ _ h

theorem APUtil_mono (g : Graph) : ∀ (f : Nat) (u : Nat) (p : Int) (st r : APState),
    APUtil g f u p st = some r → ∀ f', f ≤ f' → APUtil g f' u p st = some r := by
  intro f
  induction f with
  | zero => intro u p st r h; simp [APUtil] at h
  | succ f ih =>
    intro u p st r h f' hf
    obtain ⟨f'', rfl⟩ : ∃ k, f' = k + 1 := ⟨f' - 1, by omega⟩
    unfold APUtil at h ⊢
    cases hl : apLoop (APUtil g f) u p (g.nbrs u) 0 (apEnter u st) with
    | none => rw [hl] at h; exact absurd h (by simp)
    | some res =>
      rw [hl] at h
      rw [apLoop_mono (APUtil g f) (APUtil g f'')
        (fun v p st r hr => ih v p st r hr f'' (by omega)) u p (g.nbrs u) 0 _ res hl]
      exact h

theorem findArticulationPoints_mono (g : Graph) (s f f' : Nat) (r : List Nat)
    (h : findArticulationPoints g s f = some r) (hf : f ≤ f') :
    findArticulationPoints g s f' = some r := by
  unfold findArticulationPoints apRun at h ⊢
  by_cases hv : (apInit g).visited.getD s false = true
  · rw [if_pos hv] at h ⊢; exact h
  · rw [if_neg hv] at h ⊢
    cases hr : APUtil g f s (-1) (apInit g) with
    | none => rw [hr] at h; exact absurd h (by simp)
    | some st =>
      rw [hr] at h
      rw [APUtil_mono g f s (-1) _ st hr f' hf]
      exact h

/-- C10. The concrete scenarios. From every start vertex and with any fuel of at
least 4, `findArticulationPoints` returns the empty set on the 4-vertex cycle
A-B-C-D-A and exactly {B, C} on the path graph A-B-C-D. -/
theorem ap_cycle_and_path (s : Fin 4) (fuel : Nat) (hf : 4 ≤ fuel) :
    findArticulationPoints cycle4 s.val fuel = some [] ∧
    findArticulationPoints path4 s.val fuel = some [1, 2] := by
  have base : ∀ s : Fin 4, findArticulationPoints cycle4 s.val 4 = some [] ∧
      findArticulationPoints path4 s.val 4 = some [1, 2] := by decide
  exact ⟨findArticulationPoints_mono _ _ 4 fuel _ (base s).1 hf,
    findArticulationPoints_mono _ _ 4 fuel _ (base s).2 hf⟩

theorem ap_cycle_and_path_witness :
    findArticulationPoints cycle4 2 4 = some [] ∧
    findArticulationPoints path4 2 4 = some [1, 2] :=
  ap_cycle_and_path 2 4 (by decide)

/-! ## Articulation points: connectivity lemmas -/

theorem mem_setInsert (x a : Nat) (l : List Nat) : a ∈ setInsert x l ↔ a = x ∨ a ∈ l := by
  induction l with
  | nil => simp [setInsert]
  | cons y ys ih =>
    simp only [setInsert]
    split
    · simp
    · split
      · rename_i h1 h2
        subst h2
        simp
      · simp only [List.mem_cons, ih]
        tauto

theorem setInsert_sorted (x : Nat) (l : List Nat) (h : l.Sorted (fun a b => a < b)) :
    (setInsert x l).Sorted (fun a b => a < b) := by
  induction l with
  | nil => simp [setInsert]
  | cons y ys ih =>
    simp only [setInsert]
    have hy := List.sorted_cons.1 h
    split
    · rename_i hxy
      refine List.sorted_cons.2 ⟨?_, h⟩
      intro b hb
      rcases List.mem_cons.1 hb with rfl | hb
      · exact hxy
      · exact lt_trans hxy (hy.1 b hb)
    · split
      · exact h
      · rename_i h1 h2
        refine List.sorted_cons.2 ⟨?_, ih hy.2⟩
        intro b hb
        rcases (mem_setInsert x b ys).1 hb with rfl | hb
        · omega
        · exact hy.1 b hb

theorem connIn_mono (g : Graph) {S S' : Nat → Prop} (h : ∀ x, S x → S' x) {a b : Nat}
    (hab : g.ConnIn S a b) : g.ConnIn S' a b :=
  Relation.ReflTransGen.mono (fun _ _ hxy => ⟨hxy.1, h _ hxy.2.1, h _ hxy.2.2⟩) hab

theorem connIn_symm (g : Graph) (hsym : ∀ a b, g.Joined a b → g.Joined b a)
    {S : Nat → Prop} {a b : Nat} (hab : g.ConnIn S a b) : g.ConnIn S b a := by
  induction hab with
  | refl => exact Relation.ReflTransGen.refl
  | tail _ hbc ih =>
    exact Relation.ReflTransGen.head ⟨hsym _ _ hbc.1, hbc.2.2, hbc.2.1⟩ ih

theorem connIn_trans (g : Graph) {S : Nat → Prop} {a b c : Nat} (hab : g.ConnIn S a b)
    (hbc : g.ConnIn S b c) : g.ConnIn S a c :=
  Relation.ReflTransGen.trans hab hbc

theorem connIn_step (g : Graph) {S : Nat → Prop} {a b : Nat} (hj : g.Joined a b) (ha : S a)
    (hb : S b) : g.ConnIn S a b :=
  Relation.ReflTransGen.single ⟨hj, ha, hb⟩

/-- A set that no edge leaves except into vertices outside `S` contains everything
connected inside `S` to one of its members. -/
theorem connIn_closed (g : Graph) {S D : Nat → Prop}
    (hcl : ∀ x y, D x → g.Joined x y → S y → D y) {a b : Nat} (ha : D a)
    (hab : g.ConnIn S a b) : D b := by
  induction hab with
  | refl => exact ha
  | tail _ hbc ih => exact hcl _ _ ih hbc.1 hbc.2.2

theorem connIn_reachable (g : Graph) {S : Nat → Prop} {a b : Nat} (hab : g.ConnIn S a b) :
    g.Reachable a b := by
  induction hab with
  | refl => exact ⟨[], rfl⟩
  | tail _ hbc ih =>
    obtain ⟨e, he, hd⟩ := hbc.1
    rw [← hd]
    exact reachable_step g a _ e ih he

theorem build_joined_symm (v : Nat) (labels : List String) (es : List (Nat × Nat × Int))
    (hv : ValidEdges v es) (a b : Nat) (h : (Graph.build v labels es).Joined a b) :
    (Graph.build v labels es).Joined b a := by
  obtain ⟨e, he, hd⟩ := h
  refine ⟨⟨a, e.weight⟩, build_symm v labels es hv a b e.weight ?_, rfl⟩
  rw [← hd]
  exact he

theorem count_false_set (l : List Bool) (i : Nat) (hi : i < l.length)
    (h : l.getD i false = false) : (l.set i true).count false + 1 = l.count false := by
  induction l generalizing i with
  | nil => simp at hi
  | cons a l ih =>
    cases i with
    | zero =>
      simp only [List.getD_cons_zero] at h
      subst h
      simp
    | succ i =>
      have hi' : i < l.length := by simpa using hi
      have h' : l.getD i false = false := by simpa using h
      have := ih i hi' h'
      cases a <;> simp [List.set, List.count_cons] <;> omega

/-! ## Articulation points: entering a call -/

theorem enter_vis (u : Nat) (st : APState) (hu : u < st.visited.length) (x : Nat) :
    (apEnter u st).vis x ↔ x = u ∨ st.vis x := by
  unfold APState.vis apEnter
  simp only
  by_cases hx : x = u
  · subst hx
    rw [getD_set_eq _ _ _ _ hu]
    simp
  · rw [getD_set_ne _ _ _ _ _ (Ne.symm hx)]
    constructor
    · intro h; exact Or.inr h
    · intro h; exact h.resolve_left hx

theorem enter_dsc_self (u : Nat) (st : APState) (hu : u < st.disc.length) :
    (apEnter u st).dsc u = st.time + 1 := by
  unfold APState.dsc apEnter
  exact getD_set_eq _ _ _ _ hu

theorem enter_dsc_ne (u : Nat) (st : APState) (x : Nat) (hx : x ≠ u) :
    (apEnter u st).dsc x = st.dsc x := by
  unfold APState.dsc apEnter
  exact getD_set_ne _ _ _ _ _ (Ne.symm hx)

theorem enter_lw_self (u : Nat) (st : APState) (hu : u < st.low.length) :
    (apEnter u st).lw u = st.time + 1 := by
  unfold APState.lw apEnter
  exact getD_set_eq _ _ _ _ hu

theorem enter_lw_ne (u : Nat) (st : APState) (x : Nat) (hx : x ≠ u) :
    (apEnter u st).lw x = st.lw x := by
  unfold APState.lw apEnter
  exact getD_set_ne _ _ _ _ _ (Ne.symm hx)

theorem actx_nonroot {g : Graph} {s : Nat} {st : APState} {stack : List Nat} {v : Nat}
    {parent : Int} (h : ACtx g s st stack v parent) (x : Nat) (hx : st.vis x) :
    ∃ (u : Nat) (rest : List Nat), parent = (u : Int) ∧ stack = u :: rest ∧ g.Joined u v := by
  rcases h with ⟨_, _, _, hnone⟩ | h
  · exact absurd hx (hnone x)
  · exact h

theorem ainv_enter (g : Graph) (s : Nat) (hsym : ∀ a b, g.Joined a b → g.Joined b a)
    (st : APState) (stack : List Nat) (v : Nat) (parent : Int)
    (h : APre g s st stack v parent) : AInv g s (apEnter v st) (v :: stack) := by
  have hvl : v < st.visited.length := by rw [h.inv.vlen]; exact h.vV
  have hv1 : ∀ x, (apEnter v st).vis x ↔ x = v ∨ st.vis x := enter_vis v st hvl
  have hmono : ∀ x, st.vis x → (apEnter v st).vis x := fun x hx => (hv1 x).2 (Or.inr hx)
  have hne : ∀ x, st.vis x → x ≠ v := fun x hx heq => h.nvis (heq ▸ hx)
  have hd : ∀ x, st.vis x → (apEnter v st).dsc x = st.dsc x :=
    fun x hx => enter_dsc_ne v st x (hne x hx)
  have hdv : (apEnter v st).dsc v = st.time + 1 :=
    enter_dsc_self v st (by rw [h.inv.dlen]; exact h.vV)
  refine ⟨by simpa [apEnter] using h.inv.vlen, by simpa [apEnter] using h.inv.dlen,
    by simpa [apEnter] using h.inv.llen, ?_, ?_, ?_, ?_, ?_, ?_, h.inv.sound, ?_,
    h.inv.apsorted⟩
  · intro a ha
    rcases List.mem_cons.1 ha with rfl | ha
    · exact (hv1 _).2 (Or.inl rfl)
    · exact hmono a (h.inv.stk a ha)
  · intro y hy hys e he
    have hyv : y ≠ v := fun heq => hys (by rw [heq]; exact List.mem_cons_self _ _)
    have hy0 : st.vis y := ((hv1 y).1 hy).resolve_left hyv
    exact hmono _ (h.inv.closed y hy0 (fun hin => hys (List.mem_cons_of_mem _ hin)) e he)
  · intro x hx
    rcases (hv1 x).1 hx with rfl | hx0
    · rw [hdv]; exact le_refl _
    · rw [hd x hx0]
      have := h.inv.dtime x hx0
      show st.dsc x ≤ st.time + 1
      omega
  · refine List.pairwise_cons.2 ⟨?_, ?_⟩
    · intro a ha
      have ha0 := h.inv.stk a ha
      rw [hd a ha0, hdv]
      have := h.inv.dtime a ha0
      omega
    · refine List.Pairwise.imp_of_mem ?_ h.inv.sorted
      intro a b ha hb hab
      rw [hd a (h.inv.stk a ha), hd b (h.inv.stk b hb)]
      exact hab
  · intro x hx
    rcases (hv1 x).1 hx with rfl | hx0
    · rcases h.ctx with ⟨_, _, hvs, _⟩ | ⟨p, rest, _, hstack, hj⟩
      · rw [hvs]; exact Relation.ReflTransGen.refl
      · have hp0 : st.vis p := h.inv.stk p (by rw [hstack]; exact List.mem_cons_self _ _)
        exact connIn_trans g (connIn_mono g hmono (h.inv.conn p hp0))
          (connIn_step g hj (hmono p hp0) hx)
    · exact connIn_mono g hmono (h.inv.conn x hx0)
  · intro x hx
    rcases (hv1 x).1 hx with rfl | hx0
    · rcases h.ctx with ⟨_, _, hvs, _⟩ | ⟨p, rest, _, hstack, _⟩
      · rw [← hvs]; exact hx
      · have hp0 : st.vis p := h.inv.stk p (by rw [hstack]; exact List.mem_cons_self _ _)
        exact hmono s (h.inv.root p hp0)
    · exact hmono s (h.inv.root x hx0)
  · intro y hy hys
    have hyv : y ≠ v := fun heq => hys (by rw [heq]; exact List.mem_cons_self _ _)
    have hy0 : st.vis y := ((hv1 y).1 hy).resolve_left hyv
    have hys0 : y ∉ stack := fun hin => hys (List.mem_cons_of_mem _ hin)
    rcases h.inv.complete y hy0 hys0 with hap | hgood
    · exact Or.inl hap
    · right
      obtain ⟨p, rest, _, hstack, hj⟩ := actx_nonroot h.ctx y hy0
      have hpin : p ∈ stack := by rw [hstack]; exact List.mem_cons_self _ _
      have hp0 : st.vis p := h.inv.stk p hpin
      have hpy : p ≠ y := fun heq => hys0 (heq ▸ hpin)
      have hS : ∀ x, st.vis x ∧ x ≠ y → (apEnter v st).vis x ∧ x ≠ y :=
        fun x hx => ⟨hmono x hx.1, hx.2⟩
      have key : ∀ a, (apEnter v st).vis a → a ≠ y →
          g.ConnIn (fun x => (apEnter v st).vis x ∧ x ≠ y) a p := by
        intro a ha hay
        rcases (hv1 a).1 ha with rfl | ha0
        · exact connIn_step g (hsym _ _ hj) ⟨ha, hay⟩ ⟨hmono p hp0, hpy⟩
        · exact connIn_mono g hS (hgood a p ha0 hp0 hay hpy)
      intro a b ha hb hay hby
      exact connIn_trans g (key a ha hay) (connIn_symm g hsym (key b hb hby))

theorem aloop_start (g : Graph) (s : Nat) (hsym : ∀ a b, g.Joined a b → g.Joined b a)
    (st : APState) (stack : List Nat) (v : Nat) (parent : Int)
    (h : APre g s st stack v parent) :
    ALoop g s st (apEnter v st) v parent stack [] 0 := by
  have hvl : v < st.visited.length := by rw [h.inv.vlen]; exact h.vV
  have hv1 : ∀ x, (apEnter v st).vis x ↔ x = v ∨ st.vis x := enter_vis v st hvl
  have hmono : ∀ x, st.vis x → (apEnter v st).vis x := fun x hx => (hv1 x).2 (Or.inr hx)
  have hne : ∀ x, st.vis x → x ≠ v := fun x hx heq => h.nvis (heq ▸ hx)
  have hnew : ∀ x, (apEnter v st).vis x → ¬ st.vis x → x = v :=
    fun x hx hx0 => ((hv1 x).1 hx).resolve_right hx0
  have hdv : (apEnter v st).dsc v = st.time + 1 :=
    enter_dsc_self v st (by rw [h.inv.dlen]; exact h.vV)
  have hlv : (apEnter v st).lw v = st.time + 1 :=
    enter_lw_self v st (by rw [h.inv.llen]; exact h.vV)
  refine
    { inv := ainv_enter g s hsym st stack v parent h
      uV := h.vV
      mono := hmono
      nvis0 := h.nvis
      visu := (hv1 v).2 (Or.inl rfl)
      du := hdv
      sub := ?_
      dsame := fun x hx => enter_dsc_ne v st x (hne x hx)
      lsame := fun x hx => enter_lw_ne v st x (hne x hx)
      dnew := ?_
      tm := le_refl _
      lowle := by rw [hdv, hlv]
      lowlb := fun x hx hx0 hxv => absurd (hnew x hx hx0) hxv
      lowdone := by simp
      lowwit := Or.inl (by rw [hdv, hlv])
      donevis := by simp
      apmono := fun a ha => ha
      unv := ?_
      comp := ?_
      rootc := ?_
      ctx := h.ctx
      vis0s := ?_ }
  · intro x hx hx0
    rw [hnew x hx hx0]
    exact Relation.ReflTransGen.refl
  · intro x hx hx0
    rw [hnew x hx hx0, hdv]
    omega
  · have hfalse : st.visited.getD v false = false := by
      have := h.nvis
      unfold APState.vis at this
      simpa using this
    have := count_false_set st.visited v hvl hfalse
    unfold APState.unv apEnter
    simp only
    omega
  · intro _
    right
    intro a b ha hb hav hbv
    have ha0 := ((hv1 a).1 ha).resolve_left hav
    have hb0 := ((hv1 b).1 hb).resolve_left hbv
    have hS : ∀ x, st.vis x → (apEnter v st).vis x ∧ x ≠ v := fun x hx => ⟨hmono x hx, hne x hx⟩
    exact connIn_trans g (connIn_symm g hsym (connIn_mono g hS (h.inv.conn a ha0)))
      (connIn_mono g hS (h.inv.conn b hb0))
  · intro hpar
    rcases h.ctx with ⟨_, _, _, hnone⟩ | ⟨p, _, hp, _, _⟩
    · refine ⟨?_, by omega, by omega, by omega⟩
      intro _ x hx
      rcases (hv1 x).1 hx with hxv | hx0
      · exact hxv
      · exact absurd hx0 (hnone x)
    · rw [hp] at hpar; omega
  · intro hpar
    rcases h.ctx with ⟨hp, _, _, _⟩ | ⟨p, rest, _, hstack, _⟩
    · exact absurd hp hpar
    · have hp0 : st.vis p := h.inv.stk p (by rw [hstack]; exact List.mem_cons_self _ _)
      have hs0 := h.inv.root p hp0
      exact ⟨hs0, fun heq => h.nvis (heq ▸ hs0)⟩

/-! ## Articulation points: the graph-theoretic steps -/

theorem joined_reachable (g : Graph) (s a b : Nat) (h : g.Reachable s a) (hj : g.Joined a b) :
    g.Reachable s b := by
  obtain ⟨e, he, hd⟩ := hj
  rw [← hd]
  exact reachable_step g s a e h he

/-- A child whose subtree has no back edge above `u` certifies that the non-root
vertex `u` is a cut vertex. -/
theorem cut_nonroot (g : Graph) (s : Nat) (hsym : ∀ a b, g.Joined a b → g.Joined b a)
    (st0 st st1 : APState) (u : Nat) (pu : Int) (stack : List Nat) (done : List Edge)
    (c : Nat) (v : Nat) (h : ALoop g s st0 st u pu stack done c)
    (hpost : APost g s st st1 (u :: stack) v (u : Int)) (hj : g.Joined u v)
    (hnv : ¬ st.vis v) (hpu : pu ≠ -1) (hlow : st.dsc u ≤ st1.lw v) : g.IsCut s u := by
  obtain ⟨hs0, hus⟩ := h.vis0s hpu
  have hsvis : st.vis s := h.mono s hs0
  have hru : g.Reachable s u := connIn_reachable g (h.inv.conn u h.visu)
  refine ⟨hru, v, s, joined_reachable g s u v hru hj, ⟨[], rfl⟩,
    fun heq => hnv (heq ▸ h.visu), Ne.symm hus, ?_⟩
  intro hconn
  have hcl : ∀ x y, (st1.vis x ∧ ¬ st.vis x) → g.Joined x y → y ≠ u →
      (st1.vis y ∧ ¬ st.vis y) := by
    intro x y hx hxy hyu
    have hxs : x ∉ u :: stack := fun hin => hx.2 (h.inv.stk x hin)
    obtain ⟨e, he, hd⟩ := hxy
    have hy1 : st1.vis y := by rw [← hd]; exact hpost.inv.closed x hx.1 hxs e he
    refine ⟨hy1, ?_⟩
    intro hy
    have hguard : x = v → (e.dst : Int) ≠ (u : Int) := by
      intro _ heq
      apply hyu
      rw [← hd]
      exact_mod_cast heq
    have h1 := hpost.lowlb x hx.1 hx.2 e he (by rw [hd]; exact hy) hguard
    rw [hd] at h1
    have hys : y ∈ u :: stack := by
      by_contra hns
      obtain ⟨e', he', hd'⟩ := hsym x y ⟨e, he, hd⟩
      have := h.inv.closed y hy hns e' he'
      rw [hd'] at this
      exact hx.2 this
    have hys' : y ∈ stack := by
      rcases List.mem_cons.1 hys with heq | hin
      · exact absurd heq hyu
      · exact hin
    have := (List.pairwise_cons.1 h.inv.sorted).1 y hys'
    omega
  have := connIn_closed g hcl ⟨hpost.visv, hnv⟩ hconn
  exact this.2 hsvis

/-- A second child certifies that the root is a cut vertex. -/
theorem cut_root (g : Graph) (s : Nat) (st0 st : APState) (u : Nat) (pu : Int)
    (stack : List Nat) (done : List Edge) (c : Nat) (v : Nat)
    (h : ALoop g s st0 st u pu stack done c) (hj : g.Joined u v) (hnv : ¬ st.vis v)
    (hpu : pu = -1) (hc : 1 ≤ c) : g.IsCut s u := by
  obtain ⟨x0, hx0, hx0u⟩ := (h.rootc hpu).2.2.1 hc
  have hstack : stack = [] := by
    rcases h.ctx with ⟨_, hst, _, _⟩ | ⟨p, _, hp, _, _⟩
    · exact hst
    · rw [hp] at hpu; omega
  have hru : g.Reachable s u := connIn_reachable g (h.inv.conn u h.visu)
  refine ⟨hru, x0, v, connIn_reachable g (h.inv.conn x0 hx0),
    joined_reachable g s u v hru hj, hx0u, fun heq => hnv (heq ▸ h.visu), ?_⟩
  intro hconn
  have hcl : ∀ x y, (st.vis x ∧ x ≠ u) → g.Joined x y → y ≠ u → (st.vis y ∧ y ≠ u) := by
    intro x y hx hxy hyu
    obtain ⟨e, he, hd⟩ := hxy
    have hxs : x ∉ u :: stack := by
      rw [hstack]
      simpa using hx.2
    have := h.inv.closed x hx.1 hxs e he
    rw [hd] at this
    exact ⟨this, hyu⟩
  exact hnv (connIn_closed g hcl ⟨hx0, hx0u⟩ hconn).1

/-- A child whose subtree has a back edge above the non-root vertex `u` keeps the
visited vertices connected without `u`. -/
theorem good_nonroot (g : Graph) (s : Nat) (hsym : ∀ a b, g.Joined a b → g.Joined b a)
    (st0 st st1 : APState) (u : Nat) (pu : Int) (stack : List Nat) (done : List Edge)
    (c : Nat) (v : Nat) (h : ALoop g s st0 st u pu stack done c)
    (hpost : APost g s st st1 (u :: stack) v (u : Int)) (hnv : ¬ st.vis v)
    (hpu : pu ≠ -1) (hgood : g.Good st.vis u) (hlow : st1.lw v < st.dsc u) :
    g.Good st1.vis u := by
  obtain ⟨hs0, hus⟩ := h.vis0s hpu
  have hsvis : st.vis s := h.mono s hs0
  have hD : ∀ z, (st1.vis z ∧ ¬ st.vis z) → (st1.vis z ∧ z ≠ u) :=
    fun z hz => ⟨hz.1, fun heq => hz.2 (heq ▸ h.visu)⟩
  have hW : ∀ z, (st.vis z ∧ z ≠ u) → (st1.vis z ∧ z ≠ u) :=
    fun z hz => ⟨hpost.mono z hz.1, hz.2⟩
  -- the back edge from the subtree of `v`
  obtain ⟨x, hx1, hx0, e, he, hy, hlw⟩ : ∃ x, st1.vis x ∧ ¬ st.vis x ∧
      ∃ e ∈ g.nbrs x, st.vis e.dst ∧ st1.lw v = st.dsc e.dst := by
    rcases hpost.lowwit with hw | hw
    · have h1 := hpost.dnew v hpost.visv hnv
      have h2 := h.inv.dtime u h.visu
      omega
    · exact hw
  have hyu : e.dst ≠ u := by
    intro heq
    rw [heq] at hlw
    omega
  have hvs : g.ConnIn (fun z => st1.vis z ∧ z ≠ u) v s :=
    connIn_trans g (connIn_mono g hD (hpost.sub x hx1 hx0))
      (connIn_trans g
        (connIn_step g ⟨e, he, rfl⟩ (hD x ⟨hx1, hx0⟩) ⟨hpost.mono _ hy, hyu⟩)
        (connIn_mono g hW (hgood e.dst s hy hsvis hyu (Ne.symm hus))))
  have key : ∀ a, st1.vis a → a ≠ u → g.ConnIn (fun z => st1.vis z ∧ z ≠ u) a s := by
    intro a ha hau
    by_cases ha0 : st.vis a
    · exact connIn_mono g hW (hgood a s ha0 hsvis hau (Ne.symm hus))
    · exact connIn_trans g (connIn_symm g hsym (connIn_mono g hD (hpost.sub a ha ha0))) hvs
  intro a b ha hb hau hbu
  exact connIn_trans g (key a ha hau) (connIn_symm g hsym (key b hb hbu))

/-- After its first child the root still leaves the visited vertices connected. -/
theorem good_root_first (g : Graph) (s : Nat) (hsym : ∀ a b, g.Joined a b → g.Joined b a)
    (st st1 : APState) (u : Nat) (stack : List Nat) (v : Nat)
    (hpost : APost g s st st1 (u :: stack) v (u : Int)) (hu : st.vis u)
    (honly : ∀ x, st.vis x → x = u) : g.Good st1.vis u := by
  have hD : ∀ z, (st1.vis z ∧ ¬ st.vis z) → (st1.vis z ∧ z ≠ u) :=
    fun z hz => ⟨hz.1, fun heq => hz.2 (heq ▸ hu)⟩
  have key : ∀ a, st1.vis a → a ≠ u → g.ConnIn (fun z => st1.vis z ∧ z ≠ u) v a := by
    intro a ha hau
    exact connIn_mono g hD (hpost.sub a ha (fun ha0 => hau (honly a ha0)))
  intro a b ha hb hau hbu
  exact connIn_trans g (connIn_symm g hsym (key a ha hau)) (key b hb hbu)

/-! ## Articulation points: the steps of the loop -/

theorem ainv_congr (g : Graph) (s : Nat) (st st' : APState) (stack : List Nat)
    (hv : st'.visited = st.visited) (hd : st'.disc = st.disc) (ht : st'.time = st.time)
    (ha : st'.ap = st.ap) (hl : st'.low.length = st.low.length) (h : AInv g s st stack) :
    AInv g s st' stack := by
  obtain ⟨v, d, l, t, a⟩ := st
  obtain ⟨v', d', l', t', a'⟩ := st'
  simp only at hv hd ht ha hl
  subst hv hd ht ha
  exact
    { vlen := h.vlen
      dlen := h.dlen
      llen := by rw [← h.llen]; exact hl
      stk := h.stk
      closed := h.closed
      dtime := h.dtime
      sorted := h.sorted
      conn := h.conn
      root := h.root
      sound := h.sound
      complete := h.complete
      apsorted := h.apsorted }

theorem ainv_insert (g : Graph) (s : Nat) (st : APState) (stack : List Nat) (u : Nat)
    (hcut : g.IsCut s u) (h : AInv g s st stack) :
    AInv g s { st with ap := setInsert u st.ap } stack :=
  { vlen := h.vlen
    dlen := h.dlen
    llen := h.llen
    stk := h.stk
    closed := h.closed
    dtime := h.dtime
    sorted := h.sorted
    conn := h.conn
    root := h.root
    sound := by
      intro a ha
      rcases (mem_setInsert u a st.ap).1 ha with rfl | ha
      · exact hcut
      · exact h.sound a ha
    complete := by
      intro a ha has
      rcases h.complete a ha has with h1 | h1
      · exact Or.inl ((mem_setInsert u a st.ap).2 (Or.inr h1))
      · exact Or.inr h1
    apsorted := setInsert_sorted u st.ap h.apsorted }

theorem aloop_done (g : Graph) (s : Nat) (st0 st : APState) (u : Nat) (pu : Int)
    (stack : List Nat) (done : List Edge) (c : Nat) (e : Edge)
    (h : ALoop g s st0 st u pu stack done c) (hvis : st.vis e.dst)
    (hlow : st0.vis e.dst → (e.dst : Int) ≠ pu → st.lw u ≤ st0.dsc e.dst) :
    ALoop g s st0 st u pu stack (done ++ [e]) c :=
  { h with
    lowdone := by
      intro e' he'
      rcases List.mem_append.1 he' with h1 | h1
      · exact h.lowdone e' h1
      · rw [List.mem_singleton.1 h1]; exact hlow
    donevis := by
      intro e' he'
      rcases List.mem_append.1 he' with h1 | h1
      · exact h.donevis e' h1
      · rw [List.mem_singleton.1 h1]; exact hvis }

theorem aloop_skip (g : Graph) (s : Nat) (st0 st : APState) (u : Nat) (pu : Int)
    (stack : List Nat) (done : List Edge) (c : Nat) (e : Edge)
    (h : ALoop g s st0 st u pu stack done c) (hpar : (e.dst : Int) = pu) :
    ALoop g s st0 st u pu stack (done ++ [e]) c := by
  refine aloop_done g s st0 st u pu stack done c e h ?_ (fun _ hne => absurd hpar hne)
  rcases h.ctx with ⟨hp, _, _, _⟩ | ⟨p, rest, hp, hstack, _⟩
  · rw [hp] at hpar; omega
  · have hep : e.dst = p := by
      rw [hp] at hpar
      exact_mod_cast hpar
    rw [hep]
    exact h.inv.stk p (by rw [hstack]; simp)

theorem aloop_visited (g : Graph) (s : Nat) (st0 st : APState) (u : Nat) (pu : Int)
    (stack : List Nat) (done : List Edge) (c : Nat) (e : Edge)
    (h : ALoop g s st0 st u pu stack done c) (he : e ∈ g.nbrs u) (hvis : st.vis e.dst) :
    ALoop g s st0
      { st with low := st.low.set u (min (st.low.getD u 0) (st.disc.getD e.dst 0)) }
      u pu stack (done ++ [e]) c := by
  have hul : u < st.low.length := by rw [h.inv.llen]; exact h.uV
  have hlwu : (st.low.set u (min (st.low.getD u 0) (st.disc.getD e.dst 0))).getD u 0
      = min (st.lw u) (st.dsc e.dst) := getD_set_eq _ _ _ _ hul
  have hlwo : ∀ x, x ≠ u →
      (st.low.set u (min (st.low.getD u 0) (st.disc.getD e.dst 0))).getD x 0 = st.lw x :=
    fun x hx => getD_set_ne _ _ _ _ _ (Ne.symm hx)
  have hm : min (st.lw u) (st.dsc e.dst) ≤ st.lw u := min_le_left _ _
  have hdu := h.du
  have hlowle := h.lowle
  refine
    { inv := ainv_congr g s st _ (u :: stack) rfl rfl rfl rfl (by simp) h.inv
      uV := h.uV
      mono := h.mono
      nvis0 := h.nvis0
      visu := h.visu
      du := h.du
      sub := h.sub
      dsame := h.dsame
      lsame := ?_
      dnew := h.dnew
      tm := h.tm
      lowle := ?_
      lowlb := ?_
      lowdone := ?_
      lowwit := ?_
      donevis := ?_
      apmono := h.apmono
      unv := h.unv
      comp := h.comp
      rootc := h.rootc
      ctx := h.ctx
      vis0s := h.vis0s }
  · intro x hx
    have hxu : x ≠ u := fun heq => h.nvis0 (heq ▸ hx)
    show (st.low.set u _).getD x 0 = st0.lw x
    rw [hlwo x hxu]
    exact h.lsame x hx
  · show (st.low.set u _).getD u 0 ≤ st.dsc u
    rw [hlwu]
    omega
  · intro x hx hx0 hxu e' he' hv0
    show (st.low.set u _).getD u 0 ≤ st0.dsc e'.dst
    rw [hlwu]
    exact le_trans hm (h.lowlb x hx hx0 hxu e' he' hv0)
  · intro e' he'
    show _ → _ → (st.low.set u _).getD u 0 ≤ st0.dsc e'.dst
    rw [hlwu]
    rcases List.mem_append.1 he' with h1 | h1
    · intro hv0 hne
      exact le_trans hm (h.lowdone e' h1 hv0 hne)
    · rw [List.mem_singleton.1 h1]
      intro hv0 _
      rw [← h.dsame e.dst hv0]
      exact min_le_right _ _
  · show (st.low.set u _).getD u 0 = st.dsc u ∨ ∃ x, st.vis x ∧ ¬ st0.vis x ∧
      ∃ e' ∈ g.nbrs x, st0.vis e'.dst ∧ (st.low.set u _).getD u 0 = st0.dsc e'.dst
    rw [hlwu]
    rcases le_total (st.lw u) (st.dsc e.dst) with hle | hle
    · rw [min_eq_left hle]
      exact h.lowwit
    · rw [min_eq_right hle]
      by_cases hv0 : st0.vis e.dst
      · exact Or.inr ⟨u, h.visu, h.nvis0, e, he, hv0, (h.dsame e.dst hv0)⟩
      · have := h.dnew e.dst hvis hv0
        left
        omega
  · intro e' he'
    rcases List.mem_append.1 he' with h1 | h1
    · exact h.donevis e' h1
    · rw [List.mem_singleton.1 h1]; exact hvis

theorem aloop_child (g : Graph) (s : Nat) (hsym : ∀ a b, g.Joined a b → g.Joined b a)
    (st0 st st1 st3 : APState) (u : Nat) (pu : Int) (stack : List Nat) (done : List Edge)
    (c : Nat) (e : Edge) (h : ALoop g s st0 st u pu stack done c) (he : e ∈ g.nbrs u)
    (hnv : ¬ st.vis e.dst) (hpost : APost g s st st1 (u :: stack) e.dst (u : Int))
    (hv : st3.visited = st1.visited) (hd : st3.disc = st1.disc) (ht : st3.time = st1.time)
    (hl : st3.low = st1.low.set u (min (st1.lw u) (st1.lw e.dst)))
    (hap : (pu ≠ -1 ∧ st1.dsc u ≤ st1.lw e.dst ∧ st3.ap = setInsert u st1.ap) ∨
      (¬ (pu ≠ -1 ∧ st1.dsc u ≤ st1.lw e.dst) ∧ st3.ap = st1.ap)) :
    ALoop g s st0 st3 u pu stack (done ++ [e]) (c + 1) := by
  obtain ⟨v3, d3, l3, t3, a3⟩ := st3
  simp only at hv hd ht hl hap
  subst hv hd ht hl
  have hj : g.Joined u e.dst := ⟨e, he, rfl⟩
  have hvu : e.dst ≠ u := fun heq => hnv (heq ▸ h.visu)
  have hul : u < st1.low.length := by rw [hpost.inv.llen]; exact h.uV
  have hlw1u : st1.lw u = st.lw u := hpost.lsame u h.visu
  have hd1u : st1.dsc u = st.dsc u := hpost.dsame u h.visu
  have hlwu : (st1.low.set u (min (st1.lw u) (st1.lw e.dst))).getD u 0
      = min (st1.lw u) (st1.lw e.dst) := getD_set_eq _ _ _ _ hul
  have hlwo : ∀ x, x ≠ u →
      (st1.low.set u (min (st1.lw u) (st1.lw e.dst))).getD x 0 = st1.lw x :=
    fun x hx => getD_set_ne _ _ _ _ _ (Ne.symm hx)
  have hm1 : min (st1.lw u) (st1.lw e.dst) ≤ st.lw u := by
    rw [← hlw1u]; exact min_le_left _ _
  have hm2 : min (st1.lw u) (st1.lw e.dst) ≤ st1.lw e.dst := min_le_right _ _
  have hdu := h.du
  have hlowle := h.lowle
  have hmono0 : ∀ x, st0.vis x → st1.vis x := fun x hx => hpost.mono x (h.mono x hx)
  have hinv3 : AInv g s ⟨st1.visited, st1.disc,
      st1.low.set u (min (st1.lw u) (st1.lw e.dst)), st1.time, a3⟩ (u :: stack) := by
    rcases hap with ⟨hpu, hlow, ha3⟩ | ⟨_, ha3⟩
    · have hcut := cut_nonroot g s hsym st0 st st1 u pu stack done c e.dst h hpost hj hnv hpu
        (by rw [← hd1u]; exact hlow)
      exact ainv_congr g s { st1 with ap := setInsert u st1.ap } _ (u :: stack) rfl rfl rfl
        ha3 (by simp) (ainv_insert g s st1 (u :: stack) u hcut hpost.inv)
    · exact ainv_congr g s st1 _ (u :: stack) rfl rfl rfl ha3 (by simp) hpost.inv
  have hap1 : ∀ a ∈ st1.ap, a ∈ a3 := by
    intro a ha
    rcases hap with ⟨_, _, ha3⟩ | ⟨_, ha3⟩
    · rw [ha3]; exact (mem_setInsert u a st1.ap).2 (Or.inr ha)
    · rw [ha3]; exact ha
  refine
    { inv := hinv3
      uV := h.uV
      mono := hmono0
      nvis0 := h.nvis0
      visu := hpost.mono u h.visu
      du := by show st1.dsc u = st0.time + 1; rw [hd1u]; exact h.du
      sub := ?_
      dsame := fun x hx => (hpost.dsame x (h.mono x hx)).trans (h.dsame x hx)
      lsame := ?_
      dnew := ?_
      tm := le_trans h.tm (le_trans (Nat.le_succ _) hpost.tm)
      lowle := ?_
      lowlb := ?_
      lowdone := ?_
      lowwit := ?_
      donevis := ?_
      apmono := fun a ha => hap1 a (hpost.apmono a (h.apmono a ha))
      unv := ?_
      comp := ?_
      rootc := ?_
      ctx := h.ctx
      vis0s := h.vis0s }
  · intro x hx hx0
    have hS1 : ∀ z, (st.vis z ∧ ¬ st0.vis z) → (st1.vis z ∧ ¬ st0.vis z) :=
      fun z hz => ⟨hpost.mono z hz.1, hz.2⟩
    have hS2 : ∀ z, (st1.vis z ∧ ¬ st.vis z) → (st1.vis z ∧ ¬ st0.vis z) :=
      fun z hz => ⟨hz.1, fun hz0 => hz.2 (h.mono z hz0)⟩
    by_cases hxs : st.vis x
    · exact connIn_mono g hS1 (h.sub x hxs hx0)
    · exact connIn_trans g
        (connIn_step g hj ⟨hpost.mono u h.visu, h.nvis0⟩
          (hS2 e.dst ⟨hpost.visv, hnv⟩))
        (connIn_mono g hS2 (hpost.sub x hx hxs))
  · intro x hx
    have hxu : x ≠ u := fun heq => h.nvis0 (heq ▸ hx)
    show (st1.low.set u _).getD x 0 = st0.lw x
    rw [hlwo x hxu, hpost.lsame x (h.mono x hx)]
    exact h.lsame x hx
  · intro x hx hx0
    show st0.time < st1.dsc x
    by_cases hxs : st.vis x
    · rw [hpost.dsame x hxs]; exact h.dnew x hxs hx0
    · have := hpost.dnew x hx hxs
      have := h.tm
      omega
  · show (st1.low.set u _).getD u 0 ≤ st1.dsc u
    rw [hlwu, hd1u]
    omega
  · intro x hx hx0 hxu e' he' hv0
    show (st1.low.set u _).getD u 0 ≤ st0.dsc e'.dst
    rw [hlwu]
    by_cases hxs : st.vis x
    · exact le_trans hm1 (h.lowlb x hxs hx0 hxu e' he' hv0)
    · have hguard : x = e.dst → (e'.dst : Int) ≠ (u : Int) := by
        intro _ heq
        have : e'.dst = u := by exact_mod_cast heq
        exact h.nvis0 (this ▸ hv0)
      have := hpost.lowlb x hx hxs e' he' (h.mono _ hv0) hguard
      rw [h.dsame _ hv0] at this
      exact le_trans hm2 this
  · intro e' he'
    show _ → _ → (st1.low.set u _).getD u 0 ≤ st0.dsc e'.dst
    rw [hlwu]
    rcases List.mem_append.1 he' with h1 | h1
    · intro hv0 hne
      exact le_trans hm1 (h.lowdone e' h1 hv0 hne)
    · rw [List.mem_singleton.1 h1]
      intro hv0 _
      exact absurd (h.mono _ hv0) hnv
  · show (st1.low.set u _).getD u 0 = st1.dsc u ∨ ∃ x, st1.vis x ∧ ¬ st0.vis x ∧
      ∃ e' ∈ g.nbrs x, st0.vis e'.dst ∧ (st1.low.set u _).getD u 0 = st0.dsc e'.dst
    rw [hlwu]
    rcases le_total (st1.lw u) (st1.lw e.dst) with hle | hle
    · rw [min_eq_left hle, hlw1u, hd1u]
      rcases h.lowwit with hw | ⟨x, hx, hx0, e', he', hv0, hw⟩
      · exact Or.inl hw
      · exact Or.inr ⟨x, hpost.mono x hx, hx0, e', he', hv0, hw⟩
    · rw [min_eq_right hle]
      by_cases hlt : st1.lw e.dst < st.dsc u
      · rcases hpost.lowwit with hw | ⟨x, hx, hxs, e', he', hvs, hw⟩
        · have h1 := hpost.dnew e.dst hpost.visv hnv
          have h2 := h.inv.dtime u h.visu
          omega
        · have hv0 : st0.vis e'.dst := by
            by_contra hv0
            have := h.dnew e'.dst hvs hv0
            omega
          exact Or.inr ⟨x, hx, fun hx0 => hxs (h.mono x hx0), e', he', hv0,
            by rw [hw, h.dsame _ hv0]⟩
      · left
        rw [hd1u]
        omega
  · intro e' he'
    rcases List.mem_append.1 he' with h1 | h1
    · exact hpost.mono _ (h.donevis e' h1)
    · rw [List.mem_singleton.1 h1]; exact hpost.visv
  · have h1 := hpost.unv
    have h2 := h.unv
    show st1.unv + 1 ≤ st0.unv
    omega
  · intro hpu
    rcases hap with ⟨_, _, ha3⟩ | ⟨hno, ha3⟩
    · left
      show u ∈ a3
      rw [ha3]
      exact (mem_setInsert u u st1.ap).2 (Or.inl rfl)
    · have hlt : st1.lw e.dst < st.dsc u := by
        rw [← hd1u]
        by_contra hge
        exact hno ⟨hpu, not_lt.1 hge⟩
      rcases h.comp hpu with hin | hgood
      · exact Or.inl (hap1 u (hpost.apmono u hin))
      · exact Or.inr
          (good_nonroot g s hsym st0 st st1 u pu stack done c e.dst h hpost hnv hpu hgood hlt)
  · intro hpu
    refine ⟨by omega, ?_, fun _ => ⟨e.dst, hpost.visv, hvu⟩, ?_⟩
    · intro hc
      have hc0 : c = 0 := by omega
      exact good_root_first g s hsym st st1 u stack e.dst hpost h.visu ((h.rootc hpu).1 hc0)
    · intro hc
      exact cut_root g s st0 st u pu stack done c e.dst h hj hnv hpu (by omega)

/-! ## Articulation points: the contract of `APUtil` -/

theorem ainv_pop (g : Graph) (s : Nat) (st : APState) (u : Nat) (stack : List Nat)
    (h : AInv g s st (u :: stack)) (hdone : ∀ e ∈ g.nbrs u, st.vis e.dst)
    (hcomp : u ∈ st.ap ∨ g.Good st.vis u) : AInv g s st stack :=
  { vlen := h.vlen
    dlen := h.dlen
    llen := h.llen
    stk := fun a ha => h.stk a (List.mem_cons_of_mem _ ha)
    closed := by
      intro y hy hys e he
      by_cases hyu : y = u
      · rw [hyu] at he; exact hdone e he
      · exact h.closed y hy (by simp [hyu, hys]) e he
    dtime := h.dtime
    sorted := (List.pairwise_cons.1 h.sorted).2
    conn := h.conn
    root := h.root
    sound := h.sound
    complete := by
      intro y hy hys
      by_cases hyu : y = u
      · rw [hyu]; exact hcomp
      · exact h.complete y hy (by simp [hyu, hys])
    apsorted := h.apsorted }

theorem aloop_finish (g : Graph) (s : Nat) (st0 st : APState) (u : Nat) (pu : Int)
    (stack : List Nat) (c : Nat) (h : ALoop g s st0 st u pu stack (g.nbrs u) c) :
    APost g s st0
      (if pu = -1 ∧ c > 1 then { st with ap := setInsert u st.ap } else st) stack u pu := by
  have hlowlb : ∀ x, st.vis x → ¬ st0.vis x → ∀ e ∈ g.nbrs x, st0.vis e.dst →
      (x = u → (e.dst : Int) ≠ pu) → st.lw u ≤ st0.dsc e.dst := by
    intro x hx hx0 e he hv0 hguard
    by_cases hxu : x = u
    · rw [hxu] at he
      exact h.lowdone e he hv0 (hguard hxu)
    · exact h.lowlb x hx hx0 hxu e he hv0
  by_cases hins : pu = -1 ∧ c > 1
  · rw [if_pos hins]
    have hcut := (h.rootc hins.1).2.2.2 (by omega)
    exact
      { inv := ainv_pop g s _ u stack (ainv_insert g s st (u :: stack) u hcut h.inv)
          h.donevis (Or.inl ((mem_setInsert u u st.ap).2 (Or.inl rfl)))
        mono := h.mono
        visv := h.visu
        sub := h.sub
        dsame := h.dsame
        lsame := h.lsame
        dnew := h.dnew
        tm := h.tm
        lowle := h.lowle
        lowlb := hlowlb
        lowwit := h.lowwit
        apmono := fun a ha => (mem_setInsert u a st.ap).2 (Or.inr (h.apmono a ha))
        unv := h.unv }
  · rw [if_neg hins]
    have hcomp : u ∈ st.ap ∨ g.Good st.vis u := by
      by_cases hpu : pu = -1
      · right
        have hc : c = 0 ∨ c = 1 := by
          have : ¬ c > 1 := fun hc => hins ⟨hpu, hc⟩
          omega
        rcases hc with hc | hc
        · intro a b ha _ hau _
          exact absurd ((h.rootc hpu).1 hc a ha) hau
        · exact (h.rootc hpu).2.1 hc
      · exact h.comp hpu
    exact
      { inv := ainv_pop g s st u stack h.inv h.donevis hcomp
        mono := h.mono
        visv := h.visu
        sub := h.sub
        dsame := h.dsame
        lsame := h.lsame
        dnew := h.dnew
        tm := h.tm
        lowle := h.lowle
        lowlb := hlowlb
        lowwit := h.lowwit
        apmono := h.apmono
        unv := h.unv }

theorem aploop_spec (g : Graph) (s : Nat) (hwf : g.WF)
    (hsym : ∀ a b, g.Joined a b → g.Joined b a) (fuel : Nat)
    (ih : ∀ (v : Nat) (parent : Int) (st : APState) (stack : List Nat),
      APre g s st stack v parent → st.unv ≤ fuel →
      ∃ st1, APUtil g fuel v parent st = some st1 ∧ APost g s st st1 stack v parent)
    (st0 : APState) (u : Nat) (pu : Int) (stack : List Nat) (hfuel : st0.unv ≤ fuel + 1)
    (rest : List Edge) : ∀ (done : List Edge) (c : Nat) (st : APState),
    done ++ rest = g.nbrs u → ALoop g s st0 st u pu stack done c →
    ∃ c' st', apLoop (APUtil g fuel) u pu rest c st = some (c', st') ∧
      ALoop g s st0 st' u pu stack (g.nbrs u) c' := by
  induction rest with
  | nil =>
    intro done c st hdone h
    rw [List.append_nil] at hdone
    rw [hdone] at h
    exact ⟨c, st, rfl, h⟩
  | cons e rest ihr =>
    intro done c st hdone h
    have he : e ∈ g.nbrs u := by rw [← hdone]; simp
    have hdone' : (done ++ [e]) ++ rest = g.nbrs u := by rw [← hdone]; simp
    unfold apLoop
    by_cases h1 : (e.dst : Int) = pu
    · rw [if_pos h1]
      exact ihr _ _ _ hdone' (aloop_skip g s st0 st u pu stack done c e h h1)
    · rw [if_neg h1]
      by_cases h2 : st.visited.getD e.dst false = true
      · rw [if_pos h2]
        exact ihr _ _ _ hdone' (aloop_visited g s st0 st u pu stack done c e h he h2)
      · rw [if_neg h2]
        have hpre : APre g s st (u :: stack) e.dst (u : Int) :=
          { inv := h.inv
            vV := hwf.dst_lt u e he
            nvis := h2
            ctx := Or.inr ⟨u, stack, rfl, rfl, ⟨e, he, rfl⟩⟩ }
        have hunv : st.unv ≤ fuel := by
          have := h.unv
          omega
        obtain ⟨st1, hcall, hpost⟩ := ih e.dst (u : Int) st (u :: stack) hpre hunv
        rw [hcall]
        simp only
        have hvu : e.dst ≠ u := fun heq => h2 (heq ▸ h.visu)
        have hlv : (st1.low.set u (min (st1.low.getD u 0) (st1.low.getD e.dst 0))).getD e.dst 0
            = st1.lw e.dst := getD_set_ne _ _ _ _ _ (Ne.symm hvu)
        rw [hlv]
        by_cases hcond : pu ≠ -1 ∧ st1.lw e.dst ≥ st1.disc.getD u 0
        · rw [if_pos hcond]
          exact ihr _ _ _ hdone'
            (aloop_child g s hsym st0 st st1 _ u pu stack done c e h he h2 hpost rfl rfl rfl rfl
              (Or.inl ⟨hcond.1, hcond.2, rfl⟩))
        · rw [if_neg hcond]
          exact ihr _ _ _ hdone'
            (aloop_child g s hsym st0 st st1 _ u pu stack done c e h he h2 hpost rfl rfl rfl rfl
              (Or.inr ⟨hcond, rfl⟩))

theorem unv_pos (st : APState) (v : Nat) (hv : v < st.visited.length) (hn : ¬ st.vis v) :
    1 ≤ st.unv := by
  have hfalse : st.visited.getD v false = false := by
    unfold APState.vis at hn
    simpa using hn
  have := count_false_set st.visited v hv hfalse
  unfold APState.unv
  omega

theorem aputil_spec (g : Graph) (s : Nat) (hwf : g.WF)
    (hsym : ∀ a b, g.Joined a b → g.Joined b a) :
    ∀ (fuel : Nat) (v : Nat) (parent : Int) (st : APState) (stack : List Nat),
      APre g s st stack v parent → st.unv ≤ fuel →
      ∃ st1, APUtil g fuel v parent st = some st1 ∧ APost g s st st1 stack v parent := by
  intro fuel
  induction fuel with
  | zero =>
    intro v parent st stack hpre hf
    have := unv_pos st v (by rw [hpre.inv.vlen]; exact hpre.vV) hpre.nvis
    omega
  | succ fuel ih =>
    intro v parent st stack hpre hf
    obtain ⟨c, st', hloop, hfin⟩ := aploop_spec g s hwf hsym fuel ih st v parent stack hf
      (g.nbrs v) [] 0 (apEnter v st) (by simp) (aloop_start g s hsym st stack v parent hpre)
    refine ⟨if parent = -1 ∧ c > 1 then { st' with ap := setInsert v st'.ap } else st', ?_,
      aloop_finish g s st st' v parent stack c hfin⟩
    unfold APUtil
    rw [hloop]
    simp only
    by_cases hc : parent = -1 ∧ c > 1
    · rw [if_pos hc, if_pos hc]
    · rw [if_neg hc, if_neg hc]

/-! ## Articulation points: the result -/

theorem apInit_vis (g : Graph) (x : Nat) : ¬ (apInit g).vis x := by
  unfold APState.vis apInit
  simp only [List.getD_eq_getElem?_getD, List.getElem?_replicate]
  split <;> simp

theorem apInit_pre (g : Graph) (s : Nat) (hs : s < g.V) : APre g s (apInit g) [] s (-1) :=
  { inv :=
      { vlen := by simp [apInit]
        dlen := by simp [apInit]
        llen := by simp [apInit]
        stk := by simp
        closed := fun y hy => absurd hy (apInit_vis g y)
        dtime := fun x hx => absurd hx (apInit_vis g x)
        sorted := List.Pairwise.nil
        conn := fun x hx => absurd hx (apInit_vis g x)
        root := fun x hx => absurd hx (apInit_vis g x)
        sound := by simp [apInit]
        complete := fun y hy => absurd hy (apInit_vis g y)
        apsorted := by simp [apInit] }
    vV := hs
    nvis := apInit_vis g s
    ctx := Or.inl ⟨rfl, rfl, rfl, apInit_vis g⟩ }

theorem apRun_spec (g : Graph) (s : Nat) (hwf : g.WF)
    (hsym : ∀ a b, g.Joined a b → g.Joined b a) (hs : s < g.V) (fuel : Nat)
    (hf : g.V ≤ fuel) :
    ∃ st, apRun g s fuel = some st ∧ AInv g s st [] ∧ st.vis s := by
  have hunv : (apInit g).unv ≤ fuel := by
    unfold APState.unv apInit
    simp only [List.count_replicate_self]
    exact hf
  obtain ⟨st, hrun, hpost⟩ := aputil_spec g s hwf hsym fuel s (-1) (apInit g) []
    (apInit_pre g s hs) hunv
  refine ⟨st, ?_, hpost.inv, hpost.visv⟩
  unfold apRun
  have hn : ¬ ((apInit g).visited.getD s false = true) := apInit_vis g s
  rw [if_neg hn]
  exact hrun

theorem final_vis_iff (g : Graph) (s : Nat) (st : APState) (h : AInv g s st [])
    (hs : st.vis s) (x : Nat) : st.vis x ↔ g.Reachable s x := by
  constructor
  · intro hx
    exact connIn_reachable g (h.conn x hx)
  · rintro ⟨p, hp⟩
    induction p using List.reverseRecOn generalizing x with
    | nil =>
      simp only [Graph.IsWalk] at hp
      rw [← hp]; exact hs
    | append_singleton p e ih =>
      obtain ⟨y, hy, he, hdst⟩ := (isWalk_snoc_iff g s x p e).1 hp
      rw [← hdst]
      exact h.closed y (ih y hy) (by simp) e he

theorem final_ap_iff (g : Graph) (s : Nat) (st : APState) (h : AInv g s st [])
    (hs : st.vis s) (u : Nat) : u ∈ st.ap ↔ g.IsCut s u := by
  constructor
  · exact h.sound u
  · intro hcut
    obtain ⟨hru, a, b, hra, hrb, hau, hbu, hno⟩ := hcut
    have hvu := (final_vis_iff g s st h hs u).2 hru
    rcases h.complete u hvu (by simp) with hin | hgood
    · exact hin
    · exfalso
      apply hno
      have := hgood a b ((final_vis_iff g s st h hs a).2 hra)
        ((final_vis_iff g s st h hs b).2 hrb) hau hbu
      exact connIn_mono g (fun x hx => hx.2) this

/-- C8. Articulation points are exactly the cut vertices. For a graph built by
`addEdge` from valid edges (parallel edges and self-loops allowed) and a start `s`:
with fuel at least the number of vertices `findArticulationPoints` returns, and a
vertex is in the returned set exactly when it is a cut vertex of the connected
component of `s`. -/
theorem ap_exactly_cut_vertices (v : Nat) (labels : List String)
    (es : List (Nat × Nat × Int)) (hv : ValidEdges v es) (s : Nat) (hs : s < v)
    (fuel : Nat) (hf : v ≤ fuel) :
    ∃ ap, findArticulationPoints (Graph.build v labels es) s fuel = some ap ∧
      ∀ u, u ∈ ap ↔ (Graph.build v labels es).IsCut s u := by
  have hwf := build_wf v labels es hv
  have hV := build_V v labels es
  obtain ⟨st, hrun, hinv, hvis⟩ := apRun_spec _ s hwf (build_joined_symm v labels es hv)
    (by rw [hV]; exact hs) fuel (by rw [hV]; exact hf)
  exact ⟨st.ap, by simp [findArticulationPoints, hrun], final_ap_iff _ s st hinv hvis⟩

theorem ap_exactly_cut_vertices_witness :
    ∃ ap, findArticulationPoints path4 0 4 = some ap ∧ ∀ u, u ∈ ap ↔ path4.IsCut 0 u :=
  ap_exactly_cut_vertices 4 ["A", "B", "C", "D"] [(0, 1, 1), (1, 2, 1), (2, 3, 1)]
    (by unfold ValidEdges; decide) 0 (by decide) 4 (by decide)

theorem isCut_same_component (g : Graph)
    (hsym : ∀ x y w, (⟨y, w⟩ : Edge) ∈ g.nbrs x → (⟨x, w⟩ : Edge) ∈ g.nbrs y)
    (s1 s2 : Nat) (hr : g.Reachable s1 s2) (u : Nat) (h : g.IsCut s1 u) : g.IsCut s2 u := by
  have h21 := reachable_symm g hsym s1 s2 hr
  obtain ⟨hru, a, b, hra, hrb, hau, hbu, hno⟩ := h
  exact ⟨reachable_trans g s2 s1 u h21 hru, a, b, reachable_trans g s2 s1 a h21 hra,
    reachable_trans g s2 s1 b h21 hrb, hau, hbu, hno⟩

theorem sorted_eq_of_mem_iff (l1 l2 : List Nat) (h1 : l1.Sorted (fun a b => a < b))
    (h2 : l2.Sorted (fun a b => a < b)) (h : ∀ a, a ∈ l1 ↔ a ∈ l2) : l1 = l2 :=
  List.eq_of_perm_of_sorted ((List.perm_ext_iff_of_nodup h1.nodup h2.nodup).2 h) h1 h2

/-- C9. Independence of the start. For a graph built by `addEdge` from valid edges
and two start vertices of one connected component: with fuel at least the number
of vertices, `findArticulationPoints` returns the same set from both. -/
theorem ap_start_independent (v : Nat) (labels : List String)
    (es : List (Nat × Nat × Int)) (hv : ValidEdges v es) (s1 s2 : Nat) (hs1 : s1 < v)
    (hs2 : s2 < v) (hr : (Graph.build v labels es).Reachable s1 s2)
    (f1 f2 : Nat) (hf1 : v ≤ f1) (hf2 : v ≤ f2) :
    ∃ ap, findArticulationPoints (Graph.build v labels es) s1 f1 = some ap ∧
      findArticulationPoints (Graph.build v labels es) s2 f2 = some ap := by
  have hwf := build_wf v labels es hv
  have hV := build_V v labels es
  have hsym := build_symm v labels es hv
  have hjs := build_joined_symm v labels es hv
  obtain ⟨st1, hrun1, hinv1, hvis1⟩ := apRun_spec _ s1 hwf hjs
    (by rw [hV]; exact hs1) f1 (by rw [hV]; exact hf1)
  obtain ⟨st2, hrun2, hinv2, hvis2⟩ := apRun_spec _ s2 hwf hjs
    (by rw [hV]; exact hs2) f2 (by rw [hV]; exact hf2)
  have heq : st1.ap = st2.ap := by
    apply sorted_eq_of_mem_iff _ _ hinv1.apsorted hinv2.apsorted
    intro a
    rw [final_ap_iff _ s1 st1 hinv1 hvis1, final_ap_iff _ s2 st2 hinv2 hvis2]
    exact ⟨isCut_same_component _ hsym s1 s2 hr a,
      isCut_same_component _ hsym s2 s1 (reachable_symm _ hsym s1 s2 hr) a⟩
  exact ⟨st1.ap, by simp [findArticulationPoints, hrun1],
    by simp [findArticulationPoints, hrun2, heq]⟩

theorem ap_start_independent_witness :
    (findArticulationPoints graph2 0 12 = some [] ∧
      findArticulationPoints graph2 5 12 = some [] ∧
      findArticulationPoints graph2 11 12 = some []) ∧
    ∃ ap, findArticulationPoints graph2 0 12 = some ap ∧
      findArticulationPoints graph2 11 12 = some ap :=
  ⟨by decide,
   ap_start_independent 12 ["A", "B", "C", "D", "E", "F", "G", "H", "I", "J", "K", "L"]
    [(0, 1, 1), (1, 2, 1), (2, 3, 1), (4, 5, 1), (5, 6, 1), (6, 7, 1), (8, 9, 1),
     (9, 10, 1), (10, 11, 1), (0, 4, 1), (1, 5, 1), (2, 6, 1), (3, 7, 1), (4, 8, 1),
     (5, 9, 1), (6, 10, 1), (7, 11, 1), (4, 9, 1), (5, 8, 1), (5, 10, 1), (6, 9, 1),
     (6, 11, 1), (7, 10, 1)]
    (by unfold ValidEdges; decide) 0 11 (by decide) (by decide)
    ⟨[⟨1, 1⟩, ⟨2, 1⟩, ⟨3, 1⟩, ⟨7, 1⟩, ⟨11, 1⟩], by decide⟩ 12 12 (by decide) (by decide)⟩

/-! ## The graph store: symmetry, the effect of `addEdge`, the constructor -/

theorem build_count (v : Nat) (labels : List String) (es : List (Nat × Nat × Int))
    (hv : ValidEdges v es) (u : Nat) (e : Edge) :
    ((Graph.build v labels es).nbrs u).count e = (es.map (edgeCount u e)).sum := by
  induction es using List.reverseRecOn with
  | nil =>
    have : (Graph.build v labels []).nbrs u = [] := by
      simp only [Graph.build, Graph.new, Graph.nbrs, List.foldl_nil,
        List.getD_eq_getElem?_getD, List.getElem?_replicate]
      split <;> rfl
    simp [this]
  | append_singleton es t ih =>
    obtain ⟨hv1, ha, hb⟩ := validEdges_snoc hv
    rw [build_snoc, addEdge_nbrs _ _ _ _ (by rw [build_len]; exact ha)
      (by rw [build_len]; exact hb)]
    simp only [List.count_append, ih hv1, List.map_append, List.sum_append, List.map_cons,
      List.map_nil, List.sum_cons, List.sum_nil, add_zero, edgeCount]
    have h1 : List.count e (if u = t.1 then [(⟨t.2.1, t.2.2⟩ : Edge)] else [])
        = if u = t.1 ∧ e = ⟨t.2.1, t.2.2⟩ then 1 else 0 := by
      by_cases hu : u = t.1
      · by_cases he : e = ⟨t.2.1, t.2.2⟩
        · simp [hu, he]
        · have he' : ¬ ((⟨t.2.1, t.2.2⟩ : Edge) = e) := fun h => he h.symm
          simp [hu, he, he', List.count_singleton]
      · simp [hu]
    have h2 : List.count e (if u = t.2.1 then [(⟨t.1, t.2.2⟩ : Edge)] else [])
        = if u = t.2.1 ∧ e = ⟨t.1, t.2.2⟩ then 1 else 0 := by
      by_cases hu : u = t.2.1
      · by_cases he : e = ⟨t.1, t.2.2⟩
        · simp [hu, he]
        · have he' : ¬ ((⟨t.1, t.2.2⟩ : Edge) = e) := fun h => he h.symm
          simp [hu, he, he', List.count_singleton]
      · simp [hu]
    rw [h1, h2]
    ring

theorem edgeCount_swap (a b : Nat) (w : Int) (t : Nat × Nat × Int) :
    edgeCount a ⟨b, w⟩ t = edgeCount b ⟨a, w⟩ t := by
  unfold edgeCount
  simp only [Edge.mk.injEq]
  have e1 : (a = t.1 ∧ b = t.2.1 ∧ w = t.2.2) ↔ (b = t.2.1 ∧ a = t.1 ∧ w = t.2.2) := by tauto
  have e2 : (a = t.2.1 ∧ b = t.1 ∧ w = t.2.2) ↔ (b = t.1 ∧ a = t.2.1 ∧ w = t.2.2) := by tauto
  simp only [e1, e2]
  omega

/-- C18. Symmetry of the store. In a graph built by `addEdge` calls with valid
indices, for all vertices `a`, `b` (in particular for `a ≠ b`) and every weight `w`,
`adj[a]` holds as many entries `(b, w)` as `adj[b]` holds entries `(a, w)`; hence
`adj[a]` contains `(b, w)` exactly when `adj[b]` contains `(a, w)`. -/
theorem store_symmetry (v : Nat) (labels : List String) (es : List (Nat × Nat × Int))
    (hv : ValidEdges v es) (a b : Nat) (w : Int) :
    ((Graph.build v labels es).nbrs a).count ⟨b, w⟩
      = ((Graph.build v labels es).nbrs b).count ⟨a, w⟩ ∧
    ((⟨b, w⟩ : Edge) ∈ (Graph.build v labels es).nbrs a ↔
      (⟨a, w⟩ : Edge) ∈ (Graph.build v labels es).nbrs b) := by
  have hc : ((Graph.build v labels es).nbrs a).count ⟨b, w⟩
      = ((Graph.build v labels es).nbrs b).count ⟨a, w⟩ := by
    rw [build_count v labels es hv, build_count v labels es hv]
    congr 1
    apply List.map_congr_left
    intro t _
    exact edgeCount_swap a b w t
  refine ⟨hc, ?_⟩
  rw [← List.count_pos_iff, ← List.count_pos_iff, hc]

theorem store_symmetry_witness :
    (graph1.nbrs 0).count ⟨1, 4⟩ = (graph1.nbrs 1).count ⟨0, 4⟩ ∧
    ((⟨1, 4⟩ : Edge) ∈ graph1.nbrs 0 ↔ (⟨0, 4⟩ : Edge) ∈ graph1.nbrs 1) :=
  store_symmetry 8 ["A", "B", "C", "D", "E", "F", "G", "H"]
    [(0, 1, 4), (0, 3, 6), (0, 6, 7), (1, 2, 12), (1, 4, 9), (2, 4, 1), (2, 5, 2),
     (2, 7, 10), (3, 4, 13), (3, 6, 2), (4, 5, 5), (4, 6, 14), (4, 7, 8), (5, 7, 3)]
    (by unfold ValidEdges; decide) 0 1 4

/-- C19. Effect and frame of `addEdge`. For valid indices `a`, `b`: when `a ≠ b` the
call appends exactly `(b, w)` at the end of `adj[a]` and exactly `(a, w)` at the end
of `adj[b]`; when `a = b` it appends `(a, w)` twice to `adj[a]`; earlier entries
keep their order, every other adjacency list, `V`, the labels and the label lookup
stay as they were. Nothing depends on what the lists already hold: an entry that is
already there is stored once more (its count goes up by one). -/
theorem addEdge_effect (g : Graph) (a b : Nat) (w : Int) (ha : a < g.adj.length)
    (hb : b < g.adj.length) :
    (a ≠ b → (g.addEdge a b w).nbrs a = g.nbrs a ++ [⟨b, w⟩] ∧
      (g.addEdge a b w).nbrs b = g.nbrs b ++ [⟨a, w⟩]) ∧
    (a = b → (g.addEdge a b w).nbrs a = g.nbrs a ++ [⟨a, w⟩, ⟨a, w⟩]) ∧
    (∀ x, x ≠ a → x ≠ b → (g.addEdge a b w).nbrs x = g.nbrs x) ∧
    (g.addEdge a b w).V = g.V ∧ (g.addEdge a b w).adj.length = g.adj.length ∧
    (g.addEdge a b w).nodeLabels = g.nodeLabels ∧
    (g.addEdge a b w).labelToIndex = g.labelToIndex ∧
    (a ≠ b → ((g.addEdge a b w).nbrs a).count ⟨b, w⟩ = (g.nbrs a).count ⟨b, w⟩ + 1 ∧
      ((g.addEdge a b w).nbrs b).count ⟨a, w⟩ = (g.nbrs b).count ⟨a, w⟩ + 1) := by
  have h1 : a ≠ b → (g.addEdge a b w).nbrs a = g.nbrs a ++ [⟨b, w⟩] ∧
      (g.addEdge a b w).nbrs b = g.nbrs b ++ [⟨a, w⟩] := by
    intro hab
    constructor
    · rw [addEdge_nbrs g a b w ha hb a]; simp [hab]
    · rw [addEdge_nbrs g a b w ha hb b]; simp [Ne.symm hab]
  refine ⟨h1, ?_, ?_, rfl, addEdge_len g a b w, rfl, rfl, ?_⟩
  · intro hab
    subst hab
    rw [addEdge_nbrs g a a w ha hb a]; simp
  · intro x hxa hxb
    rw [addEdge_nbrs g a b w ha hb x]; simp [hxa, hxb]
  · intro hab
    rw [(h1 hab).1, (h1 hab).2, List.count_append, List.count_append,
      List.count_singleton_self, List.count_singleton_self]
    exact ⟨rfl, rfl⟩

theorem addEdge_effect_witness :
    ((0 : Nat) ≠ 1 → (graph1.addEdge 0 1 4).nbrs 0 = graph1.nbrs 0 ++ [⟨1, 4⟩] ∧
      (graph1.addEdge 0 1 4).nbrs 1 = graph1.nbrs 1 ++ [⟨0, 4⟩]) ∧
    ((0 : Nat) = 1 → (graph1.addEdge 0 1 4).nbrs 0 = graph1.nbrs 0 ++ [⟨0, 4⟩, ⟨0, 4⟩]) ∧
    (∀ x, x ≠ 0 → x ≠ 1 → (graph1.addEdge 0 1 4).nbrs x = graph1.nbrs x) ∧
    (graph1.addEdge 0 1 4).V = graph1.V ∧
    (graph1.addEdge 0 1 4).adj.length = graph1.adj.length ∧
    (graph1.addEdge 0 1 4).nodeLabels = graph1.nodeLabels ∧
    (graph1.addEdge 0 1 4).labelToIndex = graph1.labelToIndex ∧
    ((0 : Nat) ≠ 1 →
      ((graph1.addEdge 0 1 4).nbrs 0).count ⟨1, 4⟩ = (graph1.nbrs 0).count ⟨1, 4⟩ + 1 ∧
      ((graph1.addEdge 0 1 4).nbrs 1).count ⟨0, 4⟩ = (graph1.nbrs 1).count ⟨0, 4⟩ + 1) :=
  addEdge_effect graph1 0 1 4 (by decide) (by decide)

theorem mapFind_nil (k : String) : mapFind [] k = none := rfl

theorem mapFind_cons (p : String × Nat) (m : List (String × Nat)) (k : String) :
    mapFind (p :: m) k = if p.1 = k then some p.2 else mapFind m k := by
  unfold mapFind
  by_cases h : p.1 = k
  · simp [List.find?_cons, h]
  · simp [List.find?_cons, h]

theorem mapFind_none_iff (m : List (String × Nat)) (k : String) :
    mapFind m k = none ↔ m.any (fun p => p.1 == k) = false := by
  induction m with
  | nil => simp [mapFind_nil]
  | cons p m ih =>
    rw [mapFind_cons, List.any_cons]
    by_cases h : p.1 = k
    · simp [h]
    · simp only [if_neg h, ih]
      simp [h]

theorem mapFind_map_assign (m : List (String × Nat)) (k l : String) (i : Nat) :
    mapFind (m.map (fun p => if p.1 == k then (k, i) else p)) l
      = if l = k then (mapFind m k).map (fun _ => i) else mapFind m l := by
  induction m with
  | nil => simp [mapFind_nil]
  | cons p m ih =>
    rw [List.map_cons, mapFind_cons, ih, mapFind_cons, mapFind_cons]
    by_cases hpk : p.1 = k
    · by_cases hlk : l = k
      · subst hlk; simp [hpk]
      · have : ¬ k = l := fun h => hlk h.symm
        simp [hpk, hlk, this]
    · by_cases hlk : l = k
      · subst hlk; simp [hpk]
      · simp [hpk, hlk]

theorem mapFind_append_single (m : List (String × Nat)) (k l : String) (i : Nat) :
    mapFind (m ++ [(k, i)]) l
      = match mapFind m l with
        | some j => some j
        | none => if k = l then some i else none := by
  induction m with
  | nil => simp [mapFind_cons, mapFind_nil]
  | cons p m ih =>
    rw [List.cons_append, mapFind_cons, ih, mapFind_cons]
    by_cases h : p.1 = l
    · simp [h]
    · simp [h]

theorem mapFind_assign_self (m : List (String × Nat)) (k : String) (i : Nat) :
    mapFind (mapAssign m k i) k = some i := by
  unfold mapAssign
  cases hany : m.any (fun p => p.1 == k) with
  | true =>
    simp only [if_true]
    rw [mapFind_map_assign, if_pos rfl]
    cases hf : mapFind m k with
    | none => rw [(mapFind_none_iff m k).1 hf] at hany; cases hany
    | some j => rfl
  | false =>
    simp only [Bool.false_eq_true, if_false]
    rw [mapFind_append_single, (mapFind_none_iff m k).2 hany]
    simp

theorem mapFind_assign_ne (m : List (String × Nat)) (k l : String) (i : Nat) (h : l ≠ k) :
    mapFind (mapAssign m k i) l = mapFind m l := by
  unfold mapAssign
  cases hany : m.any (fun p => p.1 == k) with
  | true =>
    simp only [if_true]
    rw [mapFind_map_assign, if_neg h]
  | false =>
    simp only [Bool.false_eq_true, if_false]
    rw [mapFind_append_single]
    have : ¬ k = l := fun e => h e.symm
    cases hf : mapFind m l <;> simp [this]

/-- After the first `n` rounds of the constructor's loop the lookup of a label gives
the last index below `n` that carries it, and nothing for a label not seen yet. -/
theorem ctor_lookup (labels : List String) (n : Nat) (l : String) :
    (mapFind ((List.range n).foldl (fun m i => mapAssign m (labels.getD i "") i) []) l = none ∧
      ∀ k, k < n → labels.getD k "" ≠ l) ∨
    ∃ j, j < n ∧
      mapFind ((List.range n).foldl (fun m i => mapAssign m (labels.getD i "") i) []) l
        = some j ∧
      labels.getD j "" = l ∧ ∀ k, j < k → k < n → labels.getD k "" ≠ l := by
  induction n with
  | zero =>
    left
    exact ⟨rfl, fun k hk => absurd hk (Nat.not_lt_zero k)⟩
  | succ n ih =>
    rw [List.range_succ, List.foldl_append, List.foldl_cons, List.foldl_nil]
    by_cases hl : l = labels.getD n ""
    · right
      refine ⟨n, Nat.lt_succ_self n, ?_, hl.symm, ?_⟩
      · rw [hl]; exact mapFind_assign_self _ _ _
      · intro k hk1 hk2; omega
    · rw [mapFind_assign_ne _ _ _ _ hl]
      rcases ih with ⟨hnone, hall⟩ | ⟨j, hj, hsome, hlab, hlast⟩
      · left
        refine ⟨hnone, ?_⟩
        intro k hk
        rcases Nat.lt_succ_iff_lt_or_eq.1 hk with hlt | heq
        · exact hall k hlt
        · rw [heq]; exact fun h => hl h.symm
      · right
        refine ⟨j, Nat.lt_succ_of_lt hj, hsome, hlab, ?_⟩
        intro k hk1 hk2
        rcases Nat.lt_succ_iff_lt_or_eq.1 hk2 with hlt | heq
        · exact hlast k hk1 hlt
        · rw [heq]; exact fun h => hl h.symm

/-- C20, as the code has it. The constructor never fails: for every label sequence,
with or without coinciding labels, it produces a graph with `V` vertices, empty
adjacency lists and the labels as given; the lookup of the label of vertex `i`
yields the last index `j ≥ i` that carries this label. -/
theorem construct_total (v : Nat) (labels : List String) (hv : v ≤ labels.length) :
    (Graph.new v labels).V = v ∧ (Graph.new v labels).adj = List.replicate v [] ∧
    (Graph.new v labels).nodeLabels = labels ∧
    ∀ i, i < v → ∃ j, mapFind (Graph.new v labels).labelToIndex (labels.getD i "") = some j ∧
      i ≤ j ∧ j < v ∧ j < labels.length ∧ labels.getD j "" = labels.getD i "" ∧
      ∀ k, j < k → k < v → labels.getD k "" ≠ labels.getD i "" := by
  refine ⟨rfl, rfl, rfl, ?_⟩
  intro i hi
  rcases ctor_lookup labels v (labels.getD i "") with ⟨_, hall⟩ | ⟨j, hj, hsome, hlab, hlast⟩
  · exact absurd rfl (hall i hi)
  · refine ⟨j, hsome, ?_, hj, Nat.lt_of_lt_of_le hj hv, hlab, hlast⟩
    by_contra hij
    exact hlast i (Nat.lt_of_not_le hij) hi rfl

theorem construct_total_witness :
    2 ≤ ["A", "A"].length ∧ (Graph.new 2 ["A", "A"]).V = 2 ∧
    (Graph.new 2 ["A", "A"]).adj = List.replicate 2 [] ∧
    (Graph.new 2 ["A", "A"]).nodeLabels = ["A", "A"] ∧
    ∀ i, i < 2 → ∃ j, mapFind (Graph.new 2 ["A", "A"]).labelToIndex (["A", "A"].getD i "")
        = some j ∧
      i ≤ j ∧ j < 2 ∧ j < ["A", "A"].length ∧ ["A", "A"].getD j "" = ["A", "A"].getD i "" ∧
      ∀ k, j < k → k < 2 → ["A", "A"].getD k "" ≠ ["A", "A"].getD i "" :=
  ⟨by decide, construct_total 2 ["A", "A"] (by decide)⟩

/-- C20, counterexample. From the label sequence `A, A` the constructor produces a
graph: two vertices, both labelled `A`, and the lookup of `A` gives index 1. -/
theorem construct_duplicate_counterexample :
    (Graph.new 2 ["A", "A"]).V = 2 ∧ (Graph.new 2 ["A", "A"]).adj = [[], []] ∧
    (Graph.new 2 ["A", "A"]).nodeLabels = ["A", "A"] ∧
    (Graph.new 2 ["A", "A"]).labelToIndex = [("A", 1)] ∧
    mapFind (Graph.new 2 ["A", "A"]).labelToIndex "A" = some 1 := by
  decide

/-! ## Articulation points: what the search leaves untouched -/

theorem aframe_refl (st : APState) : AFrame st st :=
  ⟨rfl, rfl, rfl, fun _ h => h, fun _ _ => ⟨rfl, rfl⟩⟩

theorem aframe_trans {a b c : APState} (h1 : AFrame a b) (h2 : AFrame b c) : AFrame a c := by
  obtain ⟨v1, d1, l1, m1, f1⟩ := h1
  obtain ⟨v2, d2, l2, m2, f2⟩ := h2
  refine ⟨v2.trans v1, d2.trans d1, l2.trans l1, fun x hx => m2 x (m1 x hx), ?_⟩
  intro x hx
  have hb : ¬ b.vis x := fun h => hx (m2 x h)
  exact ⟨(f2 x hx).1.trans (f1 x hb).1, (f2 x hx).2.trans (f1 x hb).2⟩

theorem aframe_lens {a b : APState} (h : AFrame a b) (hl : a.Lens) : b.Lens := by
  obtain ⟨v1, d1, l1, _, _⟩ := h
  exact ⟨by rw [d1, v1]; exact hl.1, by rw [l1, v1]; exact hl.2⟩

theorem aframe_low (st : APState) (u val : Nat) (hu : st.vis u ∨ st.low.length ≤ u) :
    AFrame st { st with low := st.low.set u val } := by
  refine ⟨rfl, rfl, by simp, fun _ h => h, ?_⟩
  intro x hx
  refine ⟨rfl, ?_⟩
  show (st.low.set u val).getD x 0 = st.low.getD x 0
  by_cases hxu : u = x
  · subst hxu
    rcases hu with hvis | hlen
    · exact absurd hvis hx
    · have h1 : ¬ u < st.low.length := Nat.not_lt.2 hlen
      simp [List.getD_eq_getElem?_getD, List.getElem?_set, h1, List.getElem?_eq_none hlen]
  · exact getD_set_ne _ _ _ _ _ hxu

theorem aframe_ap (st : APState) (l : List Nat) : AFrame st { st with ap := l } :=
  ⟨rfl, rfl, rfl, fun _ h => h, fun _ _ => ⟨rfl, rfl⟩⟩

theorem aframe_enter (st : APState) (u : Nat) (hl : st.Lens) :
    AFrame st (apEnter u st) ∧ ((apEnter u st).vis u ∨ (apEnter u st).low.length ≤ u) := by
  by_cases hu : u < st.visited.length
  · have hvu : (apEnter u st).vis u := by
      show (st.visited.set u true).getD u false = true
      exact getD_set_eq _ _ _ _ hu
    refine ⟨⟨by simp [apEnter], by simp [apEnter], by simp [apEnter], ?_, ?_⟩, Or.inl hvu⟩
    · intro x hx
      show (st.visited.set u true).getD x false = true
      by_cases hxu : u = x
      · subst hxu; exact hvu
      · rw [getD_set_ne _ _ _ _ _ hxu]; exact hx
    · intro x hx
      have hxu : u ≠ x := by
        intro h
        subst h
        exact hx hvu
      constructor
      · show (st.disc.set u (st.time + 1)).getD x 0 = st.disc.getD x 0
        exact getD_set_ne _ _ _ _ _ hxu
      · show (st.low.set u (st.time + 1)).getD x 0 = st.low.getD x 0
        exact getD_set_ne _ _ _ _ _ hxu
  · have hle : st.visited.length ≤ u := Nat.le_of_not_lt hu
    have hd : st.disc.length ≤ u := by rw [hl.1]; exact hle
    have hw : st.low.length ≤ u := by rw [hl.2]; exact hle
    have e1 : st.visited.set u true = st.visited := List.set_eq_of_length_le hle
    have e2 : st.disc.set u (st.time + 1) = st.disc := List.set_eq_of_length_le hd
    have e3 : st.low.set u (st.time + 1) = st.low := List.set_eq_of_length_le hw
    refine ⟨⟨by simp [apEnter], by simp [apEnter], by simp [apEnter], ?_, ?_⟩, Or.inr ?_⟩
    · intro x hx
      show (st.visited.set u true).getD x false = true
      rw [e1]; exact hx
    · intro x _
      constructor
      · show (st.disc.set u (st.time + 1)).getD x 0 = st.disc.getD x 0
        rw [e2]
      · show (st.low.set u (st.time + 1)).getD x 0 = st.low.getD x 0
        rw [e3]
    · show (st.low.set u (st.time + 1)).length ≤ u
      rw [e3]; exact hw

theorem aploop_frame (call : Nat → Int → APState → Option APState)
    (hcall : ∀ v p st st1, st.Lens → call v p st = some st1 → AFrame st st1)
    (u : Nat) (parent : Int) :
    ∀ (es : List Edge) (c : Nat) (st : APState) (c1 : Nat) (st1 : APState), st.Lens →
      (st.vis u ∨ st.low.length ≤ u) →
      apLoop call u parent es c st = some (c1, st1) → AFrame st st1 := by
  intro es
  induction es with
  | nil =>
    intro c st c1 st1 _ _ h
    simp only [apLoop, Option.some.injEq, Prod.mk.injEq] at h
    rw [← h.2]
    exact aframe_refl st
  | cons e rest ih =>
    intro c st c1 st1 hl hu h
    unfold apLoop at h
    split at h
    · exact ih c st c1 st1 hl hu h
    · split at h
      · have hf := aframe_low st u (min (st.low.getD u 0) (st.disc.getD e.dst 0)) hu
        refine aframe_trans hf (ih c _ c1 st1 (aframe_lens hf hl) ?_ h)
        rcases hu with hvis | hlen
        · exact Or.inl hvis
        · right
          show (st.low.set u _).length ≤ u
          rw [List.length_set]; exact hlen
      · split at h
        · cases h
        · rename_i st2 hc
          have f1 := hcall e.dst (u : Int) st st2 hl hc
          have hl2 := aframe_lens f1 hl
          have hu2 : st2.vis u ∨ st2.low.length ≤ u := by
            rcases hu with hvis | hlen
            · exact Or.inl (f1.2.2.2.1 u hvis)
            · right; rw [f1.2.2.1]; exact hlen
          have f2 := aframe_low st2 u (min (st2.low.getD u 0) (st2.low.getD e.dst 0)) hu2
          have hl3 := aframe_lens f2 hl2
          have hu3 : ∀ val, APState.vis { st2 with low := st2.low.set u val } u ∨
              (st2.low.set u val).length ≤ u := by
            intro val
            rcases hu2 with hvis | hlen
            · exact Or.inl hvis
            · right; rw [List.length_set]; exact hlen
          have f3 := fun val =>
            aframe_ap { st2 with low := st2.low.set u val } (setInsert u st2.ap)
          dsimp only at h
          split at h
          · exact aframe_trans f1 (aframe_trans f2 (aframe_trans (f3 _)
              (ih _ _ c1 st1 (aframe_lens (f3 _) hl3) (hu3 _) h)))
          · exact aframe_trans f1 (aframe_trans f2 (ih _ _ c1 st1 hl3 (hu3 _) h))

theorem aputil_frame (g : Graph) :
    ∀ (fuel u : Nat) (parent : Int) (st st1 : APState), st.Lens →
      APUtil g fuel u parent st = some st1 → AFrame st st1 := by
  intro fuel
  induction fuel with
  | zero =>
    intro u parent st st1 _ h
    simp [APUtil] at h
  | succ fuel ih =>
    intro u parent st st1 hl h
    unfold APUtil at h
    obtain ⟨fe, hue⟩ := aframe_enter st u hl
    split at h
    · cases h
    · rename_i c st2 hloop
      have f2 := aploop_frame (APUtil g fuel) (fun v p a b ha hab => ih v p a b ha hab) u parent
        (g.nbrs u) 0 (apEnter u st) c st2 (aframe_lens fe hl) hue hloop
      split at h
      · simp only [Option.some.injEq] at h
        rw [← h]
        exact aframe_trans fe (aframe_trans f2 (aframe_ap st2 _))
      · simp only [Option.some.injEq] at h
        rw [← h]
        exact aframe_trans fe f2

theorem apInit_lens (g : Graph) : (apInit g).Lens := by
  constructor <;> simp [apInit]

theorem apInit_zero (g : Graph) (x : Nat) : (apInit g).dsc x = 0 ∧ (apInit g).lw x = 0 := by
  unfold APState.dsc APState.lw apInit
  simp only [List.getD_eq_getElem?_getD, List.getElem?_replicate]
  constructor <;> split <;> rfl

theorem apRun_frame (g : Graph) (s fuel : Nat) (st : APState)
    (h : apRun g s fuel = some st) : AFrame (apInit g) st := by
  unfold apRun at h
  have hn : ¬ ((apInit g).visited.getD s false = true) := apInit_vis g s
  rw [if_neg hn] at h
  exact aputil_frame g fuel s (-1) (apInit g) st (apInit_lens g) h

/-- C11. Scope of the articulation-point search. With fuel for `V` nested calls
`findArticulationPoints(s)` returns; every vertex it reports is reachable from `s`;
a vertex that is not reachable from `s` keeps `visited = false`, `disc = 0` and
`low = 0`, and is not reported (whether or not it is a cut vertex of its own
component). -/
theorem ap_scope (v : Nat) (labels : List String) (es : List (Nat × Nat × Int))
    (hv : ValidEdges v es) (s : Nat) (hs : s < v) (fuel : Nat) (hf : v ≤ fuel) :
    ∃ st, apRun (Graph.build v labels es) s fuel = some st ∧
      findArticulationPoints (Graph.build v labels es) s fuel = some st.ap ∧
      (∀ u, u ∈ st.ap → (Graph.build v labels es).Reachable s u) ∧
      ∀ x, ¬ (Graph.build v labels es).Reachable s x →
        st.visited.getD x false = false ∧ st.disc.getD x 0 = 0 ∧ st.low.getD x 0 = 0 ∧
        x ∉ st.ap := by
  have hwf := build_wf v labels es hv
  have hV := build_V v labels es
  obtain ⟨st, hrun, hinv, hvis⟩ := apRun_spec _ s hwf (build_joined_symm v labels es hv)
    (by rw [hV]; exact hs) fuel (by rw [hV]; exact hf)
  have hfr := apRun_frame _ s fuel st hrun
  refine ⟨st, hrun, ?_, ?_, ?_⟩
  · unfold findArticulationPoints
    rw [hrun]
    rfl
  · intro u hu
    exact (hinv.sound u hu).1
  · intro x hx
    have hnv : ¬ st.vis x := fun h => hx ((final_vis_iff _ s st hinv hvis x).1 h)
    have hz := apInit_zero (Graph.build v labels es) x
    refine ⟨?_, ?_, ?_, ?_⟩
    · unfold APState.vis at hnv
      simpa using hnv
    · exact (hfr.2.2.2.2 x hnv).1.trans hz.1
    · exact (hfr.2.2.2.2 x hnv).2.trans hz.2
    · intro hin
      exact hx (hinv.sound x hin).1

theorem ap_scope_witness :
    findArticulationPoints (Graph.build 5 ["A", "B", "C", "D", "E"]
      [(0, 1, 1), (2, 3, 1), (3, 4, 1)]) 0 5 = some [] ∧
    findArticulationPoints (Graph.build 5 ["A", "B", "C", "D", "E"]
      [(0, 1, 1), (2, 3, 1), (3, 4, 1)]) 2 5 = some [3] ∧
    ∃ st, apRun (Graph.build 5 ["A", "B", "C", "D", "E"]
        [(0, 1, 1), (2, 3, 1), (3, 4, 1)]) 0 5 = some st ∧
      findArticulationPoints (Graph.build 5 ["A", "B", "C", "D", "E"]
        [(0, 1, 1), (2, 3, 1), (3, 4, 1)]) 0 5 = some st.ap ∧
      (∀ u, u ∈ st.ap → (Graph.build 5 ["A", "B", "C", "D", "E"]
        [(0, 1, 1), (2, 3, 1), (3, 4, 1)]).Reachable 0 u) ∧
      ∀ x, ¬ (Graph.build 5 ["A", "B", "C", "D", "E"]
          [(0, 1, 1), (2, 3, 1), (3, 4, 1)]).Reachable 0 x →
        st.visited.getD x false = false ∧ st.disc.getD x 0 = 0 ∧ st.low.getD x 0 = 0 ∧
        x ∉ st.ap :=
  ⟨by decide, by decide,
    ap_scope 5 ["A", "B", "C", "D", "E"] [(0, 1, 1), (2, 3, 1), (3, 4, 1)]
      (by unfold ValidEdges; decide) 0 (by decide) 5 (by decide)⟩

/-! ## Breadth-first search -/

theorem mem_sortedNbrs (g : Graph) (u v : Nat) :
    v ∈ sortedNbrs g u ↔ ∃ e ∈ g.nbrs u, e.dst = v := by
  unfold sortedNbrs
  rw [List.mem_insertionSort, List.mem_map]

theorem bfsPush_out (st : BState) (v : Nat) : (bfsPush st v).out = st.out := by
  unfold bfsPush
  split <;> rfl

/-- One round of the loop over `neighbors` keeps the invariant and the measure. -/
theorem bmid_push (g : Graph) (hwf : g.WF) (s u : Nat) (st : BState) (lev : Nat → Nat)
    (done : List Nat) (v : Nat) (h : BMid g s u st lev done)
    (hv : ∃ e ∈ g.nbrs u, e.dst = v) :
    ∃ lev1, BMid g s u (bfsPush st v) lev1 (done ++ [v]) ∧
      (bfsPush st v).visited.count false + (bfsPush st v).q.length
        = st.visited.count false + st.q.length := by
  have hu : u ∈ st.seq := List.mem_append_left _ h.uout
  by_cases hvis : st.visited.getD v false = true
  · have e : bfsPush st v = st := by
      unfold bfsPush
      rw [if_pos hvis]
    rw [e]
    refine ⟨lev, { h with cdone := ?_ }, rfl⟩
    intro x hx
    rcases List.mem_append.1 hx with hd | hl
    · exact h.cdone x hd
    · rw [List.mem_singleton] at hl
      subst hl
      have hm := (h.vis x).1 hvis
      exact ⟨hm, h.span x hm⟩
  · have hnm : v ∉ st.seq := fun hm => hvis ((h.vis v).2 hm)
    obtain ⟨e, he, hed⟩ := hv
    have hvV : v < g.V := by rw [← hed]; exact hwf.dst_lt u e he
    have huv : u ≠ v := fun heq => hnm (heq ▸ hu)
    have e1 : bfsPush st v
        = { st with visited := st.visited.set v true, q := st.q ++ [v] } := by
      unfold bfsPush
      rw [if_neg hvis]
    have hseq : BState.seq { st with visited := st.visited.set v true, q := st.q ++ [v] }
        = st.seq ++ [v] := by
      unfold BState.seq
      exact (List.append_assoc _ _ _).symm
    have hlev : ∀ x ∈ st.seq, Function.update lev v (lev u + 1) x = lev x := by
      intro x hx
      have hxv : x ≠ v := fun heq => hnm (heq ▸ hx)
      exact Function.update_noteq hxv _ _
    have hlv : Function.update lev v (lev u + 1) v = lev u + 1 := Function.update_same _ _ _
    have hlu := hlev u hu
    rw [e1]
    refine ⟨Function.update lev v (lev u + 1), ?_, ?_⟩
    · refine
        { vlen := ?_, nodup := ?_, vis := ?_, walk := ?_, sorted := ?_, span := ?_,
          uout := h.uout, closed := ?_, cdone := ?_, head := ?_, zero := ?_ }
      · show (st.visited.set v true).length = g.V
        rw [List.length_set]; exact h.vlen
      · rw [hseq, List.nodup_append]
        refine ⟨h.nodup, List.nodup_singleton v, ?_⟩
        intro x hx hx2
        rw [List.mem_singleton] at hx2
        exact hnm (hx2 ▸ hx)
      · intro x
        rw [hseq, List.mem_append, List.mem_singleton]
        show (st.visited.set v true).getD x false = true ↔ _
        by_cases hxv : v = x
        · subst hxv
          rw [getD_set_eq _ _ _ _ (by rw [h.vlen]; exact hvV)]
          simp
        · rw [getD_set_ne _ _ _ _ _ hxv, h.vis x]
          constructor
          · exact Or.inl
          · rintro (hm | heq)
            · exact hm
            · exact absurd heq.symm hxv
      · intro x hx
        rw [hseq, List.mem_append, List.mem_singleton] at hx
        rcases hx with hm | heq
        · rw [hlev x hm]; exact h.walk x hm
        · subst heq
          obtain ⟨p, hp, hlen⟩ := h.walk u hu
          refine ⟨p ++ [e], ?_, ?_⟩
          · rw [← hed]; exact isWalk_snoc g s u p e hp he
          · rw [hlv, List.length_append, hlen]; rfl
      · rw [hseq, List.pairwise_append]
        refine ⟨?_, List.pairwise_singleton _ _, ?_⟩
        · refine List.Pairwise.imp_of_mem ?_ h.sorted
          intro a b ha hb hab
          rw [hlev a ha, hlev b hb]; exact hab
        · intro a ha b hb
          rw [List.mem_singleton] at hb
          subst hb
          rw [hlev a ha, hlv]
          exact h.span a ha
      · intro x hx
        rw [hseq, List.mem_append, List.mem_singleton] at hx
        rw [hlu]
        rcases hx with hm | heq
        · rw [hlev x hm]; exact h.span x hm
        · subst heq; rw [hlv]
      · intro x hx hxu a ha
        obtain ⟨hm, hle⟩ := h.closed x hx hxu a ha
        rw [hseq, hlev _ hm, hlev x (List.mem_append_left _ hx)]
        exact ⟨List.mem_append_left _ hm, hle⟩
      · intro x hx
        rw [hseq, hlu]
        rcases List.mem_append.1 hx with hd | hl
        · obtain ⟨hm, hle⟩ := h.cdone x hd
          rw [hlev x hm]
          exact ⟨List.mem_append_left _ hm, hle⟩
        · rw [List.mem_singleton] at hl
          subst hl
          rw [hlv]
          exact ⟨List.mem_append_right _ (List.mem_singleton_self _), le_refl _⟩
      · rw [hseq, List.head?_append_of_ne_nil _ (List.ne_nil_of_mem hu)]
        exact h.head
      · have hs : s ∈ st.seq := by
          have := h.head
          cases hq : st.seq with
          | nil => rw [hq] at this; cases this
          | cons a l =>
            rw [hq] at this
            simp only [List.head?_cons, Option.some.injEq] at this
            rw [this]; exact List.mem_cons_self _ _
        rw [hlev s hs]; exact h.zero
    · show (st.visited.set v true).count false + (st.q ++ [v]).length
        = st.visited.count false + st.q.length
      have hc := count_false_set st.visited v (by rw [h.vlen]; exact hvV) (by simpa using hvis)
      rw [List.length_append, List.length_singleton]
      omega

theorem bmid_fold (g : Graph) (hwf : g.WF) (s u : Nat) :
    ∀ (todo done : List Nat) (st : BState) (lev : Nat → Nat), BMid g s u st lev done →
      (∀ v ∈ todo, ∃ e ∈ g.nbrs u, e.dst = v) →
      ∃ lev1, BMid g s u (todo.foldl bfsPush st) lev1 (done ++ todo) ∧
        (todo.foldl bfsPush st).visited.count false + (todo.foldl bfsPush st).q.length
          = st.visited.count false + st.q.length := by
  intro todo
  induction todo with
  | nil =>
    intro done st lev h _
    exact ⟨lev, by rw [List.append_nil]; exact h, rfl⟩
  | cons v todo ih =>
    intro done st lev h hall
    obtain ⟨lev1, h1, hm1⟩ := bmid_push g hwf s u st lev done v h (hall v (List.mem_cons_self _ _))
    obtain ⟨lev2, h2, hm2⟩ := ih (done ++ [v]) (bfsPush st v) lev1 h1
      (fun x hx => hall x (List.mem_cons_of_mem _ hx))
    refine ⟨lev2, ?_, ?_⟩
    · rw [List.foldl_cons]
      have e : done ++ v :: todo = done ++ [v] ++ todo := by simp
      rw [e]; exact h2
    · rw [List.foldl_cons, hm2, hm1]

theorem head_mem {l : List Nat} {a : Nat} (h : l.head? = some a) : a ∈ l := by
  cases l with
  | nil => cases h
  | cons b l =>
    simp only [List.head?_cons, Option.some.injEq] at h
    rw [h]; exact List.mem_cons_self _ _

/-- With fuel for every vertex still unmet or waiting in the queue the loop of `BFS`
ends, and the invariant holds for the final state, whose queue is empty. -/
theorem bfsLoop_spec (g : Graph) (hwf : g.WF) (s : Nat) :
    ∀ (fuel : Nat) (st : BState) (lev : Nat → Nat), BInv g s st lev →
      st.visited.count false + st.q.length ≤ fuel →
      ∃ lev1 st1, bfsLoop g fuel st = some st1.out ∧ BInv g s st1 lev1 ∧ st1.q = [] := by
  intro fuel
  induction fuel with
  | zero =>
    intro st lev h hm
    unfold bfsLoop
    cases hq : st.q with
    | nil => exact ⟨lev, st, rfl, h, hq⟩
    | cons u rest =>
      rw [hq] at hm
      simp at hm
  | succ fuel ih =>
    intro st lev h hm
    unfold bfsLoop
    cases hq : st.q with
    | nil => exact ⟨lev, st, rfl, h, hq⟩
    | cons u rest =>
      simp only
      have hseq : BState.seq { st with q := rest, out := st.out ++ [u] } = st.seq := by
        unfold BState.seq
        rw [hq]
        simp
      have hu : u ∈ st.seq := by
        unfold BState.seq
        rw [hq]
        exact List.mem_append_right _ (List.mem_cons_self _ _)
      have hnd : (st.out ++ u :: rest).Nodup := by
        have := h.nodup
        unfold BState.seq at this
        rw [hq] at this
        exact this
      have hmid : BMid g s u { st with q := rest, out := st.out ++ [u] } lev [] :=
        { vlen := h.vlen
          nodup := by rw [hseq]; exact h.nodup
          vis := by rw [hseq]; exact h.vis
          walk := by rw [hseq]; exact h.walk
          sorted := by rw [hseq]; exact h.sorted
          span := by rw [hseq]; exact h.span u (by rw [hq]; rfl)
          uout := List.mem_append_right _ (List.mem_singleton_self _)
          closed := by
            intro x hx hxu e he
            rw [hseq]
            rcases List.mem_append.1 hx with ho | hs
            · exact h.closed x ho e he
            · rw [List.mem_singleton] at hs
              exact absurd hs hxu
          cdone := by
            intro v hv
            cases hv
          head := by rw [hseq]; exact h.head
          zero := h.zero }
      obtain ⟨lev1, h1, hm1⟩ := bmid_fold g hwf s u (sortedNbrs g u) []
        { st with q := rest, out := st.out ++ [u] } lev hmid
        (fun v hv => (mem_sortedNbrs g u v).1 hv)
      have hinv : BInv g s
          ((sortedNbrs g u).foldl bfsPush { st with q := rest, out := st.out ++ [u] }) lev1 :=
        { vlen := h1.vlen
          nodup := h1.nodup
          vis := h1.vis
          walk := h1.walk
          sorted := h1.sorted
          span := by
            intro u1 hu1 x hx
            have hle := h1.span x hx
            have huu : lev1 u ≤ lev1 u1 := by
              have hs := h1.sorted
              unfold BState.seq at hs
              rw [List.pairwise_append] at hs
              exact hs.2.2 u h1.uout u1 (head_mem hu1)
            omega
          closed := by
            intro x hx e he
            by_cases hxu : x = u
            · subst hxu
              have := h1.cdone e.dst
                (by rw [List.nil_append]; exact (mem_sortedNbrs g x e.dst).2 ⟨e, he, rfl⟩)
              exact this
            · exact h1.closed x hx hxu e he
          head := h1.head
          zero := h1.zero }
      apply ih _ lev1 hinv
      rw [hm1]
      show st.visited.count false + rest.length ≤ fuel
      rw [hq] at hm
      simp only [List.length_cons] at hm
      omega

theorem bfsInit_inv (g : Graph) (s : Nat) (hs : s < g.V) :
    BInv g s (bfsInit g s) (fun _ => 0) ∧
      (bfsInit g s).visited.count false + (bfsInit g s).q.length ≤ g.V := by
  have hseq : (bfsInit g s).seq = [s] := rfl
  constructor
  · refine
      { vlen := by simp [bfsInit]
        nodup := by rw [hseq]; exact List.nodup_singleton s
        vis := ?_
        walk := ?_
        sorted := by rw [hseq]; exact List.pairwise_singleton _ _
        span := fun _ _ _ _ => Nat.zero_le _
        closed := ?_
        head := by rw [hseq]; rfl
        zero := rfl }
    · intro x
      rw [hseq, List.mem_singleton]
      show ((List.replicate g.V false).set s true).getD x false = true ↔ _
      by_cases hxs : s = x
      · subst hxs
        rw [getD_set_eq _ _ _ _ (by rw [List.length_replicate]; exact hs)]
        simp
      · rw [getD_set_ne _ _ _ _ _ hxs]
        simp only [List.getD_eq_getElem?_getD, List.getElem?_replicate]
        constructor
        · intro h
          split at h <;> simp at h
        · intro h
          exact absurd h.symm hxs
    · intro x hx
      rw [hseq, List.mem_singleton] at hx
      subst hx
      exact ⟨[], rfl, rfl⟩
    · intro x hx
      cases hx
  · show ((List.replicate g.V false).set s true).count false + 1 ≤ g.V
    have hc := count_false_set (List.replicate g.V false) s
      (by rw [List.length_replicate]; exact hs)
      (getD_replicate g.V s false false hs)
    rw [List.count_replicate_self] at hc
    omega

/-- The run of `BFS` from `s`: with fuel `V` it returns a sequence `out`, and the
invariant holds for a final state with empty queue that has printed `out`. -/
theorem bfs_runs (g : Graph) (hwf : g.WF) (s : Nat) (hs : s < g.V) (fuel : Nat)
    (hf : g.V ≤ fuel) :
    ∃ lev st1, BFS g s fuel = some st1.out ∧ BInv g s st1 lev ∧ st1.q = [] := by
  obtain ⟨hinv, hm⟩ := bfsInit_inv g s hs
  exact bfsLoop_spec g hwf s fuel (bfsInit g s) (fun _ => 0) hinv (le_trans hm hf)

theorem bfs_final_seq (st : BState) (hq : st.q = []) : st.seq = st.out := by
  unfold BState.seq
  rw [hq, List.append_nil]

/-- In the final state every walk from `s` ends in a printed vertex whose level is at
most the length of the walk. -/
theorem bfs_final_lower (g : Graph) (s : Nat) (st : BState) (lev : Nat → Nat)
    (h : BInv g s st lev) (hq : st.q = []) :
    ∀ (p : List Edge) (x : Nat), g.IsWalk s p x → x ∈ st.out ∧ lev x ≤ p.length := by
  have hseq := bfs_final_seq st hq
  intro p
  induction p using List.reverseRecOn with
  | nil =>
    intro x hx
    simp only [Graph.IsWalk] at hx
    subst hx
    refine ⟨?_, by rw [h.zero]; exact Nat.zero_le _⟩
    rw [← hseq]
    exact head_mem h.head
  | append_singleton p e ih =>
    intro x hx
    obtain ⟨y, hy, he, hd⟩ := (isWalk_snoc_iff g s x p e).1 hx
    obtain ⟨hyo, hyl⟩ := ih y hy
    obtain ⟨hm, hle⟩ := h.closed y hyo e he
    rw [hd, hseq] at hm
    rw [hd] at hle
    refine ⟨hm, ?_⟩
    rw [List.length_append, List.length_singleton]
    omega

theorem bfs_final_hop (g : Graph) (s : Nat) (st : BState) (lev : Nat → Nat)
    (h : BInv g s st lev) (hq : st.q = []) (x : Nat) (hx : x ∈ st.out) :
    g.HopDist s x (lev x) := by
  refine ⟨h.walk x (by rw [bfs_final_seq st hq]; exact hx), ?_⟩
  intro p hp
  exact (bfs_final_lower g s st lev h hq p x hp).2

theorem hopDist_unique (g : Graph) (s x d1 d2 : Nat) (h1 : g.HopDist s x d1)
    (h2 : g.HopDist s x d2) : d1 = d2 := by
  obtain ⟨⟨p1, hp1, hl1⟩, hm1⟩ := h1
  obtain ⟨⟨p2, hp2, hl2⟩, hm2⟩ := h2
  have a := hm1 p2 hp2
  have b := hm2 p1 hp1
  omega

/-- C12. BFS level property. With fuel `V`, `BFS(s)` returns a sequence `out`; every
vertex of `out` has a hop-count distance from `s`, and whenever `x` stands before
`y` in `out` the hop-count distance of `x` is at most that of `y`. On graph 1 of
`main`, `BFS` from `A` prints `A B D G C E F H`. -/
theorem bfs_level (v : Nat) (labels : List String) (es : List (Nat × Nat × Int))
    (hv : ValidEdges v es) (s : Nat) (hs : s < v) (fuel : Nat) (hf : v ≤ fuel) :
    (∃ out, BFS (Graph.build v labels es) s fuel = some out ∧
      (∀ x, x ∈ out → ∃ d, (Graph.build v labels es).HopDist s x d) ∧
      out.Pairwise (fun x y => ∀ dx dy, (Graph.build v labels es).HopDist s x dx →
        (Graph.build v labels es).HopDist s y dy → dx ≤ dy)) ∧
    (BFS graph1 0 8).map (printed graph1)
      = some ["A", "B", "D", "G", "C", "E", "F", "H"] := by
  refine ⟨?_, by decide⟩
  have hwf := build_wf v labels es hv
  have hV := build_V v labels es
  obtain ⟨lev, st1, hrun, hinv, hq⟩ := bfs_runs _ hwf s (by rw [hV]; exact hs) fuel
    (by rw [hV]; exact hf)
  refine ⟨st1.out, hrun, ?_, ?_⟩
  · intro x hx
    exact ⟨lev x, bfs_final_hop _ s st1 lev hinv hq x hx⟩
  · have hs := hinv.sorted
    rw [bfs_final_seq st1 hq] at hs
    refine List.Pairwise.imp_of_mem ?_ hs
    intro a b ha hb hab dx dy hdx hdy
    rw [hopDist_unique _ s a dx (lev a) hdx (bfs_final_hop _ s st1 lev hinv hq a ha),
      hopDist_unique _ s b dy (lev b) hdy (bfs_final_hop _ s st1 lev hinv hq b hb)]
    exact hab

theorem bfs_level_witness :
    (∃ out, BFS (Graph.build 4 ["A", "B", "C", "D"] [(0, 2, 1), (2, 1, 1), (0, 3, 1)]) 0 4
        = some out ∧
      (∀ x, x ∈ out → ∃ d, (Graph.build 4 ["A", "B", "C", "D"]
        [(0, 2, 1), (2, 1, 1), (0, 3, 1)]).HopDist 0 x d) ∧
      out.Pairwise (fun x y => ∀ dx dy,
        (Graph.build 4 ["A", "B", "C", "D"] [(0, 2, 1), (2, 1, 1), (0, 3, 1)]).HopDist 0 x dx →
        (Graph.build 4 ["A", "B", "C", "D"] [(0, 2, 1), (2, 1, 1), (0, 3, 1)]).HopDist 0 y dy →
        dx ≤ dy)) ∧
    (BFS graph1 0 8).map (printed graph1)
      = some ["A", "B", "D", "G", "C", "E", "F", "H"] :=
  bfs_level 4 ["A", "B", "C", "D"] [(0, 2, 1), (2, 1, 1), (0, 3, 1)]
    (by unfold ValidEdges; decide) 0 (by decide) 4 (by decide)

/-- C13. BFS coverage. With fuel `V`, `BFS(s)` returns a sequence that starts with
`s`, has no vertex twice, and holds exactly the vertices reachable from `s`; when
`adj[s]` is empty the sequence is `[s]`. -/
theorem bfs_coverage (v : Nat) (labels : List String) (es : List (Nat × Nat × Int))
    (hv : ValidEdges v es) (s : Nat) (hs : s < v) (fuel : Nat) (hf : v ≤ fuel) :
    ∃ out, BFS (Graph.build v labels es) s fuel = some out ∧ out.head? = some s ∧
      out.Nodup ∧ (∀ x, x ∈ out ↔ (Graph.build v labels es).Reachable s x) ∧
      ((Graph.build v labels es).nbrs s = [] → out = [s]) := by
  have hwf := build_wf v labels es hv
  have hV := build_V v labels es
  obtain ⟨lev, st1, hrun, hinv, hq⟩ := bfs_runs _ hwf s (by rw [hV]; exact hs) fuel
    (by rw [hV]; exact hf)
  have hseq := bfs_final_seq st1 hq
  have hhead : st1.out.head? = some s := by rw [← hseq]; exact hinv.head
  have hnd : st1.out.Nodup := by rw [← hseq]; exact hinv.nodup
  have hiff : ∀ x, x ∈ st1.out ↔ (Graph.build v labels es).Reachable s x := by
    intro x
    constructor
    · intro hx
      obtain ⟨p, hp, _⟩ := hinv.walk x (by rw [hseq]; exact hx)
      exact ⟨p, hp⟩
    · rintro ⟨p, hp⟩
      exact (bfs_final_lower _ s st1 lev hinv hq p x hp).1
  refine ⟨st1.out, hrun, hhead, hnd, hiff, ?_⟩
  intro hnb
  have hall : ∀ x ∈ st1.out, x = s := by
    intro x hx
    obtain ⟨p, hp⟩ := (hiff x).1 hx
    cases p with
    | nil => exact hp.symm
    | cons e p =>
      have := hp.1
      rw [hnb] at this
      cases this
  cases hout : st1.out with
  | nil => rw [hout] at hhead; cases hhead
  | cons a l =>
    rw [hout] at hhead hnd hall
    simp only [List.head?_cons, Option.some.injEq] at hhead
    subst hhead
    cases l with
    | nil => rfl
    | cons b l =>
      have hb := hall b (List.mem_cons_of_mem _ (List.mem_cons_self _ _))
      subst hb
      simp at hnd

theorem bfs_coverage_witness :
    ∃ out, BFS (Graph.build 4 ["A", "B", "C", "D"] [(0, 2, 1), (2, 1, 1)]) 0 4 = some out ∧
      out.head? = some 0 ∧ out.Nodup ∧
      (∀ x, x ∈ out ↔
        (Graph.build 4 ["A", "B", "C", "D"] [(0, 2, 1), (2, 1, 1)]).Reachable 0 x) ∧
      ((Graph.build 4 ["A", "B", "C", "D"] [(0, 2, 1), (2, 1, 1)]).nbrs 0 = [] → out = [0]) :=
  bfs_coverage 4 ["A", "B", "C", "D"] [(0, 2, 1), (2, 1, 1)]
    (by unfold ValidEdges; decide) 0 (by decide) 4 (by decide)

theorem bfsPush_len (st : BState) (v : Nat) :
    (bfsPush st v).visited.length = st.visited.length := by
  unfold bfsPush
  split
  · rfl
  · show (st.visited.set v true).length = _
    rw [List.length_set]

theorem bfsPush_fold_len (l : List Nat) :
    ∀ st : BState, (l.foldl bfsPush st).visited.length = st.visited.length := by
  induction l with
  | nil => intro st; rfl
  | cons a l ih =>
    intro st
    rw [List.foldl_cons, ih, bfsPush_len]

theorem bfsLoop_congr (g1 g2 : Graph) (n : Nat)
    (h : ∀ (u : Nat) (st : BState), st.visited.length = n →
      (sortedNbrs g1 u).foldl bfsPush st = (sortedNbrs g2 u).foldl bfsPush st) :
    ∀ (fuel : Nat) (st : BState), st.visited.length = n →
      bfsLoop g1 fuel st = bfsLoop g2 fuel st := by
  intro fuel
  induction fuel with
  | zero =>
    intro st _
    unfold bfsLoop
    cases st.q <;> rfl
  | succ fuel ih =>
    intro st hst
    unfold bfsLoop
    cases st.q with
    | nil => rfl
    | cons u rest =>
      simp only
      rw [h u { st with q := rest, out := st.out ++ [u] } hst]
      apply ih
      rw [bfsPush_fold_len]
      exact hst

theorem edgeCount_norm (u : Nat) (e : Edge) (t : Nat × Nat × Int) :
    edgeCount u e (normEdge t) = edgeCount u e t := by
  obtain ⟨a, b, w⟩ := t
  unfold normEdge edgeCount
  dsimp only
  by_cases hab : a ≤ b
  · rw [Nat.min_eq_left hab, Nat.max_eq_right hab]
  · have hba : b ≤ a := Nat.le_of_lt (Nat.lt_of_not_le hab)
    rw [Nat.min_eq_right hba, Nat.max_eq_left hba]
    exact Nat.add_comm _ _

/-- Two edge lists that agree as multisets of unordered edges give, at every vertex,
adjacency lists that are permutations of each other. -/
theorem build_nbrs_perm (v : Nat) (labels : List String) (es1 es2 : List (Nat × Nat × Int))
    (hv1 : ValidEdges v es1) (hv2 : ValidEdges v es2)
    (hp : (es1.map normEdge).Perm (es2.map normEdge)) (u : Nat) :
    ((Graph.build v labels es1).nbrs u).Perm ((Graph.build v labels es2).nbrs u) := by
  rw [List.perm_iff_count]
  intro e
  rw [build_count v labels es1 hv1, build_count v labels es2 hv2]
  have h1 : ∀ es : List (Nat × Nat × Int),
      (es.map (edgeCount u e)).sum = ((es.map normEdge).map (edgeCount u e)).sum := by
    intro es
    rw [List.map_map]
    congr 1
    apply List.map_congr_left
    intro t _
    exact (edgeCount_norm u e t).symm
  rw [h1 es1, h1 es2]
  exact (hp.map _).sum_eq

theorem sortedNbrs_perm (g1 g2 : Graph) (u : Nat) (h : (g1.nbrs u).Perm (g2.nbrs u)) :
    sortedNbrs g1 u = sortedNbrs g2 u := by
  unfold sortedNbrs
  have hp : ((g1.nbrs u).map (fun e => e.dst)).Perm ((g2.nbrs u).map (fun e => e.dst)) :=
    h.map _
  exact List.eq_of_perm_of_sorted
    ((List.perm_insertionSort _ _).trans (hp.trans (List.perm_insertionSort _ _).symm))
    (List.sorted_insertionSort _ _) (List.sorted_insertionSort _ _)

/-- C14. BFS does not depend on the order of insertion. Two graphs over the same
vertex list, built from edge lists that agree as multisets once the two endpoints of
every edge are put in ascending order, give the same result of `BFS` from every
start; with fuel `V` this result is a vertex sequence. -/
theorem bfs_order_independent (v : Nat) (labels : List String)
    (es1 es2 : List (Nat × Nat × Int)) (hv1 : ValidEdges v es1) (hv2 : ValidEdges v es2)
    (hp : (es1.map normEdge).Perm (es2.map normEdge)) (s fuel : Nat) :
    BFS (Graph.build v labels es1) s fuel = BFS (Graph.build v labels es2) s fuel ∧
    (s < v → v ≤ fuel → ∃ out, BFS (Graph.build v labels es1) s fuel = some out ∧
      BFS (Graph.build v labels es2) s fuel = some out) := by
  have heq : BFS (Graph.build v labels es1) s fuel = BFS (Graph.build v labels es2) s fuel := by
    unfold BFS
    have hi : bfsInit (Graph.build v labels es1) s = bfsInit (Graph.build v labels es2) s := by
      unfold bfsInit
      rw [build_V, build_V]
    rw [hi]
    refine bfsLoop_congr _ _ (bfsInit (Graph.build v labels es2) s).visited.length ?_ fuel _ rfl
    intro u st _
    rw [sortedNbrs_perm _ _ u (build_nbrs_perm v labels es1 es2 hv1 hv2 hp u)]
  refine ⟨heq, ?_⟩
  intro hs hf
  have hwf := build_wf v labels es1 hv1
  have hV := build_V v labels es1
  obtain ⟨lev, st1, hrun, _, _⟩ := bfs_runs _ hwf s (by rw [hV]; exact hs) fuel
    (by rw [hV]; exact hf)
  exact ⟨st1.out, hrun, by rw [← heq]; exact hrun⟩

theorem bfs_order_independent_witness :
    BFS (Graph.build 4 ["A", "B", "C", "D"] [(0, 2, 1), (0, 1, 4), (1, 3, 2)]) 0 4
      = BFS (Graph.build 4 ["A", "B", "C", "D"] [(3, 1, 2), (0, 2, 1), (1, 0, 4)]) 0 4 ∧
    (0 < 4 → 4 ≤ 4 → ∃ out,
      BFS (Graph.build 4 ["A", "B", "C", "D"] [(0, 2, 1), (0, 1, 4), (1, 3, 2)]) 0 4
        = some out ∧
      BFS (Graph.build 4 ["A", "B", "C", "D"] [(3, 1, 2), (0, 2, 1), (1, 0, 4)]) 0 4
        = some out) :=
  bfs_order_independent 4 ["A", "B", "C", "D"] [(0, 2, 1), (0, 1, 4), (1, 3, 2)]
    [(3, 1, 2), (0, 2, 1), (1, 0, 4)] (by unfold ValidEdges; decide)
    (by unfold ValidEdges; decide) (by decide) 0 4

/-! ## Depth-first search -/

theorem sortedNbrsDesc_reverse (g : Graph) (u : Nat) :
    (sortedNbrsDesc g u).reverse = sortedNbrs g u := by
  unfold sortedNbrsDesc sortedNbrs
  haveI t1 : IsTotal Nat (fun a b => b ≤ a) := ⟨fun a b => Nat.le_total b a⟩
  haveI t2 : IsTrans Nat (fun a b => b ≤ a) := ⟨fun _ _ _ h1 h2 => Nat.le_trans h2 h1⟩
  refine List.eq_of_perm_of_sorted ?_ ?_ (List.sorted_insertionSort _ _)
  · exact (List.reverse_perm _).trans
      ((List.perm_insertionSort _ _).trans (List.perm_insertionSort _ _).symm)
  · have h := List.sorted_insertionSort (fun a b : Nat => b ≤ a)
      ((g.nbrs u).map (fun e => e.dst))
    exact List.pairwise_reverse.2 h

theorem dfsPush_fold (vis : List Bool) :
    ∀ (l stack : List Nat),
      l.foldl (dfsPush vis) stack = (l.filter (fun a => !vis.getD a false)).reverse ++ stack := by
  intro l
  induction l with
  | nil => intro stack; rfl
  | cons a l ih =>
    intro stack
    rw [List.foldl_cons, ih]
    cases h : vis.getD a false with
    | true =>
      have hp : dfsPush vis stack a = stack := by
        unfold dfsPush
        rw [h]
        rfl
      have hf : (a :: l).filter (fun a => !vis.getD a false)
          = l.filter (fun a => !vis.getD a false) := by
        apply List.filter_cons_of_neg
        show ¬ ((!vis.getD a false) = true)
        rw [h]
        decide
      rw [hp, hf]
    | false =>
      have hp : dfsPush vis stack a = a :: stack := by
        unfold dfsPush
        rw [h]
        rfl
      have hf : (a :: l).filter (fun a => !vis.getD a false)
          = a :: l.filter (fun a => !vis.getD a false) := by
        apply List.filter_cons_of_pos
        show (!vis.getD a false) = true
        rw [h]
        rfl
      rw [hp, hf, List.reverse_cons, List.append_assoc]
      rfl

theorem dfs_stack (g : Graph) (vis : List Bool) (u : Nat) (rest : List Nat) :
    (sortedNbrsDesc g u).foldl (dfsPush vis) rest
      = (sortedNbrs g u).filter (fun a => !vis.getD a false) ++ rest := by
  rw [dfsPush_fold, ← List.filter_reverse, sortedNbrsDesc_reverse]

theorem dfs_step_new (g : Graph) (fuel v : Nat) (stack : List Nat) (st : TState)
    (h : ¬ st.vis v) :
    dfsLoop g (fuel + 1) (v :: stack) st
      = dfsLoop g fuel
          ((sortedNbrs g v).filter (fun a => !(st.visited.set v true).getD a false) ++ stack)
          { visited := st.visited.set v true, out := st.out ++ [v] } := by
  have h1 : ¬ (st.visited.getD v false = true) := h
  have e : dfsVisit v st = { visited := st.visited.set v true, out := st.out ++ [v] } := by
    unfold dfsVisit
    rw [if_neg h1]
  rw [dfsLoop, e, dfs_stack]

theorem dfs_step_stale (g : Graph) (fuel v : Nat) (stack : List Nat) (st : TState)
    (h : st.vis v) (hall : ∀ e ∈ g.nbrs v, st.vis e.dst) :
    dfsLoop g (fuel + 1) (v :: stack) st = dfsLoop g fuel stack st := by
  have h1 : st.visited.getD v false = true := h
  have e : dfsVisit v st = st := by
    unfold dfsVisit
    rw [if_pos h1]
  have hf : (sortedNbrs g v).filter (fun a => !st.visited.getD a false) = [] := by
    rw [List.filter_eq_nil_iff]
    intro a ha
    obtain ⟨e1, he1, hd⟩ := (mem_sortedNbrs g v a).1 ha
    have := hall e1 he1
    rw [hd] at this
    unfold TState.vis at this
    show ¬ ((!st.visited.getD a false) = true)
    rw [this]
    decide
  rw [dfsLoop, e, dfs_stack, hf, List.nil_append]

theorem tvisit_vis (st : TState) (v x : Nat) (hv : v < st.visited.length) :
    TState.vis { visited := st.visited.set v true, out := st.out ++ [v] } x
      ↔ x = v ∨ st.vis x := by
  show (st.visited.set v true).getD x false = true ↔ _
  by_cases hxv : v = x
  · subst hxv
    rw [getD_set_eq _ _ _ _ hv]
    simp
  · rw [getD_set_ne _ _ _ _ _ hxv]
    constructor
    · exact Or.inr
    · rintro (h | h)
      · exact absurd h.symm hxv
      · exact h

theorem tpost_refl (g : Graph) (roots : List Nat) (st : TState) (h : TInv st) :
    TPost g roots st st [] :=
  { len := rfl
    mono := fun _ hx => hx
    fin := fun _ hx hn => absurd hx hn
    unv := le_refl _
    out := (List.append_nil _).symm
    reach := fun _ hx hn => absurd hx hn
    inv := h }

theorem tpost_trans (g : Graph) (r1 r2 roots : List Nat) (a b c : TState) (e1 e2 : List Nat)
    (h1 : TPost g r1 a b e1) (h2 : TPost g r2 b c e2) (hr1 : ∀ x ∈ r1, x ∈ roots)
    (hr2 : ∀ x ∈ r2, x ∈ roots) : TPost g roots a c (e1 ++ e2) :=
  { len := h2.len.trans h1.len
    mono := fun x hx => h2.mono x (h1.mono x hx)
    fin := by
      intro x hx hn e he
      by_cases hb : b.vis x
      · exact h2.mono _ (h1.fin x hb hn e he)
      · exact h2.fin x hx hb e he
    unv := le_trans h2.unv h1.unv
    out := by rw [h2.out, h1.out, List.append_assoc]
    reach := by
      intro x hx hn
      by_cases hb : b.vis x
      · obtain ⟨r, hr, hreach⟩ := h1.reach x hb hn
        exact ⟨r, hr1 r hr, hreach⟩
      · obtain ⟨r, hr, hreach⟩ := h2.reach x hx hb
        exact ⟨r, hr2 r hr, hreach⟩
    inv := h2.inv }

/-- The loop of the recursive search over the neighbour list `L` and the run of the
explicit-stack loop over the entries of `L` that were pushed (those not marked in
`vis0`) arrive at the same state, provided each call does; `k` is the number of pops. -/
theorem dfs_list_sim (g : Graph) (f : Nat)
    (ih : ∀ (v : Nat) (st : TState), TInv st → st.visited.length = g.V →
      st.visited.count false ≤ f → ¬ st.vis v → v < g.V →
      ∃ st1 k ext, recVisit g f v st = some st1 ∧ TPost g [v] st st1 (v :: ext) ∧
        ∀ fuel stack, dfsLoop g (fuel + k) (v :: stack) st = dfsLoop g fuel stack st1)
    (vis0 : List Bool) :
    ∀ (L : List Nat) (cur : TState), TInv cur → cur.visited.length = g.V →
      cur.visited.count false ≤ f → (∀ a ∈ L, a < g.V) →
      (∀ x, vis0.getD x false = true → cur.vis x) →
      (∀ a ∈ L, vis0.getD a false = false → cur.vis a → ∀ e ∈ g.nbrs a, cur.vis e.dst) →
      ∃ cur1 k ext, recLoop (recVisit g f) L cur = some cur1 ∧ TPost g L cur cur1 ext ∧
        (∀ a ∈ L, cur1.vis a) ∧
        ∀ fuel stack,
          dfsLoop g (fuel + k) (L.filter (fun a => !vis0.getD a false) ++ stack) cur
            = dfsLoop g fuel stack cur1 := by
  intro L
  induction L with
  | nil =>
    intro cur hinv _ _ _ _ _
    exact ⟨cur, 0, [], rfl, tpost_refl g [] cur hinv, fun a ha => absurd ha (List.not_mem_nil a),
      fun _ _ => rfl⟩
  | cons a L ihL =>
    intro cur hinv hlen hunv hL h0 hstale
    have hL1 : ∀ b ∈ L, b < g.V := fun b hb => hL b (List.mem_cons_of_mem _ hb)
    by_cases hca : cur.vis a
    · -- `a` is marked: the recursive loop passes over it
      have hca1 : cur.visited.getD a false = true := hca
      obtain ⟨cur1, k, ext, hrec, hpost, hvis, hdfs⟩ := ihL cur hinv hlen hunv hL1 h0
        (fun b hb => hstale b (List.mem_cons_of_mem _ hb))
      have hrec1 : recLoop (recVisit g f) (a :: L) cur = some cur1 := by
        rw [recLoop, if_pos hca1]
        exact hrec
      have hpost1 : TPost g (a :: L) cur cur1 ext :=
        { hpost with
          reach := fun x hx hn => by
            obtain ⟨r, hr, hreach⟩ := hpost.reach x hx hn
            exact ⟨r, List.mem_cons_of_mem _ hr, hreach⟩ }
      have hvis1 : ∀ b ∈ a :: L, cur1.vis b := by
        intro b hb
        rcases List.mem_cons.1 hb with heq | hbl
        · rw [heq]; exact hpost.mono a hca
        · exact hvis b hbl
      cases h0a : vis0.getD a false with
      | true =>
        refine ⟨cur1, k, ext, hrec1, hpost1, hvis1, ?_⟩
        intro fuel stack
        have hf : (a :: L).filter (fun a => !vis0.getD a false)
            = L.filter (fun a => !vis0.getD a false) := by
          apply List.filter_cons_of_neg
          show ¬ ((!vis0.getD a false) = true)
          rw [h0a]
          decide
        rw [hf]
        exact hdfs fuel stack
      | false =>
        refine ⟨cur1, k + 1, ext, hrec1, hpost1, hvis1, ?_⟩
        intro fuel stack
        have hf : (a :: L).filter (fun a => !vis0.getD a false)
            = a :: L.filter (fun a => !vis0.getD a false) := by
          apply List.filter_cons_of_pos
          show (!vis0.getD a false) = true
          rw [h0a]
          rfl
        rw [hf, List.cons_append]
        have hadd : fuel + (k + 1) = (fuel + k) + 1 := rfl
        rw [hadd, dfs_step_stale g (fuel + k) a _ cur hca
          (hstale a (List.mem_cons_self _ _) h0a hca)]
        exact hdfs fuel stack
    · -- `a` is not marked: both searches descend into `a`
      have hca1 : ¬ (cur.visited.getD a false = true) := hca
      have h0a : vis0.getD a false = false := by
        cases h : vis0.getD a false with
        | true => exact absurd (h0 a h) hca
        | false => rfl
      obtain ⟨st1, k1, ext1, hcall, hp1, hd1⟩ := ih a cur hinv hlen hunv hca
        (hL a (List.mem_cons_self _ _))
      obtain ⟨cur1, k2, ext2, hrec, hp2, hvis, hd2⟩ := ihL st1 hp1.inv (hp1.len.trans hlen)
        (le_trans hp1.unv hunv) hL1 (fun x hx => hp1.mono x (h0 x hx))
        (by
          intro b hb hb0 hbv e he
          by_cases hcb : cur.vis b
          · exact hp1.mono _ (hstale b (List.mem_cons_of_mem _ hb) hb0 hcb e he)
          · exact hp1.fin b hbv hcb e he)
      have ha1 : st1.vis a := by
        rw [hp1.inv.ov a, hp1.out]
        exact List.mem_append_right _ (List.mem_cons_self _ _)
      refine ⟨cur1, k2 + k1, (a :: ext1) ++ ext2, ?_, ?_, ?_, ?_⟩
      · rw [recLoop, if_neg hca1, hcall]
        exact hrec
      · exact tpost_trans g [a] L (a :: L) cur st1 cur1 (a :: ext1) ext2 hp1 hp2
          (fun x hx => by rw [List.mem_singleton] at hx; rw [hx]; exact List.mem_cons_self _ _)
          (fun x hx => List.mem_cons_of_mem _ hx)
      · intro b hb
        rcases List.mem_cons.1 hb with heq | hbl
        · rw [heq]; exact hp2.mono a ha1
        · exact hvis b hbl
      · intro fuel stack
        have hf : (a :: L).filter (fun a => !vis0.getD a false)
            = a :: L.filter (fun a => !vis0.getD a false) := by
          apply List.filter_cons_of_pos
          show (!vis0.getD a false) = true
          rw [h0a]
          rfl
        rw [hf, List.cons_append]
        have hadd : fuel + (k2 + k1) = (fuel + k2) + k1 := (Nat.add_assoc _ _ _).symm
        rw [hadd, hd1 (fuel + k2) _]
        exact hd2 fuel stack

/-- A call of the recursive search at an unmarked vertex `v`, and the run of the
explicit-stack loop from a stack with `v` on top until `v` and everything pushed
above it is popped again, arrive at the same state; `k` is the number of pops. -/
theorem dfs_sim (g : Graph) (hwf : g.WF) :
    ∀ (f v : Nat) (st : TState), TInv st → st.visited.length = g.V →
      st.visited.count false ≤ f → ¬ st.vis v → v < g.V →
      ∃ st1 k ext, recVisit g f v st = some st1 ∧ TPost g [v] st st1 (v :: ext) ∧
        ∀ fuel stack, dfsLoop g (fuel + k) (v :: stack) st = dfsLoop g fuel stack st1 := by
  intro f
  induction f with
  | zero =>
    intro v st _ hlen hunv hnv hv
    have hfalse : st.visited.getD v false = false := by
      unfold TState.vis at hnv
      simpa using hnv
    have := count_false_set st.visited v (by rw [hlen]; exact hv) hfalse
    omega
  | succ f ih =>
    intro v st hinv hlen hunv hnv hv
    have hvl : v < st.visited.length := by rw [hlen]; exact hv
    have hfalse : st.visited.getD v false = false := by
      unfold TState.vis at hnv
      simpa using hnv
    have hcount := count_false_set st.visited v hvl hfalse
    have hvis := tvisit_vis st v
    have hinv1 : TInv { visited := st.visited.set v true, out := st.out ++ [v] } :=
      { ov := by
          intro x
          rw [hvis x hvl, hinv.ov x]
          show _ ↔ x ∈ st.out ++ [v]
          rw [List.mem_append, List.mem_singleton]
          exact Or.comm
        nodup := by
          show (st.out ++ [v]).Nodup
          rw [List.nodup_append]
          refine ⟨hinv.nodup, List.nodup_singleton v, ?_⟩
          intro x hx hx2
          rw [List.mem_singleton] at hx2
          rw [hx2] at hx
          exact hnv ((hinv.ov v).2 hx) }
    obtain ⟨cur1, k, ext, hrec, hpost, hlist, hdfs⟩ := dfs_list_sim g f (ih) (st.visited.set v true)
      (sortedNbrs g v) { visited := st.visited.set v true, out := st.out ++ [v] } hinv1
      (by show (st.visited.set v true).length = g.V; rw [List.length_set]; exact hlen)
      (by show (st.visited.set v true).count false ≤ f; omega)
      (by
        intro a ha
        obtain ⟨e, he, hd⟩ := (mem_sortedNbrs g v a).1 ha
        rw [← hd]
        exact hwf.dst_lt v e he)
      (fun x hx => hx)
      (by
        intro a _ ha0 hav
        have hav1 : (st.visited.set v true).getD a false = true := hav
        rw [ha0] at hav1
        cases hav1)
    refine ⟨cur1, k + 1, ext, ?_, ?_, ?_⟩
    · rw [recVisit]
      exact hrec
    · refine
        { len := ?_, mono := ?_, fin := ?_, unv := ?_, out := ?_, reach := ?_,
          inv := hpost.inv }
      · rw [hpost.len]
        show (st.visited.set v true).length = _
        rw [List.length_set]
      · intro x hx
        exact hpost.mono x ((hvis x hvl).2 (Or.inr hx))
      · intro x hx hn e he
        by_cases hxv : x = v
        · subst hxv
          exact hlist e.dst ((mem_sortedNbrs g x e.dst).2 ⟨e, he, rfl⟩)
        · refine hpost.fin x hx ?_ e he
          intro h1
          rcases (hvis x hvl).1 h1 with h2 | h2
          · exact hxv h2
          · exact hn h2
      · have h1 := hpost.unv
        have h2 : (st.visited.set v true).count false ≤ st.visited.count false := by omega
        exact le_trans h1 h2
      · rw [hpost.out]
        show st.out ++ [v] ++ ext = st.out ++ v :: ext
        rw [List.append_assoc]
        rfl
      · intro x hx hn
        refine ⟨v, List.mem_singleton_self v, ?_⟩
        by_cases hxv : x = v
        · rw [hxv]; exact ⟨[], rfl⟩
        · have hn1 : ¬ TState.vis { visited := st.visited.set v true, out := st.out ++ [v] } x := by
            intro h1
            rcases (hvis x hvl).1 h1 with h2 | h2
            · exact hxv h2
            · exact hn h2
          obtain ⟨a, ha, hreach⟩ := hpost.reach x hx hn1
          obtain ⟨e, he, hd⟩ := (mem_sortedNbrs g v a).1 ha
          have hva : g.Reachable v a := by
            rw [← hd]
            exact reachable_step g v v e ⟨[], rfl⟩ he
          exact reachable_trans g v a x hva hreach
    · intro fuel stack
      have hadd : fuel + (k + 1) = (fuel + k) + 1 := rfl
      rw [hadd, dfs_step_new g (fuel + k) v stack st hnv]
      exact hdfs fuel stack

theorem dfsLoop_nil (g : Graph) (fuel : Nat) (st : TState) :
    dfsLoop g fuel [] st = some st.out := by
  rw [dfsLoop]

theorem tinit_vis (n x : Nat) :
    ¬ TState.vis { visited := List.replicate n false, out := [] } x := by
  show ¬ ((List.replicate n false).getD x false = true)
  simp only [List.getD_eq_getElem?_getD, List.getElem?_replicate]
  split <;> simp

theorem tinit_inv (n : Nat) : TInv { visited := List.replicate n false, out := [] } :=
  { ov := fun x => ⟨fun h => absurd h (tinit_vis n x), fun h => absurd h (List.not_mem_nil x)⟩
    nodup := List.nodup_nil }

/-- The run of `DFS` from `s`: the recursive search returns with fuel `V`, the
explicit-stack loop with fuel `N`, both with the same sequence. -/
theorem dfs_runs (g : Graph) (hwf : g.WF) (s : Nat) (hs : s < g.V) :
    ∃ st1 N ext, (∀ fuel, g.V ≤ fuel → recPreorder g s fuel = some st1.out) ∧
      (∀ fuel, N ≤ fuel → DFS g s fuel = some st1.out) ∧
      TPost g [s] { visited := List.replicate g.V false, out := [] } st1 (s :: ext) := by
  have hlen : (List.replicate g.V false).length = g.V := List.length_replicate _ _
  have hcount : (List.replicate g.V false).count false = g.V := List.count_replicate_self _ _
  have key : ∀ f, g.V ≤ f → ∃ st1 k ext,
      recVisit g f s { visited := List.replicate g.V false, out := [] } = some st1 ∧
      TPost g [s] { visited := List.replicate g.V false, out := [] } st1 (s :: ext) ∧
      ∀ fuel, DFS g s (fuel + k) = some st1.out := by
    intro f hf
    obtain ⟨st1, k, ext, hrec, hpost, hdfs⟩ := dfs_sim g hwf f s
      { visited := List.replicate g.V false, out := [] } (tinit_inv g.V) hlen
      (by show (List.replicate g.V false).count false ≤ f; rw [hcount]; exact hf)
      (tinit_vis g.V s) hs
    refine ⟨st1, k, ext, hrec, hpost, ?_⟩
    intro fuel
    unfold DFS
    rw [hdfs fuel [], dfsLoop_nil]
  obtain ⟨st1, k, ext, _, hpost, hdfs⟩ := key g.V (le_refl _)
  refine ⟨st1, k, ext, ?_, ?_, hpost⟩
  · intro fuel hf
    obtain ⟨st2, k2, _, hrec2, _, hdfs2⟩ := key fuel hf
    have h1 := hdfs k2
    have h2 := hdfs2 k
    rw [Nat.add_comm] at h2
    rw [h1] at h2
    simp only [Option.some.injEq] at h2
    unfold recPreorder
    rw [hrec2, h2]
    rfl
  · intro fuel hf
    have := hdfs (fuel - k)
    rw [Nat.sub_add_cancel hf] at this
    exact this

/-- C15. DFS equals the recursive pre-order. For every start `s` there is one
sequence `out` that the recursive depth-first search (ascending neighbours, only
unmarked ones entered) returns with fuel `V` and that the explicit-stack `DFS`
returns with enough fuel. On graph 1 of `main`, `DFS` from `A` prints
`A B C E D G F H`. -/
theorem dfs_eq_preorder (v : Nat) (labels : List String) (es : List (Nat × Nat × Int))
    (hv : ValidEdges v es) (s : Nat) (hs : s < v) :
    (∃ out N, (∀ fuel, v ≤ fuel → recPreorder (Graph.build v labels es) s fuel = some out) ∧
      ∀ fuel, N ≤ fuel → DFS (Graph.build v labels es) s fuel = some out) ∧
    (DFS graph1 0 15).map (printed graph1)
      = some ["A", "B", "C", "E", "D", "G", "F", "H"] := by
  refine ⟨?_, by decide⟩
  have hwf := build_wf v labels es hv
  have hV := build_V v labels es
  obtain ⟨st1, N, _, hrec, hdfs, _⟩ := dfs_runs _ hwf s (by rw [hV]; exact hs)
  refine ⟨st1.out, N, ?_, hdfs⟩
  intro fuel hf
  exact hrec fuel (by rw [hV]; exact hf)

theorem dfs_eq_preorder_witness :
    (∃ out N, (∀ fuel, 4 ≤ fuel → recPreorder (Graph.build 4 ["A", "B", "C", "D"]
        [(0, 1, 1), (0, 2, 1), (1, 2, 1), (2, 3, 1)]) 0 fuel = some out) ∧
      ∀ fuel, N ≤ fuel → DFS (Graph.build 4 ["A", "B", "C", "D"]
        [(0, 1, 1), (0, 2, 1), (1, 2, 1), (2, 3, 1)]) 0 fuel = some out) ∧
    (DFS graph1 0 15).map (printed graph1)
      = some ["A", "B", "C", "E", "D", "G", "F", "H"] :=
  dfs_eq_preorder 4 ["A", "B", "C", "D"] [(0, 1, 1), (0, 2, 1), (1, 2, 1), (2, 3, 1)]
    (by unfold ValidEdges; decide) 0 (by decide)

/-- C16. DFS coverage. With enough fuel `DFS(s)` returns a sequence that starts with
`s`, has no vertex twice, and holds exactly the vertices reachable from `s`. -/
theorem dfs_coverage (v : Nat) (labels : List String) (es : List (Nat × Nat × Int))
    (hv : ValidEdges v es) (s : Nat) (hs : s < v) :
    ∃ out N, (∀ fuel, N ≤ fuel → DFS (Graph.build v labels es) s fuel = some out) ∧
      out.head? = some s ∧ out.Nodup ∧
      ∀ x, x ∈ out ↔ (Graph.build v labels es).Reachable s x := by
  have hwf := build_wf v labels es hv
  have hV := build_V v labels es
  obtain ⟨st1, N, ext, _, hdfs, hpost⟩ := dfs_runs _ hwf s (by rw [hV]; exact hs)
  have hout : st1.out = s :: ext := by
    rw [hpost.out]
    rfl
  have hnew : ∀ x, ¬ TState.vis
      { visited := List.replicate (Graph.build v labels es).V false, out := [] } x :=
    tinit_vis _
  refine ⟨st1.out, N, hdfs, by rw [hout]; rfl, hpost.inv.nodup, ?_⟩
  intro x
  rw [← hpost.inv.ov x]
  constructor
  · intro hx
    obtain ⟨a, ha, hreach⟩ := hpost.reach x hx (hnew x)
    rw [List.mem_singleton] at ha
    rw [← ha]
    exact hreach
  · rintro ⟨p, hp⟩
    induction p using List.reverseRecOn generalizing x with
    | nil =>
      simp only [Graph.IsWalk] at hp
      rw [← hp, hpost.inv.ov s, hout]
      exact List.mem_cons_self _ _
    | append_singleton p e ih =>
      obtain ⟨y, hy, he, hd⟩ := (isWalk_snoc_iff _ s x p e).1 hp
      rw [← hd]
      exact hpost.fin y (ih y hy) (hnew y) e he

theorem dfs_coverage_witness :
    ∃ out N, (∀ fuel, N ≤ fuel → DFS (Graph.build 4 ["A", "B", "C", "D"]
        [(0, 2, 1), (2, 1, 1)]) 0 fuel = some out) ∧
      out.head? = some 0 ∧ out.Nodup ∧
      ∀ x, x ∈ out ↔
        (Graph.build 4 ["A", "B", "C", "D"] [(0, 2, 1), (2, 1, 1)]).Reachable 0 x :=
  dfs_coverage 4 ["A", "B", "C", "D"] [(0, 2, 1), (2, 1, 1)]
    (by unfold ValidEdges; decide) 0 (by decide)

/-! ## Parallel edges and the traversals -/

/-- A function of a sorted list that does not see an entry repeated next to itself
does not see repetitions at all. -/
theorem sorted_dup_elim {σ τ : Type} (F : List Nat → σ → τ) (P : σ → Prop) (Q : Nat → Prop)
    (hdup : ∀ a l st, Q a → P st → F (a :: a :: l) st = F (a :: l) st)
    (hcong : ∀ a l1 l2, Q a → (∀ st, P st → F l1 st = F l2 st) →
      ∀ st, P st → F (a :: l1) st = F (a :: l2) st) :
    ∀ l : List Nat, l.Sorted (fun a b => a ≤ b) → (∀ a ∈ l, Q a) →
      ∀ st, P st → F l st = F l.dedup st := by
  intro l
  induction l with
  | nil => intro _ _ st _; rfl
  | cons a l ih =>
    intro hs hq st hst
    obtain ⟨hle, hsl⟩ := List.sorted_cons.1 hs
    have hql : ∀ b ∈ l, Q b := fun b hb => hq b (List.mem_cons_of_mem _ hb)
    have hqa : Q a := hq a (List.mem_cons_self _ _)
    by_cases ha : a ∈ l
    · rw [List.dedup_cons_of_mem ha]
      cases l with
      | nil => cases ha
      | cons c l1 =>
        have hac : a ≤ c := hle c (List.mem_cons_self _ _)
        have hca : c ≤ a := by
          rcases List.mem_cons.1 ha with heq | hin
          · rw [heq]
          · exact (List.sorted_cons.1 hsl).1 a hin
        have hceq : c = a := Nat.le_antisymm hca hac
        subst hceq
        rw [hdup c l1 st hqa hst]
        exact ih hsl hql st hst
    · rw [List.dedup_cons_of_not_mem ha]
      exact hcong a l l.dedup hqa (fun st1 h1 => ih hsl hql st1 h1) st hst

theorem sorted_dedup_eq (l1 l2 : List Nat) (h1 : l1.Sorted (fun a b => a ≤ b))
    (h2 : l2.Sorted (fun a b => a ≤ b)) (h : ∀ a, a ∈ l1 ↔ a ∈ l2) : l1.dedup = l2.dedup := by
  have strict : ∀ l : List Nat, l.Sorted (fun a b => a ≤ b) →
      l.dedup.Sorted (fun a b => a < b) := by
    intro l hl
    have hp : l.dedup.Pairwise (fun a b => a ≤ b) := List.Pairwise.sublist (List.dedup_sublist l) hl
    have hn : l.dedup.Pairwise (fun a b => a ≠ b) := List.nodup_dedup l
    exact (hp.and hn).imp (fun hab => Nat.lt_of_le_of_ne hab.1 hab.2)
  apply sorted_eq_of_mem_iff _ _ (strict l1 h1) (strict l2 h2)
  intro a
  rw [List.mem_dedup, List.mem_dedup]
  exact h a

theorem sortedNbrs_sorted (g : Graph) (u : Nat) : (sortedNbrs g u).Sorted (fun a b => a ≤ b) :=
  List.sorted_insertionSort _ _

theorem sortedNbrs_lt (g : Graph) (hwf : g.WF) (u a : Nat) (h : a ∈ sortedNbrs g u) :
    a < g.V := by
  obtain ⟨e, he, hd⟩ := (mem_sortedNbrs g u a).1 h
  rw [← hd]
  exact hwf.dst_lt u e he

theorem bfsPush_idem (st : BState) (a : Nat) (ha : a < st.visited.length) :
    bfsPush (bfsPush st a) a = bfsPush st a := by
  by_cases h : st.visited.getD a false = true
  · have e : bfsPush st a = st := by
      unfold bfsPush
      rw [if_pos h]
    rw [e, e]
  · have e : bfsPush st a = { st with visited := st.visited.set a true, q := st.q ++ [a] } := by
      unfold bfsPush
      rw [if_neg h]
    rw [e]
    unfold bfsPush
    have h1 : (st.visited.set a true).getD a false = true := getD_set_eq _ _ _ _ ha
    rw [if_pos h1]

/-- Two graphs on `n` vertices whose vertices have the same neighbours, counted
without multiplicity, have the same `BFS` loop. -/
theorem bfs_fold_same_mem (g1 g2 : Graph) (hwf1 : g1.WF) (hwf2 : g2.WF) (hV : g1.V = g2.V)
    (hmem : ∀ u x, x ∈ sortedNbrs g1 u ↔ x ∈ sortedNbrs g2 u) (u : Nat) (st : BState)
    (hst : st.visited.length = g2.V) :
    (sortedNbrs g1 u).foldl bfsPush st = (sortedNbrs g2 u).foldl bfsPush st := by
  have key : ∀ l : List Nat, l.Sorted (fun a b => a ≤ b) → (∀ a ∈ l, a < g2.V) →
      ∀ st : BState, st.visited.length = g2.V → l.foldl bfsPush st = l.dedup.foldl bfsPush st := by
    apply sorted_dup_elim (fun l st => l.foldl bfsPush st)
      (fun st => st.visited.length = g2.V) (fun a => a < g2.V)
    · intro a l st1 ha hst1
      show List.foldl bfsPush st1 (a :: a :: l) = List.foldl bfsPush st1 (a :: l)
      rw [List.foldl_cons, List.foldl_cons, List.foldl_cons,
        bfsPush_idem st1 a (by rw [hst1]; exact ha)]
    · intro a l1 l2 _ h st1 hst1
      show List.foldl bfsPush st1 (a :: l1) = List.foldl bfsPush st1 (a :: l2)
      rw [List.foldl_cons, List.foldl_cons]
      exact h _ (by rw [bfsPush_len]; exact hst1)
  rw [key _ (sortedNbrs_sorted g1 u) (fun a ha => by rw [← hV]; exact sortedNbrs_lt g1 hwf1 u a ha)
      st hst,
    key _ (sortedNbrs_sorted g2 u) (fun a ha => sortedNbrs_lt g2 hwf2 u a ha) st hst,
    sorted_dedup_eq _ _ (sortedNbrs_sorted g1 u) (sortedNbrs_sorted g2 u) (hmem u)]

theorem recLoop_marks (call : Nat → TState → Option TState)
    (hcall : ∀ v st st1, call v st = some st1 →
      st1.visited.length = st.visited.length ∧ ∀ x, st.vis x → st1.vis x) :
    ∀ (L : List Nat) (st st1 : TState), recLoop call L st = some st1 →
      st1.visited.length = st.visited.length ∧ ∀ x, st.vis x → st1.vis x := by
  intro L
  induction L with
  | nil =>
    intro st st1 h
    simp only [recLoop, Option.some.injEq] at h
    rw [← h]
    exact ⟨rfl, fun _ hx => hx⟩
  | cons a L ih =>
    intro st st1 h
    rw [recLoop] at h
    split at h
    · exact ih st st1 h
    · split at h
      · cases h
      · rename_i st2 hc
        obtain ⟨l1, m1⟩ := hcall a st st2 hc
        obtain ⟨l2, m2⟩ := ih st2 st1 h
        exact ⟨l2.trans l1, fun x hx => m2 x (m1 x hx)⟩

theorem recVisit_marks (g : Graph) :
    ∀ (f v : Nat) (st st1 : TState), recVisit g f v st = some st1 →
      st1.visited.length = st.visited.length ∧ (∀ x, st.vis x → st1.vis x) ∧
      (v < st.visited.length → st1.vis v) := by
  intro f
  induction f with
  | zero =>
    intro v st st1 h
    simp [recVisit] at h
  | succ f ih =>
    intro v st st1 h
    rw [recVisit] at h
    obtain ⟨l1, m1⟩ := recLoop_marks (recVisit g f)
      (fun a s1 s2 hc => ⟨(ih a s1 s2 hc).1, (ih a s1 s2 hc).2.1⟩) _ _ _ h
    have hlen : st1.visited.length = st.visited.length := by
      rw [l1]
      show (st.visited.set v true).length = _
      rw [List.length_set]
    refine ⟨hlen, ?_, ?_⟩
    · intro x hx
      by_cases hv : v < st.visited.length
      · exact m1 x ((tvisit_vis st v x hv).2 (Or.inr hx))
      · apply m1 x
        show (st.visited.set v true).getD x false = true
        rw [List.set_eq_of_length_le (Nat.le_of_not_lt hv)]
        exact hx
    · intro hv
      exact m1 v ((tvisit_vis st v v hv).2 (Or.inl rfl))

theorem recLoop_congr_call (c1 c2 : Nat → TState → Option TState) (P : TState → Prop)
    (h : ∀ v st, P st → c1 v st = c2 v st)
    (hP : ∀ v st st1, P st → c2 v st = some st1 → P st1) :
    ∀ (L : List Nat) (st : TState), P st → recLoop c1 L st = recLoop c2 L st := by
  intro L
  induction L with
  | nil => intro st _; rfl
  | cons a L ih =>
    intro st hst
    rw [recLoop, recLoop, h a st hst]
    split
    · exact ih st hst
    · cases hc : c2 a st with
      | none => rfl
      | some st1 => exact ih st1 (hP a st st1 hst hc)

theorem recLoop_dup (g : Graph) (f n : Nat) (a : Nat) (l : List Nat) (st : TState)
    (ha : a < n) (hst : st.visited.length = n) :
    recLoop (recVisit g f) (a :: a :: l) st = recLoop (recVisit g f) (a :: l) st := by
  by_cases hv : st.visited.getD a false = true
  · rw [recLoop, if_pos hv]
  · rw [recLoop, if_neg hv]
    conv_rhs => rw [recLoop, if_neg hv]
    cases hc : recVisit g f a st with
    | none => rfl
    | some st1 =>
      have hm : st1.visited.getD a false = true :=
        (recVisit_marks g f a st st1 hc).2.2 (by rw [hst]; exact ha)
      simp only
      rw [recLoop, if_pos hm]

/-- Two graphs on the same vertices whose vertices have the same neighbours, counted
without multiplicity, have the same recursive depth-first search. -/
theorem recVisit_same_mem (g1 g2 : Graph) (hwf1 : g1.WF) (hwf2 : g2.WF) (hV : g1.V = g2.V)
    (hmem : ∀ u x, x ∈ sortedNbrs g1 u ↔ x ∈ sortedNbrs g2 u) :
    ∀ (f v : Nat) (st : TState), st.visited.length = g2.V →
      recVisit g1 f v st = recVisit g2 f v st := by
  intro f
  induction f with
  | zero => intro v st _; rfl
  | succ f ih =>
    intro v st hst
    have hst1 : (st.visited.set v true).length = g2.V := by
      rw [List.length_set]; exact hst
    have key : ∀ l : List Nat, l.Sorted (fun a b => a ≤ b) → (∀ a ∈ l, a < g2.V) →
        ∀ st : TState, st.visited.length = g2.V →
          recLoop (recVisit g2 f) l st = recLoop (recVisit g2 f) l.dedup st := by
      apply sorted_dup_elim (fun l st => recLoop (recVisit g2 f) l st)
        (fun st => st.visited.length = g2.V) (fun a => a < g2.V)
      · intro a l s1 ha hs1
        exact recLoop_dup g2 f g2.V a l s1 ha hs1
      · intro a l1 l2 _ h s1 hs1
        show recLoop (recVisit g2 f) (a :: l1) s1 = recLoop (recVisit g2 f) (a :: l2) s1
        rw [recLoop, recLoop]
        split
        · exact h s1 hs1
        · cases hc : recVisit g2 f a s1 with
          | none => rfl
          | some s2 => exact h s2 ((recVisit_marks g2 f a s1 s2 hc).1.trans hs1)
    rw [recVisit, recVisit,
      recLoop_congr_call (recVisit g1 f) (recVisit g2 f) (fun st => st.visited.length = g2.V)
        (fun a s1 hs1 => ih a s1 hs1)
        (fun a s1 s2 hs1 hc => (recVisit_marks g2 f a s1 s2 hc).1.trans hs1) _ _ hst1,
      key _ (sortedNbrs_sorted g1 v)
        (fun a ha => by rw [← hV]; exact sortedNbrs_lt g1 hwf1 v a ha) _ hst1,
      key _ (sortedNbrs_sorted g2 v) (fun a ha => sortedNbrs_lt g2 hwf2 v a ha) _ hst1,
      sorted_dedup_eq _ _ (sortedNbrs_sorted g1 v) (sortedNbrs_sorted g2 v) (hmem v)]

theorem joined_lt (g : Graph) (hwf : g.WF) (a b : Nat) (h : g.Joined a b) :
    a < g.V ∧ b < g.V := by
  obtain ⟨e, he, hd⟩ := h
  constructor
  · by_contra hlt
    have hnil : g.nbrs a = [] := by
      unfold Graph.nbrs
      rw [List.getD_eq_getElem?_getD, List.getElem?_eq_none (by rw [hwf.len]; omega)]
      rfl
    rw [hnil] at he
    cases he
  · rw [← hd]
    exact hwf.dst_lt a e he

/-- A further `addEdge(a, b, w)` between vertices already joined adds no neighbour. -/
theorem parallel_same_mem (g : Graph) (hwf : g.WF) (hsym : ∀ x y, g.Joined x y → g.Joined y x)
    (a b : Nat) (w : Int) (hj : g.Joined a b) (u x : Nat) :
    x ∈ sortedNbrs (g.addEdge a b w) u ↔ x ∈ sortedNbrs g u := by
  obtain ⟨ha, hb⟩ := joined_lt g hwf a b hj
  rw [mem_sortedNbrs, mem_sortedNbrs,
    addEdge_nbrs g a b w (by rw [hwf.len]; exact ha) (by rw [hwf.len]; exact hb) u]
  constructor
  · rintro ⟨e, he, hd⟩
    rcases List.mem_append.1 he with h1 | h2
    · rcases List.mem_append.1 h1 with h3 | h4
      · exact ⟨e, h3, hd⟩
      · by_cases hua : u = a
        · rw [if_pos hua, List.mem_singleton] at h4
          rw [h4] at hd
          rw [hua, ← hd]
          exact hj
        · rw [if_neg hua] at h4
          cases h4
    · by_cases hub : u = b
      · rw [if_pos hub, List.mem_singleton] at h2
        rw [h2] at hd
        rw [hub, ← hd]
        exact hsym a b hj
      · rw [if_neg hub] at h2
        cases h2
  · rintro ⟨e, he, hd⟩
    exact ⟨e, List.mem_append_left _ (List.mem_append_left _ he), hd⟩

/-- C17. The traversals tolerate parallel edges. When `a` and `b` are already joined
by an edge, one more call `addEdge(a, b, w)`, with any weight `w`, changes neither
the result of `BFS` nor the result of `DFS` from any start: `BFS` agrees for every
amount of fuel and returns a sequence with fuel `V`, and with enough fuel `DFS`
returns the same sequence on both graphs. -/
theorem traversal_parallel_edge (v : Nat) (labels : List String)
    (es : List (Nat × Nat × Int)) (hv : ValidEdges v es) (a b : Nat) (w : Int)
    (hj : (Graph.build v labels es).Joined a b) (s : Nat) (hs : s < v) :
    (∀ fuel, BFS ((Graph.build v labels es).addEdge a b w) s fuel
      = BFS (Graph.build v labels es) s fuel) ∧
    (∀ fuel, v ≤ fuel → ∃ out, BFS ((Graph.build v labels es).addEdge a b w) s fuel = some out ∧
      BFS (Graph.build v labels es) s fuel = some out) ∧
    ∃ out N, ∀ fuel, N ≤ fuel →
      DFS ((Graph.build v labels es).addEdge a b w) s fuel = some out ∧
      DFS (Graph.build v labels es) s fuel = some out := by
  have hwf := build_wf v labels es hv
  have hV := build_V v labels es
  obtain ⟨ha, hb⟩ := joined_lt _ hwf a b hj
  rw [hV] at ha hb
  have hv1 : ValidEdges v (es ++ [(a, b, w)]) := by
    intro e he
    rcases List.mem_append.1 he with h1 | h2
    · exact hv e h1
    · rw [List.mem_singleton] at h2
      rw [h2]
      exact ⟨ha, hb⟩
  have hg1 : Graph.build v labels (es ++ [(a, b, w)])
      = (Graph.build v labels es).addEdge a b w := build_snoc v labels es (a, b, w)
  have hwf1 : ((Graph.build v labels es).addEdge a b w).WF := by
    rw [← hg1]
    exact build_wf v labels _ hv1
  have hV1 : ((Graph.build v labels es).addEdge a b w).V = (Graph.build v labels es).V := rfl
  have hmem := parallel_same_mem _ hwf (build_joined_symm v labels es hv) a b w hj
  have hbfs : ∀ fuel, BFS ((Graph.build v labels es).addEdge a b w) s fuel
      = BFS (Graph.build v labels es) s fuel := by
    intro fuel
    unfold BFS
    have hi : bfsInit ((Graph.build v labels es).addEdge a b w) s
        = bfsInit (Graph.build v labels es) s := rfl
    rw [hi]
    refine bfsLoop_congr _ _ (Graph.build v labels es).V ?_ fuel _ ?_
    · intro u st hst
      exact bfs_fold_same_mem _ _ hwf1 hwf hV1 hmem u st hst
    · show ((List.replicate (Graph.build v labels es).V false).set s true).length = _
      rw [List.length_set, List.length_replicate]
  refine ⟨hbfs, ?_, ?_⟩
  · intro fuel hf
    obtain ⟨lev, st1, hrun, _, _⟩ := bfs_runs _ hwf s (by rw [hV]; exact hs) fuel
      (by rw [hV]; exact hf)
    exact ⟨st1.out, by rw [hbfs]; exact hrun, hrun⟩
  · obtain ⟨st1, N1, _, hrec1, hdfs1, _⟩ := dfs_runs _ hwf1 s (by rw [hV1, hV]; exact hs)
    obtain ⟨st2, N2, _, hrec2, hdfs2, _⟩ := dfs_runs _ hwf s (by rw [hV]; exact hs)
    have h1 := hrec1 (Graph.build v labels es).V (le_refl _)
    have h2 := hrec2 (Graph.build v labels es).V (le_refl _)
    have heq : recPreorder ((Graph.build v labels es).addEdge a b w) s (Graph.build v labels es).V
        = recPreorder (Graph.build v labels es) s (Graph.build v labels es).V := by
      unfold recPreorder
      rw [hV1, recVisit_same_mem _ _ hwf1 hwf hV1 hmem _ s _ (List.length_replicate _ _)]
    rw [heq, h2] at h1
    simp only [Option.some.injEq] at h1
    refine ⟨st2.out, max N1 N2, ?_⟩
    intro fuel hf
    refine ⟨?_, hdfs2 fuel (le_trans (le_max_right _ _) hf)⟩
    rw [h1]
    exact hdfs1 fuel (le_trans (le_max_left _ _) hf)

theorem traversal_parallel_edge_witness :
    (∀ fuel, BFS ((Graph.build 4 ["A", "B", "C", "D"]
        [(0, 1, 1), (0, 2, 1), (1, 2, 1), (2, 3, 1)]).addEdge 2 0 7) 0 fuel
      = BFS (Graph.build 4 ["A", "B", "C", "D"]
        [(0, 1, 1), (0, 2, 1), (1, 2, 1), (2, 3, 1)]) 0 fuel) ∧
    (∀ fuel, 4 ≤ fuel → ∃ out, BFS ((Graph.build 4 ["A", "B", "C", "D"]
        [(0, 1, 1), (0, 2, 1), (1, 2, 1), (2, 3, 1)]).addEdge 2 0 7) 0 fuel = some out ∧
      BFS (Graph.build 4 ["A", "B", "C", "D"]
        [(0, 1, 1), (0, 2, 1), (1, 2, 1), (2, 3, 1)]) 0 fuel = some out) ∧
    ∃ out N, ∀ fuel, N ≤ fuel →
      DFS ((Graph.build 4 ["A", "B", "C", "D"]
        [(0, 1, 1), (0, 2, 1), (1, 2, 1), (2, 3, 1)]).addEdge 2 0 7) 0 fuel = some out ∧
      DFS (Graph.build 4 ["A", "B", "C", "D"]
        [(0, 1, 1), (0, 2, 1), (1, 2, 1), (2, 3, 1)]) 0 fuel = some out :=
  traversal_parallel_edge 4 ["A", "B", "C", "D"] [(0, 1, 1), (0, 2, 1), (1, 2, 1), (2, 3, 1)]
    (by unfold ValidEdges; decide) 2 0 7 ⟨⟨0, 1⟩, by decide, rfl⟩ 0 (by decide)

/-! ## Termination of `Prim` and of `Dijkstra` for all weights -/

theorem nbrs_len_le (l : List (List Edge)) :
    ∀ u, (l.getD u []).length ≤ (l.map List.length).sum := by
  induction l with
  | nil => intro u; simp
  | cons a l ih =>
    intro u
    cases u with
    | zero => simp
    | succ u =>
      have h := ih u
      simp only [List.getD_cons_succ, List.map_cons, List.sum_cons]
      omega

theorem primRelax_work (u : Nat) (st : PState) (e : Edge) :
    (primRelax u st e).inMST = st.inMST ∧ (primRelax u st e).pq.length ≤ st.pq.length + 1 := by
  unfold primRelax
  split
  · exact ⟨rfl, by simp⟩
  · exact ⟨rfl, by omega⟩

theorem primRelax_fold_work (u : Nat) (l : List Edge) :
    ∀ st : PState, (l.foldl (primRelax u) st).inMST = st.inMST ∧
      (l.foldl (primRelax u) st).pq.length ≤ st.pq.length + l.length := by
  induction l with
  | nil => intro st; exact ⟨rfl, by simp⟩
  | cons e l ih =>
    intro st
    obtain ⟨h1, h2⟩ := primRelax_work u st e
    obtain ⟨h3, h4⟩ := ih (primRelax u st e)
    rw [List.foldl_cons]
    refine ⟨by rw [h3, h1], ?_⟩
    rw [List.length_cons]
    omega

theorem primTake_work (u : Nat) (st : PState) :
    (primTake u st).inMST = st.inMST.set u true ∧ (primTake u st).pq = st.pq := by
  unfold primTake
  dsimp only
  split <;> exact ⟨rfl, rfl⟩

/-- The loop of `Prim` ends whatever the weights are: a vertex is taken into the tree
at most once, and only then are entries pushed, at most one for each entry of its
adjacency list. -/
theorem primLoop_total (g : Graph) (E : Nat) (hE : ∀ u, (g.nbrs u).length ≤ E) :
    ∀ (fuel : Nat) (st : PState), st.inMST.length = g.adj.length →
      st.inMST.count false * (E + 1) + st.pq.length < fuel →
      ∃ st1, primLoop g fuel st = some st1 := by
  intro fuel
  induction fuel with
  | zero =>
    intro st _ hm
    omega
  | succ fuel ih =>
    intro st hlen hm
    unfold primLoop
    cases htop : pqTop st.pq with
    | none => exact ⟨st, rfl⟩
    | some m =>
      obtain ⟨d, u⟩ := m
      have hmem := pqTop_mem htop
      have hpl : (st.pq.erase (d, u)).length + 1 = st.pq.length := by
        rw [List.length_erase_of_mem hmem]
        have : 0 < st.pq.length := List.length_pos_of_mem hmem
        omega
      simp only
      by_cases hin : st.inMST.getD u false = true
      · rw [if_pos hin]
        have hm1 : st.inMST.count false * (E + 1) + (st.pq.erase (d, u)).length < fuel := by
          omega
        exact ih { st with pq := st.pq.erase (d, u) } hlen hm1
      · rw [if_neg hin]
        have hf : st.inMST.getD u false = false := by
          cases h : st.inMST.getD u false with
          | true => exact absurd h hin
          | false => rfl
        obtain ⟨t1, t2⟩ := primTake_work u { st with pq := st.pq.erase (d, u) }
        obtain ⟨f1, f2⟩ := primRelax_fold_work u (g.nbrs u)
          (primTake u { st with pq := st.pq.erase (d, u) })
        have hi2 : ((g.nbrs u).foldl (primRelax u)
            (primTake u { st with pq := st.pq.erase (d, u) })).inMST = st.inMST.set u true := by
          rw [f1, t1]
        apply ih
        · rw [hi2, List.length_set]
          exact hlen
        · rw [hi2]
          rw [t2] at f2
          have f3 : ((g.nbrs u).foldl (primRelax u)
              (primTake u { st with pq := st.pq.erase (d, u) })).pq.length
              ≤ (st.pq.erase (d, u)).length + (g.nbrs u).length := f2
          by_cases hu : u < st.inMST.length
          · have hc := count_false_set st.inMST u hu hf
            have hEu := hE u
            have hmul : st.inMST.count false * (E + 1)
                = (st.inMST.set u true).count false * (E + 1) + (E + 1) := by
              rw [← hc]
              ring
            omega
          · have hset : st.inMST.set u true = st.inMST :=
              List.set_eq_of_length_le (by omega)
            have hn : (g.nbrs u).length = 0 := by
              unfold Graph.nbrs
              rw [List.getD_eq_default _ _ (by omega)]
              rfl
            rw [hset]
            omega

theorem prim_total (g : Graph) (s : Nat) (hwf : g.WF) :
    ∃ N, ∀ fuel, N ≤ fuel → ∃ r, Prim g s fuel = some r := by
  refine ⟨g.V * ((g.adj.map List.length).sum + 1) + 2, ?_⟩
  intro fuel hf
  obtain ⟨st1, h1⟩ := primLoop_total g _ (fun u => nbrs_len_le g.adj u) fuel (primInit g s)
    (by show (List.replicate g.V false).length = _
        rw [List.length_replicate, hwf.len])
    (by show (List.replicate g.V false).count false * _ + [((0 : Int), s)].length < fuel
        rw [List.count_replicate_self]
        simp only [List.length_singleton]
        omega)
  exact ⟨(st1.out, st1.totalWeight), by unfold Prim; rw [h1]; rfl⟩

theorem wrap32_lower (x : Int) : -2147483648 ≤ wrap32 x := by
  unfold wrap32; omega

theorem sum_lower (c : Int) (l : List Int) (h : ∀ a ∈ l, c ≤ a) : c * l.length ≤ l.sum := by
  induction l with
  | nil => simp
  | cons a l ih =>
    have h1 := h a (List.mem_cons_self _ _)
    have h2 := ih (fun b hb => h b (List.mem_cons_of_mem _ hb))
    simp only [List.length_cons, List.sum_cons, Nat.cast_add, Nat.cast_one]
    linarith

theorem relaxEdge_work (g : Graph) (hwf : g.WF) (u : Nat) (st : DState) (e : Edge)
    (he : e ∈ g.nbrs u) (hlen : st.dist.length = g.V)
    (hlow : ∀ a ∈ st.dist, -2147483648 ≤ a) :
    (relaxEdge u st e).dist.length = g.V ∧
    (∀ a ∈ (relaxEdge u st e).dist, -2147483648 ≤ a) ∧
    dMeasure (relaxEdge u st e) ≤ dMeasure st := by
  have hv : e.dst < st.dist.length := by rw [hlen]; exact hwf.dst_lt u e he
  unfold relaxEdge
  dsimp only
  split
  · rename_i hc
    refine ⟨by rw [List.length_set]; exact hlen, ?_, ?_⟩
    · intro a ha
      rcases List.mem_or_eq_of_mem_set ha with h1 | h2
      · exact hlow a h1
      · rw [h2]; exact wrap32_lower _
    · unfold dMeasure
      show (st.dist.set e.dst _).sum + (((_ :: st.pq).length : Nat) : Int) ≤ _
      rw [sum_set_int _ _ _ hv, List.length_cons]
      push_cast
      omega
  · exact ⟨hlen, hlow, le_refl _⟩

theorem relaxEdge_fold_work (g : Graph) (hwf : g.WF) (u : Nat) :
    ∀ (l : List Edge) (st : DState), (∀ e ∈ l, e ∈ g.nbrs u) → st.dist.length = g.V →
      (∀ a ∈ st.dist, -2147483648 ≤ a) →
      (l.foldl (relaxEdge u) st).dist.length = g.V ∧
      (∀ a ∈ (l.foldl (relaxEdge u) st).dist, -2147483648 ≤ a) ∧
      dMeasure (l.foldl (relaxEdge u) st) ≤ dMeasure st := by
  intro l
  induction l with
  | nil => intro st _ hlen hlow; exact ⟨hlen, hlow, le_refl _⟩
  | cons e l ih =>
    intro st hl hlen hlow
    obtain ⟨h1, h2, h3⟩ := relaxEdge_work g hwf u st e (hl e (List.mem_cons_self _ _)) hlen hlow
    obtain ⟨h4, h5, h6⟩ := ih (relaxEdge u st e) (fun a ha => hl a (List.mem_cons_of_mem _ ha))
      h1 h2
    rw [List.foldl_cons]
    exact ⟨h4, h5, le_trans h6 h3⟩

/-- The loop of `Dijkstra` ends whatever the weights are: every sum is reduced to 32
bits, an entry of `dist` only ever decreases, and it cannot fall below `-2^31`. -/
theorem dijkstraLoop_total (g : Graph) (hwf : g.WF) :
    ∀ (fuel : Nat) (st : DState), st.dist.length = g.V →
      (∀ a ∈ st.dist, -2147483648 ≤ a) → dMeasure st + 2147483648 * g.V < fuel →
      ∃ st1, dijkstraLoop g fuel st = some st1 := by
  intro fuel
  induction fuel with
  | zero =>
    intro st hlen hlow hm
    have h0 := sum_lower _ st.dist hlow
    rw [hlen] at h0
    unfold dMeasure at hm
    have : (0 : Int) ≤ (st.pq.length : Int) := Int.natCast_nonneg _
    simp only [Nat.cast_zero] at hm
    omega
  | succ fuel ih =>
    intro st hlen hlow hm
    unfold dijkstraLoop
    cases htop : pqTop st.pq with
    | none => exact ⟨st, rfl⟩
    | some m =>
      obtain ⟨d, u⟩ := m
      have hmem := pqTop_mem htop
      have hpl : (((st.pq.erase (d, u)).length : Nat) : Int) + 1 = (st.pq.length : Int) := by
        rw [List.length_erase_of_mem hmem]
        have : 0 < st.pq.length := List.length_pos_of_mem hmem
        omega
      have hm1 : dMeasure { st with pq := st.pq.erase (d, u) } + 2147483648 * g.V < fuel := by
        unfold dMeasure at hm ⊢
        show st.dist.sum + (((st.pq.erase (d, u)).length : Nat) : Int) + _ < _
        push_cast at hm ⊢
        omega
      simp only
      split
      · exact ih { st with pq := st.pq.erase (d, u) } hlen hlow hm1
      · obtain ⟨h4, h5, h6⟩ := relaxEdge_fold_work g hwf u (g.nbrs u)
          { st with pq := st.pq.erase (d, u) } (fun e he => he) hlen hlow
        exact ih _ h4 h5 (lt_of_le_of_lt (by omega) hm1)

theorem dijkstra_total (g : Graph) (s : Nat) (hwf : g.WF) :
    ∃ N, ∀ fuel, N ≤ fuel → ∃ r, Dijkstra g s fuel = some r := by
  have hlen : (dijkstraInit g s).dist.length = g.V := by
    show ((List.replicate g.V INF).set s 0).length = g.V
    rw [List.length_set, List.length_replicate]
  have hlow : ∀ a ∈ (dijkstraInit g s).dist, -2147483648 ≤ a := by
    intro a ha
    have ha1 : a ∈ (List.replicate g.V INF).set s 0 := ha
    rcases List.mem_or_eq_of_mem_set ha1 with h1 | h2
    · rw [List.eq_of_mem_replicate h1, INF_eq]
      omega
    · rw [h2]
      omega
  refine ⟨(dMeasure (dijkstraInit g s) + 2147483648 * g.V).toNat + 1, ?_⟩
  intro fuel hf
  obtain ⟨st1, h1⟩ := dijkstraLoop_total g hwf fuel (dijkstraInit g s) hlen hlow (by omega)
  exact ⟨(st1.dist, st1.parent), by unfold Dijkstra; rw [h1]; rfl⟩

/-! ## Labels: the lookup, `addEdge` by label, the entry points of the algorithms -/

theorem mapIndex_known (m : List (String × Nat)) (k : String) (i : Nat)
    (h : mapFind m k = some i) : mapIndex m k = (i, m) := by
  unfold mapIndex
  rw [h]

theorem mapIndex_unknown (m : List (String × Nat)) (k : String) (h : mapFind m k = none) :
    mapIndex m k = (0, m ++ [(k, 0)]) := by
  unfold mapIndex
  rw [h]

theorem mapIndex_find (m : List (String × Nat)) (k : String) :
    mapFind (mapIndex m k).2 k = some (mapIndex m k).1 := by
  cases h : mapFind m k with
  | none =>
    rw [mapIndex_unknown m k h, mapFind_append_single, h]
    simp
  | some i =>
    rw [mapIndex_known m k i h]
    exact h

theorem mapIndex_find_ne (m : List (String × Nat)) (k l : String) (h : l ≠ k) :
    mapFind (mapIndex m k).2 l = mapFind m l := by
  cases hk : mapFind m k with
  | none =>
    rw [mapIndex_unknown m k hk, mapFind_append_single]
    have : ¬ k = l := fun e => h e.symm
    cases mapFind m l <;> simp [this]
  | some i => rw [mapIndex_known m k i hk]

theorem build_labelToIndex (v : Nat) (labels : List String) (es : List (Nat × Nat × Int)) :
    (Graph.build v labels es).labelToIndex = (Graph.new v labels).labelToIndex := by
  induction es using List.reverseRecOn with
  | nil => rfl
  | append_singleton es t ih =>
    rw [build_snoc]
    exact ih

theorem build_nodeLabels (v : Nat) (labels : List String) (es : List (Nat × Nat × Int)) :
    (Graph.build v labels es).nodeLabels = labels := by
  induction es using List.reverseRecOn with
  | nil => rfl
  | append_singleton es t ih =>
    rw [build_snoc]
    exact ih

/-- C21, as the code has it. `addEdge` has no test on the weight: called with a
negative weight `w` (and valid indices) it stores the entries like for any other
weight, so that afterwards `adj[a]` holds `(b, w)`, `adj[b]` holds `(a, w)`, the
list `adj[a]` is longer than before and holds an entry of negative weight. -/
theorem addEdge_negative_weight (g : Graph) (a b : Nat) (w : Int) (ha : a < g.adj.length)
    (hb : b < g.adj.length) (hw : w < 0) :
    (⟨b, w⟩ : Edge) ∈ (g.addEdge a b w).nbrs a ∧ (⟨a, w⟩ : Edge) ∈ (g.addEdge a b w).nbrs b ∧
    (g.nbrs a).length < ((g.addEdge a b w).nbrs a).length ∧
    ∃ e ∈ (g.addEdge a b w).nbrs a, e.weight < 0 := by
  have h1 : (⟨b, w⟩ : Edge) ∈ (g.addEdge a b w).nbrs a := by
    rw [addEdge_nbrs g a b w ha hb a]
    simp
  refine ⟨h1, ?_, ?_, ⟨⟨b, w⟩, h1, hw⟩⟩
  · rw [addEdge_nbrs g a b w ha hb b]
    simp
  · rw [addEdge_nbrs g a b w ha hb a]
    simp only [List.length_append, if_true, List.length_singleton]
    omega

theorem addEdge_negative_weight_witness :
    (⟨1, -5⟩ : Edge) ∈ ((Graph.new 2 ["A", "B"]).addEdge 0 1 (-5)).nbrs 0 ∧
    (⟨0, -5⟩ : Edge) ∈ ((Graph.new 2 ["A", "B"]).addEdge 0 1 (-5)).nbrs 1 ∧
    ((Graph.new 2 ["A", "B"]).nbrs 0).length
      < (((Graph.new 2 ["A", "B"]).addEdge 0 1 (-5)).nbrs 0).length ∧
    ∃ e ∈ ((Graph.new 2 ["A", "B"]).addEdge 0 1 (-5)).nbrs 0, e.weight < 0 :=
  addEdge_negative_weight (Graph.new 2 ["A", "B"]) 0 1 (-5) (by decide) (by decide) (by decide)

/-- C21, counterexample. On the two-vertex graph A, B the call `addEdge(0, 1, -5)`,
and likewise `addEdge("A", "B", -5)`, is not rejected: the graph afterwards holds
the entry `(B, -5)` in `adj[A]` and `(A, -5)` in `adj[B]`. -/
theorem addEdge_negative_counterexample :
    ((Graph.new 2 ["A", "B"]).addEdge 0 1 (-5)).adj = [[⟨1, -5⟩], [⟨0, -5⟩]] ∧
    ((Graph.new 2 ["A", "B"]).addEdgeByLabel "A" "B" (-5)).map (fun g => g.adj)
      = Except.ok [[⟨1, -5⟩], [⟨0, -5⟩]] ∧
    (Graph.new 2 ["A", "B"]).adj = [[], []] := by
  decide


theorem nbrs_congr (g1 g2 : Graph) (h : g1.adj = g2.adj) (u : Nat) : g1.nbrs u = g2.nbrs u := by
  unfold Graph.nbrs
  rw [h]

theorem build_lookup_lt (v : Nat) (labels : List String) (es : List (Nat × Nat × Int))
    (l : String) (i : Nat) (h : mapFind (Graph.build v labels es).labelToIndex l = some i) :
    i < v := by
  rw [build_labelToIndex] at h
  rcases ctor_lookup labels v l with ⟨hnone, _⟩ | ⟨j, hj, hsome, _, _⟩
  · have hn : mapFind (Graph.new v labels).labelToIndex l = none := hnone
    rw [hn] at h
    cases h
  · have hs : mapFind (Graph.new v labels).labelToIndex l = some j := hsome
    rw [hs] at h
    simp only [Option.some.injEq] at h
    rw [← h]
    exact hj

theorem mapIndex_fst (m : List (String × Nat)) (k : String) :
    (mapIndex m k).1 = (mapFind m k).getD 0 := by
  cases h : mapFind m k with
  | none => rw [mapIndex_unknown m k h]; rfl
  | some i => rw [mapIndex_known m k i h]; rfl

theorem mapIndex_snd_find (m : List (String × Nat)) (k x : String) :
    mapFind (mapIndex m k).2 x
      = if x = k then some ((mapFind m k).getD 0) else mapFind m x := by
  by_cases hx : x = k
  · rw [if_pos hx, hx, mapIndex_find, mapIndex_fst]
  · rw [if_neg hx, mapIndex_find_ne m k x hx]

/-- What `addEdge` by label does with any two labels: each label is resolved to the
index the lookup holds for it, or to `0` if it holds none; when both indices are in
range the entries of the edge are stored between them and each label is in the
lookup with its index afterwards. -/
theorem addEdgeByLabel_ok (g : Graph) (u v : String) (w : Int)
    (hu : (mapFind g.labelToIndex u).getD 0 < g.adj.length)
    (hv : (mapFind g.labelToIndex v).getD 0 < g.adj.length) :
    ∃ g1, g.addEdgeByLabel u v w = Except.ok g1 ∧
      g1.adj = (g.addEdge ((mapFind g.labelToIndex u).getD 0)
        ((mapFind g.labelToIndex v).getD 0) w).adj ∧
      g1.V = g.V ∧ g1.nodeLabels = g.nodeLabels ∧
      ∀ k, mapFind g1.labelToIndex k
        = if k = u ∨ k = v then some ((mapFind g.labelToIndex k).getD 0)
          else mapFind g.labelToIndex k := by
  have h1 : (g.indexOf u).1 = (mapFind g.labelToIndex u).getD 0 := mapIndex_fst _ _
  have hm1 : ∀ x, mapFind (g.indexOf u).2.labelToIndex x
      = if x = u then some ((mapFind g.labelToIndex u).getD 0) else mapFind g.labelToIndex x :=
    fun x => mapIndex_snd_find g.labelToIndex u x
  have h2 : ((g.indexOf u).2.indexOf v).1 = (mapFind g.labelToIndex v).getD 0 := by
    have e : ((g.indexOf u).2.indexOf v).1 = (mapFind (g.indexOf u).2.labelToIndex v).getD 0 :=
      mapIndex_fst _ _
    rw [e, hm1 v]
    by_cases hvu : v = u
    · rw [if_pos hvu, hvu]
      rfl
    · rw [if_neg hvu]
  have hm2 : ∀ x, mapFind ((g.indexOf u).2.indexOf v).2.labelToIndex x
      = if x = u ∨ x = v then some ((mapFind g.labelToIndex x).getD 0)
        else mapFind g.labelToIndex x := by
    intro x
    have e : mapFind ((g.indexOf u).2.indexOf v).2.labelToIndex x
        = if x = v then some ((mapFind (g.indexOf u).2.labelToIndex v).getD 0)
          else mapFind (g.indexOf u).2.labelToIndex x :=
      mapIndex_snd_find (g.indexOf u).2.labelToIndex v x
    have e2 : (mapFind (g.indexOf u).2.labelToIndex v).getD 0
        = (mapFind g.labelToIndex v).getD 0 := by
      rw [← h2]
      exact (mapIndex_fst _ _).symm
    rw [e, e2, hm1 x]
    by_cases hxv : x = v
    · rw [if_pos hxv, if_pos (Or.inr hxv), hxv]
    · rw [if_neg hxv]
      by_cases hxu : x = u
      · rw [if_pos hxu, if_pos (Or.inl hxu), hxu]
      · rw [if_neg hxu, if_neg (fun h => h.elim hxu hxv)]
  refine ⟨((g.indexOf u).2.indexOf v).2.addEdge (g.indexOf u).1
    ((g.indexOf u).2.indexOf v).1 w, ?_, ?_, rfl, rfl, hm2⟩
  · unfold Graph.addEdgeByLabel
    rw [if_pos ⟨by rw [h1]; exact hu, by rw [h2]; exact hv⟩]
  · rw [h1, h2]
    rfl

/-- C23, as the code has it. `addEdge` by label does not fail with an error on an
unknown label. On a graph built by `addEdge` with at least one vertex, with `v` a
label that is not in the lookup and `u` any label, in the lookup or not:
`addEdge(u, v, w)` and `addEdge(v, u, w)` return; `v` is resolved to the index `0`
and `u` to the index the lookup holds for it, or to `0` if it holds none; the two
entries of the edge are stored between these indices; afterwards both labels are in
the lookup with their index, and the vertex count, the labels and the lookup of
every other label are as before. On a graph without vertices the access `adj[0]` is
out of range. -/
theorem addEdge_unknown_label (n : Nat) (labels : List String)
    (es : List (Nat × Nat × Int)) (hes : ValidEdges n es) (h0 : 0 < n) (u v : String)
    (w : Int) (hv : mapFind (Graph.build n labels es).labelToIndex v = none) :
    (∃ g1 g2, (Graph.build n labels es).addEdgeByLabel u v w = Except.ok g1 ∧
      (Graph.build n labels es).addEdgeByLabel v u w = Except.ok g2 ∧
      g1.adj = ((Graph.build n labels es).addEdge
        ((mapFind (Graph.build n labels es).labelToIndex u).getD 0) 0 w).adj ∧
      g2.adj = ((Graph.build n labels es).addEdge 0
        ((mapFind (Graph.build n labels es).labelToIndex u).getD 0) w).adj ∧
      (⟨0, w⟩ : Edge) ∈ g1.nbrs ((mapFind (Graph.build n labels es).labelToIndex u).getD 0) ∧
      (⟨(mapFind (Graph.build n labels es).labelToIndex u).getD 0, w⟩ : Edge) ∈ g1.nbrs 0 ∧
      (⟨0, w⟩ : Edge) ∈ g2.nbrs ((mapFind (Graph.build n labels es).labelToIndex u).getD 0) ∧
      (⟨(mapFind (Graph.build n labels es).labelToIndex u).getD 0, w⟩ : Edge) ∈ g2.nbrs 0 ∧
      g1.V = n ∧ g1.nodeLabels = (Graph.build n labels es).nodeLabels ∧
      g2.V = n ∧ g2.nodeLabels = (Graph.build n labels es).nodeLabels ∧
      mapFind g1.labelToIndex v = some 0 ∧ mapFind g2.labelToIndex v = some 0 ∧
      mapFind g1.labelToIndex u
        = some ((mapFind (Graph.build n labels es).labelToIndex u).getD 0) ∧
      mapFind g2.labelToIndex u
        = some ((mapFind (Graph.build n labels es).labelToIndex u).getD 0) ∧
      (∀ k, k ≠ u → k ≠ v →
        mapFind g1.labelToIndex k = mapFind (Graph.build n labels es).labelToIndex k ∧
        mapFind g2.labelToIndex k = mapFind (Graph.build n labels es).labelToIndex k)) ∧
    (mapFind (Graph.build n labels es).labelToIndex u = none →
      ∃ g3, (Graph.build n labels es).addEdgeByLabel u v w = Except.ok g3 ∧
        g3.adj = ((Graph.build n labels es).addEdge 0 0 w).adj ∧
        mapFind g3.labelToIndex u = some 0 ∧ mapFind g3.labelToIndex v = some 0) ∧
    (∀ (labels0 : List String) (u0 v0 : String),
      (Graph.new 0 labels0).addEdgeByLabel u0 v0 w = Except.error Fault.outOfRange) := by
  have hV := build_V n labels es
  have hlen : (Graph.build n labels es).adj.length = n := by
    rw [(build_wf n labels es hes).len, hV]
  have hl0 : 0 < (Graph.build n labels es).adj.length := by rw [hlen]; exact h0
  have hu : (mapFind (Graph.build n labels es).labelToIndex u).getD 0
      < (Graph.build n labels es).adj.length := by
    rw [hlen]
    cases hfu : mapFind (Graph.build n labels es).labelToIndex u with
    | none => exact h0
    | some i => exact build_lookup_lt n labels es u i hfu
  have hv0 : (mapFind (Graph.build n labels es).labelToIndex v).getD 0 = 0 := by rw [hv]; rfl
  have hvl : (mapFind (Graph.build n labels es).labelToIndex v).getD 0
      < (Graph.build n labels es).adj.length := by rw [hv0]; exact hl0
  obtain ⟨g1, e1, a1, v1, n1, m1⟩ := addEdgeByLabel_ok (Graph.build n labels es) u v w hu hvl
  obtain ⟨g2, e2, a2, v2, n2, m2⟩ := addEdgeByLabel_ok (Graph.build n labels es) v u w hvl hu
  rw [hv0] at a1 a2
  have hn1 : ∀ x, g1.nbrs x = ((Graph.build n labels es).addEdge
      ((mapFind (Graph.build n labels es).labelToIndex u).getD 0) 0 w).nbrs x :=
    fun x => nbrs_congr _ _ a1 x
  have hn2 : ∀ x, g2.nbrs x = ((Graph.build n labels es).addEdge 0
      ((mapFind (Graph.build n labels es).labelToIndex u).getD 0) w).nbrs x :=
    fun x => nbrs_congr _ _ a2 x
  have hfv1 : mapFind g1.labelToIndex v = some 0 := by
    rw [m1 v, if_pos (Or.inr rfl), hv0]
  have hfu1 : mapFind g1.labelToIndex u
      = some ((mapFind (Graph.build n labels es).labelToIndex u).getD 0) := by
    rw [m1 u, if_pos (Or.inl rfl)]
  refine ⟨⟨g1, g2, e1, e2, a1, a2, ?_, ?_, ?_, ?_, by rw [v1, hV], n1, by rw [v2, hV], n2,
    hfv1, ?_, hfu1, ?_, ?_⟩, ?_, ?_⟩
  · rw [hn1, addEdge_nbrs _ _ 0 w hu hl0]
    simp
  · rw [hn1, addEdge_nbrs _ _ 0 w hu hl0]
    simp
  · rw [hn2, addEdge_nbrs _ 0 _ w hl0 hu]
    simp
  · rw [hn2, addEdge_nbrs _ 0 _ w hl0 hu]
    simp
  · rw [m2 v, if_pos (Or.inl rfl), hv0]
  · rw [m2 u, if_pos (Or.inr rfl)]
  · intro k hku hkv
    constructor
    · rw [m1 k, if_neg (fun h => h.elim hku hkv)]
    · rw [m2 k, if_neg (fun h => h.elim hkv hku)]
  · intro hun
    have hu0 : (mapFind (Graph.build n labels es).labelToIndex u).getD 0 = 0 := by
      rw [hun]; rfl
    rw [hu0] at a1 hfu1
    exact ⟨g1, e1, a1, hfu1, hfv1⟩
  · intro labels0 u0 v0
    unfold Graph.addEdgeByLabel
    rw [if_neg]
    intro hc
    have hlen0 : (Graph.new 0 labels0).adj.length = 0 := rfl
    rw [hlen0] at hc
    omega

theorem addEdge_unknown_label_witness :
    (0 < 2 ∧ mapFind (Graph.build 2 ["A", "B"] [(0, 1, 7)]).labelToIndex "Z" = none) ∧
    ((∃ g1 g2, (Graph.build 2 ["A", "B"] [(0, 1, 7)]).addEdgeByLabel "B" "Z" 3 = Except.ok g1 ∧
      (Graph.build 2 ["A", "B"] [(0, 1, 7)]).addEdgeByLabel "Z" "B" 3 = Except.ok g2 ∧
      g1.adj = ((Graph.build 2 ["A", "B"] [(0, 1, 7)]).addEdge
        ((mapFind (Graph.build 2 ["A", "B"] [(0, 1, 7)]).labelToIndex "B").getD 0) 0 3).adj ∧
      g2.adj = ((Graph.build 2 ["A", "B"] [(0, 1, 7)]).addEdge 0
        ((mapFind (Graph.build 2 ["A", "B"] [(0, 1, 7)]).labelToIndex "B").getD 0) 3).adj ∧
      (⟨0, 3⟩ : Edge) ∈ g1.nbrs
        ((mapFind (Graph.build 2 ["A", "B"] [(0, 1, 7)]).labelToIndex "B").getD 0) ∧
      (⟨(mapFind (Graph.build 2 ["A", "B"] [(0, 1, 7)]).labelToIndex "B").getD 0, 3⟩ : Edge)
        ∈ g1.nbrs 0 ∧
      (⟨0, 3⟩ : Edge) ∈ g2.nbrs
        ((mapFind (Graph.build 2 ["A", "B"] [(0, 1, 7)]).labelToIndex "B").getD 0) ∧
      (⟨(mapFind (Graph.build 2 ["A", "B"] [(0, 1, 7)]).labelToIndex "B").getD 0, 3⟩ : Edge)
        ∈ g2.nbrs 0 ∧
      g1.V = 2 ∧ g1.nodeLabels = (Graph.build 2 ["A", "B"] [(0, 1, 7)]).nodeLabels ∧
      g2.V = 2 ∧ g2.nodeLabels = (Graph.build 2 ["A", "B"] [(0, 1, 7)]).nodeLabels ∧
      mapFind g1.labelToIndex "Z" = some 0 ∧ mapFind g2.labelToIndex "Z" = some 0 ∧
      mapFind g1.labelToIndex "B"
        = some ((mapFind (Graph.build 2 ["A", "B"] [(0, 1, 7)]).labelToIndex "B").getD 0) ∧
      mapFind g2.labelToIndex "B"
        = some ((mapFind (Graph.build 2 ["A", "B"] [(0, 1, 7)]).labelToIndex "B").getD 0) ∧
      (∀ k, k ≠ "B" → k ≠ "Z" →
        mapFind g1.labelToIndex k
          = mapFind (Graph.build 2 ["A", "B"] [(0, 1, 7)]).labelToIndex k ∧
        mapFind g2.labelToIndex k
          = mapFind (Graph.build 2 ["A", "B"] [(0, 1, 7)]).labelToIndex k)) ∧
    (mapFind (Graph.build 2 ["A", "B"] [(0, 1, 7)]).labelToIndex "B" = none →
      ∃ g3, (Graph.build 2 ["A", "B"] [(0, 1, 7)]).addEdgeByLabel "B" "Z" 3 = Except.ok g3 ∧
        g3.adj = ((Graph.build 2 ["A", "B"] [(0, 1, 7)]).addEdge 0 0 3).adj ∧
        mapFind g3.labelToIndex "B" = some 0 ∧ mapFind g3.labelToIndex "Z" = some 0) ∧
    (∀ (labels0 : List String) (u0 v0 : String),
      (Graph.new 0 labels0).addEdgeByLabel u0 v0 3 = Except.error Fault.outOfRange)) ∧
    (Graph.build 2 ["A", "B"] [(0, 1, 7)]).addEdgeByLabel "B" "Z" 3
      = Except.ok { V := 2, adj := [[⟨1, 7⟩, ⟨1, 3⟩], [⟨0, 7⟩, ⟨0, 3⟩]],
                    nodeLabels := ["A", "B"],
                    labelToIndex := [("A", 0), ("B", 1), ("Z", 0)] } ∧
    (Graph.build 2 ["A", "B"] [(0, 1, 7)]).addEdgeByLabel "Y" "Z" 3
      = Except.ok { V := 2, adj := [[⟨1, 7⟩, ⟨0, 3⟩, ⟨0, 3⟩], [⟨0, 7⟩]],
                    nodeLabels := ["A", "B"],
                    labelToIndex := [("A", 0), ("B", 1), ("Y", 0), ("Z", 0)] } :=
  ⟨⟨by decide, by decide⟩,
    addEdge_unknown_label 2 ["A", "B"] [(0, 1, 7)] (by unfold ValidEdges; decide) (by decide)
      "B" "Z" 3 (by decide), by decide, by decide⟩

/-- C23, counterexample. On the two-vertex graph A, B the call
`addEdge("B", "Z", 3)` with the unknown label `Z` is not rejected: it returns,
having stored the entries of an edge between B and A (index 0) and entered `Z` into
the lookup. -/
theorem addEdge_unknown_label_counterexample :
    mapFind (Graph.new 2 ["A", "B"]).labelToIndex "Z" = none ∧
    (Graph.new 2 ["A", "B"]).addEdgeByLabel "B" "Z" 3
      = Except.ok { V := 2, adj := [[⟨1, 3⟩], [⟨0, 3⟩]], nodeLabels := ["A", "B"],
                    labelToIndex := [("A", 0), ("B", 1), ("Z", 0)] } ∧
    (Graph.new 2 ["A", "B"]).adj = [[], []] := by
  decide

theorem bfs_congr (g1 g2 : Graph) (hV : g1.V = g2.V) (h : g1.adj = g2.adj) (s fuel : Nat) :
    BFS g1 s fuel = BFS g2 s fuel := by
  unfold BFS
  have hi : bfsInit g1 s = bfsInit g2 s := by
    unfold bfsInit
    rw [hV]
  rw [hi]
  refine bfsLoop_congr g1 g2 (bfsInit g2 s).visited.length ?_ fuel _ rfl
  intro u st _
  unfold sortedNbrs
  rw [nbrs_congr g1 g2 h]

theorem dfsLoop_congr (g1 g2 : Graph) (h : g1.adj = g2.adj) :
    ∀ (fuel : Nat) (stack : List Nat) (st : TState),
      dfsLoop g1 fuel stack st = dfsLoop g2 fuel stack st := by
  intro fuel
  induction fuel with
  | zero =>
    intro stack st
    unfold dfsLoop
    cases stack <;> rfl
  | succ fuel ih =>
    intro stack st
    unfold dfsLoop
    cases stack with
    | nil => rfl
    | cons u rest =>
      have e : sortedNbrsDesc g1 u = sortedNbrsDesc g2 u := by
        unfold sortedNbrsDesc
        rw [nbrs_congr g1 g2 h]
      simp only
      rw [e, ih]

theorem dfs_congr (g1 g2 : Graph) (hV : g1.V = g2.V) (h : g1.adj = g2.adj) (s fuel : Nat) :
    DFS g1 s fuel = DFS g2 s fuel := by
  unfold DFS
  rw [hV, dfsLoop_congr g1 g2 h]

theorem dijkstraLoop_congr (g1 g2 : Graph) (h : g1.adj = g2.adj) :
    ∀ (fuel : Nat) (st : DState), dijkstraLoop g1 fuel st = dijkstraLoop g2 fuel st := by
  intro fuel
  induction fuel with
  | zero =>
    intro st
    unfold dijkstraLoop
    cases pqTop st.pq <;> rfl
  | succ fuel ih =>
    intro st
    unfold dijkstraLoop
    cases pqTop st.pq with
    | none => rfl
    | some m =>
      simp only
      rw [nbrs_congr g1 g2 h, ih, ih]

theorem dijkstra_congr (g1 g2 : Graph) (hV : g1.V = g2.V) (h : g1.adj = g2.adj)
    (s fuel : Nat) : Dijkstra g1 s fuel = Dijkstra g2 s fuel := by
  unfold Dijkstra
  have hi : dijkstraInit g1 s = dijkstraInit g2 s := by
    unfold dijkstraInit
    rw [hV]
  rw [hi, dijkstraLoop_congr g1 g2 h]

theorem primLoop_congr (g1 g2 : Graph) (h : g1.adj = g2.adj) :
    ∀ (fuel : Nat) (st : PState), primLoop g1 fuel st = primLoop g2 fuel st := by
  intro fuel
  induction fuel with
  | zero =>
    intro st
    unfold primLoop
    cases pqTop st.pq <;> rfl
  | succ fuel ih =>
    intro st
    unfold primLoop
    cases pqTop st.pq with
    | none => rfl
    | some m =>
      simp only
      rw [nbrs_congr g1 g2 h, ih, ih]

theorem prim_congr (g1 g2 : Graph) (hV : g1.V = g2.V) (h : g1.adj = g2.adj) (s fuel : Nat) :
    Prim g1 s fuel = Prim g2 s fuel := by
  unfold Prim
  have hi : primInit g1 s = primInit g2 s := by
    unfold primInit
    rw [hV]
  rw [hi, primLoop_congr g1 g2 h]

theorem APUtil_congr (g1 g2 : Graph) (h : g1.adj = g2.adj) :
    ∀ fuel : Nat, APUtil g1 fuel = APUtil g2 fuel := by
  intro fuel
  induction fuel with
  | zero => rfl
  | succ fuel ih =>
    funext u p st
    rw [APUtil, APUtil, nbrs_congr g1 g2 h, ih]

theorem ap_congr (g1 g2 : Graph) (hV : g1.V = g2.V) (h : g1.adj = g2.adj) (s fuel : Nat) :
    findArticulationPoints g1 s fuel = findArticulationPoints g2 s fuel := by
  unfold findArticulationPoints apRun
  have hi : apInit g1 = apInit g2 := by
    unfold apInit
    rw [hV]
  rw [hi, APUtil_congr g1 g2 h]


/-- C24. Label/index round trip. For a graph built from `V` pairwise distinct
labels: the lookup of the label of index `i < V` is `i` (and leaves the lookup as
it is), every label of the graph is the label of the index its lookup yields, and
the lookup holds exactly the pairs of an index below `V` and its label. -/
theorem label_index_round_trip (v : Nat) (labels : List String)
    (es : List (Nat × Nat × Int)) (hlen : labels.length = v) (hnd : labels.Nodup) :
    (∀ i, i < v →
      mapIndex (Graph.build v labels es).labelToIndex
          ((Graph.build v labels es).nodeLabels.getD i "")
        = (i, (Graph.build v labels es).labelToIndex)) ∧
    (∀ l, l ∈ (Graph.build v labels es).nodeLabels →
      ∃ i, i < v ∧
        mapIndex (Graph.build v labels es).labelToIndex l
          = (i, (Graph.build v labels es).labelToIndex) ∧
        (Graph.build v labels es).nodeLabels.getD i "" = l) ∧
    (∀ l i, mapFind (Graph.build v labels es).labelToIndex l = some i ↔
      (i < v ∧ (Graph.build v labels es).nodeLabels.getD i "" = l)) := by
  rw [build_labelToIndex, build_nodeLabels]
  have hinj : ∀ i j, i < v → j < v → labels.getD i "" = labels.getD j "" → i = j := by
    intro i j hi hj h
    rw [← hlen] at hi hj
    rw [List.getD_eq_getElem labels "" hi, List.getD_eq_getElem labels "" hj] at h
    exact (hnd.getElem_inj_iff).1 h
  have hfind : ∀ i, i < v →
      mapFind (Graph.new v labels).labelToIndex (labels.getD i "") = some i := by
    intro i hi
    rcases ctor_lookup labels v (labels.getD i "") with ⟨_, hall⟩ | ⟨j, hj, hsome, hlab, _⟩
    · exact absurd rfl (hall i hi)
    · have hji := hinj j i hj hi hlab
      rw [hji] at hsome
      exact hsome
  refine ⟨?_, ?_, ?_⟩
  · intro i hi
    exact mapIndex_known _ _ _ (hfind i hi)
  · intro l hl
    obtain ⟨i, hi, hli⟩ := List.mem_iff_getElem.1 hl
    have hiv : i < v := by rw [← hlen]; exact hi
    have hgd : labels.getD i "" = l := by
      rw [List.getD_eq_getElem labels "" hi]
      exact hli
    refine ⟨i, hiv, ?_, hgd⟩
    rw [← hgd]
    exact mapIndex_known _ _ _ (hfind i hiv)
  · intro l i
    constructor
    · intro h
      rcases ctor_lookup labels v l with ⟨hnone, _⟩ | ⟨j, hj, hsome, hlab, _⟩
      · have hn : mapFind (Graph.new v labels).labelToIndex l = none := hnone
        rw [hn] at h
        cases h
      · have hs : mapFind (Graph.new v labels).labelToIndex l = some j := hsome
        rw [hs] at h
        simp only [Option.some.injEq] at h
        rw [← h]
        exact ⟨hj, hlab⟩
    · rintro ⟨hi, hl⟩
      rw [← hl]
      exact hfind i hi

theorem label_index_round_trip_witness :
    (∀ i, i < 8 →
      mapIndex graph1.labelToIndex (graph1.nodeLabels.getD i "") = (i, graph1.labelToIndex)) ∧
    (∀ l, l ∈ graph1.nodeLabels →
      ∃ i, i < 8 ∧ mapIndex graph1.labelToIndex l = (i, graph1.labelToIndex) ∧
        graph1.nodeLabels.getD i "" = l) ∧
    (∀ l i, mapFind graph1.labelToIndex l = some i ↔
      (i < 8 ∧ graph1.nodeLabels.getD i "" = l)) :=
  label_index_round_trip 8 ["A", "B", "C", "D", "E", "F", "G", "H"]
    [(0, 1, 4), (0, 3, 6), (0, 6, 7), (1, 2, 12), (1, 4, 9), (2, 4, 1), (2, 5, 2),
     (2, 7, 10), (3, 4, 13), (3, 6, 2), (4, 5, 5), (4, 6, 14), (4, 7, 8), (5, 7, 3)]
    (by decide) (by decide)

theorem indexOf_frame (g : Graph) (l : String) :
    (g.indexOf l).2.V = g.V ∧ (g.indexOf l).2.adj = g.adj ∧
    (g.indexOf l).2.nodeLabels = g.nodeLabels :=
  ⟨rfl, rfl, rfl⟩

theorem aploop_skip_parent (call : Nat → Int → APState → Option APState) (u p : Nat) :
    ∀ (es : List Edge) (c : Nat) (st : APState),
      apLoop call u (p : Int) es c st
        = apLoop call u (p : Int) (es.filter (fun e => decide (e.dst ≠ p))) c st := by
  intro es
  induction es with
  | nil => intro c st; rfl
  | cons e rest ih =>
    intro c st
    by_cases hp : e.dst = p
    · have hf : (e :: rest).filter (fun e => decide (e.dst ≠ p))
          = rest.filter (fun e => decide (e.dst ≠ p)) := by
        apply List.filter_cons_of_neg
        simp [hp]
      have hc : (e.dst : Int) = (p : Int) := by rw [hp]
      rw [hf, apLoop, if_pos hc]
      exact ih c st
    · have hf : (e :: rest).filter (fun e => decide (e.dst ≠ p))
          = e :: rest.filter (fun e => decide (e.dst ≠ p)) := by
        apply List.filter_cons_of_pos
        simp [hp]
      have hc : ¬ ((e.dst : Int) = (p : Int)) := by
        intro h
        exact hp (by exact_mod_cast h)
      rw [hf, apLoop, if_neg hc]
      conv_rhs => rw [apLoop, if_neg hc]
      by_cases hv : st.visited.getD e.dst false = true
      · rw [if_pos hv, if_pos hv]
        exact ih _ _
      · rw [if_neg hv, if_neg hv]
        cases call e.dst (u : Int) st with
        | none => rfl
        | some st1 =>
          simp only
          exact ih _ _

/-- C27, as the code has it. While `u` is visited with DFS parent `p`, the test
`v == parent` passes over every adjacency entry that leads back to `p`: the loop
over `adj[u]` does what it does on `adj[u]` with all entries to `p` removed, so no
entry `u`-`p`, parallel or not, lowers `low[u]`. In the two-vertex graph with two
parallel edges A-B the search from A ends with `disc = [1, 2]` and `low = [1, 2]`. -/
theorem ap_parent_entries_skipped (call : Nat → Int → APState → Option APState)
    (u p : Nat) (es : List Edge) (c : Nat) (st : APState) :
    apLoop call u (p : Int) es c st
      = apLoop call u (p : Int) (es.filter (fun e => decide (e.dst ≠ p))) c st ∧
    apRun (Graph.build 2 ["A", "B"] [(0, 1, 1), (0, 1, 1)]) 0 2
      = some { visited := [true, true], disc := [1, 2], low := [1, 2], time := 2, ap := [] } :=
  ⟨aploop_skip_parent call u p es c st, by decide⟩

theorem ap_parent_entries_skipped_witness :
    apLoop (APUtil (Graph.build 2 ["A", "B"] [(0, 1, 1), (0, 1, 1)]) 1) 1 ((0 : Nat) : Int)
        [⟨0, 1⟩, ⟨0, 1⟩] 0 (apEnter 1 (apEnter 0 (apInit (Graph.build 2 ["A", "B"] [])))) =
      apLoop (APUtil (Graph.build 2 ["A", "B"] [(0, 1, 1), (0, 1, 1)]) 1) 1 ((0 : Nat) : Int)
        (([⟨0, 1⟩, ⟨0, 1⟩] : List Edge).filter (fun e => decide (e.dst ≠ 0))) 0
        (apEnter 1 (apEnter 0 (apInit (Graph.build 2 ["A", "B"] [])))) ∧
    apRun (Graph.build 2 ["A", "B"] [(0, 1, 1), (0, 1, 1)]) 0 2
      = some { visited := [true, true], disc := [1, 2], low := [1, 2], time := 2, ap := [] } :=
  ap_parent_entries_skipped (APUtil (Graph.build 2 ["A", "B"] [(0, 1, 1), (0, 1, 1)]) 1) 1 0
    [⟨0, 1⟩, ⟨0, 1⟩] 0 (apEnter 1 (apEnter 0 (apInit (Graph.build 2 ["A", "B"] []))))

/-- C27, counterexample. In the two-vertex graph with two parallel edges A-B the
search from A ends with `low[B] = 2`, not with `disc[A] = 1`: the second entry
B-A was passed over like the first. -/
theorem ap_parent_exclusion_counterexample :
    (Graph.build 2 ["A", "B"] [(0, 1, 1), (0, 1, 1)]).nbrs 1 = [⟨0, 1⟩, ⟨0, 1⟩] ∧
    (apRun (Graph.build 2 ["A", "B"] [(0, 1, 1), (0, 1, 1)]) 0 2).map
      (fun st => (st.low.getD 1 0, st.disc.getD 0 0)) = some (2, 1) := by
  decide

theorem lens_low (st : APState) (u val : Nat) (h : st.Lens) :
    APState.Lens { st with low := st.low.set u val } := by
  refine ⟨h.1, ?_⟩
  show (st.low.set u val).length = st.visited.length
  rw [List.length_set]
  exact h.2

/-- What the loop of `APUtil` at `u` adds to `ap` was not marked before, or is `u`
itself, added by the low-link test, which needs `parent != -1`. -/
theorem aploop_apnew (g : Graph) (fuel : Nat)
    (ih : ∀ (v : Nat) (p : Int) (st st1 : APState), st.Lens → ¬ st.vis v →
      APUtil g fuel v p st = some st1 → ∀ x, x ∈ st1.ap → x ∈ st.ap ∨ ¬ st.vis x)
    (u : Nat) (parent : Int) :
    ∀ (es : List Edge) (c : Nat) (st : APState) (c1 : Nat) (st1 : APState), st.Lens →
      apLoop (APUtil g fuel) u parent es c st = some (c1, st1) →
      ∀ x, x ∈ st1.ap → x ∈ st.ap ∨ ¬ st.vis x ∨ (x = u ∧ parent ≠ -1) := by
  intro es
  induction es with
  | nil =>
    intro c st c1 st1 _ h x hx
    simp only [apLoop, Option.some.injEq, Prod.mk.injEq] at h
    rw [← h.2] at hx
    exact Or.inl hx
  | cons e rest ihes =>
    intro c st c1 st1 hl h x hx
    unfold apLoop at h
    by_cases h1 : (e.dst : Int) = parent
    · rw [if_pos h1] at h
      exact ihes c st c1 st1 hl h x hx
    · rw [if_neg h1] at h
      by_cases h2 : st.visited.getD e.dst false = true
      · rw [if_pos h2] at h
        exact ihes c _ c1 st1 (lens_low st u _ hl) h x hx
      · rw [if_neg h2] at h
        cases hc : APUtil g fuel e.dst (u : Int) st with
        | none => rw [hc] at h; cases h
        | some st2 =>
          rw [hc] at h
          have f1 := aputil_frame g fuel e.dst (u : Int) st st2 hl hc
          have hl2 := aframe_lens f1 hl
          have hnew := ih e.dst (u : Int) st st2 hl h2 hc
          have hmono : ∀ y, st.vis y → st2.vis y := f1.2.2.2.1
          dsimp only at h
          split at h
          · rename_i hcond
            have hl3 : APState.Lens { st2 with
                low := st2.low.set u (min (st2.low.getD u 0) (st2.low.getD e.dst 0)),
                ap := setInsert u st2.ap } := lens_low { st2 with ap := setInsert u st2.ap } u _ hl2
            rcases ihes _ _ c1 st1 hl3 h x hx with hin | hnv | hu
            · rcases (mem_setInsert u x st2.ap).1 hin with hxu | hx2
              · exact Or.inr (Or.inr ⟨hxu, hcond.1⟩)
              · rcases hnew x hx2 with ha | hb
                · exact Or.inl ha
                · exact Or.inr (Or.inl hb)
            · exact Or.inr (Or.inl (fun hv => hnv (hmono x hv)))
            · exact Or.inr (Or.inr hu)
          · rcases ihes _ _ c1 st1 (lens_low st2 u _ hl2) h x hx with hin | hnv | hu
            · rcases hnew x hin with ha | hb
              · exact Or.inl ha
              · exact Or.inr (Or.inl hb)
            · exact Or.inr (Or.inl (fun hv => hnv (hmono x hv)))
            · exact Or.inr (Or.inr hu)

theorem aputil_apnew (g : Graph) :
    ∀ (fuel v : Nat) (p : Int) (st st1 : APState), st.Lens → ¬ st.vis v →
      APUtil g fuel v p st = some st1 → ∀ x, x ∈ st1.ap → x ∈ st.ap ∨ ¬ st.vis x := by
  intro fuel
  induction fuel with
  | zero =>
    intro v p st st1 _ _ h
    simp [APUtil] at h
  | succ fuel ih =>
    intro v p st st1 hl hnv h x hx
    unfold APUtil at h
    obtain ⟨fe, _⟩ := aframe_enter st v hl
    have hle := aframe_lens fe hl
    cases hloop : apLoop (APUtil g fuel) v p (g.nbrs v) 0 (apEnter v st) with
    | none => rw [hloop] at h; cases h
    | some res =>
      obtain ⟨c, st2⟩ := res
      rw [hloop] at h
      have key : ∀ y, y ∈ st2.ap → y ∈ st.ap ∨ ¬ st.vis y := by
        intro y hy
        rcases aploop_apnew g fuel ih v p (g.nbrs v) 0 (apEnter v st) c st2 hle hloop y hy
          with hin | hnvy | hyv
        · exact Or.inl hin
        · exact Or.inr (fun hv => hnvy (fe.2.2.2.1 y hv))
        · right
          rw [hyv.1]
          exact hnv
      dsimp only at h
      split at h
      · simp only [Option.some.injEq] at h
        rw [← h] at hx
        rcases (mem_setInsert v x st2.ap).1 hx with hxv | hx2
        · right
          rw [hxv]
          exact hnv
        · exact key x hx2
      · simp only [Option.some.injEq] at h
        rw [← h] at hx
        exact key x hx

theorem apLoop_counter (call : Nat → Int → APState → Option APState) (u : Nat) (p : Int) :
    ∀ (es : List Edge) (c : Nat) (st : APState),
      apLoop call u p es c st = (apLoop call u p es 0 st).map (fun r => (r.1 + c, r.2)) := by
  intro es
  induction es with
  | nil =>
    intro c st
    simp [apLoop]
  | cons e rest ih =>
    intro c st
    unfold apLoop
    by_cases h1 : (e.dst : Int) = p
    · rw [if_pos h1, if_pos h1]
      exact ih c st
    · rw [if_neg h1, if_neg h1]
      by_cases h2 : st.visited.getD e.dst false = true
      · rw [if_pos h2, if_pos h2]
        exact ih c _
      · rw [if_neg h2, if_neg h2]
        cases call e.dst (u : Int) st with
        | none => rfl
        | some st1 =>
          simp only
          rw [ih (c + 1) _, ih (0 + 1) _, Option.map_map]
          congr 1
          funext r
          simp only [Function.comp, Prod.mk.injEq, and_true]
          omega

theorem apLoop_cons (call : Nat → Int → APState → Option APState) (u : Nat) (p : Int)
    (e : Edge) (rest : List Edge) (c : Nat) (st : APState) :
    apLoop call u p (e :: rest) c st
      = if (e.dst : Int) = p then apLoop call u p rest c st
        else if st.visited.getD e.dst false then
          apLoop call u p rest c
            { st with low := st.low.set u (min (st.low.getD u 0) (st.disc.getD e.dst 0)) }
        else
          match call e.dst (u : Int) st with
          | none => none
          | some st1 =>
            let st2 : APState :=
              { st1 with low := st1.low.set u (min (st1.low.getD u 0) (st1.low.getD e.dst 0)) }
            let st3 : APState :=
              if p ≠ -1 ∧ st2.low.getD e.dst 0 ≥ st2.disc.getD u 0 then
                { st2 with ap := setInsert u st2.ap }
              else st2
            apLoop call u p rest (c + 1) st3 := by
  rw [apLoop]

theorem apLoop_append (call : Nat → Int → APState → Option APState) (u : Nat) (p : Int) :
    ∀ (l1 l2 : List Edge) (c : Nat) (st : APState),
      apLoop call u p (l1 ++ l2) c st
        = (apLoop call u p l1 c st).bind (fun r => apLoop call u p l2 r.1 r.2) := by
  intro l1
  induction l1 with
  | nil =>
    intro l2 c st
    simp [apLoop]
  | cons e rest ih =>
    intro l2 c st
    rw [List.cons_append, apLoop_cons, apLoop_cons]
    by_cases h1 : (e.dst : Int) = p
    · rw [if_pos h1, if_pos h1]
      exact ih l2 c st
    · rw [if_neg h1, if_neg h1]
      by_cases h2 : st.visited.getD e.dst false = true
      · rw [if_pos h2, if_pos h2]
        exact ih l2 c _
      · rw [if_neg h2, if_neg h2]
        cases call e.dst (u : Int) st with
        | none => rfl
        | some st1 =>
          simp only
          exact ih l2 _ _

theorem recursedInto_snoc (call : Nat → Int → APState → Option APState) (u : Nat) (p : Int)
    (es : List Edge) (e : Edge) (st : APState) (c2 : Nat) (st2 : APState)
    (h : apLoop call u p es 0 st = some (c2, st2)) :
    recursedInto call u p (es ++ [e]) st
      = recursedInto call u p es st ++
        (if (e.dst : Int) ≠ p ∧ st2.visited.getD e.dst false = false then [e.dst] else []) := by
  have hpre : ∀ i, i < es.length →
      unvisitedAt call u p (es ++ [e]) st i = unvisitedAt call u p es st i := by
    intro i hi
    unfold unvisitedAt apStateAt
    rw [List.getElem?_append_left hi, List.take_append_of_le_length (le_of_lt hi)]
  have hlast : unvisitedAt call u p (es ++ [e]) st es.length
      = (decide ((e.dst : Int) ≠ p) && !(st2.visited.getD e.dst false)) := by
    unfold unvisitedAt apStateAt
    rw [List.take_left', h]
    · simp
    · rfl
  unfold recursedInto
  rw [List.length_append, List.length_singleton, List.range_succ, List.filter_append,
    List.map_append]
  congr 1
  · rw [List.filter_congr (fun i hi => hpre i (List.mem_range.1 hi))]
    apply List.map_congr_left
    intro i hi
    have hi2 : i < es.length := List.mem_range.1 (List.mem_filter.1 hi).1
    simp [List.getD_eq_getElem?_getD, List.getElem?_append_left hi2]
  · by_cases hc : (e.dst : Int) ≠ p ∧ st2.visited.getD e.dst false = false
    · rw [if_pos hc]
      have : unvisitedAt call u p (es ++ [e]) st es.length = true := by
        rw [hlast, hc.2]
        simp [hc.1]
      simp [List.filter_cons, this, List.getD_eq_getElem?_getD]
    · rw [if_neg hc]
      have : unvisitedAt call u p (es ++ [e]) st es.length = false := by
        rw [hlast]
        by_cases h1 : (e.dst : Int) = p
        · simp [h1]
        · have : st2.visited.getD e.dst false = true := by
            cases hv : st2.visited.getD e.dst false with
            | true => rfl
            | false => exact absurd ⟨h1, hv⟩ hc
          rw [this]
          simp
      simp [List.filter_cons, this]

theorem aputil_visits (g : Graph) (fuel v : Nat) (p : Int) (st st1 : APState) (hl : st.Lens)
    (hv : v < st.visited.length) (h : APUtil g fuel v p st = some st1) : st1.vis v := by
  cases fuel with
  | zero => simp [APUtil] at h
  | succ fuel =>
    unfold APUtil at h
    obtain ⟨fe, hue⟩ := aframe_enter st v hl
    have hle := aframe_lens fe hl
    have hvv : (apEnter v st).vis v := (enter_vis v st hv v).2 (Or.inl rfl)
    cases hloop : apLoop (APUtil g fuel) v p (g.nbrs v) 0 (apEnter v st) with
    | none => rw [hloop] at h; cases h
    | some res =>
      obtain ⟨c, st2⟩ := res
      rw [hloop] at h
      have f2 := aploop_frame (APUtil g fuel) (aputil_frame g fuel) v p (g.nbrs v) 0
        (apEnter v st) c st2 hle hue hloop
      have hv2 : st2.vis v := f2.2.2.2.1 v hvv
      dsimp only at h
      split at h
      · simp only [Option.some.injEq] at h
        rw [← h]
        exact hv2
      · simp only [Option.some.injEq] at h
        rw [← h]
        exact hv2

/-- The counter `children` of the loop of `APUtil` counts the entries that lead to a
vertex still unvisited when the loop reaches them; these vertices are different from
each other, were unvisited when the loop began and are visited when it ends. -/
theorem recursed_spec (g : Graph) (f u : Nat) (p : Int) :
    ∀ (es : List Edge) (st : APState) (c2 : Nat) (st2 : APState), st.Lens → st.vis u →
      (∀ e ∈ es, e.dst < st.visited.length) →
      apLoop (APUtil g f) u p es 0 st = some (c2, st2) →
      c2 = (recursedInto (APUtil g f) u p es st).length ∧
      (recursedInto (APUtil g f) u p es st).Nodup ∧
      ∀ c ∈ recursedInto (APUtil g f) u p es st,
        st2.vis c ∧ ¬ st.vis c ∧ ∃ e ∈ es, e.dst = c := by
  intro es
  induction es using List.reverseRecOn with
  | nil =>
    intro st c2 st2 _ _ _ h
    simp only [apLoop, Option.some.injEq, Prod.mk.injEq] at h
    have hn : recursedInto (APUtil g f) u p [] st = [] := rfl
    rw [hn]
    exact ⟨h.1.symm, List.nodup_nil, fun c hc => absurd hc (List.not_mem_nil c)⟩
  | append_singleton es e ih =>
    intro st c2 st2 hl hu hlt h
    rw [apLoop_append] at h
    cases hes : apLoop (APUtil g f) u p es 0 st with
    | none => rw [hes] at h; cases h
    | some res =>
      obtain ⟨c1, st1⟩ := res
      rw [hes] at h
      simp only [Option.some_bind] at h
      obtain ⟨ih1, ih2, ih3⟩ := ih st c1 st1 hl hu
        (fun a ha => hlt a (List.mem_append_left _ ha)) hes
      have F1 := aploop_frame (APUtil g f) (aputil_frame g f) u p es 0 st c1 st1 hl
        (Or.inl hu) hes
      have hl1 := aframe_lens F1 hl
      have hsub : ∀ c, (∃ a ∈ es, a.dst = c) → ∃ a ∈ es ++ [e], a.dst = c := by
        rintro c ⟨a, ha, hac⟩
        exact ⟨a, List.mem_append_left _ ha, hac⟩
      rw [recursedInto_snoc _ u p es e st c1 st1 hes]
      rw [apLoop_cons] at h
      by_cases h1 : (e.dst : Int) = p
      · rw [if_pos h1] at h
        simp only [apLoop, Option.some.injEq, Prod.mk.injEq] at h
        rw [if_neg (fun hc => hc.1 h1), List.append_nil, ← h.1, ← h.2]
        exact ⟨ih1, ih2, fun c hc => ⟨(ih3 c hc).1, (ih3 c hc).2.1, hsub c (ih3 c hc).2.2⟩⟩
      · rw [if_neg h1] at h
        by_cases h2 : st1.visited.getD e.dst false = true
        · rw [if_pos h2] at h
          simp only [apLoop, Option.some.injEq, Prod.mk.injEq] at h
          have hne : ¬ ((e.dst : Int) ≠ p ∧ st1.visited.getD e.dst false = false) := by
            intro hc
            rw [h2] at hc
            exact Bool.noConfusion hc.2
          rw [if_neg hne, List.append_nil, ← h.1, ← h.2]
          exact ⟨ih1, ih2, fun c hc => ⟨(ih3 c hc).1, (ih3 c hc).2.1, hsub c (ih3 c hc).2.2⟩⟩
        · rw [if_neg h2] at h
          have h2f : st1.visited.getD e.dst false = false := by
            cases hb : st1.visited.getD e.dst false with
            | true => exact absurd hb h2
            | false => rfl
          rw [if_pos ⟨h1, h2f⟩]
          cases hcall : APUtil g f e.dst (u : Int) st1 with
          | none => rw [hcall] at h; cases h
          | some st3 =>
            rw [hcall] at h
            have F2 := aputil_frame g f e.dst (u : Int) st1 st3 hl1 hcall
            have hev : e.dst < st1.visited.length := by
              rw [F1.1]
              exact hlt e (List.mem_append_right _ (List.mem_singleton_self e))
            have hv3 : st3.vis e.dst := aputil_visits g f e.dst (u : Int) st1 st3 hl1 hev hcall
            have hvis : ∀ x, st3.vis x → st2.vis x := by
              intro x hx
              dsimp only at h
              split at h
              · simp only [apLoop, Option.some.injEq, Prod.mk.injEq] at h
                rw [← h.2]
                exact hx
              · simp only [apLoop, Option.some.injEq, Prod.mk.injEq] at h
                rw [← h.2]
                exact hx
            have hcnt : c2 = c1 + 1 := by
              dsimp only at h
              split at h
              · simp only [apLoop, Option.some.injEq, Prod.mk.injEq] at h
                exact h.1.symm
              · simp only [apLoop, Option.some.injEq, Prod.mk.injEq] at h
                exact h.1.symm
            have hnew : e.dst ∉ recursedInto (APUtil g f) u p es st := by
              intro hin
              exact h2 (ih3 e.dst hin).1
            refine ⟨?_, ?_, ?_⟩
            · rw [List.length_append, List.length_singleton, ← ih1]
              exact hcnt
            · rw [List.nodup_append]
              refine ⟨ih2, List.nodup_singleton _, ?_⟩
              intro a ha hb
              rw [List.mem_singleton] at hb
              rw [hb] at ha
              exact hnew ha
            · intro c hc
              rcases List.mem_append.1 hc with hold | hnw
              · exact ⟨hvis c (F2.2.2.2.1 c (ih3 c hold).1), (ih3 c hold).2.1,
                  hsub c (ih3 c hold).2.2⟩
              · rw [List.mem_singleton] at hnw
                rw [hnw]
                refine ⟨hvis _ hv3, fun h0 => h2 (F1.2.2.2.1 _ h0), e, ?_, rfl⟩
                exact List.mem_append_right _ (List.mem_singleton_self e)

/-- C28. Root rule. For a start `s` and fuel for `V` nested calls, the loop of the
first call `APUtil(s, ..., -1, ap)` ends with a count `children` and a set that does
not hold `s` (the low-link test never adds the root). `children` is the number of
entries of `adj[s]` that led to a vertex still unvisited when the loop reached them,
the vertices into which the search recursed from `s`; these are neighbours of `s`,
different from `s` and from each other. `findArticulationPoints(s)` returns the set
with `s` added exactly when `children > 1`, so `s` is reported if and only if the
search recursed from `s` into more than one vertex, which is the case if and only if
`s` is a cut vertex. -/
theorem ap_root_rule (v : Nat) (labels : List String) (es : List (Nat × Nat × Int))
    (hv : ValidEdges v es) (s : Nat) (hs : s < v) (f : Nat) (hf : v ≤ f + 1) :
    ∃ children st1 ap,
      apLoop (APUtil (Graph.build v labels es) f) s (-1) ((Graph.build v labels es).nbrs s) 0
        (apEnter s (apInit (Graph.build v labels es))) = some (children, st1) ∧
      findArticulationPoints (Graph.build v labels es) s (f + 1) = some ap ∧
      s ∉ st1.ap ∧ (s ∈ ap ↔ 1 < children) ∧
      ap = (if 1 < children then setInsert s st1.ap else st1.ap) ∧
      children = (recursedInto (APUtil (Graph.build v labels es) f) s (-1)
        ((Graph.build v labels es).nbrs s)
        (apEnter s (apInit (Graph.build v labels es)))).length ∧
      (recursedInto (APUtil (Graph.build v labels es) f) s (-1)
        ((Graph.build v labels es).nbrs s)
        (apEnter s (apInit (Graph.build v labels es)))).Nodup ∧
      (∀ c ∈ recursedInto (APUtil (Graph.build v labels es) f) s (-1)
        ((Graph.build v labels es).nbrs s) (apEnter s (apInit (Graph.build v labels es))),
        c ≠ s ∧ (Graph.build v labels es).Joined s c ∧ st1.vis c) ∧
      (s ∈ ap ↔ 1 < (recursedInto (APUtil (Graph.build v labels es) f) s (-1)
        ((Graph.build v labels es).nbrs s)
        (apEnter s (apInit (Graph.build v labels es)))).length) ∧
      (s ∈ ap ↔ (Graph.build v labels es).IsCut s s) := by
  have hwf := build_wf v labels es hv
  have hV := build_V v labels es
  obtain ⟨st, hrun, hinv, hvis⟩ := apRun_spec _ s hwf (build_joined_symm v labels es hv)
    (by rw [hV]; exact hs) (f + 1) (by rw [hV]; exact hf)
  have hcut := final_ap_iff _ s st hinv hvis s
  have hfind : findArticulationPoints (Graph.build v labels es) s (f + 1) = some st.ap := by
    unfold findArticulationPoints
    rw [hrun]
    rfl
  unfold apRun at hrun
  have hn : ¬ ((apInit (Graph.build v labels es)).visited.getD s false = true) :=
    apInit_vis _ s
  rw [if_neg hn] at hrun
  unfold APUtil at hrun
  have hl0 := apInit_lens (Graph.build v labels es)
  obtain ⟨fe, _⟩ := aframe_enter (apInit (Graph.build v labels es)) s hl0
  cases hloop : apLoop (APUtil (Graph.build v labels es) f) s (-1)
      ((Graph.build v labels es).nbrs s) 0 (apEnter s (apInit (Graph.build v labels es))) with
  | none => rw [hloop] at hrun; cases hrun
  | some res =>
    obtain ⟨c, st1⟩ := res
    rw [hloop] at hrun
    have hvl : (apInit (Graph.build v labels es)).visited.length = v := by
      show (List.replicate (Graph.build v labels es).V false).length = v
      rw [List.length_replicate, hV]
    have hslen : s < (apInit (Graph.build v labels es)).visited.length := by
      rw [hvl]
      exact hs
    have hsv : (apEnter s (apInit (Graph.build v labels es))).vis s :=
      (enter_vis s _ hslen s).2 (Or.inl rfl)
    have hnot : s ∉ st1.ap := by
      intro hin
      rcases aploop_apnew _ f (aputil_apnew _ f) s (-1) _ 0 _ c st1 (aframe_lens fe hl0) hloop
        s hin with h1 | h2 | h3
      · cases h1
      · exact h2 hsv
      · exact h3.2 rfl
    obtain ⟨r1, r2, r3⟩ := recursed_spec (Graph.build v labels es) f s (-1)
      ((Graph.build v labels es).nbrs s) (apEnter s (apInit (Graph.build v labels es))) c st1
      (aframe_lens fe hl0) hsv
      (by
        intro e he
        rw [fe.1, hvl, ← hV]
        exact hwf.dst_lt s e he)
      hloop
    have hiff : s ∈ st.ap ↔ 1 < c := by
      dsimp only at hrun
      by_cases hc : 1 < c
      · rw [if_pos ⟨rfl, hc⟩] at hrun
        simp only [Option.some.injEq] at hrun
        rw [← hrun]
        exact ⟨fun _ => hc, fun _ => (mem_setInsert s s st1.ap).2 (Or.inl rfl)⟩
      · rw [if_neg (fun h => hc h.2)] at hrun
        simp only [Option.some.injEq] at hrun
        rw [← hrun]
        exact ⟨fun h => absurd h hnot, fun h => absurd h hc⟩
    refine ⟨c, st1, st.ap, rfl, hfind, hnot, hiff, ?_, r1, r2, ?_, ?_, hcut⟩
    · dsimp only at hrun
      by_cases hc : 1 < c
      · rw [if_pos ⟨rfl, hc⟩] at hrun
        simp only [Option.some.injEq] at hrun
        rw [← hrun, if_pos hc]
      · rw [if_neg (fun h => hc h.2)] at hrun
        simp only [Option.some.injEq] at hrun
        rw [← hrun, if_neg hc]
    · intro x hx
      obtain ⟨h1, h2, e, he, hex⟩ := r3 x hx
      refine ⟨?_, ⟨e, he, hex⟩, h1⟩
      intro hxs
      rw [hxs] at h2
      exact h2 hsv
    · rw [← r1]
      exact hiff

/-- C28, the star A-B, A-C searched from A: the search recurses from A into B and
into C, `children` is `2` and A is reported; searched from B, it recurses from B
into A only, `children` is `1` and B is not reported, while A is. -/
theorem ap_root_rule_witness :
    (∃ children st1 ap,
      apLoop (APUtil (Graph.build 3 ["A", "B", "C"] [(0, 1, 1), (0, 2, 1)]) 2) 0 (-1)
        ((Graph.build 3 ["A", "B", "C"] [(0, 1, 1), (0, 2, 1)]).nbrs 0) 0
        (apEnter 0 (apInit (Graph.build 3 ["A", "B", "C"] [(0, 1, 1), (0, 2, 1)])))
          = some (children, st1) ∧
      findArticulationPoints (Graph.build 3 ["A", "B", "C"] [(0, 1, 1), (0, 2, 1)]) 0 (2 + 1)
        = some ap ∧
      0 ∉ st1.ap ∧ (0 ∈ ap ↔ 1 < children) ∧
      ap = (if 1 < children then setInsert 0 st1.ap else st1.ap) ∧
      children = (recursedInto (APUtil (Graph.build 3 ["A", "B", "C"] [(0, 1, 1), (0, 2, 1)]) 2)
        0 (-1) ((Graph.build 3 ["A", "B", "C"] [(0, 1, 1), (0, 2, 1)]).nbrs 0)
        (apEnter 0 (apInit (Graph.build 3 ["A", "B", "C"] [(0, 1, 1), (0, 2, 1)])))).length ∧
      (recursedInto (APUtil (Graph.build 3 ["A", "B", "C"] [(0, 1, 1), (0, 2, 1)]) 2)
        0 (-1) ((Graph.build 3 ["A", "B", "C"] [(0, 1, 1), (0, 2, 1)]).nbrs 0)
        (apEnter 0 (apInit (Graph.build 3 ["A", "B", "C"] [(0, 1, 1), (0, 2, 1)])))).Nodup ∧
      (∀ c ∈ recursedInto (APUtil (Graph.build 3 ["A", "B", "C"] [(0, 1, 1), (0, 2, 1)]) 2)
        0 (-1) ((Graph.build 3 ["A", "B", "C"] [(0, 1, 1), (0, 2, 1)]).nbrs 0)
        (apEnter 0 (apInit (Graph.build 3 ["A", "B", "C"] [(0, 1, 1), (0, 2, 1)]))),
        c ≠ 0 ∧ (Graph.build 3 ["A", "B", "C"] [(0, 1, 1), (0, 2, 1)]).Joined 0 c ∧
          st1.vis c) ∧
      (0 ∈ ap ↔ 1 < (recursedInto
        (APUtil (Graph.build 3 ["A", "B", "C"] [(0, 1, 1), (0, 2, 1)]) 2)
        0 (-1) ((Graph.build 3 ["A", "B", "C"] [(0, 1, 1), (0, 2, 1)]).nbrs 0)
        (apEnter 0 (apInit (Graph.build 3 ["A", "B", "C"] [(0, 1, 1), (0, 2, 1)])))).length) ∧
      (0 ∈ ap ↔ (Graph.build 3 ["A", "B", "C"] [(0, 1, 1), (0, 2, 1)]).IsCut 0 0)) ∧
    apLoop (APUtil (Graph.build 3 ["A", "B", "C"] [(0, 1, 1), (0, 2, 1)]) 2) 0 (-1)
        ((Graph.build 3 ["A", "B", "C"] [(0, 1, 1), (0, 2, 1)]).nbrs 0) 0
        (apEnter 0 (apInit (Graph.build 3 ["A", "B", "C"] [(0, 1, 1), (0, 2, 1)])))
      = some (2, { visited := [true, true, true], disc := [1, 2, 3], low := [1, 2, 3],
                   time := 3, ap := [] }) ∧
    recursedInto (APUtil (Graph.build 3 ["A", "B", "C"] [(0, 1, 1), (0, 2, 1)]) 2)
        0 (-1) ((Graph.build 3 ["A", "B", "C"] [(0, 1, 1), (0, 2, 1)]).nbrs 0)
        (apEnter 0 (apInit (Graph.build 3 ["A", "B", "C"] [(0, 1, 1), (0, 2, 1)]))) = [1, 2] ∧
    findArticulationPoints (Graph.build 3 ["A", "B", "C"] [(0, 1, 1), (0, 2, 1)]) 0 3
      = some [0] ∧
    apLoop (APUtil (Graph.build 3 ["A", "B", "C"] [(0, 1, 1), (0, 2, 1)]) 2) 1 (-1)
        ((Graph.build 3 ["A", "B", "C"] [(0, 1, 1), (0, 2, 1)]).nbrs 1) 0
        (apEnter 1 (apInit (Graph.build 3 ["A", "B", "C"] [(0, 1, 1), (0, 2, 1)])))
      = some (1, { visited := [true, true, true], disc := [2, 1, 3], low := [2, 1, 3],
                   time := 3, ap := [0] }) ∧
    recursedInto (APUtil (Graph.build 3 ["A", "B", "C"] [(0, 1, 1), (0, 2, 1)]) 2)
        1 (-1) ((Graph.build 3 ["A", "B", "C"] [(0, 1, 1), (0, 2, 1)]).nbrs 1)
        (apEnter 1 (apInit (Graph.build 3 ["A", "B", "C"] [(0, 1, 1), (0, 2, 1)]))) = [0] ∧
    findArticulationPoints (Graph.build 3 ["A", "B", "C"] [(0, 1, 1), (0, 2, 1)]) 1 3
      = some [0] :=
  ⟨ap_root_rule 3 ["A", "B", "C"] [(0, 1, 1), (0, 2, 1)] (by unfold ValidEdges; decide) 0
    (by decide) 2 (by decide), by decide, by decide, by decide, by decide, by decide, by decide⟩

theorem vis_lt (st : APState) (x : Nat) (h : st.vis x) : x < st.visited.length := by
  by_contra hlt
  have hd : st.visited.getD x false = false := List.getD_eq_default _ _ (Nat.le_of_not_lt hlt)
  have ht : st.visited.getD x false = true := h
  rw [hd] at ht
  cases ht

theorem ninv_low (st : APState) (u k : Nat) (hl : st.Lens) (hu : st.vis u) (hk : 1 ≤ k)
    (h : NInv st) : NInv { st with low := st.low.set u (min (st.low.getD u 0) k) } := by
  have hul : u < st.low.length := by rw [hl.2]; exact vis_lt st u hu
  have hself : (st.low.set u (min (st.low.getD u 0) k)).getD u 0 = min (st.low.getD u 0) k :=
    getD_set_eq _ _ _ _ hul
  have hne : ∀ x, x ≠ u → (st.low.set u (min (st.low.getD u 0) k)).getD x 0 = st.low.getD x 0 :=
    fun x hx => getD_set_ne _ _ _ _ _ (Ne.symm hx)
  have h1u : 1 ≤ st.low.getD u 0 := h.low1 u hu
  have hdu : st.low.getD u 0 ≤ st.disc.getD u 0 := h.lowd u hu
  refine { low1 := ?_, lowd := ?_, dtime := h.dtime, inj := h.inj, surj := h.surj }
  · intro x hx
    show 1 ≤ (st.low.set u (min (st.low.getD u 0) k)).getD x 0
    by_cases hxu : x = u
    · rw [hxu, hself]
      exact Nat.le_min.2 ⟨h1u, hk⟩
    · rw [hne x hxu]
      exact h.low1 x hx
  · intro x hx
    show (st.low.set u (min (st.low.getD u 0) k)).getD x 0 ≤ st.disc.getD x 0
    by_cases hxu : x = u
    · rw [hxu, hself]
      exact le_trans (Nat.min_le_left _ _) hdu
    · rw [hne x hxu]
      exact h.lowd x hx

theorem ninv_ap (st : APState) (l : List Nat) (h : NInv st) : NInv { st with ap := l } :=
  { low1 := h.low1, lowd := h.lowd, dtime := h.dtime, inj := h.inj, surj := h.surj }

theorem ninv_enter (st : APState) (v : Nat) (hl : st.Lens) (hv : v < st.visited.length)
    (hnv : ¬ st.vis v) (h : NInv st) : NInv (apEnter v st) := by
  have hvis := enter_vis v st hv
  have hds := enter_dsc_self v st (by rw [hl.1]; exact hv)
  have hls := enter_lw_self v st (by rw [hl.2]; exact hv)
  have htime : (apEnter v st).time = st.time + 1 := rfl
  have hold : ∀ x, (apEnter v st).vis x → x ≠ v → st.vis x := by
    intro x hx hxv
    rcases (hvis x).1 hx with h1 | h1
    · exact absurd h1 hxv
    · exact h1
  refine { low1 := ?_, lowd := ?_, dtime := ?_, inj := ?_, surj := ?_ }
  · intro x hx
    by_cases hxv : x = v
    · rw [hxv, hls]
      omega
    · rw [enter_lw_ne v st x hxv]
      exact h.low1 x (hold x hx hxv)
  · intro x hx
    by_cases hxv : x = v
    · rw [hxv, hls, hds]
    · rw [enter_lw_ne v st x hxv, enter_dsc_ne v st x hxv]
      exact h.lowd x (hold x hx hxv)
  · intro x hx
    rw [htime]
    by_cases hxv : x = v
    · rw [hxv, hds]
    · rw [enter_dsc_ne v st x hxv]
      exact Nat.le_succ_of_le (h.dtime x (hold x hx hxv))
  · intro x y hx hy hxy
    by_cases hxv : x = v
    · by_cases hyv : y = v
      · rw [hxv, hyv]
      · rw [hxv, hds, enter_dsc_ne v st y hyv] at hxy
        have := h.dtime y (hold y hy hyv)
        omega
    · by_cases hyv : y = v
      · rw [hyv, hds, enter_dsc_ne v st x hxv] at hxy
        have := h.dtime x (hold x hx hxv)
        omega
      · rw [enter_dsc_ne v st x hxv, enter_dsc_ne v st y hyv] at hxy
        exact h.inj x y (hold x hx hxv) (hold y hy hyv) hxy
  · intro t h1 h2
    rw [htime] at h2
    by_cases ht : t = st.time + 1
    · exact ⟨v, (hvis v).2 (Or.inl rfl), by rw [hds, ht]⟩
    · obtain ⟨x, hx, hdx⟩ := h.surj t h1 (by omega)
      have hxv : x ≠ v := fun e => hnv (e ▸ hx)
      exact ⟨x, (hvis x).2 (Or.inr hx), by rw [enter_dsc_ne v st x hxv]; exact hdx⟩

theorem aploop_num (g : Graph) (fuel : Nat)
    (ih : ∀ (v : Nat) (p : Int) (st st1 : APState), st.Lens → st.visited.length = g.V →
      v < g.V → ¬ st.vis v → NInv st → APUtil g fuel v p st = some st1 →
      NInv st1 ∧ st1.vis v ∧ (∀ x, st.vis x → st1.dsc x = st.dsc x) ∧
        st1.dsc v = st.time + 1)
    (u : Nat) (parent : Int) :
    ∀ (es : List Edge) (c : Nat) (st : APState) (c1 : Nat) (st1 : APState),
      apLoop (APUtil g fuel) u parent es c st = some (c1, st1) →
      (∀ e ∈ es, e.dst < g.V) → st.Lens → st.visited.length = g.V → st.vis u → NInv st →
      NInv st1 ∧ ∀ x, st.vis x → st1.dsc x = st.dsc x := by
  intro es
  induction es with
  | nil =>
    intro c st c1 st1 h _ _ _ _ hn
    simp only [apLoop, Option.some.injEq, Prod.mk.injEq] at h
    rw [← h.2]
    exact ⟨hn, fun _ _ => rfl⟩
  | cons e rest ihes =>
    intro c st c1 st1 h hes hl hlen hu hn
    have hrest : ∀ a ∈ rest, a.dst < g.V := fun a ha => hes a (List.mem_cons_of_mem _ ha)
    unfold apLoop at h
    by_cases h1 : (e.dst : Int) = parent
    · rw [if_pos h1] at h
      exact ihes c st c1 st1 h hrest hl hlen hu hn
    · rw [if_neg h1] at h
      by_cases h2 : st.visited.getD e.dst false = true
      · rw [if_pos h2] at h
        have hk : 1 ≤ st.disc.getD e.dst 0 := le_trans (hn.low1 e.dst h2) (hn.lowd e.dst h2)
        have r := ihes c _ c1 st1 h hrest (lens_low st u _ hl) hlen hu
          (ninv_low st u _ hl hu hk hn)
        exact r
      · rw [if_neg h2] at h
        cases hc : APUtil g fuel e.dst (u : Int) st with
        | none => rw [hc] at h; cases h
        | some st2 =>
          rw [hc] at h
          have f1 := aputil_frame g fuel e.dst (u : Int) st st2 hl hc
          have hl2 := aframe_lens f1 hl
          have hlen2 : st2.visited.length = g.V := f1.1.trans hlen
          have hu2 : st2.vis u := f1.2.2.2.1 u hu
          obtain ⟨hn2, hve, hd2, _⟩ := ih e.dst (u : Int) st st2 hl hlen
            (hes e (List.mem_cons_self _ _)) h2 hn hc
          have hk : 1 ≤ st2.low.getD e.dst 0 := hn2.low1 e.dst hve
          have hn3 := ninv_low st2 u _ hl2 hu2 hk hn2
          have hl3 := lens_low st2 u (min (st2.low.getD u 0) (st2.low.getD e.dst 0)) hl2
          dsimp only at h
          split at h
          · obtain ⟨hn4, hd4⟩ := ihes _ _ c1 st1 h hrest
              (lens_low { st2 with ap := setInsert u st2.ap } u _ hl2) hlen2 hu2
              (ninv_ap _ (setInsert u st2.ap) hn3)
            exact ⟨hn4, fun x hx => (hd4 x (f1.2.2.2.1 x hx)).trans (hd2 x hx)⟩
          · obtain ⟨hn4, hd4⟩ := ihes _ _ c1 st1 h hrest hl3 hlen2 hu2 hn3
            exact ⟨hn4, fun x hx => (hd4 x (f1.2.2.2.1 x hx)).trans (hd2 x hx)⟩

theorem aputil_num (g : Graph) (hwf : g.WF) :
    ∀ (fuel v : Nat) (p : Int) (st st1 : APState), st.Lens → st.visited.length = g.V →
      v < g.V → ¬ st.vis v → NInv st → APUtil g fuel v p st = some st1 →
      NInv st1 ∧ st1.vis v ∧ (∀ x, st.vis x → st1.dsc x = st.dsc x) ∧
        st1.dsc v = st.time + 1 := by
  intro fuel
  induction fuel with
  | zero =>
    intro v p st st1 _ _ _ _ _ h
    simp [APUtil] at h
  | succ fuel ih =>
    intro v p st st1 hl hlen hv hnv hn h
    unfold APUtil at h
    have hvl : v < st.visited.length := by rw [hlen]; exact hv
    obtain ⟨fe, _⟩ := aframe_enter st v hl
    have hle := aframe_lens fe hl
    have hve : (apEnter v st).vis v := (enter_vis v st hvl v).2 (Or.inl rfl)
    have hne := ninv_enter st v hl hvl hnv hn
    cases hloop : apLoop (APUtil g fuel) v p (g.nbrs v) 0 (apEnter v st) with
    | none => rw [hloop] at h; cases h
    | some res =>
      obtain ⟨c, st2⟩ := res
      rw [hloop] at h
      obtain ⟨hn2, hd2⟩ := aploop_num g fuel ih v p (g.nbrs v) 0 (apEnter v st) c st2 hloop
        (fun e he => hwf.dst_lt v e he) hle (fe.1.trans hlen) hve hne
      have f2 := aploop_frame (APUtil g fuel)
        (fun a q s1 s2 hs h12 => aputil_frame g fuel a q s1 s2 hs h12)
        v p (g.nbrs v) 0 (apEnter v st) c st2 hle (Or.inl hve) hloop
      have hv2 : st2.vis v := f2.2.2.2.1 v hve
      have hd : ∀ x, st.vis x → st2.dsc x = st.dsc x := by
        intro x hx
        have hxv : x ≠ v := fun e => hnv (e ▸ hx)
        rw [hd2 x (fe.2.2.2.1 x hx)]
        exact enter_dsc_ne v st x hxv
      have hdv : st2.dsc v = st.time + 1 := by
        rw [hd2 v hve]
        exact enter_dsc_self v st (by rw [hl.1]; exact hvl)
      dsimp only at h
      split at h
      · simp only [Option.some.injEq] at h
        rw [← h]
        exact ⟨ninv_ap st2 _ hn2, hv2, hd, hdv⟩
      · simp only [Option.some.injEq] at h
        rw [← h]
        exact ⟨hn2, hv2, hd, hdv⟩

theorem apInit_ninv (g : Graph) : NInv (apInit g) :=
  { low1 := fun x hx => absurd hx (apInit_vis g x)
    lowd := fun x hx => absurd hx (apInit_vis g x)
    dtime := fun x hx => absurd hx (apInit_vis g x)
    inj := fun x _ hx => absurd hx (apInit_vis g x)
    surj := by
      intro t h1 h2
      have h0 : (apInit g).time = 0 := rfl
      omega }

/-- C29. Discovery and low-link numbering. When `findArticulationPoints(s)` ends
(fuel `V` suffices), the marked vertices are the vertices reachable from `s`,
`disc[s] = 1`, marked vertices have different discovery times, the discovery times
of the `k` marked vertices are, in some order, the numbers `1, ..., k`, and every
marked vertex `u` has `1 ≤ low[u] ≤ disc[u]`. -/
theorem ap_numbering (v : Nat) (labels : List String) (es : List (Nat × Nat × Int))
    (hv : ValidEdges v es) (s : Nat) (hs : s < v) (fuel : Nat) (hf : v ≤ fuel) :
    ∃ st, apRun (Graph.build v labels es) s fuel = some st ∧
      (∀ x, st.visited.getD x false = true ↔ (Graph.build v labels es).Reachable s x) ∧
      (∀ x, x ∈ (List.range v).filter (fun x => st.visited.getD x false) ↔
        (Graph.build v labels es).Reachable s x) ∧
      st.disc.getD s 0 = 1 ∧
      (∀ x y, st.visited.getD x false = true → st.visited.getD y false = true →
        st.disc.getD x 0 = st.disc.getD y 0 → x = y) ∧
      (((List.range v).filter (fun x => st.visited.getD x false)).map
          (fun x => st.disc.getD x 0)).Perm
        (List.range' 1 ((List.range v).filter (fun x => st.visited.getD x false)).length) ∧
      ∀ u, st.visited.getD u false = true →
        1 ≤ st.low.getD u 0 ∧ st.low.getD u 0 ≤ st.disc.getD u 0 := by
  have hwf := build_wf v labels es hv
  have hV := build_V v labels es
  have hsV : s < (Graph.build v labels es).V := by rw [hV]; exact hs
  obtain ⟨st, hrun, hinv, hvs⟩ := apRun_spec _ s hwf (build_joined_symm v labels es hv)
    hsV fuel (by rw [hV]; exact hf)
  have hutil : APUtil (Graph.build v labels es) fuel s (-1) (apInit (Graph.build v labels es))
      = some st := by
    have h := hrun
    unfold apRun at h
    have hn : ¬ ((apInit (Graph.build v labels es)).visited.getD s false = true) :=
      apInit_vis _ s
    rw [if_neg hn] at h
    exact h
  obtain ⟨hn, _, _, hds⟩ := aputil_num _ hwf fuel s (-1) (apInit (Graph.build v labels es)) st
    (apInit_lens _) (by simp [apInit]) hsV (apInit_vis _ s) (apInit_ninv _) hutil
  have hreach := final_vis_iff _ s st hinv hvs
  have hlt : ∀ x, st.vis x → x < v := by
    intro x hx
    have := vis_lt st x hx
    rw [hinv.vlen, hV] at this
    exact this
  have hmem : ∀ x, x ∈ (List.range v).filter (fun x => st.visited.getD x false) ↔ st.vis x := by
    intro x
    rw [List.mem_filter, List.mem_range]
    constructor
    · exact fun h => h.2
    · exact fun h => ⟨hlt x h, h⟩
  have hnd1 : (((List.range v).filter (fun x => st.visited.getD x false)).map
      (fun x => st.disc.getD x 0)).Nodup := by
    apply List.Nodup.map_on
    · intro x hx y hy hxy
      exact hn.inj x y ((hmem x).1 hx) ((hmem y).1 hy) hxy
    · exact List.Nodup.filter _ (List.nodup_range v)
  have hperm : (((List.range v).filter (fun x => st.visited.getD x false)).map
      (fun x => st.disc.getD x 0)).Perm (List.range' 1 st.time) := by
    rw [List.perm_ext_iff_of_nodup hnd1 (List.nodup_range' 1 st.time)]
    intro t
    rw [List.mem_map, List.mem_range'_1]
    constructor
    · rintro ⟨x, hx, hxt⟩
      have hvx := (hmem x).1 hx
      have h1 : 1 ≤ st.low.getD x 0 := hn.low1 x hvx
      have h2 : st.low.getD x 0 ≤ st.disc.getD x 0 := hn.lowd x hvx
      have h3 : st.disc.getD x 0 ≤ st.time := hn.dtime x hvx
      rw [← hxt]
      omega
    · rintro ⟨h1, h2⟩
      obtain ⟨x, hx, hxt⟩ := hn.surj t h1 (by omega)
      exact ⟨x, (hmem x).2 hx, hxt⟩
  have hlen : ((List.range v).filter (fun x => st.visited.getD x false)).length = st.time := by
    have := hperm.length_eq
    rw [List.length_map, List.length_range'] at this
    exact this
  refine ⟨st, hrun, hreach, ?_, ?_, ?_, ?_, ?_⟩
  · intro x
    rw [hmem x]
    exact hreach x
  · have h0 : (apInit (Graph.build v labels es)).time = 0 := rfl
    rw [h0] at hds
    exact hds
  · exact hn.inj
  · rw [hlen]
    exact hperm
  · intro u hu
    exact ⟨hn.low1 u hu, hn.lowd u hu⟩

theorem ap_numbering_witness :
    ∃ st, apRun (Graph.build 5 ["A", "B", "C", "D", "E"]
        [(0, 1, 1), (1, 2, 1), (2, 0, 1), (3, 4, 1)]) 0 5 = some st ∧
      (∀ x, st.visited.getD x false = true ↔ (Graph.build 5 ["A", "B", "C", "D", "E"]
        [(0, 1, 1), (1, 2, 1), (2, 0, 1), (3, 4, 1)]).Reachable 0 x) ∧
      (∀ x, x ∈ (List.range 5).filter (fun x => st.visited.getD x false) ↔
        (Graph.build 5 ["A", "B", "C", "D", "E"]
          [(0, 1, 1), (1, 2, 1), (2, 0, 1), (3, 4, 1)]).Reachable 0 x) ∧
      st.disc.getD 0 0 = 1 ∧
      (∀ x y, st.visited.getD x false = true → st.visited.getD y false = true →
        st.disc.getD x 0 = st.disc.getD y 0 → x = y) ∧
      (((List.range 5).filter (fun x => st.visited.getD x false)).map
          (fun x => st.disc.getD x 0)).Perm
        (List.range' 1 ((List.range 5).filter (fun x => st.visited.getD x false)).length) ∧
      ∀ u, st.visited.getD u false = true →
        1 ≤ st.low.getD u 0 ∧ st.low.getD u 0 ≤ st.disc.getD u 0 :=
  ap_numbering 5 ["A", "B", "C", "D", "E"] [(0, 1, 1), (1, 2, 1), (2, 0, 1), (3, 4, 1)]
    (by unfold ValidEdges; decide) 0 (by decide) 5 (by decide)

/-! ## Prim: the greedy step -/

/-- Every edge of a greedily grown tree was, when it was added, a lightest edge from
the tree grown before it to a vertex outside. -/
theorem mingrow_split (g : Graph) (s : Nat) (T : List (Nat × Nat × Int)) (h : MinGrow g s T) :
    ∀ (T1 : List (Nat × Nat × Int)) (p x : Nat) (k : Int) (T2 : List (Nat × Nat × Int)),
      T = T1 ++ (p, x, k) :: T2 →
      p ∈ treeVerts s T1 ∧ x ∉ treeVerts s T1 ∧ (⟨x, k⟩ : Edge) ∈ g.nbrs p ∧
      ∀ t e, t ∈ treeVerts s T1 → e ∈ g.nbrs t → e.dst ∉ treeVerts s T1 → k ≤ e.weight := by
  induction h with
  | nil =>
    intro T1 p x k T2 heq
    cases T1 <;> cases heq
  | @snoc T p1 x1 k1 _ hp hx he hmin ih =>
    intro T1 p x k T2 heq
    rcases List.eq_nil_or_concat T2 with hnil | ⟨T3, c, hc⟩
    · rw [hnil] at heq
      obtain ⟨h1, h2⟩ := List.append_inj' heq rfl
      simp only [List.cons.injEq, Prod.mk.injEq, and_true] at h2
      obtain ⟨hp1, hx1, hk1⟩ := h2
      rw [← h1, ← hp1, ← hx1, ← hk1]
      exact ⟨hp, hx, he, hmin⟩
    · rw [hc, List.concat_eq_append] at heq
      have e1 : T1 ++ (p, x, k) :: (T3 ++ [c]) = (T1 ++ (p, x, k) :: T3) ++ [c] := by simp
      rw [e1] at heq
      obtain ⟨h1, _⟩ := List.append_inj' heq rfl
      exact ih T1 p x k T3 h1

/-- C30, as the code has it. Prim's greedy step. For a graph built by `addEdge` from
valid edges with weights in `[0, INF)` and a start `s`: with enough fuel `Prim`
returns; every printed edge `(p, x, k)` joins a vertex `p` of the tree printed
before it (or `s`) to a vertex `x` outside that tree, and `k` is least among the
weights of the graph's edges from that tree to the outside; no printed edge leads
to `s`; the reported total is the sum of the printed keys reduced to 32 bits, and
the sum itself when the sum is below `2^31`. -/
theorem prim_greedy_step (v : Nat) (labels : List String) (es : List (Nat × Nat × Int))
    (hv : ValidEdges v es) (hw : ∀ e ∈ es, 0 ≤ e.2.2 ∧ e.2.2 < INF) (s : Nat) (hs : s < v) :
    ∃ N, ∀ fuel, N ≤ fuel → ∃ T total,
      Prim (Graph.build v labels es) s fuel = some (T, total) ∧
      (∀ (T1 : List (Nat × Nat × Int)) (p x : Nat) (k : Int) (T2 : List (Nat × Nat × Int)),
        T = T1 ++ (p, x, k) :: T2 →
        p ∈ treeVerts s T1 ∧ x ∉ treeVerts s T1 ∧
        (⟨x, k⟩ : Edge) ∈ (Graph.build v labels es).nbrs p ∧
        ∀ t e, t ∈ treeVerts s T1 → e ∈ (Graph.build v labels es).nbrs t →
          e.dst ∉ treeVerts s T1 → k ≤ e.weight) ∧
      (∀ t, t ∈ T → t.2.1 ≠ s) ∧
      total = wrap32 (treeWeight T) ∧
      (treeWeight T < 2147483648 → total = treeWeight T) := by
  have hwf := build_wf v labels es hv
  have hV := build_V v labels es
  have hw0 := build_weights v labels es hv (fun w => 0 ≤ w) (fun e he => (hw e he).1)
  have hsV : s < (Graph.build v labels es).V := by rw [hV]; exact hs
  obtain ⟨N, hN⟩ := prim_runs _ s hwf hw0 hsV
  refine ⟨N, ?_⟩
  intro fuel hf
  obtain ⟨st, hrun, hinv, _⟩ := hN fuel hf
  have hgrow := hinv.core.grow
  refine ⟨st.out, st.totalWeight, by simp [Prim, hrun], mingrow_split _ s _ hgrow, ?_,
    hinv.core.total, ?_⟩
  · intro t ht hts
    have hnd := mingrow_nodup _ s _ hgrow
    unfold treeVerts at hnd
    rw [List.nodup_cons] at hnd
    apply hnd.1
    rw [← hts]
    exact List.mem_map.2 ⟨t, ht, rfl⟩
  · intro hsmall
    rw [hinv.core.total]
    apply wrap32_of_range
    · have := treeWeight_nonneg _ hw0 st.out (mingrow_edges _ s _ hgrow)
      omega
    · exact hsmall

theorem prim_greedy_step_witness :
    (∀ e ∈ [((0 : Nat), (1 : Nat), (5 : Int)), (1, 2, 3), (0, 2, 4)], 0 ≤ e.2.2 ∧ e.2.2 < INF) ∧
    ∃ N, ∀ fuel, N ≤ fuel → ∃ T total,
      Prim (Graph.build 3 ["A", "B", "C"] [(0, 1, 5), (1, 2, 3), (0, 2, 4)]) 0 fuel
        = some (T, total) ∧
      (∀ (T1 : List (Nat × Nat × Int)) (p x : Nat) (k : Int) (T2 : List (Nat × Nat × Int)),
        T = T1 ++ (p, x, k) :: T2 →
        p ∈ treeVerts 0 T1 ∧ x ∉ treeVerts 0 T1 ∧
        (⟨x, k⟩ : Edge) ∈
          (Graph.build 3 ["A", "B", "C"] [(0, 1, 5), (1, 2, 3), (0, 2, 4)]).nbrs p ∧
        ∀ t e, t ∈ treeVerts 0 T1 →
          e ∈ (Graph.build 3 ["A", "B", "C"] [(0, 1, 5), (1, 2, 3), (0, 2, 4)]).nbrs t →
          e.dst ∉ treeVerts 0 T1 → k ≤ e.weight) ∧
      (∀ t, t ∈ T → t.2.1 ≠ 0) ∧
      total = wrap32 (treeWeight T) ∧
      (treeWeight T < 2147483648 → total = treeWeight T) :=
  ⟨by decide, prim_greedy_step 3 ["A", "B", "C"] [(0, 1, 5), (1, 2, 3), (0, 2, 4)]
    (by unfold ValidEdges; decide) (by decide) 0 (by decide)⟩

/-- C30, counterexample. On the path A-B-C-D with three edges of weight `999999999`
(all in `[0, 10^9)`), `Prim` from A prints three edges with keys `999999999` each,
whose sum is `2999999997`, and reports the total `-1294967299`. -/
theorem prim_greedy_step_counterexample :
    (∀ e ∈ [((0 : Nat), (1 : Nat), (999999999 : Int)), (1, 2, 999999999), (2, 3, 999999999)],
      0 ≤ e.2.2 ∧ e.2.2 < INF) ∧
    (Prim (Graph.build 4 ["A", "B", "C", "D"]
        [(0, 1, 999999999), (1, 2, 999999999), (2, 3, 999999999)]) 0 10).map
      (fun r => (r.1.map (fun t => t.2.2), (r.1.map (fun t => t.2.2)).sum, r.2))
      = some ([999999999, 999999999, 999999999], 2999999997, -1294967299) := by
  decide

/-! ## A heavier parallel edge -/

theorem walkWeight_cons (e : Edge) (p : List Edge) :
    walkWeight (e :: p) = e.weight + walkWeight p := by
  simp [walkWeight]

theorem walk_into_parallel (g : Graph) (a b : Nat) (w1 : Int) (ha : a < g.adj.length)
    (hb : b < g.adj.length) :
    ∀ (p : List Edge) (u x : Nat), g.IsWalk u p x → (g.addEdge a b w1).IsWalk u p x := by
  intro p
  induction p with
  | nil => intro u x h; exact h
  | cons e p ih =>
    intro u x h
    refine ⟨?_, ih e.dst x h.2⟩
    rw [addEdge_nbrs g a b w1 ha hb u]
    exact List.mem_append_left _ (List.mem_append_left _ h.1)

/-- A walk that uses the heavier parallel edge can take the lighter one instead. -/
theorem walk_from_parallel (g : Graph) (a b : Nat) (w w1 : Int) (ha : a < g.adj.length)
    (hb : b < g.adj.length) (hab : (⟨b, w⟩ : Edge) ∈ g.nbrs a)
    (hba : (⟨a, w⟩ : Edge) ∈ g.nbrs b) (hww : w ≤ w1) :
    ∀ (p1 : List Edge) (u x : Nat), (g.addEdge a b w1).IsWalk u p1 x →
      ∃ p, g.IsWalk u p x ∧ walkWeight p ≤ walkWeight p1 := by
  intro p1
  induction p1 with
  | nil => intro u x h; exact ⟨[], h, le_refl _⟩
  | cons e p1 ih =>
    intro u x h
    obtain ⟨p, hp, hle⟩ := ih e.dst x h.2
    have he := h.1
    rw [addEdge_nbrs g a b w1 ha hb u] at he
    rcases List.mem_append.1 he with h1 | h2
    · rcases List.mem_append.1 h1 with h3 | h4
      · refine ⟨e :: p, ⟨h3, hp⟩, ?_⟩
        rw [walkWeight_cons, walkWeight_cons]
        omega
      · by_cases hua : u = a
        · rw [if_pos hua, List.mem_singleton] at h4
          rw [h4] at hp ⊢
          refine ⟨⟨b, w⟩ :: p, ⟨by rw [hua]; exact hab, hp⟩, ?_⟩
          rw [walkWeight_cons, walkWeight_cons]
          show w + walkWeight p ≤ w1 + walkWeight p1
          omega
        · rw [if_neg hua] at h4
          cases h4
    · by_cases hub : u = b
      · rw [if_pos hub, List.mem_singleton] at h2
        rw [h2] at hp ⊢
        refine ⟨⟨a, w⟩ :: p, ⟨by rw [hub]; exact hba, hp⟩, ?_⟩
        rw [walkWeight_cons, walkWeight_cons]
        show w + walkWeight p ≤ w1 + walkWeight p1
        omega
      · rw [if_neg hub] at h2
        cases h2

/-- Two graphs on the same vertices in which every walk of one has a walk of the
other between the same ends that weighs no more get the same `dist` from
`Dijkstra`. -/
theorem dijkstra_same_dist (g g1 : Graph) (s : Nat) (hwf : g.WF) (hwf1 : g1.WF)
    (hV : g1.V = g.V) (hs : s < g.V)
    (hw : ∀ u e, e ∈ g.nbrs u → 0 ≤ e.weight) (hw1 : ∀ u e, e ∈ g1.nbrs u → 0 ≤ e.weight)
    (hsub : ∀ p x, g.IsWalk s p x → ∃ q, g1.IsWalk s q x ∧ walkWeight q ≤ walkWeight p)
    (hback : ∀ p x, g1.IsWalk s p x → ∃ q, g.IsWalk s q x ∧ walkWeight q ≤ walkWeight p)
    (st st1 : DState) (h : DInv g s st) (hq : st.pq = []) (h1 : DInv g1 s st1)
    (hq1 : st1.pq = []) : st1.dist = st.dist := by
  have hlen : st1.dist.length = st.dist.length := by rw [h1.core.dlen, h.core.dlen, hV]
  apply List.ext_getElem hlen
  intro x hx1 hx
  rw [← List.getD_eq_getElem st1.dist 0 hx1, ← List.getD_eq_getElem st.dist 0 hx]
  have hxV : x < g.V := by rw [← h.core.dlen]; exact hx
  have hxV1 : x < g1.V := by rw [hV]; exact hxV
  have hb := (h.core.bounds x hxV).2
  have hb1 := (h1.core.bounds x hxV1).2
  have low := fun p hp => dijkstra_final_lower g s hwf hw hs st h hq p x hp
  have low1 := fun p hp => dijkstra_final_lower g1 s hwf1 hw1 (by rw [hV]; exact hs) st1 h1 hq1
    p x hp
  have up : st.dist.getD x 0 < INF → st1.dist.getD x 0 ≤ st.dist.getD x 0 := by
    intro hfin
    obtain ⟨p, hp, hpw⟩ := h.core.sound x hxV hfin
    obtain ⟨q, hq2, hqw⟩ := hsub p x hp
    have := low1 q hq2
    omega
  have up1 : st1.dist.getD x 0 < INF → st.dist.getD x 0 ≤ st1.dist.getD x 0 := by
    intro hfin
    obtain ⟨p, hp, hpw⟩ := h1.core.sound x hxV1 hfin
    obtain ⟨q, hq2, hqw⟩ := hback p x hp
    have := low q hq2
    omega
  by_cases hfin : st.dist.getD x 0 < INF
  · have h2 := up hfin
    have h3 := up1 (lt_of_le_of_lt h2 hfin)
    omega
  · by_cases hfin1 : st1.dist.getD x 0 < INF
    · have := up1 hfin1
      omega
    · omega

theorem primRelax_inMST (u : Nat) (st : PState) (e : Edge) :
    (primRelax u st e).inMST = st.inMST := by
  unfold primRelax
  split <;> rfl

theorem primRelax_klen (u : Nat) (st : PState) (e : Edge) :
    (primRelax u st e).key.length = st.key.length := by
  unfold primRelax
  split
  · show (st.key.set e.dst e.weight).length = _
    rw [List.length_set]
  · rfl

theorem primRelax_fold_klen (u : Nat) (l : List Edge) :
    ∀ st : PState, (l.foldl (primRelax u) st).key.length = st.key.length := by
  induction l with
  | nil => intro st; rfl
  | cons e l ih =>
    intro st
    rw [List.foldl_cons, ih, primRelax_klen]

theorem primTake_key (u : Nat) (st : PState) : (primTake u st).key = st.key := by
  unfold primTake
  dsimp only
  split <;> rfl

/-- Once `x` is in the tree or has a key of at most `c`, one more relaxation keeps
it so. -/
theorem primRelax_keep (u : Nat) (st : PState) (e : Edge) (x : Nat) (c : Int)
    (h : st.inMST.getD x false = true ∨ st.key.getD x 0 ≤ c) :
    (primRelax u st e).inMST.getD x false = true ∨ (primRelax u st e).key.getD x 0 ≤ c := by
  rw [primRelax_inMST]
  rcases h with h1 | h2
  · exact Or.inl h1
  · right
    unfold primRelax
    by_cases hc : ((!st.inMST.getD e.dst false) && decide (e.weight < st.key.getD e.dst 0)) = true
    · rw [if_pos hc]
      simp only [Bool.and_eq_true, Bool.not_eq_true', decide_eq_true_eq] at hc
      show (st.key.set e.dst e.weight).getD x 0 ≤ c
      by_cases hx : e.dst = x
      · by_cases hlt : e.dst < st.key.length
        · rw [← hx, getD_set_eq _ _ _ _ hlt]
          rw [← hx] at h2
          omega
        · rw [List.set_eq_of_length_le (Nat.le_of_not_lt hlt)]
          exact h2
      · rw [getD_set_ne _ _ _ _ _ hx]
        exact h2
    · rw [if_neg hc]
      exact h2

theorem primRelax_self (u : Nat) (st : PState) (e : Edge) (hlt : e.dst < st.key.length) :
    (primRelax u st e).inMST.getD e.dst false = true ∨
      (primRelax u st e).key.getD e.dst 0 ≤ e.weight := by
  rw [primRelax_inMST]
  unfold primRelax
  by_cases hc : ((!st.inMST.getD e.dst false) && decide (e.weight < st.key.getD e.dst 0)) = true
  · rw [if_pos hc]
    right
    show (st.key.set e.dst e.weight).getD e.dst 0 ≤ e.weight
    rw [getD_set_eq _ _ _ _ hlt]
  · rw [if_neg hc]
    simp only [Bool.and_eq_true, Bool.not_eq_true', decide_eq_true_eq, not_and, not_lt] at hc
    cases hm : st.inMST.getD e.dst false with
    | true => exact Or.inl rfl
    | false => exact Or.inr (hc hm)

theorem primRelax_fold_keep (u : Nat) (x : Nat) (c : Int) (l : List Edge) :
    ∀ st : PState, (st.inMST.getD x false = true ∨ st.key.getD x 0 ≤ c) →
      ((l.foldl (primRelax u) st).inMST.getD x false = true ∨
        (l.foldl (primRelax u) st).key.getD x 0 ≤ c) := by
  induction l with
  | nil => intro st h; exact h
  | cons e l ih =>
    intro st h
    rw [List.foldl_cons]
    exact ih _ (primRelax_keep u st e x c h)

/-- After the relaxation loop over a list that holds `e`, the target of `e` is in
the tree or has a key of at most the weight of `e`. -/
theorem primRelax_fold_le (u : Nat) (l : List Edge) :
    ∀ (st : PState) (e : Edge), e ∈ l → e.dst < st.key.length →
      ((l.foldl (primRelax u) st).inMST.getD e.dst false = true ∨
        (l.foldl (primRelax u) st).key.getD e.dst 0 ≤ e.weight) := by
  induction l with
  | nil => intro st e he; cases he
  | cons a l ih =>
    intro st e he hlt
    rw [List.foldl_cons]
    rcases List.mem_cons.1 he with heq | hin
    · rw [heq]
      rw [heq] at hlt
      exact primRelax_fold_keep u a.dst a.weight l _ (primRelax_self u st a hlt)
    · exact ih _ e hin (by rw [primRelax_klen]; exact hlt)

theorem primRelax_noop (u : Nat) (st : PState) (x : Nat) (w w1 : Int) (hww : w ≤ w1)
    (h : st.inMST.getD x false = true ∨ st.key.getD x 0 ≤ w) :
    primRelax u st ⟨x, w1⟩ = st := by
  unfold primRelax
  have hc : ¬ (((!st.inMST.getD x false) && decide (w1 < st.key.getD x 0)) = true) := by
    simp only [Bool.and_eq_true, Bool.not_eq_true', decide_eq_true_eq, not_and, not_lt]
    intro hm
    rcases h with h1 | h2
    · rw [hm] at h1
      cases h1
    · omega
  rw [if_neg hc]

/-- The relaxation loop of `Prim` over `adj[u]` does the same with and without a
parallel edge `a`-`b` that is no lighter than an edge `a`-`b` already there. -/
theorem prim_fold_parallel (g : Graph) (hwf : g.WF) (a b : Nat) (w w1 : Int)
    (hab : (⟨b, w⟩ : Edge) ∈ g.nbrs a) (hba : (⟨a, w⟩ : Edge) ∈ g.nbrs b) (hww : w ≤ w1)
    (ha : a < g.V) (hb : b < g.V) (u : Nat) (st : PState) (hk : st.key.length = g.V) :
    ((g.addEdge a b w1).nbrs u).foldl (primRelax u) st = (g.nbrs u).foldl (primRelax u) st := by
  rw [addEdge_nbrs g a b w1 (by rw [hwf.len]; exact ha) (by rw [hwf.len]; exact hb) u,
    List.foldl_append, List.foldl_append]
  have e1 : (if u = a then [(⟨b, w1⟩ : Edge)] else []).foldl (primRelax u)
      ((g.nbrs u).foldl (primRelax u) st) = (g.nbrs u).foldl (primRelax u) st := by
    by_cases hua : u = a
    · rw [if_pos hua, List.foldl_cons, List.foldl_nil]
      apply primRelax_noop u _ b w w1 hww
      have := primRelax_fold_le u (g.nbrs u) st ⟨b, w⟩ (by rw [hua]; exact hab)
        (by rw [hk]; exact hb)
      exact this
    · rw [if_neg hua]
      rfl
  rw [e1]
  by_cases hub : u = b
  · rw [if_pos hub, List.foldl_cons, List.foldl_nil]
    apply primRelax_noop u _ a w w1 hww
    have := primRelax_fold_le u (g.nbrs u) st ⟨a, w⟩ (by rw [hub]; exact hba)
      (by rw [hk]; exact ha)
    exact this
  · rw [if_neg hub]
    rfl

theorem primLoop_parallel (g : Graph) (hwf : g.WF) (a b : Nat) (w w1 : Int)
    (hab : (⟨b, w⟩ : Edge) ∈ g.nbrs a) (hba : (⟨a, w⟩ : Edge) ∈ g.nbrs b) (hww : w ≤ w1)
    (ha : a < g.V) (hb : b < g.V) :
    ∀ (fuel : Nat) (st : PState), st.key.length = g.V →
      primLoop (g.addEdge a b w1) fuel st = primLoop g fuel st := by
  intro fuel
  induction fuel with
  | zero =>
    intro st _
    unfold primLoop
    cases pqTop st.pq <;> rfl
  | succ fuel ih =>
    intro st hk
    unfold primLoop
    cases pqTop st.pq with
    | none => rfl
    | some m =>
      obtain ⟨d, u⟩ := m
      simp only
      by_cases hin : st.inMST.getD u false = true
      · rw [if_pos hin, if_pos hin]
        exact ih _ hk
      · rw [if_neg hin, if_neg hin]
        have hk1 : (primTake u { st with pq := st.pq.erase (d, u) }).key.length = g.V := by
          rw [primTake_key]
          exact hk
        rw [prim_fold_parallel g hwf a b w w1 hab hba hww ha hb u _ hk1]
        apply ih
        rw [primRelax_fold_klen]
        exact hk1

/-- C26, as the code has it. A heavier parallel edge. Take a graph built by `addEdge`
from valid edges that holds an edge `a`-`b` of weight `w`, and add a parallel edge
`a`-`b` of weight `w1 ≥ w`. If all weights of the graph lie in `[0, INF]` and
`w1 ≤ INF`, `Dijkstra` from any start returns the same distances before and after.
Whatever the weights are, `Prim` from any start does the same at every fuel before
and after, and it returns: the same printed edges and the same total. -/
theorem parallel_heavier_edge (v : Nat) (labels : List String) (es : List (Nat × Nat × Int))
    (hv : ValidEdges v es) (a b : Nat) (w w1 : Int)
    (hab : (⟨b, w⟩ : Edge) ∈ (Graph.build v labels es).nbrs a) (hww : w ≤ w1)
    (s : Nat) (hs : s < v) :
    ((∀ e ∈ es, 0 ≤ e.2.2 ∧ e.2.2 ≤ INF) → w1 ≤ INF →
      ∃ N, ∀ fuel, N ≤ fuel → ∃ dist par par1,
        Dijkstra (Graph.build v labels es) s fuel = some (dist, par) ∧
        Dijkstra ((Graph.build v labels es).addEdge a b w1) s fuel = some (dist, par1)) ∧
    (∀ fuel, Prim ((Graph.build v labels es).addEdge a b w1) s fuel
      = Prim (Graph.build v labels es) s fuel) ∧
    (∃ N, ∀ fuel, N ≤ fuel → ∃ T total,
      Prim (Graph.build v labels es) s fuel = some (T, total) ∧
      Prim ((Graph.build v labels es).addEdge a b w1) s fuel = some (T, total)) := by
  have hwf := build_wf v labels es hv
  have hV := build_V v labels es
  have hsV : s < (Graph.build v labels es).V := by rw [hV]; exact hs
  obtain ⟨haV, hbV⟩ := joined_lt _ hwf a b ⟨⟨b, w⟩, hab, rfl⟩
  have hba : (⟨a, w⟩ : Edge) ∈ (Graph.build v labels es).nbrs b :=
    build_symm v labels es hv a b w hab
  have hv1 : ValidEdges v (es ++ [(a, b, w1)]) := by
    intro e he
    rcases List.mem_append.1 he with h1 | h2
    · exact hv e h1
    · rw [List.mem_singleton] at h2
      rw [h2]
      rw [hV] at haV hbV
      exact ⟨haV, hbV⟩
  have hg1 : Graph.build v labels (es ++ [(a, b, w1)])
      = (Graph.build v labels es).addEdge a b w1 := build_snoc v labels es (a, b, w1)
  have hwf1 : ((Graph.build v labels es).addEdge a b w1).WF := by
    rw [← hg1]
    exact build_wf v labels _ hv1
  have hV1 : ((Graph.build v labels es).addEdge a b w1).V = (Graph.build v labels es).V := rfl
  have haL : a < (Graph.build v labels es).adj.length := by rw [hwf.len]; exact haV
  have hbL : b < (Graph.build v labels es).adj.length := by rw [hwf.len]; exact hbV
  have hprim : ∀ fuel, Prim ((Graph.build v labels es).addEdge a b w1) s fuel
      = Prim (Graph.build v labels es) s fuel := by
    intro fuel
    unfold Prim
    have hi : primInit ((Graph.build v labels es).addEdge a b w1) s
        = primInit (Graph.build v labels es) s := rfl
    rw [hi, primLoop_parallel _ hwf a b w w1 hab hba hww haV hbV fuel _
      (by show ((List.replicate (Graph.build v labels es).V INF).set s 0).length = _
          rw [List.length_set, List.length_replicate])]
  refine ⟨?_, hprim, ?_⟩
  · intro hw hw1
    have hwi := build_weightsIn v labels es hv 0 INF hw
    have hw0 : 0 ≤ w := (hwi a ⟨b, w⟩ hab).1
    have hwi1 : ((Graph.build v labels es).addEdge a b w1).WeightsIn 0 INF := by
      rw [← hg1]
      apply build_weightsIn v labels _ hv1 0 INF
      intro e he
      rcases List.mem_append.1 he with h1 | h2
      · exact hw e h1
      · rw [List.mem_singleton] at h2
        rw [h2]
        exact ⟨le_trans hw0 hww, hw1⟩
    obtain ⟨N, hN⟩ := dijkstra_runs _ s hwf hwi hsV
    obtain ⟨N1, hN1⟩ := dijkstra_runs _ s hwf1 hwi1 (by rw [hV1]; exact hsV)
    refine ⟨max N N1, ?_⟩
    intro fuel hf
    obtain ⟨st, hrun, hinv, hq⟩ := hN fuel (le_trans (le_max_left _ _) hf)
    obtain ⟨st1, hrun1, hinv1, hq1⟩ := hN1 fuel (le_trans (le_max_right _ _) hf)
    have hd := dijkstra_same_dist _ _ s hwf hwf1 hV1 hsV (fun u e he => (hwi u e he).1)
      (fun u e he => (hwi1 u e he).1)
      (fun p x hp => ⟨p, walk_into_parallel _ a b w1 haL hbL p s x hp, le_refl _⟩)
      (fun p x hp => walk_from_parallel _ a b w w1 haL hbL hab hba hww p s x hp)
      st st1 hinv hq hinv1 hq1
    refine ⟨st.dist, st.parent, st1.parent, ?_, ?_⟩
    · unfold Dijkstra
      rw [hrun]
      rfl
    · unfold Dijkstra
      rw [hrun1, ← hd]
      rfl
  · obtain ⟨N, hN⟩ := prim_total _ s hwf
    refine ⟨N, ?_⟩
    intro fuel hf
    obtain ⟨r, hp⟩ := hN fuel hf
    exact ⟨r.1, r.2, hp, by rw [hprim]; exact hp⟩

theorem parallel_heavier_edge_witness :
    (⟨2, 3⟩ : Edge) ∈ (Graph.build 3 ["A", "B", "C"] [(0, 1, -2), (1, 2, 3)]).nbrs 1 ∧
    (3 : Int) ≤ 7 ∧
    (∀ fuel, Prim ((Graph.build 3 ["A", "B", "C"] [(0, 1, -2), (1, 2, 3)]).addEdge 1 2 7) 0 fuel
      = Prim (Graph.build 3 ["A", "B", "C"] [(0, 1, -2), (1, 2, 3)]) 0 fuel) ∧
    (∃ N, ∀ fuel, N ≤ fuel → ∃ T total,
      Prim (Graph.build 3 ["A", "B", "C"] [(0, 1, -2), (1, 2, 3)]) 0 fuel = some (T, total) ∧
      Prim ((Graph.build 3 ["A", "B", "C"] [(0, 1, -2), (1, 2, 3)]).addEdge 1 2 7) 0 fuel
        = some (T, total)) ∧
    (∀ e ∈ [((0 : Nat), (1 : Nat), (2 : Int)), (1, 2, 3)], 0 ≤ e.2.2 ∧ e.2.2 ≤ INF) ∧
    (7 : Int) ≤ INF ∧
    (∃ N, ∀ fuel, N ≤ fuel → ∃ dist par par1,
      Dijkstra (Graph.build 3 ["A", "B", "C"] [(0, 1, 2), (1, 2, 3)]) 0 fuel
        = some (dist, par) ∧
      Dijkstra ((Graph.build 3 ["A", "B", "C"] [(0, 1, 2), (1, 2, 3)]).addEdge 1 2 7) 0 fuel
        = some (dist, par1)) :=
  ⟨by decide, by decide,
    (parallel_heavier_edge 3 ["A", "B", "C"] [(0, 1, -2), (1, 2, 3)]
      (by unfold ValidEdges; decide) 1 2 3 7 (by decide) (by decide) 0 (by decide)).2.1,
    (parallel_heavier_edge 3 ["A", "B", "C"] [(0, 1, -2), (1, 2, 3)]
      (by unfold ValidEdges; decide) 1 2 3 7 (by decide) (by decide) 0 (by decide)).2.2,
    by decide, by decide,
    (parallel_heavier_edge 3 ["A", "B", "C"] [(0, 1, 2), (1, 2, 3)]
      (by unfold ValidEdges; decide) 1 2 3 7 (by decide) (by decide) 0 (by decide)).1
      (by decide) (by decide)⟩

/-- C26, counterexample. The graph with the single edge A-B of weight `1` has
non-negative weights; `Dijkstra` from A gives `dist = [0, 1]`. After the parallel
edge A-B of weight `2147483647` is added, the sum `dist[B] + 2147483647` leaves the
32-bit range and `Dijkstra` from A gives `dist = [-2147483648, -2147483647]`. -/
theorem parallel_heavier_edge_counterexample :
    (⟨1, 1⟩ : Edge) ∈ (Graph.build 2 ["A", "B"] [(0, 1, 1)]).nbrs 0 ∧
    (1 : Int) ≤ 2147483647 ∧
    (Dijkstra (Graph.build 2 ["A", "B"] [(0, 1, 1)]) 0 10).map (fun r => r.1) = some [0, 1] ∧
    (Dijkstra ((Graph.build 2 ["A", "B"] [(0, 1, 1)]).addEdge 0 1 2147483647) 0 10).map
      (fun r => r.1) = some [-2147483648, -2147483647] := by
  decide

/-! ## The adjacency matrix -/

theorem matrixScan_eq (j : Nat) (l : List Edge) (w : Int) :
    matrixScan j l w
      = (((l.filter (fun e => decide (e.dst = j))).map (fun e => e.weight)).head?).getD w := by
  induction l with
  | nil => rfl
  | cons e rest ih =>
    by_cases h : e.dst = j
    · have hf : (e :: rest).filter (fun e => decide (e.dst = j))
          = e :: rest.filter (fun e => decide (e.dst = j)) :=
        List.filter_cons_of_pos (by simp [h])
      rw [matrixScan, if_pos h, hf]
      rfl
    · have hf : (e :: rest).filter (fun e => decide (e.dst = j))
          = rest.filter (fun e => decide (e.dst = j)) :=
        List.filter_cons_of_neg (by simp [h])
      rw [matrixScan, if_neg h, hf]
      exact ih

theorem weightsTo_addEdge (g : Graph) (a b : Nat) (w : Int) (ha : a < g.adj.length)
    (hb : b < g.adj.length) (i j : Nat) :
    weightsTo (g.addEdge a b w) i j
      = weightsTo g i j ++ (if i = a ∧ b = j then [w] else []) ++
          (if i = b ∧ a = j then [w] else []) := by
  unfold weightsTo
  rw [addEdge_nbrs g a b w ha hb i, List.filter_append, List.filter_append, List.map_append,
    List.map_append]
  congr 1
  · congr 1
    by_cases hia : i = a
    · by_cases hbj : b = j
      · simp [hia, hbj]
      · simp [hia, hbj]
    · simp [hia]
  · by_cases hib : i = b
    · by_cases haj : a = j
      · simp [hib, haj]
      · simp [hib, haj]
    · simp [hib]

/-- In a graph built by `addEdge`, the entries of `adj[i]` that lead to `j ≠ i` and
the entries of `adj[j]` that lead to `i` carry the same weights in the same order. -/
theorem build_weightsTo (v : Nat) (labels : List String) (es : List (Nat × Nat × Int))
    (hv : ValidEdges v es) (i j : Nat) (hij : i ≠ j) :
    weightsTo (Graph.build v labels es) i j = weightsTo (Graph.build v labels es) j i := by
  induction es using List.reverseRecOn with
  | nil =>
    have hn : ∀ x y, weightsTo (Graph.build v labels []) x y = [] := by
      intro x y
      have : (Graph.build v labels []).nbrs x = [] := by
        simp only [Graph.build, Graph.new, Graph.nbrs, List.foldl_nil,
          List.getD_eq_getElem?_getD, List.getElem?_replicate]
        split <;> rfl
      unfold weightsTo
      rw [this]
      rfl
    rw [hn, hn]
  | append_singleton es t ih =>
    obtain ⟨hv1, ha, hb⟩ := validEdges_snoc hv
    have hal : t.1 < (Graph.build v labels es).adj.length := by rw [build_len]; exact ha
    have hbl : t.2.1 < (Graph.build v labels es).adj.length := by rw [build_len]; exact hb
    rw [build_snoc, weightsTo_addEdge _ _ _ _ hal hbl i j,
      weightsTo_addEdge _ _ _ _ hal hbl j i, ih hv1]
    by_cases h1 : i = t.1 ∧ t.2.1 = j
    · have h2 : ¬ (i = t.2.1 ∧ t.1 = j) := by
        rintro ⟨h3, _⟩
        exact hij (h3.trans h1.2)
      have h3 : ¬ (j = t.1 ∧ t.2.1 = i) := by
        rintro ⟨h4, _⟩
        exact hij (h1.1.trans h4.symm)
      have h4 : j = t.2.1 ∧ t.1 = i := ⟨h1.2.symm, h1.1.symm⟩
      rw [if_pos h1, if_neg h2, if_neg h3, if_pos h4]
      simp
    · rw [if_neg h1]
      have h4 : ¬ (j = t.2.1 ∧ t.1 = i) := fun h => h1 ⟨h.2.symm, h.1.symm⟩
      rw [if_neg h4]
      by_cases h2 : i = t.2.1 ∧ t.1 = j
      · have h3 : j = t.1 ∧ t.2.1 = i := ⟨h2.2.symm, h2.1.symm⟩
        rw [if_pos h2, if_pos h3]
        simp
      · have h3 : ¬ (j = t.1 ∧ t.2.1 = i) := fun h => h2 ⟨h.2.symm, h.1.symm⟩
        rw [if_neg h2, if_neg h3]

theorem matrixEntry_symm (v : Nat) (labels : List String) (es : List (Nat × Nat × Int))
    (hv : ValidEdges v es) (i j : Nat) :
    matrixEntry (Graph.build v labels es) i j = matrixEntry (Graph.build v labels es) j i := by
  unfold matrixEntry
  by_cases hij : i = j
  · rw [hij]
  · have hji : ¬ j = i := fun h => hij h.symm
    rw [if_neg hij, if_neg hji, matrixScan_eq, matrixScan_eq]
    have := build_weightsTo v labels es hv i j hij
    unfold weightsTo at this
    rw [this]

theorem getD_map_range {α : Type} (n : Nat) (f : Nat → α) (d : α) (i : Nat) (hi : i < n) :
    ((List.range n).map f).getD i d = f i := by
  simp [List.getD_eq_getElem?_getD, List.getElem?_map, List.getElem?_range hi]

/-- C34. The adjacency matrix is symmetric. For a graph built by `addEdge` from
valid edges (parallel edges and self-loops allowed) and all indices `i`, `j`: the
value `printAdjacencyMatrix` computes for row `i`, column `j` (`0` for `i = j`,
else the weight of the first entry for `j` in `adj[i]`, else `INF`) is the value it
computes for row `j`, column `i`, and the cells printed at the two places agree. -/
theorem adjacency_matrix_symmetric (v : Nat) (labels : List String)
    (es : List (Nat × Nat × Int)) (hv : ValidEdges v es) (i j : Nat) :
    matrixEntry (Graph.build v labels es) i j = matrixEntry (Graph.build v labels es) j i ∧
    matrixCell (Graph.build v labels es) i j = matrixCell (Graph.build v labels es) j i ∧
    (i < v → j < v →
      ((printAdjacencyMatrix (Graph.build v labels es)).getD i []).getD j none
        = ((printAdjacencyMatrix (Graph.build v labels es)).getD j []).getD i none) := by
  have h1 := matrixEntry_symm v labels es hv i j
  have h2 : matrixCell (Graph.build v labels es) i j
      = matrixCell (Graph.build v labels es) j i := by
    unfold matrixCell
    rw [h1]
  refine ⟨h1, h2, ?_⟩
  intro hi hj
  unfold printAdjacencyMatrix
  rw [build_V, getD_map_range v _ [] i hi, getD_map_range v _ [] j hj,
    getD_map_range v _ none j hj, getD_map_range v _ none i hi]
  exact h2

theorem adjacency_matrix_symmetric_witness :
    matrixEntry (Graph.build 3 ["A", "B", "C"] [(0, 1, 5), (1, 0, 2), (2, 2, 9), (1, 2, 4)]) 0 1
      = matrixEntry (Graph.build 3 ["A", "B", "C"] [(0, 1, 5), (1, 0, 2), (2, 2, 9), (1, 2, 4)])
          1 0 ∧
    matrixCell (Graph.build 3 ["A", "B", "C"] [(0, 1, 5), (1, 0, 2), (2, 2, 9), (1, 2, 4)]) 0 1
      = matrixCell (Graph.build 3 ["A", "B", "C"] [(0, 1, 5), (1, 0, 2), (2, 2, 9), (1, 2, 4)])
          1 0 ∧
    (0 < 3 → 1 < 3 →
      ((printAdjacencyMatrix (Graph.build 3 ["A", "B", "C"]
          [(0, 1, 5), (1, 0, 2), (2, 2, 9), (1, 2, 4)])).getD 0 []).getD 1 none
        = ((printAdjacencyMatrix (Graph.build 3 ["A", "B", "C"]
          [(0, 1, 5), (1, 0, 2), (2, 2, 9), (1, 2, 4)])).getD 1 []).getD 0 none) :=
  adjacency_matrix_symmetric 3 ["A", "B", "C"] [(0, 1, 5), (1, 0, 2), (2, 2, 9), (1, 2, 4)]
    (by unfold ValidEdges; decide) 0 1

/-! ## Termination of `DFS` and of the path reconstruction -/

/-- C31. DFS terminates. For a graph built by `addEdge` from valid edges (parallel
edges and self-loops allowed) and every start `s`, there is a number `N` of pops
after which the stack of `DFS` is empty: with fuel `N` or more the loop returns its
output. Already-visited vertices are popped on the way: on graph 1 of `main`, which
has 8 vertices, the loop from `A` is not through after 14 pops and is after 15. -/
theorem dfs_terminates (v : Nat) (labels : List String) (es : List (Nat × Nat × Int))
    (hv : ValidEdges v es) (s : Nat) (hs : s < v) :
    (∃ N out, ∀ fuel, N ≤ fuel → DFS (Graph.build v labels es) s fuel = some out) ∧
    DFS graph1 0 14 = none ∧ DFS graph1 0 15 = some [0, 1, 2, 4, 3, 6, 5, 7] := by
  refine ⟨?_, by decide, by decide⟩
  have hwf := build_wf v labels es hv
  have hV := build_V v labels es
  obtain ⟨st1, N, _, _, hdfs, _⟩ := dfs_runs _ hwf s (by rw [hV]; exact hs)
  exact ⟨N, st1.out, hdfs⟩

theorem dfs_terminates_witness :
    (∃ N out, ∀ fuel, N ≤ fuel →
      DFS (Graph.build 3 ["A", "B", "C"] [(0, 1, 1), (0, 1, 2), (1, 1, 3), (1, 2, 1), (2, 0, 1)])
        0 fuel = some out) ∧
    DFS graph1 0 14 = none ∧ DFS graph1 0 15 = some [0, 1, 2, 4, 3, 6, 5, 7] :=
  dfs_terminates 3 ["A", "B", "C"] [(0, 1, 1), (0, 1, 2), (1, 1, 3), (1, 2, 1), (2, 0, 1)]
    (by unfold ValidEdges; decide) 0 (by decide)

theorem pchain_count (parent : List Int) (s x : Nat) (h : PChain parent s x) :
    ∃ n, PChainN parent s x n := by
  induction h with
  | root => exact ⟨0, PChainN.root⟩
  | @step x p hxs hxl hp _ ih =>
    obtain ⟨n, hn⟩ := ih
    exact ⟨n + 1, PChainN.step hxs hxl hp hn⟩

theorem pchainN_unique (parent : List Int) (s x n : Nat) (h : PChainN parent s x n) :
    ∀ m, PChainN parent s x m → n = m := by
  induction h with
  | root =>
    intro m hm
    cases hm with
    | root => rfl
    | step hxs _ _ _ => exact absurd rfl hxs
  | @step x p n hxs _ hp _ ih =>
    intro m hm
    cases hm with
    | root => exact absurd rfl hxs
    | @step _ p1 n1 _ _ hp1 hc1 =>
      have hpp : p1 = p := by
        have : (p1 : Int) = (p : Int) := by rw [← hp1, ← hp]
        exact_mod_cast this
      rw [hpp] at hc1
      rw [ih n1 hc1]

theorem pchainN_lt (parent : List Int) (s x n : Nat) (hs : s < parent.length)
    (h : PChainN parent s x n) : x < parent.length := by
  cases h with
  | root => exact hs
  | step _ hxl _ _ => exact hxl

theorem pchainN_zero (parent : List Int) (s x : Nat) (h : PChainN parent s x 0) : x = s := by
  cases h
  rfl

/-- From a vertex `n` parent steps away from `s` the recursion of `printPath` makes
`n + 1` calls with a vertex and returns; the vertex it prints at place `i` is `i`
parent steps away from `s`. -/
theorem printPath_chainN (parent : List Int) (s : Nat) (hps : parent.getD s 0 = -1)
    (x n : Nat) (h : PChainN parent s x n) :
    ∃ l, l.length = n ∧ printPath parent (n + 1) (x : Int) = some (l ++ [x]) ∧
      ∀ i y, (l ++ [x])[i]? = some y → PChainN parent s y i := by
  induction h with
  | root =>
    refine ⟨[], rfl, ?_, ?_⟩
    · unfold printPath
      have h1 : ¬ ((s : Int) = -1) := by omega
      rw [if_neg h1]
      simp only [Int.toNat_ofNat, hps]
      unfold printPath
      simp
    · intro i y hy
      cases i with
      | zero =>
        simp only [List.nil_append, List.getElem?_cons_zero, Option.some.injEq] at hy
        rw [← hy]
        exact PChainN.root
      | succ i => simp at hy
  | @step x p n hxs hxl hp hc ih =>
    obtain ⟨l, hlen, hrun, hel⟩ := ih
    refine ⟨l ++ [p], by rw [List.length_append, hlen]; rfl, ?_, ?_⟩
    · rw [printPath]
      have h1 : ¬ ((x : Int) = -1) := by omega
      rw [if_neg h1]
      simp only [Int.toNat_ofNat, hp]
      rw [hrun]
    · intro i y hy
      by_cases hi : i < (l ++ [p]).length
      · rw [List.getElem?_append_left hi] at hy
        exact hel i y hy
      · have hle : (l ++ [p]).length ≤ i := Nat.le_of_not_lt hi
        rw [List.getElem?_append_right hle] at hy
        have hlp : (l ++ [p]).length = n + 1 := by rw [List.length_append, hlen]; rfl
        cases hk : i - (l ++ [p]).length with
        | zero =>
          rw [hk] at hy
          simp only [List.getElem?_cons_zero, Option.some.injEq] at hy
          have hin : i = n + 1 := by omega
          rw [← hy, hin]
          exact PChainN.step hxs hxl hp hc
        | succ k =>
          rw [hk] at hy
          simp at hy

theorem nodup_lt_length (l : List Nat) (n : Nat) (hnd : l.Nodup) (hlt : ∀ x ∈ l, x < n) :
    l.length ≤ n := by
  have hsub : l ⊆ List.range n := fun x hx => List.mem_range.2 (hlt x hx)
  have := (List.subperm_of_subset hnd hsub).length_le
  rw [List.length_range] at this
  exact this

/-- In a parent array with `parent[s] = -1`, the recursion of `printPath` from a
vertex whose parent chain arrives at `s` returns after at most `parent.size()`
calls, and prints a sequence from `s` to that vertex without a repeated vertex. -/
theorem printPath_terminates (parent : List Int) (s : Nat) (hs : s < parent.length)
    (hps : parent.getD s 0 = -1) (x : Nat) (h : PChain parent s x) :
    ∃ path, printPath parent parent.length (x : Int) = some path ∧ path.Nodup ∧
      path.length ≤ parent.length ∧ path.head? = some s ∧ path.getLast? = some x := by
  obtain ⟨n, hn⟩ := pchain_count parent s x h
  obtain ⟨l, hlen, hrun, hel⟩ := printPath_chainN parent s hps x n hn
  have hnd : (l ++ [x]).Nodup := by
    rw [List.nodup_iff_getElem?_ne_getElem?]
    intro i j hij hj heq
    obtain ⟨y, hy⟩ : ∃ y, (l ++ [x])[j]? = some y :=
      ⟨(l ++ [x])[j], List.getElem?_eq_getElem hj⟩
    have h1 := hel j y hy
    rw [← heq] at hy
    have h2 := hel i y hy
    have := pchainN_unique parent s y i h2 j h1
    omega
  have hlt : ∀ y ∈ l ++ [x], y < parent.length := by
    intro y hy
    obtain ⟨i, hi⟩ := List.mem_iff_getElem?.1 hy
    exact pchainN_lt parent s y i hs (hel i y hi)
  have hle := nodup_lt_length (l ++ [x]) parent.length hnd hlt
  have hn1 : n + 1 ≤ parent.length := by
    rw [List.length_append, hlen] at hle
    exact hle
  refine ⟨l ++ [x], printPath_mono parent (n + 1) (x : Int) _ hrun _ hn1, hnd, hle, ?_,
    List.getLast?_concat l⟩
  rw [List.head?_eq_getElem?]
  obtain ⟨y, hy⟩ : ∃ y, (l ++ [x])[0]? = some y :=
    ⟨(l ++ [x])[0], List.getElem?_eq_getElem (by rw [List.length_append]; simp)⟩
  rw [hy, pchainN_zero parent s y (hel 0 y hy)]

/-- C32, as the code has it. Path reconstruction terminates. For a graph built by
`addEdge` from valid edges with weights in `[0, INF]` and a start `s`: with enough
fuel `Dijkstra` returns, the parent array it leaves has `parent[s] = -1`, and from
every vertex `t` with `dist[t] != INF` the recursion of `printPath` returns within
`V` calls; the sequence it prints runs from `s` to `t`, has at most `V` vertices and
repeats none, so the parent entries it follows form no cycle. -/
theorem path_reconstruction_terminates (v : Nat) (labels : List String)
    (es : List (Nat × Nat × Int)) (hv : ValidEdges v es)
    (hw : ∀ e ∈ es, 0 ≤ e.2.2 ∧ e.2.2 ≤ INF) (s : Nat) (hs : s < v) :
    ∃ N, ∀ fuel, N ≤ fuel → ∃ dist parent,
      Dijkstra (Graph.build v labels es) s fuel = some (dist, parent) ∧
      parent.length = v ∧ parent.getD s 0 = -1 ∧
      ∀ t, t < v → dist.getD t 0 ≠ INF →
        ∃ path, printPath parent v (t : Int) = some path ∧ path.Nodup ∧ path.length ≤ v ∧
          path.head? = some s ∧ path.getLast? = some t := by
  have hwf := build_wf v labels es hv
  have hV := build_V v labels es
  have hwi := build_weightsIn v labels es hv 0 INF hw
  have hsV : s < (Graph.build v labels es).V := by rw [hV]; exact hs
  obtain ⟨N, hN⟩ := dijkstra_runs _ s hwf hwi hsV
  refine ⟨N, ?_⟩
  intro fuel hf
  obtain ⟨st, hrun, hinv, _⟩ := hN fuel hf
  have hpl : st.parent.length = v := by rw [hinv.core.plen, hV]
  refine ⟨st.dist, st.parent, by simp [Dijkstra, hrun], hpl, hinv.core.pstart, ?_⟩
  intro t ht hfin
  have htV : t < (Graph.build v labels es).V := by rw [hV]; exact ht
  have hlt : st.dist.getD t 0 < INF :=
    lt_of_le_of_ne (hinv.core.bounds t htV).2 hfin
  have hchain := hinv.core.chain t htV hlt
  have := printPath_terminates st.parent s (by rw [hpl]; exact hs) hinv.core.pstart t hchain
  rw [hpl] at this
  exact this

theorem path_reconstruction_terminates_witness :
    (∀ e ∈ [((0 : Nat), (1 : Nat), (0 : Int)), (1, 2, 0), (2, 0, 0), (2, 3, 5)],
      0 ≤ e.2.2 ∧ e.2.2 ≤ INF) ∧
    ∃ N, ∀ fuel, N ≤ fuel → ∃ dist parent,
      Dijkstra (Graph.build 4 ["A", "B", "C", "D"] [(0, 1, 0), (1, 2, 0), (2, 0, 0), (2, 3, 5)])
        0 fuel = some (dist, parent) ∧
      parent.length = 4 ∧ parent.getD 0 0 = -1 ∧
      ∀ t, t < 4 → dist.getD t 0 ≠ INF →
        ∃ path, printPath parent 4 (t : Int) = some path ∧ path.Nodup ∧ path.length ≤ 4 ∧
          path.head? = some 0 ∧ path.getLast? = some t :=
  ⟨by decide, path_reconstruction_terminates 4 ["A", "B", "C", "D"]
    [(0, 1, 0), (1, 2, 0), (2, 0, 0), (2, 3, 5)] (by unfold ValidEdges; decide) (by decide) 0
    (by decide)⟩

/-- C32, counterexample. With the two parallel edges A-B of the non-negative weights
`1` and `2147483647`, `Dijkstra` from A leaves `dist = [-2147483648, -2147483647]`
and `parent = [1, 0]`: `parent[A]` is not `-1`, A and B are each other's parent, and
the recursion of `printPath` from A or from B never reaches `-1`. -/
theorem path_reconstruction_counterexample :
    (∀ e ∈ [((0 : Nat), (1 : Nat), (1 : Int)), (0, 1, 2147483647)], 0 ≤ e.2.2) ∧
    Dijkstra (Graph.build 2 ["A", "B"] [(0, 1, 1), (0, 1, 2147483647)]) 0 10
      = some ([-2147483648, -2147483647], [1, 0]) ∧
    ∀ fuel, printPath [1, 0] fuel 0 = none ∧ printPath [1, 0] fuel 1 = none := by
  refine ⟨by decide, by decide, ?_⟩
  intro fuel
  induction fuel with
  | zero => exact ⟨rfl, rfl⟩
  | succ fuel ih =>
    constructor
    · have h2 : printPath [1, 0] fuel 1 = none := ih.2
      rw [printPath]
      simp only [show ¬ ((0 : Int) = -1) by decide, if_false]
      show (match printPath [1, 0] fuel 1 with
        | none => none
        | some l => some (l ++ [0])) = none
      rw [h2]
    · have h1 : printPath [1, 0] fuel 0 = none := ih.1
      rw [printPath]
      simp only [show ¬ ((1 : Int) = -1) by decide, if_false]
      show (match printPath [1, 0] fuel 0 with
        | none => none
        | some l => some (l ++ [1])) = none
      rw [h1]

/-! ## Dijkstra: no overflow -/

theorem dbnd_of_core (g : Graph) (s : Nat) (st : DState) (h : DCore g s st) : DBnd g st :=
  { dlen := h.dlen, bounds := h.bounds, pqe := h.pqe }

/-- One relaxation from a vertex `u` with `dist[u] < INF`: the sum evaluated lies in
`[0, 2 * 10^9 - 1]`, so the 32-bit step and the exact step do the same, and the
bounds go on holding. -/
theorem relax_exact_step (g : Graph) (hwf : g.WF) (hw : g.WeightsIn 0 INF) (u : Nat)
    (st : DState) (log : List Int) (e : Edge) (he : e ∈ g.nbrs u) (hb : DBnd g st)
    (hu : u < g.V) (hfin : st.dist.getD u 0 < INF) :
    relaxEdgeExact u (st, log) e = (relaxEdge u st e, log ++ [st.dist.getD u 0 + e.weight]) ∧
    0 ≤ st.dist.getD u 0 + e.weight ∧ st.dist.getD u 0 + e.weight ≤ 1999999999 ∧
    DBnd g (relaxEdge u st e) ∧ (relaxEdge u st e).dist.getD u 0 < INF := by
  have hv : e.dst < g.V := hwf.dst_lt u e he
  obtain ⟨hw0, hw1⟩ := hw u e he
  have hbu := hb.bounds u hu
  have hbv := hb.bounds e.dst hv
  have hfin1 := hfin
  rw [INF_eq] at hw1 hbu hbv hfin1
  have hnd : wrap32 (st.dist.getD u 0 + e.weight) = st.dist.getD u 0 + e.weight := by
    apply wrap32_of_range <;> omega
  have hvl : e.dst < st.dist.length := by rw [hb.dlen]; exact hv
  by_cases hc : st.dist.getD u 0 + e.weight < st.dist.getD e.dst 0
  · have e1 : relaxEdge u st e
        = { dist := st.dist.set e.dst (st.dist.getD u 0 + e.weight)
            parent := st.parent.set e.dst (u : Int)
            pq := (st.dist.getD u 0 + e.weight, e.dst) :: st.pq } := by
      unfold relaxEdge
      simp only [hnd]
      rw [if_pos hc]
    have e2 : relaxEdgeExact u (st, log) e
        = (relaxEdge u st e, log ++ [st.dist.getD u 0 + e.weight]) := by
      rw [e1]
      unfold relaxEdgeExact
      simp only
      rw [if_pos hc]
    have hget : ∀ x, (st.dist.set e.dst (st.dist.getD u 0 + e.weight)).getD x 0
        = if x = e.dst then st.dist.getD u 0 + e.weight else st.dist.getD x 0 := by
      intro x
      by_cases hx : x = e.dst
      · rw [if_pos hx, hx, getD_set_eq _ _ _ _ hvl]
      · rw [if_neg hx, getD_set_ne _ _ _ _ _ (Ne.symm hx)]
    refine ⟨e2, by omega, by omega, ?_, ?_⟩
    · rw [e1]
      refine { dlen := ?_, bounds := ?_, pqe := ?_ }
      · show (st.dist.set e.dst _).length = g.V
        rw [List.length_set]
        exact hb.dlen
      · intro x hx
        show 0 ≤ (st.dist.set e.dst _).getD x 0 ∧ (st.dist.set e.dst _).getD x 0 ≤ INF
        rw [hget x]
        by_cases hxe : x = e.dst
        · rw [if_pos hxe, INF_eq]
          omega
        · rw [if_neg hxe]
          exact hb.bounds x hx
      · intro d x hm
        show x < g.V ∧ (st.dist.set e.dst _).getD x 0 ≤ d ∧ d < INF
        rw [hget x]
        have hm1 : (d, x) = (st.dist.getD u 0 + e.weight, e.dst) ∨ (d, x) ∈ st.pq :=
          List.mem_cons.1 hm
        rcases hm1 with heq | hin
        · simp only [Prod.mk.injEq] at heq
          rw [heq.1, heq.2, if_pos rfl, INF_eq]
          exact ⟨hv, le_refl _, by omega⟩
        · obtain ⟨h1, h2, h3⟩ := hb.pqe d x hin
          refine ⟨h1, ?_, h3⟩
          by_cases hxe : x = e.dst
          · rw [if_pos hxe]
            rw [hxe] at h2
            omega
          · rw [if_neg hxe]
            exact h2
    · rw [e1]
      show (st.dist.set e.dst _).getD u 0 < INF
      rw [hget u]
      by_cases hue : u = e.dst
      · rw [if_pos hue, INF_eq]
        omega
      · rw [if_neg hue]
        exact hfin
  · have e1 : relaxEdge u st e = st := by
      unfold relaxEdge
      simp only [hnd]
      rw [if_neg hc]
    have e2 : relaxEdgeExact u (st, log) e
        = (relaxEdge u st e, log ++ [st.dist.getD u 0 + e.weight]) := by
      rw [e1]
      unfold relaxEdgeExact
      simp only
      rw [if_neg hc]
    refine ⟨e2, by omega, by omega, ?_, ?_⟩
    · rw [e1]
      exact hb
    · rw [e1]
      exact hfin

theorem relax_exact_fold (g : Graph) (hwf : g.WF) (hw : g.WeightsIn 0 INF) (u : Nat)
    (hu : u < g.V) :
    ∀ (l : List Edge) (st : DState) (log : List Int), (∀ e ∈ l, e ∈ g.nbrs u) → DBnd g st →
      st.dist.getD u 0 < INF → (∀ x ∈ log, 0 ≤ x ∧ x ≤ 1999999999) →
      ∃ log1, l.foldl (relaxEdgeExact u) (st, log) = (l.foldl (relaxEdge u) st, log1) ∧
        (∀ x ∈ log1, 0 ≤ x ∧ x ≤ 1999999999) ∧ DBnd g (l.foldl (relaxEdge u) st) := by
  intro l
  induction l with
  | nil =>
    intro st log _ hb _ hlog
    exact ⟨log, rfl, hlog, hb⟩
  | cons e l ih =>
    intro st log hl hb hfin hlog
    obtain ⟨e1, h0, h1, hb1, hfin1⟩ := relax_exact_step g hwf hw u st log e
      (hl e (List.mem_cons_self _ _)) hb hu hfin
    rw [List.foldl_cons, List.foldl_cons, e1]
    apply ih _ _ (fun a ha => hl a (List.mem_cons_of_mem _ ha)) hb1 hfin1
    intro x hx
    rcases List.mem_append.1 hx with h2 | h3
    · exact hlog x h2
    · rw [List.mem_singleton] at h3
      rw [h3]
      exact ⟨h0, h1⟩

/-- The loop of `Dijkstra` in 32-bit arithmetic and in exact integers do the same in
every state that satisfies the bounds, and no sum evaluated leaves
`[0, 2 * 10^9 - 1]`. -/
theorem dijkstraLoop_exact (g : Graph) (hwf : g.WF) (hw : g.WeightsIn 0 INF) :
    ∀ (fuel : Nat) (st : DState) (log : List Int), DBnd g st →
      (∀ x ∈ log, 0 ≤ x ∧ x ≤ 1999999999) →
      (dijkstraLoopExact g fuel (st, log)).map (fun r => r.1) = dijkstraLoop g fuel st ∧
      ∀ r, dijkstraLoopExact g fuel (st, log) = some r → ∀ x ∈ r.2, 0 ≤ x ∧ x ≤ 1999999999 := by
  intro fuel
  induction fuel with
  | zero =>
    intro st log _ hlog
    unfold dijkstraLoopExact dijkstraLoop
    cases htop : pqTop st.pq with
    | none =>
      simp only [Option.map_some']
      refine ⟨trivial, ?_⟩
      intro r hr
      simp only [Option.some.injEq] at hr
      rw [← hr]
      exact hlog
    | some m =>
      simp only [Option.map_none']
      refine ⟨trivial, ?_⟩
      intro r hr
      cases hr
  | succ fuel ih =>
    intro st log hb hlog
    unfold dijkstraLoopExact dijkstraLoop
    cases htop : pqTop st.pq with
    | none =>
      simp only [Option.map_some']
      refine ⟨trivial, ?_⟩
      intro r hr
      simp only [Option.some.injEq] at hr
      rw [← hr]
      exact hlog
    | some m =>
      obtain ⟨d, u⟩ := m
      have hmem := pqTop_mem htop
      obtain ⟨huV, hud, hdInf⟩ := hb.pqe d u hmem
      have hb1 : DBnd g { st with pq := st.pq.erase (d, u) } :=
        { dlen := hb.dlen
          bounds := hb.bounds
          pqe := fun d1 x hm => hb.pqe d1 x (List.mem_of_mem_erase hm) }
      simp only
      by_cases hstale : d > st.dist.getD u 0
      · rw [if_pos hstale, if_pos hstale]
        exact ih _ log hb1 hlog
      · rw [if_neg hstale, if_neg hstale]
        have hfin : st.dist.getD u 0 < INF := lt_of_le_of_lt hud hdInf
        obtain ⟨log1, e1, hlog1, hb2⟩ := relax_exact_fold g hwf hw u huV (g.nbrs u)
          { st with pq := st.pq.erase (d, u) } log (fun e he => he) hb1 hfin hlog
        rw [e1]
        exact ih _ log1 hb2 hlog1

/-- C33. For every graph built by `addEdge` whose weights all lie in `[0, 10^9]` and
every start vertex, `Dijkstra` with 32-bit sums and `DijkstraExact` with exact integer
sums give the same result at every fuel (and both return once the fuel suffices), and
every sum `dist[u] + e.weight` that is evaluated lies in `[0, 2 * 10^9 - 1]`, below
`2^31`. -/
theorem dijkstra_no_overflow (v : Nat) (labels : List String)
    (es : List (Nat × Nat × Int)) (hv : ValidEdges v es)
    (hw : ∀ e ∈ es, 0 ≤ e.2.2 ∧ e.2.2 ≤ INF) (s : Nat) (hs : s < v) :
    (∀ fuel, (DijkstraExact (Graph.build v labels es) s fuel).map (fun r => r.1)
        = Dijkstra (Graph.build v labels es) s fuel) ∧
    (∀ fuel res sums, DijkstraExact (Graph.build v labels es) s fuel = some (res, sums) →
        ∀ x ∈ sums, 0 ≤ x ∧ x ≤ 2 * INF - 1 ∧ x < 2 ^ 31) ∧
    ∃ N, ∀ fuel, N ≤ fuel → ∃ res sums,
      DijkstraExact (Graph.build v labels es) s fuel = some (res, sums) ∧
      Dijkstra (Graph.build v labels es) s fuel = some res := by
  have hwf := build_wf v labels es hv
  have hV := build_V v labels es
  have hwi := build_weightsIn v labels es hv 0 INF hw
  have hsV : s < (Graph.build v labels es).V := by rw [hV]; exact hs
  have hb : DBnd (Graph.build v labels es) (dijkstraInit (Graph.build v labels es) s) :=
    dbnd_of_core _ s _ (dijkstraInit_inv _ s hsV).core
  have hnil : ∀ x ∈ ([] : List Int), 0 ≤ x ∧ x ≤ 1999999999 := by
    intro x hx
    cases hx
  have hsame : ∀ fuel, (DijkstraExact (Graph.build v labels es) s fuel).map (fun r => r.1)
      = Dijkstra (Graph.build v labels es) s fuel := by
    intro fuel
    have h1 := (dijkstraLoop_exact _ hwf hwi fuel _ [] hb hnil).1
    unfold DijkstraExact Dijkstra
    rw [← h1]
    cases dijkstraLoopExact (Graph.build v labels es) fuel
      (dijkstraInit (Graph.build v labels es) s, []) with
    | none => rfl
    | some r => rfl
  refine ⟨hsame, ?_, ?_⟩
  · intro fuel res sums hrun x hx
    have h2 := (dijkstraLoop_exact _ hwf hwi fuel _ [] hb hnil).2
    unfold DijkstraExact at hrun
    cases hex : dijkstraLoopExact (Graph.build v labels es) fuel
      (dijkstraInit (Graph.build v labels es) s, []) with
    | none =>
      rw [hex] at hrun
      cases hrun
    | some r =>
      rw [hex] at hrun
      simp only [Option.map_some', Option.some.injEq, Prod.mk.injEq] at hrun
      have hx1 : x ∈ r.2 := by rw [hrun.2]; exact hx
      have hbx := h2 r hex x hx1
      rw [INF_eq]
      refine ⟨hbx.1, by omega, by omega⟩
  · obtain ⟨N, hN⟩ := dijkstra_runs _ s hwf hwi hsV
    refine ⟨N, ?_⟩
    intro fuel hf
    obtain ⟨st, hrun, _, _⟩ := hN fuel hf
    have hD : Dijkstra (Graph.build v labels es) s fuel = some (st.dist, st.parent) := by
      simp [Dijkstra, hrun]
    have hs1 := hsame fuel
    rw [hD] at hs1
    cases hex : DijkstraExact (Graph.build v labels es) s fuel with
    | none =>
      rw [hex] at hs1
      cases hs1
    | some r =>
      rw [hex] at hs1
      simp only [Option.map_some', Option.some.injEq] at hs1
      refine ⟨r.1, r.2, rfl, ?_⟩
      rw [hD, hs1]

theorem dijkstra_no_overflow_witness :
    (∀ e ∈ [((0 : Nat), (1 : Nat), (999999999 : Int)), (1, 2, 1000000000), (0, 2, 5),
      (2, 3, 999999999)], 0 ≤ e.2.2 ∧ e.2.2 ≤ INF) ∧
    ((∀ fuel, (DijkstraExact (Graph.build 4 ["A", "B", "C", "D"]
        [(0, 1, 999999999), (1, 2, 1000000000), (0, 2, 5), (2, 3, 999999999)]) 0 fuel).map
          (fun r => r.1)
        = Dijkstra (Graph.build 4 ["A", "B", "C", "D"]
        [(0, 1, 999999999), (1, 2, 1000000000), (0, 2, 5), (2, 3, 999999999)]) 0 fuel) ∧
    (∀ fuel res sums, DijkstraExact (Graph.build 4 ["A", "B", "C", "D"]
        [(0, 1, 999999999), (1, 2, 1000000000), (0, 2, 5), (2, 3, 999999999)]) 0 fuel
          = some (res, sums) →
        ∀ x ∈ sums, 0 ≤ x ∧ x ≤ 2 * INF - 1 ∧ x < 2 ^ 31) ∧
    ∃ N, ∀ fuel, N ≤ fuel → ∃ res sums,
      DijkstraExact (Graph.build 4 ["A", "B", "C", "D"]
        [(0, 1, 999999999), (1, 2, 1000000000), (0, 2, 5), (2, 3, 999999999)]) 0 fuel
          = some (res, sums) ∧
      Dijkstra (Graph.build 4 ["A", "B", "C", "D"]
        [(0, 1, 999999999), (1, 2, 1000000000), (0, 2, 5), (2, 3, 999999999)]) 0 fuel
          = some res) :=
  ⟨by decide, dijkstra_no_overflow 4 ["A", "B", "C", "D"]
    [(0, 1, 999999999), (1, 2, 1000000000), (0, 2, 5), (2, 3, 999999999)]
    (by unfold ValidEdges; decide) (by decide) 0 (by decide)⟩

/-! ## The member functions and the graph store -/

theorem bfsLoopM_eq : ∀ (fuel : Nat) (g : Graph) (st : BState),
    bfsLoopM fuel g st = (bfsLoop g fuel st).map (fun out => (out, g)) := by
  intro fuel
  induction fuel with
  | zero =>
    intro g st
    unfold bfsLoopM bfsLoop
    cases st.q <;> rfl
  | succ fuel ih =>
    intro g st
    unfold bfsLoopM bfsLoop
    cases st.q with
    | nil => rfl
    | cons u rest =>
      simp only
      exact ih _ _

theorem dfsLoopM_eq : ∀ (fuel : Nat) (g : Graph) (stack : List Nat) (st : TState),
    dfsLoopM fuel g stack st = (dfsLoop g fuel stack st).map (fun out => (out, g)) := by
  intro fuel
  induction fuel with
  | zero =>
    intro g stack st
    unfold dfsLoopM dfsLoop
    cases stack <;> rfl
  | succ fuel ih =>
    intro g stack st
    unfold dfsLoopM dfsLoop
    cases stack with
    | nil => rfl
    | cons u rest =>
      have hg : (if st.visited.getD u false = true then g else (g.readLabel u).2) = g := by
        split <;> rfl
      simp only
      rw [hg]
      exact ih _ _ _

theorem dijkstraLoopM_eq : ∀ (fuel : Nat) (g : Graph) (st : DState),
    dijkstraLoopM fuel g st = (dijkstraLoop g fuel st).map (fun r => (r, g)) := by
  intro fuel
  induction fuel with
  | zero =>
    intro g st
    unfold dijkstraLoopM dijkstraLoop
    cases pqTop st.pq <;> rfl
  | succ fuel ih =>
    intro g st
    unfold dijkstraLoopM dijkstraLoop
    cases pqTop st.pq with
    | none => rfl
    | some m =>
      simp only
      split
      · exact ih _ _
      · exact ih _ _

theorem primLoopM_eq : ∀ (fuel : Nat) (g : Graph) (st : PState),
    primLoopM fuel g st = (primLoop g fuel st).map (fun r => (r, g)) := by
  intro fuel
  induction fuel with
  | zero =>
    intro g st
    unfold primLoopM primLoop
    cases pqTop st.pq <;> rfl
  | succ fuel ih =>
    intro g st
    unfold primLoopM primLoop
    cases pqTop st.pq with
    | none => rfl
    | some m =>
      have hg : ∀ u : Nat, (if st.parent.getD u 0 ≠ -1 then
          ((g.readLabel (st.parent.getD u 0).toNat).2.readLabel u).2 else g) = g := by
        intro u
        split <;> rfl
      simp only
      split
      · exact ih _ _
      · rw [hg]
        exact ih _ _

theorem apLoopM_eq (callM : Nat → Int → Graph → APState → Option (APState × Graph))
    (call : Nat → Int → APState → Option APState) (g : Graph)
    (hcall : ∀ v p st, callM v p g st = (call v p st).map (fun r => (r, g)))
    (u : Nat) (p : Int) :
    ∀ (es : List Edge) (c : Nat) (st : APState),
      apLoopM callM u p es c g st = (apLoop call u p es c st).map (fun r => (r.1, r.2, g)) := by
  intro es
  induction es with
  | nil =>
    intro c st
    rfl
  | cons e rest ih =>
    intro c st
    rw [apLoopM, apLoop_cons]
    by_cases h1 : (e.dst : Int) = p
    · rw [if_pos h1, if_pos h1]
      exact ih c st
    · rw [if_neg h1, if_neg h1]
      by_cases h2 : st.visited.getD e.dst false = true
      · rw [if_pos h2, if_pos h2]
        exact ih c _
      · rw [if_neg h2, if_neg h2, hcall]
        cases call e.dst (u : Int) st with
        | none => rfl
        | some st1 =>
          simp only [Option.map_some']
          exact ih _ _

theorem APUtilM_eq : ∀ (fuel u : Nat) (p : Int) (g : Graph) (st : APState),
    APUtilM fuel u p g st = (APUtil g fuel u p st).map (fun r => (r, g)) := by
  intro fuel
  induction fuel with
  | zero =>
    intro u p g st
    rfl
  | succ fuel ih =>
    intro u p g st
    rw [APUtilM, APUtil]
    have hl := apLoopM_eq (APUtilM fuel) (APUtil g fuel) g (fun v q st1 => ih v q g st1) u p
      (g.nbrs u) 0 (apEnter u st)
    have hr : (g.readAdj u).1 = g.nbrs u := rfl
    have hr2 : (g.readAdj u).2 = g := rfl
    rw [hr, hr2, hl]
    cases apLoop (APUtil g fuel) u p (g.nbrs u) 0 (apEnter u st) with
    | none => rfl
    | some r =>
      simp only [Option.map_some']
      split <;> rfl

theorem readLabel_fold (l : List Nat) :
    ∀ g : Graph, l.foldl (fun g1 i => (g1.readLabel i).2) g = g := by
  induction l with
  | nil => intro g; rfl
  | cons a l ih =>
    intro g
    rw [List.foldl_cons]
    exact ih g

theorem indexOf_unknown (g : Graph) (l : String) (h : mapFind g.labelToIndex l = none) :
    g.indexOf l = (0, { g with labelToIndex := g.labelToIndex ++ [(l, 0)] }) := by
  unfold Graph.indexOf
  rw [mapIndex_unknown _ _ h]

theorem BFSByLabel_eq (g : Graph) (l : String) (fuel : Nat) (hi : (g.indexOf l).1 < g.V) :
    BFSByLabel g l fuel
      = fuelled ((BFS g (g.indexOf l).1 fuel).map (fun r => (r, (g.indexOf l).2))) := by
  unfold BFSByLabel
  rw [if_pos hi, bfsLoopM_eq]
  have h : bfsLoop (g.indexOf l).2 fuel (bfsInit (g.indexOf l).2 (g.indexOf l).1)
      = BFS g (g.indexOf l).1 fuel := bfs_congr (g.indexOf l).2 g rfl rfl _ fuel
  rw [h]

theorem DFSByLabel_eq (g : Graph) (l : String) (fuel : Nat) (hi : (g.indexOf l).1 < g.V) :
    DFSByLabel g l fuel
      = fuelled ((DFS g (g.indexOf l).1 fuel).map (fun r => (r, (g.indexOf l).2))) := by
  unfold DFSByLabel
  rw [if_pos hi, dfsLoopM_eq]
  have h : dfsLoop (g.indexOf l).2 fuel [(g.indexOf l).1]
      { visited := List.replicate (g.indexOf l).2.V false, out := [] }
      = DFS g (g.indexOf l).1 fuel := dfs_congr (g.indexOf l).2 g rfl rfl _ fuel
  rw [h]

theorem printPathM_eq (parent : List Int) : ∀ (fuel : Nat) (g : Graph) (u : Int),
    printPathM parent fuel g u = (printPath parent fuel u).map (fun l => (l, g)) := by
  intro fuel
  induction fuel with
  | zero =>
    intro g u
    unfold printPathM printPath
    split <;> rfl
  | succ fuel ih =>
    intro g u
    unfold printPathM printPath
    split
    · rfl
    · simp only
      rw [ih]
      cases printPath parent fuel (parent.getD u.toNat 0) with
      | none => rfl
      | some l => rfl

theorem dijkstraReportM_eq (dist parent : List Int) (fuel : Nat) :
    ∀ (l : List Nat) (g : Graph),
      dijkstraReportM dist parent fuel l g
        = (dijkstraReport dist parent fuel l).map (fun r => (r, g)) := by
  intro l
  induction l with
  | nil => intro g; rfl
  | cons i rest ih =>
    intro g
    have hr : (g.readLabel i).2 = g := rfl
    unfold dijkstraReportM dijkstraReport
    rw [hr, printPathM_eq]
    split
    · rw [ih]
      cases dijkstraReport dist parent fuel rest <;> rfl
    · cases printPath parent fuel (i : Int) with
      | none => rfl
      | some path =>
        simp only [Option.map_some']
        rw [ih]
        cases dijkstraReport dist parent fuel rest <;> rfl

theorem DijkstraOutput_congr (g1 g2 : Graph) (hV : g1.V = g2.V) (h : g1.adj = g2.adj)
    (s fuel : Nat) : DijkstraOutput g1 s fuel = DijkstraOutput g2 s fuel := by
  unfold DijkstraOutput
  rw [dijkstra_congr g1 g2 hV h, hV]

theorem DijkstraByLabel_eq (g : Graph) (l : String) (fuel : Nat)
    (hi : (g.indexOf l).1 < g.V) :
    DijkstraByLabel g l fuel
      = fuelled ((DijkstraOutput g (g.indexOf l).1 fuel).map
          (fun r => (r, (g.indexOf l).2))) := by
  unfold DijkstraByLabel
  rw [if_pos hi, dijkstraLoopM_eq]
  have h : DijkstraOutput (g.indexOf l).2 (g.indexOf l).1 fuel
      = DijkstraOutput g (g.indexOf l).1 fuel :=
    DijkstraOutput_congr (g.indexOf l).2 g rfl rfl _ fuel
  rw [← h]
  unfold DijkstraOutput Dijkstra
  cases dijkstraLoop (g.indexOf l).2 fuel
      (dijkstraInit (g.indexOf l).2 (g.indexOf l).1) with
  | none => rfl
  | some st =>
    simp only [Option.map_some']
    rw [dijkstraReportM_eq]
    cases dijkstraReport st.dist st.parent fuel (List.range (g.indexOf l).2.V) with
    | none => rfl
    | some lines => rfl

theorem dijkstraReport_returns (dist parent : List Int) (fuel : Nat) :
    ∀ l : List Nat,
      (∀ i ∈ l, dist.getD i 0 ≠ INF → ∃ path, printPath parent fuel (i : Int) = some path) →
      ∃ lines, dijkstraReport dist parent fuel l = some lines := by
  intro l
  induction l with
  | nil => intro _; exact ⟨[], rfl⟩
  | cons i rest ih =>
    intro h
    obtain ⟨lines, hl⟩ := ih (fun j hj => h j (List.mem_cons_of_mem _ hj))
    unfold dijkstraReport
    by_cases hd : dist.getD i 0 = INF
    · rw [if_pos hd, hl]
      exact ⟨_, rfl⟩
    · obtain ⟨path, hp⟩ := h i (List.mem_cons_self _ _) hd
      rw [if_neg hd, hp, hl]
      exact ⟨_, rfl⟩

/-- With weights in `[0, INF]` the member `Dijkstra` returns from every start vertex
once the fuel suffices: its loop ends and every path it prints is finite. -/
theorem dijkstraOutput_returns (v : Nat) (labels : List String)
    (es : List (Nat × Nat × Int)) (hv : ValidEdges v es)
    (hw : ∀ e ∈ es, 0 ≤ e.2.2 ∧ e.2.2 ≤ INF) (s : Nat) (hs : s < v) :
    ∃ N, ∀ fuel, N ≤ fuel → ∃ r, DijkstraOutput (Graph.build v labels es) s fuel = some r ∧
      Dijkstra (Graph.build v labels es) s fuel = some r.1 := by
  have hwf := build_wf v labels es hv
  have hV := build_V v labels es
  have hwi := build_weightsIn v labels es hv 0 INF hw
  have hsV : s < (Graph.build v labels es).V := by rw [hV]; exact hs
  obtain ⟨N, hN⟩ := dijkstra_runs _ s hwf hwi hsV
  refine ⟨max N v, ?_⟩
  intro fuel hf
  obtain ⟨st, hrun, hinv, _⟩ := hN fuel (le_trans (le_max_left _ _) hf)
  have hfv : v ≤ fuel := le_trans (le_max_right _ _) hf
  have hpl : st.parent.length = v := by rw [hinv.core.plen, hV]
  have hD : Dijkstra (Graph.build v labels es) s fuel = some (st.dist, st.parent) := by
    unfold Dijkstra
    rw [hrun]
    rfl
  obtain ⟨lines, hl⟩ := dijkstraReport_returns st.dist st.parent fuel
    (List.range (Graph.build v labels es).V)
    (by
      intro i hi hne
      have hiV : i < (Graph.build v labels es).V := List.mem_range.1 hi
      have hlt : st.dist.getD i 0 < INF := lt_of_le_of_ne (hinv.core.bounds i hiV).2 hne
      obtain ⟨path, hp, _⟩ := printPath_terminates st.parent s (by rw [hpl]; exact hs)
        hinv.core.pstart i (hinv.core.chain i hiV hlt)
      exact ⟨path, printPath_mono st.parent _ _ path hp fuel (by rw [hpl]; exact hfv)⟩)
  refine ⟨((st.dist, st.parent), lines), ?_, hD⟩
  unfold DijkstraOutput
  rw [hD]
  simp only
  rw [hl]

theorem PrimByLabel_eq (g : Graph) (l : String) (fuel : Nat) (hi : (g.indexOf l).1 < g.V) :
    PrimByLabel g l fuel
      = fuelled ((Prim g (g.indexOf l).1 fuel).map (fun r => (r, (g.indexOf l).2))) := by
  unfold PrimByLabel
  rw [if_pos hi, primLoopM_eq]
  have h : Prim (g.indexOf l).2 (g.indexOf l).1 fuel = Prim g (g.indexOf l).1 fuel :=
    prim_congr (g.indexOf l).2 g rfl rfl _ fuel
  rw [← h]
  unfold Prim
  rw [Option.map_map, Option.map_map]
  rfl

theorem findArticulationPointsByLabel_eq (g : Graph) (l : String) (fuel : Nat)
    (hi : (g.indexOf l).1 < g.V) :
    findArticulationPointsByLabel g l fuel
      = fuelled ((findArticulationPoints g (g.indexOf l).1 fuel).map
          (fun r => (r, (g.indexOf l).2))) := by
  unfold findArticulationPointsByLabel
  rw [if_pos hi]
  have h : findArticulationPoints (g.indexOf l).2 (g.indexOf l).1 fuel
      = findArticulationPoints g (g.indexOf l).1 fuel :=
    ap_congr (g.indexOf l).2 g rfl rfl _ fuel
  rw [← h]
  unfold findArticulationPoints apRun
  rw [APUtilM_eq]
  split
  · simp only [Option.map_some', readLabel_fold]
  · cases APUtil (g.indexOf l).2 fuel (g.indexOf l).1 (-1) (apInit (g.indexOf l).2) with
    | none => rfl
    | some r => simp only [Option.map_some', readLabel_fold]

/-- On a graph built by `addEdge` every algorithm returns from every start vertex,
whatever the weights are, once the fuel suffices; `BFS` and `DFS` print the start
vertex first. -/
theorem entry_points_return (v : Nat) (labels : List String) (es : List (Nat × Nat × Int))
    (hv : ValidEdges v es) (s : Nat) (hs : s < v) :
    ∃ N, ∀ fuel, N ≤ fuel → ∃ b d dj p a,
      BFS (Graph.build v labels es) s fuel = some b ∧ b.head? = some s ∧
      DFS (Graph.build v labels es) s fuel = some d ∧ d.head? = some s ∧
      Dijkstra (Graph.build v labels es) s fuel = some dj ∧
      Prim (Graph.build v labels es) s fuel = some p ∧
      findArticulationPoints (Graph.build v labels es) s fuel = some a := by
  have hwf := build_wf v labels es hv
  have hV := build_V v labels es
  have hsV : s < (Graph.build v labels es).V := by rw [hV]; exact hs
  obtain ⟨st1, N1, ext, _, hdfs, hpost⟩ := dfs_runs _ hwf s hsV
  have hout : st1.out = s :: ext := by
    rw [hpost.out]
    rfl
  obtain ⟨N2, hN2⟩ := dijkstra_total _ s hwf
  obtain ⟨N3, hN3⟩ := prim_total _ s hwf
  refine ⟨max (max v N1) (max N2 N3), ?_⟩
  intro fuel hf
  have hf0 : v ≤ fuel := le_trans (le_trans (le_max_left _ _) (le_max_left _ _)) hf
  have hf1 : N1 ≤ fuel := le_trans (le_trans (le_max_right _ _) (le_max_left _ _)) hf
  have hf2 : N2 ≤ fuel := le_trans (le_trans (le_max_left _ _) (le_max_right _ _)) hf
  have hf3 : N3 ≤ fuel := le_trans (le_trans (le_max_right _ _) (le_max_right _ _)) hf
  obtain ⟨lev, bst, hrun, hinv, hq⟩ := bfs_runs _ hwf s hsV fuel (by rw [hV]; exact hf0)
  have hhead : bst.out.head? = some s := by
    rw [← bfs_final_seq bst hq]
    exact hinv.head
  obtain ⟨dj, hdj⟩ := hN2 fuel hf2
  obtain ⟨p, hp⟩ := hN3 fuel hf3
  obtain ⟨ast, harun, _, _⟩ := apRun_spec _ s hwf (build_joined_symm v labels es hv) hsV fuel
    (by rw [hV]; exact hf0)
  refine ⟨bst.out, st1.out, dj, p, ast.ap, hrun, hhead, hdfs fuel hf1, by rw [hout]; rfl,
    hdj, hp, ?_⟩
  unfold findArticulationPoints
  rw [harun]
  rfl

theorem byLabel_outOfRange (g : Graph) (l : String) (fuel : Nat)
    (h : ¬ (g.indexOf l).1 < g.V) :
    BFSByLabel g l fuel = Except.error Fault.outOfRange ∧
    DFSByLabel g l fuel = Except.error Fault.outOfRange ∧
    DijkstraByLabel g l fuel = Except.error Fault.outOfRange ∧
    PrimByLabel g l fuel = Except.error Fault.outOfRange ∧
    findArticulationPointsByLabel g l fuel = Except.error Fault.outOfRange := by
  unfold BFSByLabel DFSByLabel DijkstraByLabel PrimByLabel findArticulationPointsByLabel
  rw [if_neg h, if_neg h, if_neg h, if_neg h, if_neg h]
  exact ⟨rfl, rfl, rfl, rfl, rfl⟩

/-- C22, as the code has it. No entry point fails with an error on an unknown start
label. On a graph built by `addEdge` with at least one vertex, for a start label
that is not in the lookup: the access `labelToIndex[startLabel]` yields index `0`
and enters the label into the lookup with that index, leaving the rest of the store
as it is; at every fuel `BFS`, `DFS`, `Dijkstra`, `Prim` and
`findArticulationPoints` do what the run from vertex `0` does; with enough fuel
`BFS`, `DFS`, `Prim` and `findArticulationPoints` return the result of the run from
vertex `0`, whatever the weights are, `BFS` and `DFS` printing vertex `0` first, and
so does `Dijkstra` when the weights lie in `[0, INF]`. On a graph without vertices
the start index `0` is out of range. -/
theorem unknown_start_label (v : Nat) (labels : List String) (es : List (Nat × Nat × Int))
    (hv : ValidEdges v es) (h0 : 0 < v) (l : String)
    (h : mapFind (Graph.build v labels es).labelToIndex l = none) :
    ((Graph.build v labels es).indexOf l).1 = 0 ∧
    mapFind ((Graph.build v labels es).indexOf l).2.labelToIndex l = some 0 ∧
    ((Graph.build v labels es).indexOf l).2
      = { Graph.build v labels es with
          labelToIndex := (Graph.build v labels es).labelToIndex ++ [(l, 0)] } ∧
    (∀ fuel,
      BFSByLabel (Graph.build v labels es) l fuel
        = fuelled ((BFS (Graph.build v labels es) 0 fuel).map
            (fun r => (r, ((Graph.build v labels es).indexOf l).2))) ∧
      DFSByLabel (Graph.build v labels es) l fuel
        = fuelled ((DFS (Graph.build v labels es) 0 fuel).map
            (fun r => (r, ((Graph.build v labels es).indexOf l).2))) ∧
      DijkstraByLabel (Graph.build v labels es) l fuel
        = fuelled ((DijkstraOutput (Graph.build v labels es) 0 fuel).map
            (fun r => (r, ((Graph.build v labels es).indexOf l).2))) ∧
      PrimByLabel (Graph.build v labels es) l fuel
        = fuelled ((Prim (Graph.build v labels es) 0 fuel).map
            (fun r => (r, ((Graph.build v labels es).indexOf l).2))) ∧
      findArticulationPointsByLabel (Graph.build v labels es) l fuel
        = fuelled ((findArticulationPoints (Graph.build v labels es) 0 fuel).map
            (fun r => (r, ((Graph.build v labels es).indexOf l).2)))) ∧
    (∃ N, ∀ fuel, N ≤ fuel → ∃ b d p a,
      BFS (Graph.build v labels es) 0 fuel = some b ∧ b.head? = some 0 ∧
      DFS (Graph.build v labels es) 0 fuel = some d ∧ d.head? = some 0 ∧
      Prim (Graph.build v labels es) 0 fuel = some p ∧
      findArticulationPoints (Graph.build v labels es) 0 fuel = some a ∧
      BFSByLabel (Graph.build v labels es) l fuel
        = Except.ok (b, ((Graph.build v labels es).indexOf l).2) ∧
      DFSByLabel (Graph.build v labels es) l fuel
        = Except.ok (d, ((Graph.build v labels es).indexOf l).2) ∧
      PrimByLabel (Graph.build v labels es) l fuel
        = Except.ok (p, ((Graph.build v labels es).indexOf l).2) ∧
      findArticulationPointsByLabel (Graph.build v labels es) l fuel
        = Except.ok (a, ((Graph.build v labels es).indexOf l).2)) ∧
    ((∀ e ∈ es, 0 ≤ e.2.2 ∧ e.2.2 ≤ INF) → ∃ N, ∀ fuel, N ≤ fuel → ∃ r,
      DijkstraOutput (Graph.build v labels es) 0 fuel = some r ∧
      Dijkstra (Graph.build v labels es) 0 fuel = some r.1 ∧
      DijkstraByLabel (Graph.build v labels es) l fuel
        = Except.ok (r, ((Graph.build v labels es).indexOf l).2)) ∧
    (∀ (labels0 : List String) (l0 : String) (fuel : Nat),
      BFSByLabel (Graph.new 0 labels0) l0 fuel = Except.error Fault.outOfRange ∧
      DFSByLabel (Graph.new 0 labels0) l0 fuel = Except.error Fault.outOfRange ∧
      DijkstraByLabel (Graph.new 0 labels0) l0 fuel = Except.error Fault.outOfRange ∧
      PrimByLabel (Graph.new 0 labels0) l0 fuel = Except.error Fault.outOfRange ∧
      findArticulationPointsByLabel (Graph.new 0 labels0) l0 fuel
        = Except.error Fault.outOfRange) := by
  have hV := build_V v labels es
  have hidx := indexOf_unknown (Graph.build v labels es) l h
  have hi1 : ((Graph.build v labels es).indexOf l).1 = 0 := by rw [hidx]
  have hlt : ((Graph.build v labels es).indexOf l).1 < (Graph.build v labels es).V := by
    rw [hi1, hV]
    exact h0
  have heqs : ∀ fuel,
      BFSByLabel (Graph.build v labels es) l fuel
        = fuelled ((BFS (Graph.build v labels es) 0 fuel).map
            (fun r => (r, ((Graph.build v labels es).indexOf l).2))) ∧
      DFSByLabel (Graph.build v labels es) l fuel
        = fuelled ((DFS (Graph.build v labels es) 0 fuel).map
            (fun r => (r, ((Graph.build v labels es).indexOf l).2))) ∧
      DijkstraByLabel (Graph.build v labels es) l fuel
        = fuelled ((DijkstraOutput (Graph.build v labels es) 0 fuel).map
            (fun r => (r, ((Graph.build v labels es).indexOf l).2))) ∧
      PrimByLabel (Graph.build v labels es) l fuel
        = fuelled ((Prim (Graph.build v labels es) 0 fuel).map
            (fun r => (r, ((Graph.build v labels es).indexOf l).2))) ∧
      findArticulationPointsByLabel (Graph.build v labels es) l fuel
        = fuelled ((findArticulationPoints (Graph.build v labels es) 0 fuel).map
            (fun r => (r, ((Graph.build v labels es).indexOf l).2))) := by
    intro fuel
    have e1 := BFSByLabel_eq _ l fuel hlt
    have e2 := DFSByLabel_eq _ l fuel hlt
    have e3 := DijkstraByLabel_eq _ l fuel hlt
    have e4 := PrimByLabel_eq _ l fuel hlt
    have e5 := findArticulationPointsByLabel_eq _ l fuel hlt
    rw [hi1] at e1 e2 e3 e4 e5
    exact ⟨e1, e2, e3, e4, e5⟩
  refine ⟨hi1, ?_, hidx ▸ rfl, heqs, ?_, ?_, ?_⟩
  · have := mapIndex_find (Graph.build v labels es).labelToIndex l
    rw [mapIndex_unknown _ _ h] at this
    rw [hidx]
    exact this
  · obtain ⟨N, hN⟩ := entry_points_return v labels es hv 0 h0
    refine ⟨N, ?_⟩
    intro fuel hf
    obtain ⟨b, d, _, p, a, hb, hbh, hd, hdh, _, hp, ha⟩ := hN fuel hf
    obtain ⟨e1, e2, _, e4, e5⟩ := heqs fuel
    refine ⟨b, d, p, a, hb, hbh, hd, hdh, hp, ha, ?_, ?_, ?_, ?_⟩
    · rw [e1, hb]; rfl
    · rw [e2, hd]; rfl
    · rw [e4, hp]; rfl
    · rw [e5, ha]; rfl
  · intro hw
    obtain ⟨N, hN⟩ := dijkstraOutput_returns v labels es hv hw 0 h0
    refine ⟨N, ?_⟩
    intro fuel hf
    obtain ⟨r, hr, hd⟩ := hN fuel hf
    refine ⟨r, hr, hd, ?_⟩
    rw [(heqs fuel).2.2.1, hr]
    rfl
  · intro labels0 l0 fuel
    apply byLabel_outOfRange
    show ¬ ((Graph.new 0 labels0).indexOf l0).1 < 0
    omega

theorem unknown_start_label_witness :
    (0 < 8 ∧ mapFind graph1.labelToIndex "Z" = none ∧
      ∀ e ∈ [((0 : Nat), (1 : Nat), (4 : Int)), (0, 3, 6), (0, 6, 7), (1, 2, 12), (1, 4, 9),
      (2, 4, 1), (2, 5, 2), (2, 7, 10), (3, 4, 13), (3, 6, 2), (4, 5, 5), (4, 6, 14), (4, 7, 8),
      (5, 7, 3)], 0 ≤ e.2.2 ∧ e.2.2 ≤ INF) ∧
    (DijkstraByLabel graph1 "Z" 30).map (fun r => (r.1.1.1, r.2.labelToIndex))
      = Except.ok ([0, 4, 14, 6, 13, 16, 7, 19], graph1.labelToIndex ++ [("Z", 0)]) ∧
    (graph1.indexOf "Z").1 = 0 ∧
    mapFind (graph1.indexOf "Z").2.labelToIndex "Z" = some 0 ∧
    (graph1.indexOf "Z").2
      = { graph1 with
          labelToIndex := graph1.labelToIndex ++ [("Z", 0)] } ∧
    (∀ fuel,
      BFSByLabel graph1 "Z" fuel
        = fuelled ((BFS graph1 0 fuel).map
            (fun r => (r, (graph1.indexOf "Z").2))) ∧
      DFSByLabel graph1 "Z" fuel
        = fuelled ((DFS graph1 0 fuel).map
            (fun r => (r, (graph1.indexOf "Z").2))) ∧
      DijkstraByLabel graph1 "Z" fuel
        = fuelled ((DijkstraOutput graph1 0 fuel).map
            (fun r => (r, (graph1.indexOf "Z").2))) ∧
      PrimByLabel graph1 "Z" fuel
        = fuelled ((Prim graph1 0 fuel).map
            (fun r => (r, (graph1.indexOf "Z").2))) ∧
      findArticulationPointsByLabel graph1 "Z" fuel
        = fuelled ((findArticulationPoints graph1 0 fuel).map
            (fun r => (r, (graph1.indexOf "Z").2)))) ∧
    (∃ N, ∀ fuel, N ≤ fuel → ∃ b d p a,
      BFS graph1 0 fuel = some b ∧ b.head? = some 0 ∧
      DFS graph1 0 fuel = some d ∧ d.head? = some 0 ∧
      Prim graph1 0 fuel = some p ∧
      findArticulationPoints graph1 0 fuel = some a ∧
      BFSByLabel graph1 "Z" fuel
        = Except.ok (b, (graph1.indexOf "Z").2) ∧
      DFSByLabel graph1 "Z" fuel
        = Except.ok (d, (graph1.indexOf "Z").2) ∧
      PrimByLabel graph1 "Z" fuel
        = Except.ok (p, (graph1.indexOf "Z").2) ∧
      findArticulationPointsByLabel graph1 "Z" fuel
        = Except.ok (a, (graph1.indexOf "Z").2)) ∧
    ((∀ e ∈ [((0 : Nat), (1 : Nat), (4 : Int)), (0, 3, 6), (0, 6, 7), (1, 2, 12), (1, 4, 9),
      (2, 4, 1), (2, 5, 2), (2, 7, 10), (3, 4, 13), (3, 6, 2), (4, 5, 5), (4, 6, 14), (4, 7, 8),
      (5, 7, 3)], 0 ≤ e.2.2 ∧ e.2.2 ≤ INF) → ∃ N, ∀ fuel, N ≤ fuel → ∃ r,
      DijkstraOutput graph1 0 fuel = some r ∧
      Dijkstra graph1 0 fuel = some r.1 ∧
      DijkstraByLabel graph1 "Z" fuel
        = Except.ok (r, (graph1.indexOf "Z").2)) ∧
    (∀ (labels0 : List String) (l0 : String) (fuel : Nat),
      BFSByLabel (Graph.new 0 labels0) l0 fuel = Except.error Fault.outOfRange ∧
      DFSByLabel (Graph.new 0 labels0) l0 fuel = Except.error Fault.outOfRange ∧
      DijkstraByLabel (Graph.new 0 labels0) l0 fuel = Except.error Fault.outOfRange ∧
      PrimByLabel (Graph.new 0 labels0) l0 fuel = Except.error Fault.outOfRange ∧
      findArticulationPointsByLabel (Graph.new 0 labels0) l0 fuel
        = Except.error Fault.outOfRange) :=
  ⟨⟨by decide, by decide, by decide⟩, by decide!,
    unknown_start_label 8 ["A", "B", "C", "D", "E", "F", "G", "H"]
      [(0, 1, 4), (0, 3, 6), (0, 6, 7), (1, 2, 12), (1, 4, 9), (2, 4, 1), (2, 5, 2),
       (2, 7, 10), (3, 4, 13), (3, 6, 2), (4, 5, 5), (4, 6, 14), (4, 7, 8), (5, 7, 3)]
      (by unfold ValidEdges; decide) (by decide) "Z" (by decide)⟩

/-- C22, counterexample. On graph 1 of `main`, whose labels are `A` to `H`, `BFS`
and `DFS` with the start label `Z` do not fail: they return, having printed the
traversals from `A`. -/
theorem unknown_start_label_counterexample :
    mapFind graph1.labelToIndex "Z" = none ∧
    (BFSByLabel graph1 "Z" 8).map (fun r => r.1) = Except.ok [0, 1, 3, 6, 2, 4, 5, 7] ∧
    (BFSByLabel graph1 "A" 8).map (fun r => r.1) = Except.ok [0, 1, 3, 6, 2, 4, 5, 7] ∧
    (DFSByLabel graph1 "Z" 15).map (fun r => r.1) = Except.ok [0, 1, 2, 4, 3, 6, 5, 7] ∧
    (DFSByLabel graph1 "A" 15).map (fun r => r.1) = Except.ok [0, 1, 2, 4, 3, 6, 5, 7] := by
  decide

end DS2025
